import Mathlib

/-!
# mini-fhir: the store, the search engine and the validator

A shallow embedding of `internal/fhir/dstu3` (the resource model),
`internal/store` (the versioned store), `internal/search` (the search engine)
and `internal/validation` (the validator, the profile loader and its cache),
with their properties stated and proved over it.

Modelling conventions.

* A `dstu3.Resource` interface value is a pointer to a struct. Pointers are
  addresses (`Ptr`) into a `Heap` of resource objects; `none` is the nil
  interface. The sub-objects of a resource (`*Meta`, `*Reference`, slices, ...)
  are owned by the resource that holds them and are embedded in it by value.
* `map[string]V` is a finite map with string keys (`GoMap V`).
* `time.Now().UTC().Format(time.RFC3339)` is the parameter `now` of the
  operations that read the clock.
* The read/write lock of the store serialises the operations; every operation
  is modelled as one atomic step on the pair (store, heap).
* JSON text is kept up to formatting: it is identified with the value it
  denotes (`JsonValue`), which is what `json.Unmarshal` stores into a Go `any`.
  A `json.RawMessage` is either well-formed JSON (such a value) or malformed
  bytes, which `json.Marshal` rejects.
* The file system is a finite map from paths to files; a file has a content
  and a modification time. Times and durations are counted in nanoseconds, and
  the clock is the parameter `now` of the operations that read it.
* A Go `string` is a Lean `String`: text in UTF-8. On such text the byte-wise
  order of Go is the lexicographic order of the characters.
* The store keeps the pointer it is given. A property about "a resource `r`"
  passed to `Create` or `Update` is stated for a resource object that the
  caller has built for the call: either any allocated address `p` holding `r`,
  or, where the stored history is compared with `r`, the next free address.
-/

set_option linter.dupNamespace false

/-! ## JSON values (`encoding/json`) -/

/-- A JSON value, as `json.Unmarshal` stores it into a Go `any`: `nil`, a
`bool`, a number, a `string`, a `[]any` or a `map[string]any`. A number is kept
as the integer it denotes when its literal is an integer literal, and as its
literal otherwise. The members of an object are kept in the order of the text;
where a name occurs twice, the Go map holds the last one. -/
inductive JsonValue where
  | null
  | bool (b : Bool)
  | integer (n : Int)
  | fraction (literal : String)
  | string (s : String)
  | array (items : List JsonValue)
  | object (fields : List (String × JsonValue))
deriving Repr, Inhabited

mutual
/-- Equality of JSON values is decidable. -/
def JsonValue.decEq : (a b : JsonValue) → Decidable (a = b)
  | .null, b => by
    cases b with
    | null => exact isTrue rfl
    | _ => exact isFalse fun h => JsonValue.noConfusion h
  | .bool x, b => by
    cases b with
    | bool y =>
      exact if h : x = y then isTrue (congrArg JsonValue.bool h)
        else isFalse fun e => h (JsonValue.bool.inj e)
    | _ => exact isFalse fun h => JsonValue.noConfusion h
  | .integer x, b => by
    cases b with
    | integer y =>
      exact if h : x = y then isTrue (congrArg JsonValue.integer h)
        else isFalse fun e => h (JsonValue.integer.inj e)
    | _ => exact isFalse fun h => JsonValue.noConfusion h
  | .fraction x, b => by
    cases b with
    | fraction y =>
      exact if h : x = y then isTrue (congrArg JsonValue.fraction h)
        else isFalse fun e => h (JsonValue.fraction.inj e)
    | _ => exact isFalse fun h => JsonValue.noConfusion h
  | .string x, b => by
    cases b with
    | string y =>
      exact if h : x = y then isTrue (congrArg JsonValue.string h)
        else isFalse fun e => h (JsonValue.string.inj e)
    | _ => exact isFalse fun h => JsonValue.noConfusion h
  | .array xs, b => by
    cases b with
    | array ys =>
      exact match JsonValue.decEqItems xs ys with
        | isTrue h => isTrue (congrArg JsonValue.array h)
        | isFalse h => isFalse fun e => h (JsonValue.array.inj e)
    | _ => exact isFalse fun h => JsonValue.noConfusion h
  | .object xs, b => by
    cases b with
    | object ys =>
      exact match JsonValue.decEqFields xs ys with
        | isTrue h => isTrue (congrArg JsonValue.object h)
        | isFalse h => isFalse fun e => h (JsonValue.object.inj e)
    | _ => exact isFalse fun h => JsonValue.noConfusion h
/-- Equality of lists of JSON values is decidable. -/
def JsonValue.decEqItems : (xs ys : List JsonValue) → Decidable (xs = ys)
  | [], [] => isTrue rfl
  | [], _ :: _ => isFalse fun h => List.noConfusion h
  | _ :: _, [] => isFalse fun h => List.noConfusion h
  | x :: xs, y :: ys =>
    match JsonValue.decEq x y, JsonValue.decEqItems xs ys with
    | isTrue h1, isTrue h2 => isTrue (by rw [h1, h2])
    | isFalse h1, _ => isFalse fun e => h1 (List.cons.inj e).1
    | _, isFalse h2 => isFalse fun e => h2 (List.cons.inj e).2
/-- Equality of lists of object members is decidable. -/
def JsonValue.decEqFields : (xs ys : List (String × JsonValue)) → Decidable (xs = ys)
  | [], [] => isTrue rfl
  | [], _ :: _ => isFalse fun h => List.noConfusion h
  | _ :: _, [] => isFalse fun h => List.noConfusion h
  | (k, x) :: xs, (l, y) :: ys =>
    if hk : k = l then
      match JsonValue.decEq x y, JsonValue.decEqFields xs ys with
      | isTrue h1, isTrue h2 => isTrue (by rw [hk, h1, h2])
      | isFalse h1, _ => isFalse fun e => h1 (Prod.mk.inj (List.cons.inj e).1).2
      | _, isFalse h2 => isFalse fun e => h2 (List.cons.inj e).2
    else isFalse fun e => hk (Prod.mk.inj (List.cons.inj e).1).1
end

instance : DecidableEq JsonValue := JsonValue.decEq

/-- The Go expression `raw[key]` on a `map[string]any` decoded from JSON: the
value of the last member of that name. -/
def JsonValue.member (fields : List (String × JsonValue)) (key : String) : Option JsonValue :=
  (fields.reverse.find? fun kv => kv.1 = key).map Prod.snd

/-- The character that stands for `c` when `encoding/json` compares the name of
an object member with the name of a struct field without regard to case. The
names of the struct fields are ASCII, and three characters fold to an ASCII
letter: its two cases and, for "k" and "s", the Kelvin sign and the long s. -/
def foldChar (c : Char) : Char :=
  if c = '\u212a' then 'k' else if c = '\u017f' then 's' else c.toLower

/-- The name of an object member as `json.Unmarshal` compares it with the name
of a struct field: without regard to the case of the letters. -/
def foldName (name : String) : String := String.mk (name.toList.map foldChar)

namespace Dstu3

/-! ## Common datatypes (`types.go`) -/

/-- The Go struct `Meta`. -/
structure Meta where
  VersionID : String := ""
  LastUpdated : String := ""
  Profile : List String := []
deriving DecidableEq, Repr, Inhabited

/-- The Go struct `Narrative`. -/
structure Narrative where
  Status : String := ""
  Div : String := ""
deriving DecidableEq, Repr, Inhabited

/-- The Go struct `Coding`. -/
structure Coding where
  System : String := ""
  Code : String := ""
  Display : String := ""
deriving DecidableEq, Repr, Inhabited

/-- The Go struct `CodeableConcept`. -/
structure CodeableConcept where
  Coding : List Dstu3.Coding := []
  Text : String := ""
deriving DecidableEq, Repr, Inhabited

/-- The Go struct `Identifier`. -/
structure Identifier where
  Use : String := ""
  Type_ : Option Dstu3.CodeableConcept := none
  System : String := ""
  Value : String := ""
deriving DecidableEq, Repr, Inhabited

/-- The Go struct `HumanName`. -/
structure HumanName where
  Use : String := ""
  Text : String := ""
  Family : List String := []
  Given : List String := []
deriving DecidableEq, Repr, Inhabited

/-- The Go struct `Address`. -/
structure Address where
  Use : String := ""
  Type_ : String := ""
  Text : String := ""
  Line : List String := []
  City : String := ""
  State : String := ""
  PostalCode : String := ""
  Country : String := ""
deriving DecidableEq, Repr, Inhabited

/-- The Go struct `Period`. -/
structure Period where
  Start : String := ""
  End : String := ""
deriving DecidableEq, Repr, Inhabited

/-- The Go struct `ContactPoint`. -/
structure ContactPoint where
  System : String := ""
  Value : String := ""
  Use : String := ""
deriving DecidableEq, Repr, Inhabited

/-- The Go struct `Reference`: a pointer "{Type}/{id}" to another resource. -/
structure Reference where
  Reference : String := ""
  Display : String := ""
deriving DecidableEq, Repr, Inhabited

/-- A `json.RawMessage`, up to JSON formatting: well-formed JSON (the value it
denotes) or malformed bytes. -/
inductive RawMessage where
  | wellFormed (value : JsonValue)
  | malformed (bytes : String)
deriving DecidableEq, Repr, Inhabited

/-- Whether `json.Marshal` accepts the raw message. -/
def RawMessage.isWellFormed : RawMessage → Bool
  | .wellFormed _ => true
  | .malformed _ => false

/-- The Go struct `ResourceBase`, embedded in every resource type. -/
structure ResourceBase where
  ResourceType : String := ""
  ID : String := ""
  Meta : Option Dstu3.Meta := none
  Text : Option Dstu3.Narrative := none
  Contained : List Dstu3.RawMessage := []
deriving DecidableEq, Repr, Inhabited

/-! ## Resource types (`types.go`) -/

/-- The Go struct `Patient`. -/
structure Patient extends ResourceBase where
  Identifier : List Dstu3.Identifier := []
  Name : List Dstu3.HumanName := []
  Telecom : List Dstu3.ContactPoint := []
  Gender : String := ""
  BirthDate : String := ""
  Address : List Dstu3.Address := []
  ManagingOrganization : Option Dstu3.Reference := none
  GeneralPractitioner : List Dstu3.Reference := []
deriving DecidableEq, Repr, Inhabited

/-- The Go struct `Practitioner`. -/
structure Practitioner extends ResourceBase where
  Identifier : List Dstu3.Identifier := []
  Name : List Dstu3.HumanName := []
  Telecom : List Dstu3.ContactPoint := []
  Address : List Dstu3.Address := []
deriving DecidableEq, Repr, Inhabited

/-- The Go struct `PractitionerRole`. -/
structure PractitionerRole extends ResourceBase where
  Practitioner : Option Dstu3.Reference := none
  Organization : Option Dstu3.Reference := none
  Location : List Dstu3.Reference := []
  HealthcareService : List Dstu3.Reference := []
deriving DecidableEq, Repr, Inhabited

/-- The Go struct `Organization`. -/
structure Organization extends ResourceBase where
  Identifier : List Dstu3.Identifier := []
  Name : String := ""
  Telecom : List Dstu3.ContactPoint := []
  Address : List Dstu3.Address := []
  PartOf : Option Dstu3.Reference := none
deriving DecidableEq, Repr, Inhabited

/-- The Go struct `Observation`. -/
structure Observation extends ResourceBase where
  Status : String := ""
  Code : Dstu3.CodeableConcept := {}
  Subject : Option Dstu3.Reference := none
  Performer : List Dstu3.Reference := []
  Encounter : Option Dstu3.Reference := none
  Specimen : Option Dstu3.Reference := none
  Device : Option Dstu3.Reference := none
  EffectiveDateTime : Option String := none
  EffectivePeriod : Option Dstu3.Period := none
  Issued : String := ""
deriving DecidableEq, Repr, Inhabited

/-- The Go struct `Flag`. -/
structure Flag extends ResourceBase where
  Status : String := ""
  Category : Dstu3.CodeableConcept := {}
  Code : Dstu3.CodeableConcept := {}
  Subject : Option Dstu3.Reference := none
  Encounter : Option Dstu3.Reference := none
  Author : Option Dstu3.Reference := none
deriving DecidableEq, Repr, Inhabited

/-- The Go struct `ConsentActor`. -/
structure ConsentActor where
  Role : Dstu3.CodeableConcept := {}
  Reference : Dstu3.Reference := {}
deriving DecidableEq, Repr, Inhabited

/-- The Go struct `Consent`. -/
structure Consent extends ResourceBase where
  Status : String := ""
  Patient : Option Dstu3.Reference := none
  Actor : List Dstu3.ConsentActor := []
  Organization : List Dstu3.Reference := []
  SourceReference : Option Dstu3.Reference := none
deriving DecidableEq, Repr, Inhabited

/-- The Go struct `AdvanceDirective`. -/
structure AdvanceDirective extends ResourceBase where
  Patient : Option Dstu3.Reference := none
  Author : List Dstu3.Reference := []
  Source : Option Dstu3.Reference := none
deriving DecidableEq, Repr, Inhabited

/-- The Go struct `Task`. -/
structure Task extends ResourceBase where
  Status : String := ""
  Intent : String := ""
  Priority : String := ""
  Description : String := ""
  Focus : Option Dstu3.Reference := none
  For : Option Dstu3.Reference := none
  Requester : Option Dstu3.Reference := none
  Owner : Option Dstu3.Reference := none
  ExecutionPeriod : Option Dstu3.Period := none
  ReasonCode : Option Dstu3.CodeableConcept := none
  BasedOn : List Dstu3.Reference := []
deriving DecidableEq, Repr, Inhabited

/-- The Go struct `Location`. -/
structure Location extends ResourceBase where
  Status : String := ""
  Name : String := ""
  Description : String := ""
  Mode : String := ""
  Type_ : Dstu3.CodeableConcept := {}
  Telecom : List Dstu3.ContactPoint := []
  Address : Option Dstu3.Address := none
  PhysicalType : Option Dstu3.CodeableConcept := none
  ManagingOrganization : Option Dstu3.Reference := none
  PartOf : Option Dstu3.Reference := none
deriving DecidableEq, Repr, Inhabited

/-- The object behind a `dstu3.Resource` interface value: one of the ten
resource structs (the dynamic type of the interface value). -/
inductive Resource where
  | patient (r : Patient)
  | practitioner (r : Practitioner)
  | practitionerRole (r : PractitionerRole)
  | organization (r : Organization)
  | observation (r : Observation)
  | flag (r : Flag)
  | consent (r : Consent)
  | advanceDirective (r : AdvanceDirective)
  | location (r : Location)
  | task (r : Task)
deriving DecidableEq, Repr, Inhabited

namespace Resource

/-- The embedded `ResourceBase` of a resource object. -/
def base : Resource → ResourceBase
  | patient r => r.toResourceBase
  | practitioner r => r.toResourceBase
  | practitionerRole r => r.toResourceBase
  | organization r => r.toResourceBase
  | observation r => r.toResourceBase
  | flag r => r.toResourceBase
  | consent r => r.toResourceBase
  | advanceDirective r => r.toResourceBase
  | location r => r.toResourceBase
  | task r => r.toResourceBase

/-- Replaces the embedded `ResourceBase`, leaving the other fields alone. -/
def withBase (b : ResourceBase) : Resource → Resource
  | patient r => patient { r with toResourceBase := b }
  | practitioner r => practitioner { r with toResourceBase := b }
  | practitionerRole r => practitionerRole { r with toResourceBase := b }
  | organization r => organization { r with toResourceBase := b }
  | observation r => observation { r with toResourceBase := b }
  | flag r => flag { r with toResourceBase := b }
  | consent r => consent { r with toResourceBase := b }
  | advanceDirective r => advanceDirective { r with toResourceBase := b }
  | location r => location { r with toResourceBase := b }
  | task r => task { r with toResourceBase := b }

/-- The Go method `(*ResourceBase).GetResourceType`. -/
def GetResourceType (r : Resource) : String := r.base.ResourceType

/-- The Go method `(*ResourceBase).GetID`. -/
def GetID (r : Resource) : String := r.base.ID

/-- The Go method `(*ResourceBase).SetID`. -/
def SetID (r : Resource) (id : String) : Resource :=
  r.withBase { r.base with ID := id }

/-- The Go method `(*ResourceBase).GetMeta` (`none` is the nil pointer). -/
def GetMeta (r : Resource) : Option Dstu3.Meta := r.base.Meta

/-- The Go method `(*ResourceBase).SetMeta`. -/
def SetMeta (r : Resource) (m : Option Meta) : Resource :=
  r.withBase { r.base with Meta := m }

/-- The Go function `cloneResource` behind every `Clone` method: a round trip
through `json.Marshal` and `json.Unmarshal`. Marshalling fails exactly when a
contained raw message is malformed; otherwise the copy has the same content
(every field has a JSON tag, and the pointer to the copy is a `Resource`, so
the `!ok` branch is never taken). -/
def cloneResource (r : Resource) : Except String Resource :=
  if r.base.Contained.all RawMessage.isWellFormed then .ok r
  else .error "json: error calling MarshalJSON for type json.RawMessage"

/-- The Go methods `References`, one per resource type: the outgoing
references in the order the method appends them. -/
def References : Resource → List Dstu3.Reference
  | patient p => p.ManagingOrganization.toList ++ p.GeneralPractitioner
  | practitioner _ => []
  | practitionerRole p =>
    p.Practitioner.toList ++ p.Organization.toList ++ p.Location ++ p.HealthcareService
  | organization o => o.PartOf.toList
  | observation o =>
    o.Subject.toList ++ o.Performer ++ o.Encounter.toList ++ o.Specimen.toList ++
      o.Device.toList
  | flag f => f.Subject.toList ++ f.Encounter.toList ++ f.Author.toList
  | consent c =>
    c.Patient.toList ++
      ((c.Actor.filter fun actor => actor.Reference.Reference ≠ "").map fun actor =>
        actor.Reference) ++
      c.Organization ++ c.SourceReference.toList
  | advanceDirective a => a.Patient.toList ++ a.Author ++ a.Source.toList
  | task t =>
    t.Focus.toList ++ t.For.toList ++ t.Requester.toList ++ t.Owner.toList ++ t.BasedOn
  | location l => l.ManagingOrganization.toList ++ l.PartOf.toList

end Resource

end Dstu3

/-! ## The heap of resource objects -/

/-- An address of a resource object. -/
abbrev Ptr := Nat

/-- The resource objects allocated so far, by address. Allocation appends. -/
abbrev Heap := List Dstu3.Resource

namespace Heap

/-- The object a `dstu3.Resource` interface value denotes: nothing for the nil
interface (and for an address that holds no object). -/
def deref (h : Heap) (resource : Option Ptr) : Option Dstu3.Resource :=
  resource.bind fun p => h[p]?

/-- Allocates a new object and returns its address. -/
def alloc (h : Heap) (r : Dstu3.Resource) : Ptr × Heap := (h.length, h ++ [r])

/-- The Go method `Clone` called on the object at address `p`: on success a
new object with the same content is allocated. -/
def Clone (h : Heap) (p : Ptr) : Except String (Ptr × Heap) :=
  match h[p]? with
  | none => .error "nil resource"
  | some r =>
    match r.cloneResource with
    | .ok out => .ok (alloc h out)
    | .error err => .error err

end Heap

/-! ## The store (`store.go`) -/

deriving instance DecidableEq for Except

/-- A Go `map[string]V`. -/
abbrev GoMap (V : Type) := AList (fun _ : String => V)

/-! ## The registry (`registry.go`) -/

namespace Dstu3

/-- The Go struct `ResourceInfo`. `Factory` is the resource the factory
function returns. -/
structure ResourceInfo where
  Type_ : String
  Factory : Dstu3.Resource
  ProfileURL : String
  ProfileSource : String
deriving DecidableEq, Repr

/-- The Go struct `Registry`. -/
structure Registry where
  resources : GoMap ResourceInfo

/-- The closure `add` of `NewRegistry`. -/
def Registry.add (r : Registry) (resourceType : String) (factory : Dstu3.Resource)
    (profileSource : String) : Registry :=
  { resources := r.resources.insert resourceType
      { Type_ := resourceType
        Factory := factory
        ProfileURL := "http://hl7.org/fhir/StructureDefinition/" ++ resourceType
        ProfileSource := profileSource } }

/-- The Go function `NewRegistry`: the ten supported resource types. -/
def NewRegistry : Registry :=
  ((((((((((({ resources := ∅ } : Registry).add "Patient"
      (.patient { ResourceType := "Patient" })
      "https://hl7.org/fhir/STU3/patient.profile.json").add "Practitioner"
      (.practitioner { ResourceType := "Practitioner" })
      "https://hl7.org/fhir/STU3/practitioner.profile.json").add "PractitionerRole"
      (.practitionerRole { ResourceType := "PractitionerRole" })
      "https://hl7.org/fhir/STU3/practitionerrole.profile.json").add "Organization"
      (.organization { ResourceType := "Organization" })
      "https://hl7.org/fhir/STU3/organization.profile.json").add "Observation"
      (.observation { ResourceType := "Observation" })
      "https://hl7.org/fhir/STU3/observation.profile.json").add "Flag"
      (.flag { ResourceType := "Flag" })
      "https://hl7.org/fhir/STU3/flag.profile.json").add "Consent"
      (.consent { ResourceType := "Consent" })
      "https://hl7.org/fhir/STU3/consent.profile.json").add "AdvanceDirective"
      (.advanceDirective { ResourceType := "AdvanceDirective" })
      "https://hl7.org/fhir/STU3/advancedirective.profile.json").add "Location"
      (.location { ResourceType := "Location" })
      "https://hl7.org/fhir/STU3/location.profile.json").add "Task"
      (.task { ResourceType := "Task" })
      "https://hl7.org/fhir/STU3/task.profile.json")

/-- The Go method `Registry.ResourceTypes` (in the order of the representation). -/
def Registry.ResourceTypes (r : Registry) : List String := r.resources.keys

/-- The Go method `Registry.Info`: `none` when `ok` is false. -/
def Registry.Info (r : Registry) (resourceType : String) : Option ResourceInfo :=
  r.resources.lookup resourceType

/-- The Go method `Registry.NewResource`: `none` is the error
"unsupported resource type". -/
def Registry.NewResource (r : Registry) (resourceType : String) : Option Dstu3.Resource :=
  (r.resources.lookup resourceType).map fun info => info.Factory

end Dstu3

/-! ## `json.Marshal` of a resource (`types.go`, the struct tags) -/

namespace Dstu3

/-- The member of a `string` field tagged `omitempty`. -/
def omitEmptyString (key value : String) : List (String × JsonValue) :=
  if value = "" then [] else [(key, .string value)]

/-- The member of a slice field tagged `omitempty`, given its elements. -/
def omitEmptyArray (key : String) (items : List JsonValue) : List (String × JsonValue) :=
  if items.isEmpty then [] else [(key, .array items)]

/-- The member of a pointer field tagged `omitempty`, given what it points to. -/
def omitNil (key : String) (value : Option JsonValue) : List (String × JsonValue) :=
  match value with
  | none => []
  | some v => [(key, v)]

/-- The JSON object of a `Meta`. -/
def Meta.toJson (m : Dstu3.Meta) : JsonValue :=
  .object (omitEmptyString "versionId" m.VersionID ++
    omitEmptyString "lastUpdated" m.LastUpdated ++
    omitEmptyArray "profile" (m.Profile.map .string))

/-- The JSON object of a `Narrative`. -/
def Narrative.toJson (n : Dstu3.Narrative) : JsonValue :=
  .object (omitEmptyString "status" n.Status ++ omitEmptyString "div" n.Div)

/-- The JSON object of a `Coding`. -/
def Coding.toJson (c : Dstu3.Coding) : JsonValue :=
  .object (omitEmptyString "system" c.System ++ omitEmptyString "code" c.Code ++
    omitEmptyString "display" c.Display)

/-- The JSON object of a `CodeableConcept`. -/
def CodeableConcept.toJson (c : Dstu3.CodeableConcept) : JsonValue :=
  .object (omitEmptyArray "coding" (c.Coding.map Dstu3.Coding.toJson) ++
    omitEmptyString "text" c.Text)

/-- The JSON object of an `Identifier`. -/
def Identifier.toJson (i : Dstu3.Identifier) : JsonValue :=
  .object (omitEmptyString "use" i.Use ++
    omitNil "type" (i.Type_.map Dstu3.CodeableConcept.toJson) ++
    omitEmptyString "system" i.System ++ omitEmptyString "value" i.Value)

/-- The JSON object of a `HumanName`. -/
def HumanName.toJson (n : Dstu3.HumanName) : JsonValue :=
  .object (omitEmptyString "use" n.Use ++ omitEmptyString "text" n.Text ++
    omitEmptyArray "family" (n.Family.map .string) ++
    omitEmptyArray "given" (n.Given.map .string))

/-- The JSON object of an `Address`. -/
def Address.toJson (a : Dstu3.Address) : JsonValue :=
  .object (omitEmptyString "use" a.Use ++ omitEmptyString "type" a.Type_ ++
    omitEmptyString "text" a.Text ++ omitEmptyArray "line" (a.Line.map .string) ++
    omitEmptyString "city" a.City ++ omitEmptyString "state" a.State ++
    omitEmptyString "postalCode" a.PostalCode ++ omitEmptyString "country" a.Country)

/-- The JSON object of a `Period`. -/
def Period.toJson (p : Dstu3.Period) : JsonValue :=
  .object (omitEmptyString "start" p.Start ++ omitEmptyString "end" p.End)

/-- The JSON object of a `ContactPoint`. -/
def ContactPoint.toJson (c : Dstu3.ContactPoint) : JsonValue :=
  .object (omitEmptyString "system" c.System ++ omitEmptyString "value" c.Value ++
    omitEmptyString "use" c.Use)

/-- The JSON object of a `Reference`. -/
def Reference.toJson (r : Dstu3.Reference) : JsonValue :=
  .object (omitEmptyString "reference" r.Reference ++ omitEmptyString "display" r.Display)

/-- The JSON object of a `ConsentActor`. A field of struct type is never empty,
so `omitempty` does not omit `role` and `reference`. -/
def ConsentActor.toJson (a : Dstu3.ConsentActor) : JsonValue :=
  .object [("role", a.Role.toJson), ("reference", a.Reference.toJson)]

/-- The value of a raw message that `json.Marshal` accepts. -/
def RawMessage.value? : RawMessage → Option JsonValue
  | .wellFormed value => some value
  | .malformed _ => none

/-- The members of the embedded `ResourceBase`, which `json.Marshal` writes as
members of the resource itself. -/
def ResourceBase.members (b : ResourceBase) : List (String × JsonValue) :=
  [("resourceType", .string b.ResourceType)] ++ omitEmptyString "id" b.ID ++
    omitNil "meta" (b.Meta.map Dstu3.Meta.toJson) ++ omitNil "text" (b.Text.map Dstu3.Narrative.toJson) ++
    omitEmptyArray "contained" (b.Contained.filterMap RawMessage.value?)

/-- The members of the JSON object of a resource, in the order of the struct
fields. -/
def Resource.members : Resource → List (String × JsonValue)
  | .patient p =>
    p.toResourceBase.members ++
      omitEmptyArray "identifier" (p.Identifier.map Dstu3.Identifier.toJson) ++
      omitEmptyArray "name" (p.Name.map Dstu3.HumanName.toJson) ++
      omitEmptyArray "telecom" (p.Telecom.map Dstu3.ContactPoint.toJson) ++
      omitEmptyString "gender" p.Gender ++ omitEmptyString "birthDate" p.BirthDate ++
      omitEmptyArray "address" (p.Address.map Dstu3.Address.toJson) ++
      omitNil "managingOrganization" (p.ManagingOrganization.map Dstu3.Reference.toJson) ++
      omitEmptyArray "generalPractitioner" (p.GeneralPractitioner.map Dstu3.Reference.toJson)
  | .practitioner p =>
    p.toResourceBase.members ++
      omitEmptyArray "identifier" (p.Identifier.map Dstu3.Identifier.toJson) ++
      omitEmptyArray "name" (p.Name.map Dstu3.HumanName.toJson) ++
      omitEmptyArray "telecom" (p.Telecom.map Dstu3.ContactPoint.toJson) ++
      omitEmptyArray "address" (p.Address.map Dstu3.Address.toJson)
  | .practitionerRole p =>
    p.toResourceBase.members ++
      omitNil "practitioner" (p.Practitioner.map Dstu3.Reference.toJson) ++
      omitNil "organization" (p.Organization.map Dstu3.Reference.toJson) ++
      omitEmptyArray "location" (p.Location.map Dstu3.Reference.toJson) ++
      omitEmptyArray "healthcareService" (p.HealthcareService.map Dstu3.Reference.toJson)
  | .organization o =>
    o.toResourceBase.members ++
      omitEmptyArray "identifier" (o.Identifier.map Dstu3.Identifier.toJson) ++
      omitEmptyString "name" o.Name ++
      omitEmptyArray "telecom" (o.Telecom.map Dstu3.ContactPoint.toJson) ++
      omitEmptyArray "address" (o.Address.map Dstu3.Address.toJson) ++
      omitNil "partOf" (o.PartOf.map Dstu3.Reference.toJson)
  | .observation o =>
    o.toResourceBase.members ++ omitEmptyString "status" o.Status ++
      [("code", o.Code.toJson)] ++
      omitNil "subject" (o.Subject.map Dstu3.Reference.toJson) ++
      omitEmptyArray "performer" (o.Performer.map Dstu3.Reference.toJson) ++
      omitNil "encounter" (o.Encounter.map Dstu3.Reference.toJson) ++
      omitNil "specimen" (o.Specimen.map Dstu3.Reference.toJson) ++
      omitNil "device" (o.Device.map Dstu3.Reference.toJson) ++
      omitNil "effectiveDateTime" (o.EffectiveDateTime.map .string) ++
      omitNil "effectivePeriod" (o.EffectivePeriod.map Dstu3.Period.toJson) ++
      omitEmptyString "issued" o.Issued
  | .flag f =>
    f.toResourceBase.members ++ omitEmptyString "status" f.Status ++
      [("category", f.Category.toJson), ("code", f.Code.toJson)] ++
      omitNil "subject" (f.Subject.map Dstu3.Reference.toJson) ++
      omitNil "encounter" (f.Encounter.map Dstu3.Reference.toJson) ++
      omitNil "author" (f.Author.map Dstu3.Reference.toJson)
  | .consent c =>
    c.toResourceBase.members ++ omitEmptyString "status" c.Status ++
      omitNil "patient" (c.Patient.map Dstu3.Reference.toJson) ++
      omitEmptyArray "actor" (c.Actor.map Dstu3.ConsentActor.toJson) ++
      omitEmptyArray "organization" (c.Organization.map Dstu3.Reference.toJson) ++
      omitNil "sourceReference" (c.SourceReference.map Dstu3.Reference.toJson)
  | .advanceDirective a =>
    a.toResourceBase.members ++
      omitNil "patient" (a.Patient.map Dstu3.Reference.toJson) ++
      omitEmptyArray "author" (a.Author.map Dstu3.Reference.toJson) ++
      omitNil "sourceReference" (a.Source.map Dstu3.Reference.toJson)
  | .location l =>
    l.toResourceBase.members ++ omitEmptyString "status" l.Status ++
      omitEmptyString "name" l.Name ++ omitEmptyString "description" l.Description ++
      omitEmptyString "mode" l.Mode ++ [("type", l.Type_.toJson)] ++
      omitEmptyArray "telecom" (l.Telecom.map Dstu3.ContactPoint.toJson) ++
      omitNil "address" (l.Address.map Dstu3.Address.toJson) ++
      omitNil "physicalType" (l.PhysicalType.map Dstu3.CodeableConcept.toJson) ++
      omitNil "managingOrganization" (l.ManagingOrganization.map Dstu3.Reference.toJson) ++
      omitNil "partOf" (l.PartOf.map Dstu3.Reference.toJson)
  | .task t =>
    t.toResourceBase.members ++ omitEmptyString "status" t.Status ++
      omitEmptyString "intent" t.Intent ++ omitEmptyString "priority" t.Priority ++
      omitEmptyString "description" t.Description ++
      omitNil "focus" (t.Focus.map Dstu3.Reference.toJson) ++
      omitNil "for" (t.For.map Dstu3.Reference.toJson) ++
      omitNil "requester" (t.Requester.map Dstu3.Reference.toJson) ++
      omitNil "owner" (t.Owner.map Dstu3.Reference.toJson) ++
      omitNil "executionPeriod" (t.ExecutionPeriod.map Dstu3.Period.toJson) ++
      omitNil "reasonCode" (t.ReasonCode.map Dstu3.CodeableConcept.toJson) ++
      omitEmptyArray "basedOn" (t.BasedOn.map Dstu3.Reference.toJson)

/-- The Go calls `json.Marshal(resource)` and `json.Unmarshal(data, &raw)` into
a `map[string]any`, as one step: the members of the JSON object of the
resource, or `none` when `json.Marshal` fails, which it does exactly when a
contained raw message is malformed. (The text that `json.Marshal` returns is an
object, so `json.Unmarshal` does not fail on it.) -/
def Resource.marshal (r : Resource) : Option (List (String × JsonValue)) :=
  if r.base.Contained.all RawMessage.isWellFormed then some r.members else none

end Dstu3

/-! ## Decoding a resource (`registry.go`, `encoding/json`) -/

namespace Dstu3

/-- The bytes of a request body or a file: bytes that are not JSON text, for
which `encoding/json` reports the syntax error `message`, or JSON text (the
value it denotes). -/
inductive Payload where
  | malformed (message : String)
  | json (value : JsonValue)
deriving DecidableEq, Repr

/-- The errors of `DecodeResource`: the three that `encoding/json` reports (a
syntax error; an `UnmarshalTypeError` for a value of the JSON kind `value`
where the Go field takes another; an unknown field) and the two that
`registry.go` makes. -/
inductive DecodeError where
  | malformed (message : String)
  | mismatch (value : String)
  | unknownField (name : String)
  | missingResourceType
  | unsupported (resourceType : String)
deriving DecidableEq, Repr

/-- The text of the error. For an `UnmarshalTypeError` the text goes on to name
the Go field and its type, which is not modelled; for an unknown field the name
is quoted as Go's `%q` quotes a name of printable ASCII characters. -/
def DecodeError.Error : DecodeError → String
  | .malformed message => message
  | .mismatch value => "json: cannot unmarshal " ++ value
  | .unknownField name => "json: unknown field \"" ++ name ++ "\""
  | .missingResourceType => "missing resourceType"
  | .unsupported resourceType => "unsupported resource type: " ++ resourceType

/-- The kind of a JSON value, as an `UnmarshalTypeError` names it. -/
def kindOf : JsonValue → String
  | .null => "null"
  | .bool _ => "bool"
  | .integer _ => "number"
  | .fraction _ => "number"
  | .string _ => "string"
  | .array _ => "array"
  | .object _ => "object"

/-- Whether the name of an object member matches the struct field tagged
`tag`. (No struct of this program has two tags that differ in case only, so
the preference of `encoding/json` for an exact match changes nothing.) -/
def sameName (name tag : String) : Bool := foldName name = foldName tag

/-- What `encoding/json` stores into a field of type `string` that holds `cur`:
`null` leaves the field as it is, a text is stored, anything else is an
`UnmarshalTypeError`. -/
def decodeText (cur : String) : JsonValue → Except DecodeError String
  | .null => .ok cur
  | .string s => .ok s
  | v => .error (.mismatch (kindOf v))

/-- What `encoding/json` stores into a pointer field that holds `cur`: `null`
stores nil; any other value is decoded into what the pointer points to, or
into a new zero value if the pointer is nil. -/
def decodePointer {α : Type} (decode : α → JsonValue → Except DecodeError α) (zero : α)
    (cur : Option α) : JsonValue → Except DecodeError (Option α)
  | .null => .ok none
  | v =>
    match decode (cur.getD zero) v with
    | .ok x => .ok (some x)
    | .error err => .error err

/-- The elements of a JSON array decoded one after the other into the elements
of the slice `cur`, and into new zero values beyond its length. -/
def decodeItems {α : Type} (decode : α → JsonValue → Except DecodeError α) (zero : α) :
    List α → List JsonValue → Except DecodeError (List α)
  | _, [] => .ok []
  | cur, item :: more =>
    match decode (cur.headD zero) item with
    | .error err => .error err
    | .ok x =>
      match decodeItems decode zero cur.tail more with
      | .error err => .error err
      | .ok xs => .ok (x :: xs)

/-- What `encoding/json` stores into a slice field that holds `cur`: `null`
stores nil, an array is decoded element by element, anything else is an
`UnmarshalTypeError`. (Elements between the length and the capacity of `cur`
count as zero values.) -/
def decodeSlice {α : Type} (decode : α → JsonValue → Except DecodeError α) (zero : α)
    (cur : List α) : JsonValue → Except DecodeError (List α)
  | .null => .ok []
  | .array items => decodeItems decode zero cur items
  | v => .error (.mismatch (kindOf v))

/-- The members of a JSON object decoded one after the other into the struct
`cur`; `member` decodes one member into the field it matches. The first error
is the error of the whole (`encoding/json` goes on decoding after an
`UnmarshalTypeError` or an unknown field, and returns the first of them). -/
def decodeMembers {α : Type} (member : α → String → JsonValue → Except DecodeError α) :
    α → List (String × JsonValue) → Except DecodeError α
  | cur, [] => .ok cur
  | cur, (name, value) :: more =>
    match member cur name value with
    | .error err => .error err
    | .ok next => decodeMembers member next more

/-- What `encoding/json` stores into a struct that holds `cur`: `null` leaves it
as it is, an object is decoded member by member, anything else is an
`UnmarshalTypeError`. -/
def decodeObject {α : Type} (member : α → String → JsonValue → Except DecodeError α)
    (cur : α) : JsonValue → Except DecodeError α
  | .null => .ok cur
  | .object fields => decodeMembers member cur fields
  | v => .error (.mismatch (kindOf v))

/-- What `encoding/json` stores into a `json.RawMessage`: the text of the value,
whatever it is. -/
def decodeRaw (_ : RawMessage) (v : JsonValue) : Except DecodeError RawMessage :=
  .ok (.wellFormed v)

/-- One member of a JSON object decoded into a `Meta`. -/
def Meta.decodeMember (m : Dstu3.Meta) (name : String) (v : JsonValue) :
    Except DecodeError Dstu3.Meta :=
  if sameName name "versionId" then
    (decodeText m.VersionID v).map fun x => { m with VersionID := x }
  else if sameName name "lastUpdated" then
    (decodeText m.LastUpdated v).map fun x => { m with LastUpdated := x }
  else if sameName name "profile" then
    (decodeSlice decodeText "" m.Profile v).map fun x => { m with Profile := x }
  else .error (.unknownField name)

/-- One member of a JSON object decoded into a `Narrative`. -/
def Narrative.decodeMember (n : Dstu3.Narrative) (name : String) (v : JsonValue) :
    Except DecodeError Dstu3.Narrative :=
  if sameName name "status" then (decodeText n.Status v).map fun x => { n with Status := x }
  else if sameName name "div" then (decodeText n.Div v).map fun x => { n with Div := x }
  else .error (.unknownField name)

/-- One member of a JSON object decoded into a `Coding`. -/
def Coding.decodeMember (c : Dstu3.Coding) (name : String) (v : JsonValue) :
    Except DecodeError Dstu3.Coding :=
  if sameName name "system" then (decodeText c.System v).map fun x => { c with System := x }
  else if sameName name "code" then (decodeText c.Code v).map fun x => { c with Code := x }
  else if sameName name "display" then
    (decodeText c.Display v).map fun x => { c with Display := x }
  else .error (.unknownField name)

/-- One member of a JSON object decoded into a `CodeableConcept`. -/
def CodeableConcept.decodeMember (c : Dstu3.CodeableConcept) (name : String) (v : JsonValue) :
    Except DecodeError Dstu3.CodeableConcept :=
  if sameName name "coding" then
    (decodeSlice (decodeObject Dstu3.Coding.decodeMember) {} c.Coding v).map fun x =>
      { c with Coding := x }
  else if sameName name "text" then (decodeText c.Text v).map fun x => { c with Text := x }
  else .error (.unknownField name)

/-- One member of a JSON object decoded into an `Identifier`. -/
def Identifier.decodeMember (i : Dstu3.Identifier) (name : String) (v : JsonValue) :
    Except DecodeError Dstu3.Identifier :=
  if sameName name "use" then (decodeText i.Use v).map fun x => { i with Use := x }
  else if sameName name "type" then
    (decodePointer (decodeObject Dstu3.CodeableConcept.decodeMember) {} i.Type_ v).map fun x =>
      { i with Type_ := x }
  else if sameName name "system" then
    (decodeText i.System v).map fun x => { i with System := x }
  else if sameName name "value" then (decodeText i.Value v).map fun x => { i with Value := x }
  else .error (.unknownField name)

/-- One member of a JSON object decoded into a `HumanName`. -/
def HumanName.decodeMember (n : Dstu3.HumanName) (name : String) (v : JsonValue) :
    Except DecodeError Dstu3.HumanName :=
  if sameName name "use" then (decodeText n.Use v).map fun x => { n with Use := x }
  else if sameName name "text" then (decodeText n.Text v).map fun x => { n with Text := x }
  else if sameName name "family" then
    (decodeSlice decodeText "" n.Family v).map fun x => { n with Family := x }
  else if sameName name "given" then
    (decodeSlice decodeText "" n.Given v).map fun x => { n with Given := x }
  else .error (.unknownField name)

/-- One member of a JSON object decoded into an `Address`. -/
def Address.decodeMember (a : Dstu3.Address) (name : String) (v : JsonValue) :
    Except DecodeError Dstu3.Address :=
  if sameName name "use" then (decodeText a.Use v).map fun x => { a with Use := x }
  else if sameName name "type" then (decodeText a.Type_ v).map fun x => { a with Type_ := x }
  else if sameName name "text" then (decodeText a.Text v).map fun x => { a with Text := x }
  else if sameName name "line" then
    (decodeSlice decodeText "" a.Line v).map fun x => { a with Line := x }
  else if sameName name "city" then (decodeText a.City v).map fun x => { a with City := x }
  else if sameName name "state" then (decodeText a.State v).map fun x => { a with State := x }
  else if sameName name "postalCode" then
    (decodeText a.PostalCode v).map fun x => { a with PostalCode := x }
  else if sameName name "country" then
    (decodeText a.Country v).map fun x => { a with Country := x }
  else .error (.unknownField name)

/-- One member of a JSON object decoded into a `Period`. -/
def Period.decodeMember (p : Dstu3.Period) (name : String) (v : JsonValue) :
    Except DecodeError Dstu3.Period :=
  if sameName name "start" then (decodeText p.Start v).map fun x => { p with Start := x }
  else if sameName name "end" then (decodeText p.End v).map fun x => { p with End := x }
  else .error (.unknownField name)

/-- One member of a JSON object decoded into a `ContactPoint`. -/
def ContactPoint.decodeMember (c : Dstu3.ContactPoint) (name : String) (v : JsonValue) :
    Except DecodeError Dstu3.ContactPoint :=
  if sameName name "system" then (decodeText c.System v).map fun x => { c with System := x }
  else if sameName name "value" then (decodeText c.Value v).map fun x => { c with Value := x }
  else if sameName name "use" then (decodeText c.Use v).map fun x => { c with Use := x }
  else .error (.unknownField name)

/-- One member of a JSON object decoded into a `Reference`. -/
def Reference.decodeMember (r : Dstu3.Reference) (name : String) (v : JsonValue) :
    Except DecodeError Dstu3.Reference :=
  if sameName name "reference" then
    (decodeText r.Reference v).map fun x => { r with Reference := x }
  else if sameName name "display" then
    (decodeText r.Display v).map fun x => { r with Display := x }
  else .error (.unknownField name)

/-- One member of a JSON object decoded into a `ConsentActor`. -/
def ConsentActor.decodeMember (a : Dstu3.ConsentActor) (name : String) (v : JsonValue) :
    Except DecodeError Dstu3.ConsentActor :=
  if sameName name "role" then
    (decodeObject Dstu3.CodeableConcept.decodeMember a.Role v).map fun x => { a with Role := x }
  else if sameName name "reference" then
    (decodeObject Dstu3.Reference.decodeMember a.Reference v).map fun x =>
      { a with Reference := x }
  else .error (.unknownField name)

/-- What `encoding/json` stores into a field of type `*Reference`. -/
def decodeReference (cur : Option Dstu3.Reference) (v : JsonValue) :
    Except DecodeError (Option Dstu3.Reference) :=
  decodePointer (decodeObject Dstu3.Reference.decodeMember) {} cur v

/-- What `encoding/json` stores into a field of type `[]Reference`. -/
def decodeReferences (cur : List Dstu3.Reference) (v : JsonValue) :
    Except DecodeError (List Dstu3.Reference) :=
  decodeSlice (decodeObject Dstu3.Reference.decodeMember) {} cur v

/-- What `encoding/json` stores into a field of type `[]Identifier`. -/
def decodeIdentifiers (cur : List Dstu3.Identifier) (v : JsonValue) :
    Except DecodeError (List Dstu3.Identifier) :=
  decodeSlice (decodeObject Dstu3.Identifier.decodeMember) {} cur v

/-- What `encoding/json` stores into a field of type `[]HumanName`. -/
def decodeHumanNames (cur : List Dstu3.HumanName) (v : JsonValue) :
    Except DecodeError (List Dstu3.HumanName) :=
  decodeSlice (decodeObject Dstu3.HumanName.decodeMember) {} cur v

/-- What `encoding/json` stores into a field of type `[]ContactPoint`. -/
def decodeContactPoints (cur : List Dstu3.ContactPoint) (v : JsonValue) :
    Except DecodeError (List Dstu3.ContactPoint) :=
  decodeSlice (decodeObject Dstu3.ContactPoint.decodeMember) {} cur v

/-- What `encoding/json` stores into a field of type `[]Address`. -/
def decodeAddresses (cur : List Dstu3.Address) (v : JsonValue) :
    Except DecodeError (List Dstu3.Address) :=
  decodeSlice (decodeObject Dstu3.Address.decodeMember) {} cur v

/-- What `encoding/json` stores into a field of type `CodeableConcept`. -/
def decodeConcept (cur : Dstu3.CodeableConcept) (v : JsonValue) :
    Except DecodeError Dstu3.CodeableConcept :=
  decodeObject Dstu3.CodeableConcept.decodeMember cur v

/-- What `encoding/json` stores into a field of type `*Period`. -/
def decodePeriod (cur : Option Dstu3.Period) (v : JsonValue) :
    Except DecodeError (Option Dstu3.Period) :=
  decodePointer (decodeObject Dstu3.Period.decodeMember) {} cur v

/-- One member of a JSON object decoded into the embedded `ResourceBase`, whose
fields count as fields of the resource struct: `none` when the name matches
none of them. -/
def ResourceBase.decodeMember (b : ResourceBase) (name : String) (v : JsonValue) :
    Option (Except DecodeError ResourceBase) :=
  if sameName name "resourceType" then
    some ((decodeText b.ResourceType v).map fun x => { b with ResourceType := x })
  else if sameName name "id" then some ((decodeText b.ID v).map fun x => { b with ID := x })
  else if sameName name "meta" then
    some ((decodePointer (decodeObject Dstu3.Meta.decodeMember) {} b.Meta v).map fun x =>
      { b with Meta := x })
  else if sameName name "text" then
    some ((decodePointer (decodeObject Dstu3.Narrative.decodeMember) {} b.Text v).map fun x =>
      { b with Text := x })
  else if sameName name "contained" then
    some ((decodeSlice decodeRaw (.wellFormed .null) b.Contained v).map fun x =>
      { b with Contained := x })
  else none

/-- One member of a JSON object decoded into a `Patient`. -/
def Patient.decodeMember (p : Dstu3.Patient) (name : String) (v : JsonValue) :
    Except DecodeError Dstu3.Patient :=
  match p.toResourceBase.decodeMember name v with
  | some r => r.map fun b => { p with toResourceBase := b }
  | none =>
    if sameName name "identifier" then
      (decodeIdentifiers p.Identifier v).map fun x => { p with Identifier := x }
    else if sameName name "name" then
      (decodeHumanNames p.Name v).map fun x => { p with Name := x }
    else if sameName name "telecom" then
      (decodeContactPoints p.Telecom v).map fun x => { p with Telecom := x }
    else if sameName name "gender" then
      (decodeText p.Gender v).map fun x => { p with Gender := x }
    else if sameName name "birthDate" then
      (decodeText p.BirthDate v).map fun x => { p with BirthDate := x }
    else if sameName name "address" then
      (decodeAddresses p.Address v).map fun x => { p with Address := x }
    else if sameName name "managingOrganization" then
      (decodeReference p.ManagingOrganization v).map fun x =>
        { p with ManagingOrganization := x }
    else if sameName name "generalPractitioner" then
      (decodeReferences p.GeneralPractitioner v).map fun x =>
        { p with GeneralPractitioner := x }
    else .error (.unknownField name)

/-- One member of a JSON object decoded into a `Practitioner`. -/
def Practitioner.decodeMember (p : Dstu3.Practitioner) (name : String) (v : JsonValue) :
    Except DecodeError Dstu3.Practitioner :=
  match p.toResourceBase.decodeMember name v with
  | some r => r.map fun b => { p with toResourceBase := b }
  | none =>
    if sameName name "identifier" then
      (decodeIdentifiers p.Identifier v).map fun x => { p with Identifier := x }
    else if sameName name "name" then
      (decodeHumanNames p.Name v).map fun x => { p with Name := x }
    else if sameName name "telecom" then
      (decodeContactPoints p.Telecom v).map fun x => { p with Telecom := x }
    else if sameName name "address" then
      (decodeAddresses p.Address v).map fun x => { p with Address := x }
    else .error (.unknownField name)

/-- One member of a JSON object decoded into a `PractitionerRole`. -/
def PractitionerRole.decodeMember (p : Dstu3.PractitionerRole) (name : String)
    (v : JsonValue) : Except DecodeError Dstu3.PractitionerRole :=
  match p.toResourceBase.decodeMember name v with
  | some r => r.map fun b => { p with toResourceBase := b }
  | none =>
    if sameName name "practitioner" then
      (decodeReference p.Practitioner v).map fun x => { p with Practitioner := x }
    else if sameName name "organization" then
      (decodeReference p.Organization v).map fun x => { p with Organization := x }
    else if sameName name "location" then
      (decodeReferences p.Location v).map fun x => { p with Location := x }
    else if sameName name "healthcareService" then
      (decodeReferences p.HealthcareService v).map fun x => { p with HealthcareService := x }
    else .error (.unknownField name)

/-- One member of a JSON object decoded into an `Organization`. -/
def Organization.decodeMember (o : Dstu3.Organization) (name : String) (v : JsonValue) :
    Except DecodeError Dstu3.Organization :=
  match o.toResourceBase.decodeMember name v with
  | some r => r.map fun b => { o with toResourceBase := b }
  | none =>
    if sameName name "identifier" then
      (decodeIdentifiers o.Identifier v).map fun x => { o with Identifier := x }
    else if sameName name "name" then (decodeText o.Name v).map fun x => { o with Name := x }
    else if sameName name "telecom" then
      (decodeContactPoints o.Telecom v).map fun x => { o with Telecom := x }
    else if sameName name "address" then
      (decodeAddresses o.Address v).map fun x => { o with Address := x }
    else if sameName name "partOf" then
      (decodeReference o.PartOf v).map fun x => { o with PartOf := x }
    else .error (.unknownField name)

/-- One member of a JSON object decoded into an `Observation`. -/
def Observation.decodeMember (o : Dstu3.Observation) (name : String) (v : JsonValue) :
    Except DecodeError Dstu3.Observation :=
  match o.toResourceBase.decodeMember name v with
  | some r => r.map fun b => { o with toResourceBase := b }
  | none =>
    if sameName name "status" then (decodeText o.Status v).map fun x => { o with Status := x }
    else if sameName name "code" then (decodeConcept o.Code v).map fun x => { o with Code := x }
    else if sameName name "subject" then
      (decodeReference o.Subject v).map fun x => { o with Subject := x }
    else if sameName name "performer" then
      (decodeReferences o.Performer v).map fun x => { o with Performer := x }
    else if sameName name "encounter" then
      (decodeReference o.Encounter v).map fun x => { o with Encounter := x }
    else if sameName name "specimen" then
      (decodeReference o.Specimen v).map fun x => { o with Specimen := x }
    else if sameName name "device" then
      (decodeReference o.Device v).map fun x => { o with Device := x }
    else if sameName name "effectiveDateTime" then
      (decodePointer decodeText "" o.EffectiveDateTime v).map fun x =>
        { o with EffectiveDateTime := x }
    else if sameName name "effectivePeriod" then
      (decodePeriod o.EffectivePeriod v).map fun x => { o with EffectivePeriod := x }
    else if sameName name "issued" then
      (decodeText o.Issued v).map fun x => { o with Issued := x }
    else .error (.unknownField name)

/-- One member of a JSON object decoded into a `Flag`. -/
def Flag.decodeMember (f : Dstu3.Flag) (name : String) (v : JsonValue) :
    Except DecodeError Dstu3.Flag :=
  match f.toResourceBase.decodeMember name v with
  | some r => r.map fun b => { f with toResourceBase := b }
  | none =>
    if sameName name "status" then (decodeText f.Status v).map fun x => { f with Status := x }
    else if sameName name "category" then
      (decodeConcept f.Category v).map fun x => { f with Category := x }
    else if sameName name "code" then (decodeConcept f.Code v).map fun x => { f with Code := x }
    else if sameName name "subject" then
      (decodeReference f.Subject v).map fun x => { f with Subject := x }
    else if sameName name "encounter" then
      (decodeReference f.Encounter v).map fun x => { f with Encounter := x }
    else if sameName name "author" then
      (decodeReference f.Author v).map fun x => { f with Author := x }
    else .error (.unknownField name)

/-- One member of a JSON object decoded into a `Consent`. -/
def Consent.decodeMember (c : Dstu3.Consent) (name : String) (v : JsonValue) :
    Except DecodeError Dstu3.Consent :=
  match c.toResourceBase.decodeMember name v with
  | some r => r.map fun b => { c with toResourceBase := b }
  | none =>
    if sameName name "status" then (decodeText c.Status v).map fun x => { c with Status := x }
    else if sameName name "patient" then
      (decodeReference c.Patient v).map fun x => { c with Patient := x }
    else if sameName name "actor" then
      (decodeSlice (decodeObject Dstu3.ConsentActor.decodeMember) {} c.Actor v).map fun x =>
        { c with Actor := x }
    else if sameName name "organization" then
      (decodeReferences c.Organization v).map fun x => { c with Organization := x }
    else if sameName name "sourceReference" then
      (decodeReference c.SourceReference v).map fun x => { c with SourceReference := x }
    else .error (.unknownField name)

/-- One member of a JSON object decoded into an `AdvanceDirective`. -/
def AdvanceDirective.decodeMember (a : Dstu3.AdvanceDirective) (name : String)
    (v : JsonValue) : Except DecodeError Dstu3.AdvanceDirective :=
  match a.toResourceBase.decodeMember name v with
  | some r => r.map fun b => { a with toResourceBase := b }
  | none =>
    if sameName name "patient" then
      (decodeReference a.Patient v).map fun x => { a with Patient := x }
    else if sameName name "author" then
      (decodeReferences a.Author v).map fun x => { a with Author := x }
    else if sameName name "sourceReference" then
      (decodeReference a.Source v).map fun x => { a with Source := x }
    else .error (.unknownField name)

/-- One member of a JSON object decoded into a `Location`. -/
def Location.decodeMember (l : Dstu3.Location) (name : String) (v : JsonValue) :
    Except DecodeError Dstu3.Location :=
  match l.toResourceBase.decodeMember name v with
  | some r => r.map fun b => { l with toResourceBase := b }
  | none =>
    if sameName name "status" then (decodeText l.Status v).map fun x => { l with Status := x }
    else if sameName name "name" then (decodeText l.Name v).map fun x => { l with Name := x }
    else if sameName name "description" then
      (decodeText l.Description v).map fun x => { l with Description := x }
    else if sameName name "mode" then (decodeText l.Mode v).map fun x => { l with Mode := x }
    else if sameName name "type" then
      (decodeConcept l.Type_ v).map fun x => { l with Type_ := x }
    else if sameName name "telecom" then
      (decodeContactPoints l.Telecom v).map fun x => { l with Telecom := x }
    else if sameName name "address" then
      (decodePointer (decodeObject Dstu3.Address.decodeMember) {} l.Address v).map fun x =>
        { l with Address := x }
    else if sameName name "physicalType" then
      (decodePointer decodeConcept {} l.PhysicalType v).map fun x =>
        { l with PhysicalType := x }
    else if sameName name "managingOrganization" then
      (decodeReference l.ManagingOrganization v).map fun x =>
        { l with ManagingOrganization := x }
    else if sameName name "partOf" then
      (decodeReference l.PartOf v).map fun x => { l with PartOf := x }
    else .error (.unknownField name)

/-- One member of a JSON object decoded into a `Task`. -/
def Task.decodeMember (t : Dstu3.Task) (name : String) (v : JsonValue) :
    Except DecodeError Dstu3.Task :=
  match t.toResourceBase.decodeMember name v with
  | some r => r.map fun b => { t with toResourceBase := b }
  | none =>
    if sameName name "status" then (decodeText t.Status v).map fun x => { t with Status := x }
    else if sameName name "intent" then
      (decodeText t.Intent v).map fun x => { t with Intent := x }
    else if sameName name "priority" then
      (decodeText t.Priority v).map fun x => { t with Priority := x }
    else if sameName name "description" then
      (decodeText t.Description v).map fun x => { t with Description := x }
    else if sameName name "focus" then
      (decodeReference t.Focus v).map fun x => { t with Focus := x }
    else if sameName name "for" then (decodeReference t.For v).map fun x => { t with For := x }
    else if sameName name "requester" then
      (decodeReference t.Requester v).map fun x => { t with Requester := x }
    else if sameName name "owner" then
      (decodeReference t.Owner v).map fun x => { t with Owner := x }
    else if sameName name "executionPeriod" then
      (decodePeriod t.ExecutionPeriod v).map fun x => { t with ExecutionPeriod := x }
    else if sameName name "reasonCode" then
      (decodePointer decodeConcept {} t.ReasonCode v).map fun x => { t with ReasonCode := x }
    else if sameName name "basedOn" then
      (decodeReferences t.BasedOn v).map fun x => { t with BasedOn := x }
    else .error (.unknownField name)

/-- The Go call `dec.Decode(resource)` of a decoder with `DisallowUnknownFields`
on the resource object the factory has made, given the value the text denotes. -/
def Resource.decode (resource : Resource) (v : JsonValue) : Except DecodeError Resource :=
  match resource with
  | .patient r => (decodeObject Dstu3.Patient.decodeMember r v).map .patient
  | .practitioner r => (decodeObject Dstu3.Practitioner.decodeMember r v).map .practitioner
  | .practitionerRole r =>
    (decodeObject Dstu3.PractitionerRole.decodeMember r v).map .practitionerRole
  | .organization r => (decodeObject Dstu3.Organization.decodeMember r v).map .organization
  | .observation r => (decodeObject Dstu3.Observation.decodeMember r v).map .observation
  | .flag r => (decodeObject Dstu3.Flag.decodeMember r v).map .flag
  | .consent r => (decodeObject Dstu3.Consent.decodeMember r v).map .consent
  | .advanceDirective r =>
    (decodeObject Dstu3.AdvanceDirective.decodeMember r v).map .advanceDirective
  | .location r => (decodeObject Dstu3.Location.decodeMember r v).map .location
  | .task r => (decodeObject Dstu3.Task.decodeMember r v).map .task

/-- The Go function `DetectResourceType`: `json.Unmarshal` into a struct with
the one field `resourceType`; members it does not match are passed over. -/
def DetectResourceType (data : Payload) : Except DecodeError String :=
  match data with
  | .malformed message => .error (.malformed message)
  | .json value =>
    match decodeObject
        (fun cur name v => if sameName name "resourceType" then decodeText cur v else .ok cur)
        "" value with
    | .error err => .error err
    | .ok resourceType =>
      if resourceType = "" then .error .missingResourceType else .ok resourceType

/-- The Go method `Registry.DecodeResource`: the resource object it has made,
or the error. (The decoder reads the one JSON value of the text; text that is
not one JSON value has been refused by `DetectResourceType` before.) -/
def Registry.DecodeResource (r : Registry) (data : Payload) : Except DecodeError Resource :=
  match DetectResourceType data with
  | .error err => .error err
  | .ok resourceType =>
    match r.resources.lookup resourceType with
    | none => .error (.unsupported resourceType)
    | some info =>
      match data with
      | .malformed message => .error (.malformed message)
      | .json value => info.Factory.decode value

end Dstu3

namespace Store

/-- The Go struct `ResourceEntry`. Its `Resource` is never nil in an entry
built by `newEntry`, so it is an address. -/
structure ResourceEntry where
  Resource : Ptr
  VersionID : String
  LastUpdated : String := ""
  History : List Ptr := []
deriving DecidableEq, Repr

/-- The errors the store returns, one per message of `fmt.Errorf`. -/
inductive StoreError where
  /-- The message "resource is nil". -/
  | resourceIsNil
  /-- The message "resource id is required". -/
  | resourceIdRequired
  /-- The message "resource already exists". -/
  | alreadyExists
  /-- The message "resource type and id are required". -/
  | typeAndIdRequired
  /-- The message "resource type is required". -/
  | typeRequired
  /-- The message "resource not found". -/
  | notFound
deriving DecidableEq, Repr

/-- The Go struct `Store`: resource type → id → entry. -/
structure Store where
  resources : GoMap (GoMap ResourceEntry)
deriving DecidableEq

/-- The Go function `NewStore`. -/
def NewStore : Store := { resources := ∅ }

/-- The Go expression `s.resources[resourceType][id]` (reading a missing or
nil map yields the zero value, here `none`). -/
def Store.entry (s : Store) (resourceType id : String) : Option ResourceEntry :=
  (s.resources.lookup resourceType).bind fun items => items.lookup id

/-- The Go statement `s.resources[resourceType][id] = entry`, for an inner
map that exists or has just been made. -/
def Store.setEntry (s : Store) (resourceType id : String) (entry : ResourceEntry) : Store :=
  { resources := s.resources.insert resourceType
      (((s.resources.lookup resourceType).getD ∅).insert id entry) }

/-- The Go statements
`if _, ok := s.resources[resourceType]; !ok { s.resources[resourceType] = map[string]*ResourceEntry{} }`. -/
def Store.ensureType (s : Store) (resourceType : String) : Store :=
  match s.resources.lookup resourceType with
  | some _ => s
  | none => { resources := s.resources.insert resourceType ∅ }

/-- The update `applyMeta` makes to the content of the resource object:
`meta := r.GetMeta(); if meta == nil { meta = &Meta{} }`, then the version and
the timestamp are written into `meta` and `r.SetMeta(meta)`. (In Go `meta` is
a pointer; what the write does to other resource objects that point to the
same `Meta` object is in `Shared.applyMeta`.) -/
def stampMeta (r : Dstu3.Resource) (version lastUpdated : String) : Dstu3.Resource :=
  let m : Dstu3.Meta := r.GetMeta.getD {}
  r.SetMeta (some { m with VersionID := version, LastUpdated := lastUpdated })

/-- The Go function `applyMeta`, on a heap whose resource objects hold their
`Meta` by value: stamps the entry's version and timestamp on the metadata of
the entry's resource. This is what the Go function does when no other resource
object points to the `Meta` object of that resource (`Shared.heap_applyMeta`);
`Shared.applyMeta` is the function on a memory in which `Meta` objects can be
shared. -/
def applyMeta (h : Heap) (entry : ResourceEntry) : Heap :=
  match h[entry.Resource]? with
  | none => h
  | some r => h.set entry.Resource (stampMeta r entry.VersionID entry.LastUpdated)

/-- The Go function `newEntry`. -/
def newEntry (now : String) (h : Heap) (resource : Ptr) (version : String) :
    ResourceEntry × Heap :=
  let entry : ResourceEntry :=
    { Resource := resource, VersionID := version, LastUpdated := now }
  (entry, applyMeta h entry)

/-- One step of `cloneEntry`: `res, err := item.Clone()`, keeping `res` when
`err == nil` and the item itself otherwise. -/
def cloneOrShare (h : Heap) (item : Ptr) : Ptr × Heap :=
  match Heap.Clone h item with
  | .ok (res, h1) => (res, h1)
  | .error _ => (item, h)

/-- The loop of `cloneEntry` over `entry.History`. -/
def cloneHistory (h : Heap) : List Ptr → List Ptr × Heap
  | [] => ([], h)
  | item :: rest =>
    let (res, h1) := cloneOrShare h item
    let (out, h2) := cloneHistory h1 rest
    (res :: out, h2)

/-- The Go function `cloneEntry`. -/
def cloneEntry (h : Heap) (entry : ResourceEntry) : ResourceEntry × Heap :=
  let (res, h1) := cloneOrShare h entry.Resource
  let (hist, h2) := cloneHistory h1 entry.History
  ({ Resource := res, VersionID := entry.VersionID, LastUpdated := entry.LastUpdated,
     History := hist }, h2)

/-- The Go method `Store.Create`. Returns the result together with the store
and the heap as the call leaves them. -/
def Store.Create (now : String) (s : Store) (h : Heap) (resource : Option Ptr) :
    Except StoreError ResourceEntry × Store × Heap :=
  match h.deref resource, resource with
  | some r, some p =>
    if r.GetID = "" then (.error .resourceIdRequired, s, h)
    else
      let resourceType := r.GetResourceType
      let s1 := s.ensureType resourceType
      match s1.entry resourceType r.GetID with
      | some _ => (.error .alreadyExists, s1, h)
      | none =>
        let (entry, h1) := newEntry now h p "1"
        let s2 := s1.setEntry resourceType r.GetID entry
        let (out, h2) := cloneEntry h1 entry
        (.ok out, s2, h2)
  | _, _ => (.error .resourceIsNil, s, h)

/-- The Go method `Store.Update`. -/
def Store.Update (now : String) (s : Store) (h : Heap) (resource : Option Ptr) :
    Except StoreError ResourceEntry × Store × Heap :=
  match h.deref resource, resource with
  | some r, some p =>
    if r.GetID = "" then (.error .resourceIdRequired, s, h)
    else
      let resourceType := r.GetResourceType
      let s1 := s.ensureType resourceType
      match s1.entry resourceType r.GetID with
      | none =>
        let (entry, h1) := newEntry now h p "1"
        let s2 := s1.setEntry resourceType r.GetID entry
        let (out, h2) := cloneEntry h1 entry
        (.ok out, s2, h2)
      | some entry =>
        let history := entry.History ++ [entry.Resource]
        let nextVersion := toString (history.length + 1)
        let entry : ResourceEntry :=
          { Resource := p, VersionID := nextVersion, LastUpdated := now, History := history }
        let h1 := applyMeta h entry
        let s2 := s1.setEntry resourceType r.GetID entry
        let (out, h2) := cloneEntry h1 entry
        (.ok out, s2, h2)
  | _, _ => (.error .resourceIsNil, s, h)

/-- The Go method `Store.Delete`. -/
def Store.Delete (s : Store) (resourceType id : String) : Option StoreError × Store :=
  if resourceType = "" ∨ id = "" then (some .typeAndIdRequired, s)
  else
    match s.resources.lookup resourceType with
    | none => (some .notFound, s)
    | some items =>
      match items.lookup id with
      | none => (some .notFound, s)
      | some _ => (none, { resources := s.resources.insert resourceType (items.erase id) })

/-- The Go method `Store.Get`. -/
def Store.Get (s : Store) (h : Heap) (resourceType id : String) :
    Except StoreError ResourceEntry × Heap :=
  if resourceType = "" ∨ id = "" then (.error .typeAndIdRequired, h)
  else
    match s.entry resourceType id with
    | none => (.error .notFound, h)
    | some entry =>
      let (out, h1) := cloneEntry h entry
      (.ok out, h1)

/-- The Go method `Store.History`. -/
def Store.History (s : Store) (h : Heap) (resourceType id : String) :
    Except StoreError (List Ptr) × Heap :=
  match s.Get h resourceType id with
  | (.error err, h1) => (.error err, h1)
  | (.ok entry, h1) => (.ok entry.History, h1)

/-- The Go method `Store.SystemHistory`: the current resource of every entry,
as stored (the iteration order of a Go map is unspecified; the order of the
representation is used). -/
def Store.SystemHistory (s : Store) : List Ptr :=
  s.resources.entries.flatMap fun items => items.2.entries.map fun e => e.2.Resource

/-- The Go comparison `a <= b` of two strings: the lexicographic order of their
bytes, which for UTF-8 text is the lexicographic order of their characters. -/
def strLE (a b : String) : Prop := a.toList ≤ b.toList

instance : DecidableRel strLE := fun a b => inferInstanceAs (Decidable (a.toList ≤ b.toList))

/-- The Go function `sort.Strings`: ascending byte-wise order. -/
def sortStrings (ids : List String) : List String := ids.insertionSort strLE

/-- The second loop of `Store.List`: `result = append(result, cloneEntry(entries[id]))`
for each id (every id comes from the map, so the lookup finds it). -/
def cloneAll (entries : GoMap ResourceEntry) (h : Heap) : List String → List ResourceEntry × Heap
  | [] => ([], h)
  | id :: rest =>
    match entries.lookup id with
    | none => cloneAll entries h rest
    | some entry =>
      let (out, h1) := cloneEntry h entry
      let (result, h2) := cloneAll entries h1 rest
      (out :: result, h2)

/-- The Go method `Store.List` (declared last, so that `List` names the list
type in the declarations above). A nil slice and an empty slice are both `[]`. -/
def Store.List (s : Store) (h : Heap) (resourceType : String) :
    Except StoreError (List ResourceEntry) × Heap :=
  if resourceType = "" then (.error .typeRequired, h)
  else
    match s.resources.lookup resourceType with
    | none => (.ok [], h)
    | some entries =>
      let ids := sortStrings entries.keys
      let (result, h1) := cloneAll entries h ids
      (.ok result, h1)

/-! ## Specification vocabulary -/

/-- What an entry holds, read through the heap: the resource objects in place
of their addresses. -/
structure EntryValue where
  Resource : Option Dstu3.Resource
  VersionID : String
  LastUpdated : String
  History : List (Option Dstu3.Resource)
deriving DecidableEq, Repr

/-- The content of an entry in heap `h`. -/
def ResourceEntry.value (h : Heap) (e : ResourceEntry) : EntryValue :=
  { Resource := h[e.Resource]?, VersionID := e.VersionID, LastUpdated := e.LastUpdated,
    History := e.History.map fun p => h[p]? }

/-- Every address held by the entry denotes an object of the heap. -/
def ResourceEntry.allocated (h : Heap) (e : ResourceEntry) : Prop :=
  e.Resource < h.length ∧ ∀ p ∈ e.History, p < h.length

/-- The version of the entry is the decimal text of its history length plus one. -/
def ResourceEntry.versioned (e : ResourceEntry) : Prop :=
  e.VersionID = toString (e.History.length + 1)

/-- The entry `Update` writes over a stored entry `e`. -/
def nextEntry (now : String) (p : Ptr) (e : ResourceEntry) : ResourceEntry :=
  { Resource := p
    VersionID := toString ((e.History ++ [e.Resource]).length + 1)
    LastUpdated := now
    History := e.History ++ [e.Resource] }

/-- A patient `{"resourceType":"Patient","id":id}`. -/
def examplePatient (id : String) : Dstu3.Resource :=
  .patient { ResourceType := "Patient", ID := id }

/-- A patient struct built without a resource type: `&dstu3.Patient{ResourceBase{ID: "x"}}`. -/
def untypedPatient : Dstu3.Resource := .patient { ID := "x" }

/-- A patient whose `Contained` holds bytes that are not JSON, which `Clone` cannot copy. -/
def unclonablePatient : Dstu3.Resource :=
  .patient { ResourceType := "Patient", ID := "p", Contained := [.malformed "\x7b"] }

/-- The outcome of `Create` of patient "a" at time "t0" on a new store, in a
heap that holds two patient objects with id "a" (at addresses 0 and 1). -/
def afterCreate : Except StoreError ResourceEntry × Store × Heap :=
  NewStore.Create "t0" [examplePatient "a", examplePatient "a"] (some 0)

/-- The outcome of a following `Update` with the second object at time "t1". -/
def afterUpdate : Except StoreError ResourceEntry × Store × Heap :=
  afterCreate.2.1.Update "t1" afterCreate.2.2 (some 1)

/-- The caller builds the resource object `x.1` and calls `Create` with it at
time `x.2`; the store and the heap the call leaves. -/
def createWith (st : Store × Heap) (x : Dstu3.Resource × String) : Store × Heap :=
  ((st.1.Create x.2 (st.2 ++ [x.1]) (some st.2.length)).2.1,
   (st.1.Create x.2 (st.2 ++ [x.1]) (some st.2.length)).2.2)

/-- The caller builds the resource object `x.1` and calls `Update` with it at
time `x.2`; the store and the heap the call leaves. -/
def updateWith (st : Store × Heap) (x : Dstu3.Resource × String) : Store × Heap :=
  ((st.1.Update x.2 (st.2 ++ [x.1]) (some st.2.length)).2.1,
   (st.1.Update x.2 (st.2 ++ [x.1]) (some st.2.length)).2.2)

/-- The caller calls `Create` with the resource object at the address `x.1`, at
time `x.2`; the store and the heap the call leaves. -/
def createAt (st : Store × Heap) (x : Ptr × String) : Store × Heap :=
  ((st.1.Create x.2 st.2 (some x.1)).2.1, (st.1.Create x.2 st.2 (some x.1)).2.2)

/-- The caller calls `Update` with the resource object at the address `x.1`, at
time `x.2`; the store and the heap the call leaves. -/
def updateAt (st : Store × Heap) (x : Ptr × String) : Store × Heap :=
  ((st.1.Update x.2 st.2 (some x.1)).2.1, (st.1.Update x.2 st.2 (some x.1)).2.2)

/-- The resource that the object at `x.1` held before the calls (`c` gives the
contents then), as stored by the call at time `x.2` that made it version
`k + 1`. -/
def stampedAt (c : Ptr → Option Dstu3.Resource) (k : Nat) (x : Ptr × String) :
    Option Dstu3.Resource :=
  (c x.1).map fun r => stampMeta r (toString (k + 1)) x.2

/-- The outcome of creating patient "b" and then patient "a" on a new store. -/
def twoPatients : Except StoreError ResourceEntry × Store × Heap :=
  (NewStore.Create "t0" [examplePatient "b", examplePatient "a"] (some 0)).2.1.Create "t1"
    (NewStore.Create "t0" [examplePatient "b", examplePatient "a"] (some 0)).2.2 (some 1)

/-- `Clone` succeeds on the resource: every contained raw message is well-formed JSON. -/
def clonable (r : Dstu3.Resource) : Prop :=
  r.base.Contained.all Dstu3.RawMessage.isWellFormed = true

instance (r : Dstu3.Resource) : Decidable (clonable r) :=
  inferInstanceAs (Decidable (r.base.Contained.all Dstu3.RawMessage.isWellFormed = true))

/-- The outcome of `Create` of the patient that cannot be cloned, on a new store. -/
def unclonableStored : Except StoreError ResourceEntry × Store × Heap :=
  NewStore.Create "t0" [unclonablePatient] (some 0)

/-- The stored unclonable patient after the caller has set its gender. -/
def unclonablePatientEdited : Dstu3.Resource :=
  .patient { ResourceType := "Patient", ID := "p", Meta := some ⟨"1", "t0", []⟩,
             Contained := [.malformed "\x7b"], Gender := "female" }

/-- Every entry is stored under the resource type and the id of its current resource. -/
def Store.Keyed (s : Store) (h : Heap) : Prop :=
  ∀ t i e, s.entry t i = some e →
    ∃ r, h[e.Resource]? = some r ∧ r.GetResourceType = t ∧ r.GetID = i

/-- Every resource object an entry holds, current or snapshot, has the resource
type and the id the entry is stored under. -/
def Store.KeyedAll (s : Store) (h : Heap) : Prop :=
  ∀ t i e, s.entry t i = some e → ∀ q ∈ e.Resource :: e.History,
    ∃ r : Dstu3.Resource, h[q]? = some r ∧ r.GetResourceType = t ∧ r.GetID = i

/-- The metadata of the current resource of every entry carries the version and
the timestamp of the entry. -/
def Store.Stamped (s : Store) (h : Heap) : Prop :=
  ∀ t i e, s.entry t i = some e →
    ∃ (r : Dstu3.Resource) (m : Dstu3.Meta), h[e.Resource]? = some r ∧ r.GetMeta = some m ∧
      m.VersionID = e.VersionID ∧ m.LastUpdated = e.LastUpdated

/-- The heap `h1` holds, at every address of `h`, a resource of the same type and id. -/
def sameKeys (h h1 : Heap) : Prop :=
  ∀ (p : Ptr) (r : Dstu3.Resource), h[p]? = some r →
    ∃ r1 : Dstu3.Resource,
      h1[p]? = some r1 ∧ r1.GetResourceType = r.GetResourceType ∧ r1.GetID = r.GetID

/-- The invariant of the store: stored entries hold allocated addresses, are
versioned by their history, and are stored under a non-empty id. -/
def Store.Inv (s : Store) (h : Heap) : Prop :=
  ∀ t i e, s.entry t i = some e → e.allocated h ∧ e.versioned ∧ i ≠ ""

/-- The states the program can be in: `NewStore()` followed by any calls of
`Create`, `Update` and `Delete` (with any argument, failing or not), by reads
(`Get`, `List`), and by the caller allocating resource objects. -/
inductive Reachable : Store → Heap → Prop
  | init (h : Heap) : Reachable NewStore h
  | alloc {s : Store} {h : Heap} (r : Dstu3.Resource) :
      Reachable s h → Reachable s (h ++ [r])
  | create {s : Store} {h : Heap} (now : String) (resource : Option Ptr) :
      Reachable s h →
      Reachable (s.Create now h resource).2.1 (s.Create now h resource).2.2
  | update {s : Store} {h : Heap} (now : String) (resource : Option Ptr) :
      Reachable s h →
      Reachable (s.Update now h resource).2.1 (s.Update now h resource).2.2
  | delete {s : Store} {h : Heap} (resourceType id : String) :
      Reachable s h → Reachable (s.Delete resourceType id).2 h
  | get {s : Store} {h : Heap} (resourceType id : String) :
      Reachable s h → Reachable s (s.Get h resourceType id).2
  | list {s : Store} {h : Heap} (resourceType : String) :
      Reachable s h → Reachable s (s.List h resourceType).2

/-- Every resource object the store holds, current or snapshot, can be cloned. -/
def Store.allClonable (s : Store) (h : Heap) : Prop :=
  ∀ t i e, s.entry t i = some e →
    ∀ p ∈ e.Resource :: e.History, ∃ r, h[p]? = some r ∧ clonable r

/-- The address `q`, returned by a call that found the heap `h` and left the
store `s1` and the heap `h1`, is an independent copy: it was allocated by that
call (so no earlier call returned it), and a write to it changes the content
of no stored entry, which is all that later reads return. -/
def isolated (h : Heap) (s1 : Store) (h1 : Heap) (q : Ptr) : Prop :=
  h.length ≤ q ∧ q < h1.length ∧
    ∀ t i e v, s1.entry t i = some e → e.value (h1.set q v) = e.value h1

/-- The addresses an entry returned to the caller holds. -/
def ResourceEntry.addresses (e : ResourceEntry) : List Ptr := e.Resource :: e.History

end Store

/-! ## The store with `Meta` objects on the heap

The field `Meta` of a `ResourceBase` is a pointer (`Meta *Meta`, `types.go`),
and `applyMeta` writes the version and the timestamp through that pointer: two
resource objects whose fields point to one `Meta` object are stamped together.
The heap of the sections above keeps the `Meta` of a resource object inside the
object, which is what the program does as long as no two resource objects point
to the same `Meta` object. The memory of this section keeps the `Meta` objects
apart from the resource objects, and the functions of `store.go` are given on
it once more, statement by statement. -/

namespace Shared

/-- A resource object: the fields of the struct other than `Meta` (the field
`Meta` of `fields` is `none` and is not read), and the address of the `Meta`
object that the field `Meta` points to, `none` for the nil pointer. -/
structure Object where
  fields : Dstu3.Resource
  metaPtr : Option Nat
deriving DecidableEq, Repr

/-- The resource objects and the `Meta` objects allocated so far, by address.
Allocation appends. -/
structure Memory where
  resources : List Object := []
  metas : List Dstu3.Meta := []
deriving DecidableEq, Repr

/-- The content of a resource object: its fields, and for `Meta` the object its
pointer leads to. -/
def Memory.content (m : Memory) (o : Object) : Dstu3.Resource :=
  o.fields.SetMeta (o.metaPtr.bind fun a => m.metas[a]?)

/-- The content of every resource object, by address: what a reader of the
memory finds. -/
def Memory.heap (m : Memory) : Heap := m.resources.map m.content

/-- The caller builds a resource object with the content `r`: a new struct, and
a new `Meta` object if `r` has one. -/
def Memory.alloc (m : Memory) (r : Dstu3.Resource) : Ptr × Memory :=
  match r.GetMeta with
  | none =>
    (m.resources.length, { m with resources := m.resources ++ [⟨r.SetMeta none, none⟩] })
  | some x =>
    (m.resources.length,
      { resources := m.resources ++ [⟨r.SetMeta none, some m.metas.length⟩]
        metas := m.metas ++ [x] })

/-- The caller builds a resource object with the fields of `r` whose field
`Meta` points to the `Meta` object at `a`, to which other resource objects may
point as well. -/
def Memory.allocSharing (m : Memory) (r : Dstu3.Resource) (a : Nat) : Ptr × Memory :=
  (m.resources.length, { m with resources := m.resources ++ [⟨r.SetMeta none, some a⟩] })

/-- The Go method `Clone` called on the object at address `p`: the round trip
through JSON builds a new struct, with a new `Meta` object if there is one. -/
def Clone (m : Memory) (p : Ptr) : Except String (Ptr × Memory) :=
  match m.heap[p]? with
  | none => .error "nil resource"
  | some r =>
    match r.cloneResource with
    | .ok out => .ok (m.alloc out)
    | .error err => .error err

/-- The Go function `applyMeta`: `meta := entry.Resource.GetMeta()`; a nil
`meta` is replaced by a new `Meta` object; the version and the timestamp of the
entry are written into the object `meta` points to, whichever resource objects
point to it; `SetMeta(meta)` stores the pointer in the resource object. (A
pointer always leads to a `Meta` object, so the inner `none` does not arise.) -/
def applyMeta (m : Memory) (entry : Store.ResourceEntry) : Memory :=
  match m.resources[entry.Resource]? with
  | none => m
  | some o =>
    match o.metaPtr with
    | none =>
      { resources := m.resources.set entry.Resource { o with metaPtr := some m.metas.length }
        metas := m.metas ++
          [{ VersionID := entry.VersionID, LastUpdated := entry.LastUpdated }] }
    | some a =>
      match m.metas[a]? with
      | none => m
      | some x =>
        let stamped : Dstu3.Meta :=
          { x with VersionID := entry.VersionID, LastUpdated := entry.LastUpdated }
        { m with metas := m.metas.set a stamped }

/-- The Go function `newEntry`. -/
def newEntry (now : String) (m : Memory) (resource : Ptr) (version : String) :
    Store.ResourceEntry × Memory :=
  let entry : Store.ResourceEntry :=
    { Resource := resource, VersionID := version, LastUpdated := now }
  (entry, applyMeta m entry)

/-- One step of `cloneEntry`: `res, err := item.Clone()`, keeping `res` when
`err == nil` and the item itself otherwise. -/
def cloneOrShare (m : Memory) (item : Ptr) : Ptr × Memory :=
  match Clone m item with
  | .ok (res, m1) => (res, m1)
  | .error _ => (item, m)

/-- The loop of `cloneEntry` over `entry.History`. -/
def cloneHistory (m : Memory) : List Ptr → List Ptr × Memory
  | [] => ([], m)
  | item :: rest =>
    let (res, m1) := cloneOrShare m item
    let (out, m2) := cloneHistory m1 rest
    (res :: out, m2)

/-- The Go function `cloneEntry`. -/
def cloneEntry (m : Memory) (entry : Store.ResourceEntry) : Store.ResourceEntry × Memory :=
  let (res, m1) := cloneOrShare m entry.Resource
  let (hist, m2) := cloneHistory m1 entry.History
  ({ Resource := res, VersionID := entry.VersionID, LastUpdated := entry.LastUpdated,
     History := hist }, m2)

/-- The Go method `Store.Create`. Returns the result together with the store
and the memory as the call leaves them. -/
def Create (now : String) (s : Store.Store) (m : Memory) (resource : Option Ptr) :
    Except Store.StoreError Store.ResourceEntry × Store.Store × Memory :=
  match m.heap.deref resource, resource with
  | some r, some p =>
    if r.GetID = "" then (.error .resourceIdRequired, s, m)
    else
      let resourceType := r.GetResourceType
      let s1 := s.ensureType resourceType
      match s1.entry resourceType r.GetID with
      | some _ => (.error .alreadyExists, s1, m)
      | none =>
        let (entry, m1) := newEntry now m p "1"
        let s2 := s1.setEntry resourceType r.GetID entry
        let (out, m2) := cloneEntry m1 entry
        (.ok out, s2, m2)
  | _, _ => (.error .resourceIsNil, s, m)

/-- The Go method `Store.Update`. -/
def Update (now : String) (s : Store.Store) (m : Memory) (resource : Option Ptr) :
    Except Store.StoreError Store.ResourceEntry × Store.Store × Memory :=
  match m.heap.deref resource, resource with
  | some r, some p =>
    if r.GetID = "" then (.error .resourceIdRequired, s, m)
    else
      let resourceType := r.GetResourceType
      let s1 := s.ensureType resourceType
      match s1.entry resourceType r.GetID with
      | none =>
        let (entry, m1) := newEntry now m p "1"
        let s2 := s1.setEntry resourceType r.GetID entry
        let (out, m2) := cloneEntry m1 entry
        (.ok out, s2, m2)
      | some entry =>
        let history := entry.History ++ [entry.Resource]
        let nextVersion := toString (history.length + 1)
        let entry : Store.ResourceEntry :=
          { Resource := p, VersionID := nextVersion, LastUpdated := now, History := history }
        let m1 := applyMeta m entry
        let s2 := s1.setEntry resourceType r.GetID entry
        let (out, m2) := cloneEntry m1 entry
        (.ok out, s2, m2)
  | _, _ => (.error .resourceIsNil, s, m)

/-- The Go method `Store.Get`. -/
def Get (s : Store.Store) (m : Memory) (resourceType id : String) :
    Except Store.StoreError Store.ResourceEntry × Memory :=
  if resourceType = "" ∨ id = "" then (.error .typeAndIdRequired, m)
  else
    match s.entry resourceType id with
    | none => (.error .notFound, m)
    | some entry =>
      let (out, m1) := cloneEntry m entry
      (.ok out, m1)

/-- The Go method `Store.History`. -/
def History (s : Store.Store) (m : Memory) (resourceType id : String) :
    Except Store.StoreError (List Ptr) × Memory :=
  match Get s m resourceType id with
  | (.error err, m1) => (.error err, m1)
  | (.ok entry, m1) => (.ok entry.History, m1)

/-! ### Specification vocabulary for the memory -/

/-- Every pointer to a `Meta` object leads to one, and no two resource objects
point to the same `Meta` object. -/
def Memory.Separate (m : Memory) : Prop :=
  (∀ o ∈ m.resources, ∀ a, o.metaPtr = some a → a < m.metas.length) ∧
  ∀ (i j : Nat) (oi oj : Object) (a : Nat), m.resources[i]? = some oi →
    m.resources[j]? = some oj →
    oi.metaPtr = some a → oj.metaPtr = some a → i = j

/-- The states the program can be in when no resource object that the caller
builds points to the `Meta` object of another: `NewStore()` and an empty
memory, followed by any calls of `Create`, `Update` and `Delete` (with any
argument, failing or not), by reads with `Get`, and by the caller building
resource objects with the `Meta` objects of their own. -/
inductive Reachable : Store.Store → Memory → Prop
  | init : Reachable Store.NewStore {}
  | alloc {s : Store.Store} {m : Memory} (r : Dstu3.Resource) :
      Reachable s m → Reachable s (m.alloc r).2
  | create {s : Store.Store} {m : Memory} (now : String) (resource : Option Ptr) :
      Reachable s m → Reachable (Create now s m resource).2.1 (Create now s m resource).2.2
  | update {s : Store.Store} {m : Memory} (now : String) (resource : Option Ptr) :
      Reachable s m → Reachable (Update now s m resource).2.1 (Update now s m resource).2.2
  | delete {s : Store.Store} {m : Memory} (resourceType id : String) :
      Reachable s m → Reachable (s.Delete resourceType id).2 m
  | get {s : Store.Store} {m : Memory} (resourceType id : String) :
      Reachable s m → Reachable s (Get s m resourceType id).2

/-! ### Scenarios -/

/-- The caller calls `Create` with the resource object at the address `x.1`, at
time `x.2`; the store and the memory the call leaves. -/
def createAt (st : Store.Store × Memory) (x : Ptr × String) : Store.Store × Memory :=
  ((Create x.2 st.1 st.2 (some x.1)).2.1, (Create x.2 st.1 st.2 (some x.1)).2.2)

/-- The caller calls `Update` with the resource object at the address `x.1`, at
time `x.2`; the store and the memory the call leaves. -/
def updateAt (st : Store.Store × Memory) (x : Ptr × String) : Store.Store × Memory :=
  ((Update x.2 st.1 st.2 (some x.1)).2.1, (Update x.2 st.1 st.2 (some x.1)).2.2)

/-- The caller builds a patient "a" (the resource object 0) and calls `Create`
with it at time "t0" on a new store: the call makes the `Meta` object 0 for it
and returns a copy (the resource object 1). -/
def createdA : Except Store.StoreError Store.ResourceEntry × Store.Store × Memory :=
  Create "t0" Store.NewStore (({} : Memory).alloc (Store.examplePatient "a")).2 (some 0)

/-- The caller builds a second patient "a" whose field `Meta` points to the
`Meta` object of the stored one: `&Patient{..., Meta: a.GetMeta()}`. -/
def sharingA : Ptr × Memory := createdA.2.2.allocSharing (Store.examplePatient "a") 0

/-- The caller builds a second patient "a" with no `Meta` (the resource object 2). -/
def secondA : Ptr × Memory := createdA.2.2.alloc (Store.examplePatient "a")

/-- After `createdA`, the caller builds a patient "b" (the resource object 2)
and calls `Create` with it at time "t1". -/
def createdB : Except Store.StoreError Store.ResourceEntry × Store.Store × Memory :=
  Create "t1" createdA.2.1 (createdA.2.2.alloc (Store.examplePatient "b")).2 (some 2)

/-- After `createdB`, the caller builds a second patient "b" (the resource
object 4) whose field `Meta` points to the `Meta` object of the stored patient
"a". -/
def sharingB : Ptr × Memory := createdB.2.2.allocSharing (Store.examplePatient "b") 0

/-- After `createdB`, the caller builds a second patient "b" with no `Meta`. -/
def secondB : Ptr × Memory := createdB.2.2.alloc (Store.examplePatient "b")

/-- Two patient structs "a" built by the caller, the second with its field
`Meta` pointing to the `Meta` object of the first (a new, empty one). -/
def twoSharing : Memory :=
  ((({} : Memory).alloc
      (.patient { ResourceType := "Patient", ID := "a", Meta := some {} })).2.allocSharing
    (Store.examplePatient "a") 0).2

/-- Two patient structs without a resource type, built by the caller. -/
def twoUntyped : Memory :=
  ((({} : Memory).alloc Store.untypedPatient).2.alloc Store.untypedPatient).2

/-- Three patient structs "a" built by the caller, none with a `Meta`. -/
def threeSeparate : Memory :=
  (((({} : Memory).alloc (Store.examplePatient "a")).2.alloc (Store.examplePatient "a")).2.alloc
    (Store.examplePatient "a")).2

/-- The patient "a" as stored with the given version and timestamp. -/
def patientA (version lastUpdated : String) : Dstu3.Resource :=
  .patient { ResourceType := "Patient", ID := "a", Meta := some ⟨version, lastUpdated, []⟩ }

end Shared

/-! ## The search engine (`search.go`) -/

namespace Search

open Store

/-- A Go `url.Values`: each parameter name with its values in order. -/
abbrev Values := GoMap (List String)

/-- The Go expression `query[key]`. -/
def Values.values (v : Values) (key : String) : List String := (v.lookup key).getD []

/-- The Go method `url.Values.Get`: the first value of the key, or "". -/
def Values.Get (v : Values) (key : String) : String := (v.values key).headD ""

/-- The Go function `unicode.IsSpace` (the same set as the `space` table of
package fmt). -/
def isSpace (c : Char) : Bool :=
  (0x09 ≤ c.toNat ∧ c.toNat ≤ 0x0d) ∨ c.toNat = 0x20 ∨ c.toNat = 0x85 ∨ c.toNat = 0xa0 ∨
    c.toNat = 0x1680 ∨ (0x2000 ≤ c.toNat ∧ c.toNat ≤ 0x200a) ∨ c.toNat = 0x2028 ∨
    c.toNat = 0x2029 ∨ c.toNat = 0x202f ∨ c.toNat = 0x205f ∨ c.toNat = 0x3000

/-- The Go function `strings.TrimSpace`. -/
def trimSpace (s : String) : String :=
  String.mk ((s.toList.dropWhile isSpace).reverse.dropWhile isSpace).reverse

/-- The parts of a text between the occurrences of the separator. -/
def splitChars (sep : Char) : List Char → List (List Char)
  | [] => [[]]
  | c :: cs =>
    if c = sep then [] :: splitChars sep cs
    else (c :: (splitChars sep cs).headD []) :: (splitChars sep cs).tail

/-- The Go function `strings.Split` for a separator of one character. -/
def split (s : String) (sep : Char) : List String :=
  (splitChars sep s.toList).map String.mk

/-- The Go function `strings.HasPrefix` for a one-character text. -/
def hasPrefixChar (s : String) (c : Char) : Bool := s.toList.head? = some c

/-- The Go function `strings.TrimPrefix` for a one-character text. -/
def trimPrefixChar (s : String) (c : Char) : String :=
  if hasPrefixChar s c then String.mk s.toList.tail else s

/-- The Go comparison `a < b` of two strings. -/
def strLT (a b : String) : Prop := a.toList < b.toList

instance : DecidableRel strLT := fun a b => inferInstanceAs (Decidable (a.toList < b.toList))

/-- The errors `Search` returns: the error of `Store.List`, or "invalid _count value". -/
inductive SearchError where
  | store (err : StoreError)
  | invalidCount
deriving DecidableEq, Repr

/-- The Go struct `SearchResult`. -/
structure SearchResult where
  Entries : List ResourceEntry
  Included : List ResourceEntry
  Count : Nat
  IncludeDepth : Nat
deriving DecidableEq, Repr

/-- The Go struct `Searcher`, with the store in the state the search finds it. -/
structure Searcher where
  registry : Dstu3.Registry
  store : Store

/-- The Go function `NewSearcher`. -/
def NewSearcher (registry : Dstu3.Registry) (store : Store) : Searcher :=
  { registry := registry, store := store }

/-- The Go function `filterByProfile`. -/
def filterByProfile (h : Heap) (entries : List ResourceEntry) (profile : String) :
    List ResourceEntry :=
  if profile = "" then entries
  else
    entries.filter fun entry =>
      match (h[entry.Resource]?).bind fun r => r.GetMeta with
      | none => false
      | some m => m.Profile.any fun p => p = profile

/-- The Go function `sortValue`. The case `entry.Resource.(*dstu3.Observation)`
is the case that the object is an observation struct. -/
def sortValue (h : Heap) (entry : ResourceEntry) (field : String) : String :=
  if field = "_lastUpdated" then entry.LastUpdated
  else if field = "id" then
    match h[entry.Resource]? with
    | some r => r.GetID
    | none => ""
  else if field = "date" then
    match h[entry.Resource]? with
    | some (.observation obs) =>
      match obs.EffectiveDateTime with
      | some d => d
      | none =>
        match obs.EffectivePeriod with
        | some period => period.Start
        | none => obs.Issued
    | _ => ""
  else ""

/-- The Go function `sort.SliceStable`: the stable sort by `less`, which keeps
elements that are not `less` either way in their original order. -/
def sliceStable {α : Type} (less : α → α → Bool) (l : List α) : List α :=
  l.insertionSort fun a b => less b a = false

/-- The first part of `sortEntries`: the direction (`true` for descending) and
the field it sorts by, or `none` where it returns the entries as they are. -/
def sortKey (sortParam : String) : Option (Bool × String) :=
  if sortParam = "" then none
  else
    let fields := split sortParam ','
    if fields.length = 0 then none
    else
      let field := trimSpace (fields.headD "")
      if field = "" then none
      else if hasPrefixChar field '-' then some (true, trimPrefixChar field '-')
      else some (false, field)

/-- The comparison `sortEntries` passes to `sort.SliceStable`. -/
def sortLess (h : Heap) (desc : Bool) (field : String) (a b : ResourceEntry) : Bool :=
  let left := sortValue h a field
  let right := sortValue h b field
  if desc then decide (strLT right left) else decide (strLT left right)

/-- The Go function `sortEntries`. -/
def sortEntries (h : Heap) (entries : List ResourceEntry) (sortParam : String) :
    List ResourceEntry :=
  match sortKey sortParam with
  | none => entries
  | some (desc, field) => sliceStable (sortLess h desc field) entries

/-- The number a text of decimal digits denotes. -/
def decimalValue (digits : List Char) : Nat :=
  digits.foldl (fun acc c => 10 * acc + (c.toNat - '0'.toNat)) 0

/-- The method `SkipSpace` of the scanner of package fmt, as `Sscanf` runs it:
white space is skipped, a newline is an error (`none`). -/
def skipSpace : List Char → Option (List Char)
  | [] => some []
  | c :: cs =>
    if c = '\r' ∧ cs.head? = some '\n' then skipSpace cs
    else if c = '\n' then none
    else if isSpace c then skipSpace cs
    else some (c :: cs)

/-- The Go call `fmt.Sscanf(input, "%d", &parsed)` on a 64-bit platform: `none`
when it returns an error. After white space it reads an optional sign and the
decimal digits that follow, at least one, and stops there; whatever follows
the digits is left unread. The number must fit 64 bits (`strconv.ParseInt`). -/
def sscanfInt (input : String) : Option Int :=
  match skipSpace input.toList with
  | none => none
  | some [] => none
  | some (c :: cs) =>
    let negative := c = '-'
    let rest := if c = '+' ∨ c = '-' then cs else c :: cs
    let digits := rest.takeWhile Char.isDigit
    if digits = [] then none
    else if negative then
      if decimalValue digits ≤ 2 ^ 63 then some (-(decimalValue digits : Int)) else none
    else
      if decimalValue digits < 2 ^ 63 then some (decimalValue digits : Int) else none

/-- The Go function `parseCount`. -/
def parseCount (count : String) : Except SearchError Int :=
  match sscanfInt count with
  | none => .error .invalidCount
  | some parsed => if parsed < 0 then .error .invalidCount else .ok parsed

/-- What `expand` changes: the set `seen`, the slice `*result`, and the heap
(`Store.Get` allocates the copies). -/
structure Expansion where
  seen : List String
  result : List ResourceEntry
  heap : Heap

/-- The references of the resource of an entry: `entry.Resource.References()`. -/
def refsOf (h : Heap) (entry : ResourceEntry) : List Dstu3.Reference :=
  match h[entry.Resource]? with
  | some r => r.References
  | none => []

/-- The body of the inner loop of `expand`, for one reference. -/
def expandRef (s : Store) (st : Expansion) (ref : Dstu3.Reference) : Expansion :=
  match split ref.Reference '/' with
  | [type, id] =>
    let key := type ++ "/" ++ id
    if key ∈ st.seen then st
    else
      match s.Get st.heap type id with
      | (.error _, _) => st
      | (.ok included, h1) =>
        { seen := key :: st.seen, result := st.result ++ [included], heap := h1 }
  | _ => st

/-- The body of the outer loop of `expand`, for one entry. -/
def expandEntry (s : Store) (st : Expansion) (entry : ResourceEntry) : Expansion :=
  (refsOf st.heap entry).foldl (expandRef s) st

/-- The Go method `Searcher.expand`. The error it returns is always nil. -/
def expand (s : Store) (entries : List ResourceEntry) (depth maxDepth : Nat)
    (st : Expansion) : Option SearchError × Expansion :=
  if depth > maxDepth then (none, st)
  else (none, entries.foldl (expandEntry s) st)

/-- The Go method `Searcher.expandIncludes`. -/
def expandIncludes (s : Store) (h : Heap) (entries : List ResourceEntry) (query : Values) :
    Except SearchError (List ResourceEntry) × Heap :=
  let includeParam := query.values "_include"
  let includeIterate := query.values "_include:iterate"
  if includeParam.length = 0 ∧ includeIterate.length = 0 then (.ok [], h)
  else
    match expand s entries 1 2 { seen := [], result := [], heap := h } with
    | (some err, st1) => (.error err, st1.heap)
    | (none, st1) =>
      if includeIterate.length > 0 then
        match expand s st1.result 2 2 st1 with
        | (some err, st2) => (.error err, st2.heap)
        | (none, st2) => (.ok st2.result, st2.heap)
      else (.ok st1.result, st1.heap)

/-- The `_count` step of `Search`: the entries cut to the first `parsed` when
the parameter is given, or the error of `parseCount`. -/
def applyCount (entries : List ResourceEntry) (countParam : String) :
    Except SearchError (List ResourceEntry) :=
  if countParam ≠ "" then
    match parseCount countParam with
    | .error err => .error err
    | .ok parsed =>
      if parsed < (entries.length : Int) then .ok (entries.take parsed.toNat) else .ok entries
  else .ok entries

/-- The Go method `Searcher.Search`. -/
def Searcher.Search (sr : Searcher) (h : Heap) (resourceType : String) (query : Values) :
    Except SearchError SearchResult × Heap :=
  match sr.store.List h resourceType with
  | (.error err, h1) => (.error (.store err), h1)
  | (.ok entries, h1) =>
    let entries := filterByProfile h1 entries (query.Get "_profile")
    let entries := sortEntries h1 entries (query.Get "_sort")
    let count := entries.length
    match applyCount entries (query.Get "_count") with
    | .error err => (.error err, h1)
    | .ok entries =>
      match expandIncludes sr.store h1 entries query with
      | (.error err, h2) => (.error err, h2)
      | (.ok includes, h2) =>
        (.ok { Entries := entries, Included := includes, Count := count, IncludeDepth := 2 },
         h2)

/-! ### Specification vocabulary for the search engine -/

/-- The state of the expansion after level 1: the references of the primary
entries resolved, starting with nothing seen. -/
def levelOne (s : Store) (h : Heap) (entries : List ResourceEntry) : Expansion :=
  entries.foldl (expandEntry s) { seen := [], result := [], heap := h }

/-- The state of the expansion after level 2: the references of the level-1
entries resolved, with the same `seen` set and result. -/
def levelTwo (s : Store) (st1 : Expansion) : Expansion :=
  st1.result.foldl (expandEntry s) st1

/-- Whether `expand` resolves the reference: its text splits at "/" into
exactly two parts, a type and an id that `Store.Get` accepts and finds. -/
def resolvable (s : Store) (ref : Dstu3.Reference) : Bool :=
  match split ref.Reference '/' with
  | [type, id] => type ≠ "" ∧ id ≠ "" ∧ (s.entry type id).isSome
  | _ => false

/-- The texts of the references that resolve, in the order of the references. -/
def targets (s : Store) (refs : List Dstu3.Reference) : List String :=
  (refs.filter (resolvable s)).map fun ref => ref.Reference

/-- The list without the repetitions: each text at its first occurrence. -/
def firstOccurrences : List String → List String
  | [] => []
  | a :: l => a :: (firstOccurrences l).filter fun b => b ≠ a

/-- All references of the entries, scanning the entries in list order and the
references of each in the order `References()` returns them. -/
def allRefs (h : Heap) (entries : List ResourceEntry) : List Dstu3.Reference :=
  entries.flatMap (refsOf h)

/-- The level-1 targets: the texts of the references of the primary entries
that resolve, each at its first occurrence. -/
def levelOneKeys (s : Store) (h : Heap) (entries : List ResourceEntry) : List String :=
  firstOccurrences (targets s (allRefs h entries))

/-- The level-2 targets: the texts of the references of the level-1 entries
`l1` that resolve and are not level-1 targets, each at its first occurrence. -/
def levelTwoKeys (s : Store) (h : Heap) (entries l1 : List ResourceEntry) : List String :=
  firstOccurrences
    ((targets s (allRefs h l1)).filter fun k => k ∉ levelOneKeys s h entries)

/-- The included entry `inc` is a copy of the entry stored under the type and
id that the reference text `k` names. -/
def copyOfKey (s : Store) (h : Heap) (k : String) (inc : ResourceEntry) : Prop :=
  ∃ type id e, split k '/' = [type, id] ∧ s.entry type id = some e ∧
    inc.allocated h ∧ inc.value h = e.value h

/-- The resource type and the id of the resource an entry holds. -/
def typeAndId (h : Heap) (e : ResourceEntry) : Option (String × String) :=
  (h[e.Resource]?).map fun r => (r.GetResourceType, r.GetID)

/-- The resource of the entry declares the profile: its `meta.profile` list
contains a string equal to it. -/
def declaresProfile (h : Heap) (profile : String) (entry : ResourceEntry) : Prop :=
  ∃ r m, h[entry.Resource]? = some r ∧ r.GetMeta = some m ∧ profile ∈ m.Profile

/-- Whether the query has a parameter `_include` or `_include:iterate`. -/
def wantsIncludes (query : Values) : Prop :=
  ¬ ((query.values "_include").length = 0 ∧ (query.values "_include:iterate").length = 0)

/-- Whether the query has a parameter `_include:iterate`. -/
def wantsIterate (query : Values) : Prop := (query.values "_include:iterate").length > 0

/-- The store of the repository's test `TestIncludeExpand`: an organization
and a patient that refers to it, stored with `Update`. -/
def includeStore : Store × Heap :=
  updateWith
    (updateWith (NewStore, [])
      (.organization { ResourceType := "Organization", ID := "org-1" }, "t0"))
    (.patient { ResourceType := "Patient", ID := "pat-1",
                ManagingOrganization := some { Reference := "Organization/org-1" } }, "t1")

/-- The store of the repository's test `TestObservationSortDateDescending`. -/
def observationStore : Store × Heap :=
  updateWith
    (updateWith (NewStore, [])
      (.observation { ResourceType := "Observation", ID := "obs-1",
                      Issued := "2023-01-01T00:00:00Z" }, "t0"))
    (.observation { ResourceType := "Observation", ID := "obs-2",
                    Issued := "2024-01-01T00:00:00Z" }, "t1")

/-- A store with two organizations: "org-2" is part of "org-1". -/
def partOfStore : Store × Heap :=
  updateWith
    (updateWith (NewStore, [])
      (.organization { ResourceType := "Organization", ID := "org-1" }, "t0"))
    (.organization { ResourceType := "Organization", ID := "org-2",
                     PartOf := some { Reference := "Organization/org-1" } }, "t1")

/-- The query with one parameter. -/
def query1 (key value : String) : Values := (∅ : Values).insert key [value]

/-- A store with a chain of references: the patient "pat-1" refers to the
organization "org-1" and to the practitioner "pr-1" (and again to "org-1", to a
practitioner that is not stored, and by two texts that are not of the form
"Type/id"); "org-1" is part of "org-2", which is part of "org-3". -/
def referralStore : Store × Heap :=
  updateWith
    (updateWith
      (updateWith
        (updateWith
          (updateWith (NewStore, [])
            (.organization { ResourceType := "Organization", ID := "org-3" }, "t0"))
          (.organization { ResourceType := "Organization", ID := "org-2",
                           PartOf := some { Reference := "Organization/org-3" } }, "t1"))
        (.organization { ResourceType := "Organization", ID := "org-1",
                         PartOf := some { Reference := "Organization/org-2" } }, "t2"))
      (.practitioner { ResourceType := "Practitioner", ID := "pr-1" }, "t3"))
    (.patient { ResourceType := "Patient", ID := "pat-1",
                ManagingOrganization := some { Reference := "Organization/org-1" },
                GeneralPractitioner :=
                  [{ Reference := "Practitioner/pr-1" }, { Reference := "Organization/org-1" },
                   { Reference := "Practitioner/missing" }, { Reference := "urn:uuid:1" },
                   { Reference := "Organization/org-2/_history/1" }] }, "t4")

/-- The searcher over the store with the chain of references. -/
def referralSearcher : Searcher := NewSearcher Dstu3.NewRegistry referralStore.1

/-- The heap a search for the patients of `referralStore` with
`_include:iterate` leaves. -/
def referralHeap : Heap :=
  (referralSearcher.Search referralStore.2 "Patient" (query1 "_include:iterate" "*")).2

end Search

/-! ## The validator (`internal/validation`) -/

namespace Validation

open Store

/-! ### Rule sets (`structure.go`) -/

/-- The Go struct `ChoiceRule`. -/
structure ChoiceRule where
  BasePath : String := ""
  Choices : List String := []
deriving DecidableEq, Repr

/-- The Go struct `RuleSet`. -/
structure RuleSet where
  ResourceType : String := ""
  RequiredPaths : List String := []
  Choices : List ChoiceRule := []
deriving DecidableEq, Repr

/-- The Go struct `elementDefinition`. -/
structure elementDefinition where
  Path : String := ""
  Min : Int := 0
deriving DecidableEq, Repr

/-- The Go struct `structureDefinition`; `Snapshot` is its `Snapshot.Element`. -/
structure structureDefinition where
  ResourceType : String := ""
  URL : String := ""
  Type_ : String := ""
  Snapshot : List elementDefinition := []
deriving DecidableEq, Repr

/-- The Go function `strings.HasPrefix`. -/
def startsWith (s lead : String) : Bool := lead.toList.isPrefixOf s.toList

/-- The Go function `strings.TrimPrefix`. -/
def trimLeading (s lead : String) : String :=
  if startsWith s lead then String.mk (s.toList.drop lead.length) else s

/-- The Go function `strings.HasSuffix`. -/
def endsWith (s tail : String) : Bool := tail.toList.reverse.isPrefixOf s.toList.reverse

/-- The Go function `strings.TrimSuffix`. -/
def trimTrailing (s tail : String) : String :=
  if endsWith s tail then String.mk (s.toList.take (s.length - tail.length)) else s

/-- The Go function `strings.Contains`. -/
def containsText (s sub : String) : Bool := s.toList.tails.any fun rest => sub.toList.isPrefixOf rest

/-- The Go function `sameDepth`: `strings.Count(base, ".") == strings.Count(path, ".")`. -/
def sameDepth (base path : String) : Bool := base.toList.count '.' = path.toList.count '.'

/-- The body of the first loop of `loadProfile`, on the maps `required` and
`choices`. -/
def requiredStep (lead : String) (acc : GoMap Unit × GoMap (GoMap Unit))
    (element : elementDefinition) : GoMap Unit × GoMap (GoMap Unit) :=
  if element.Min ≤ 0 then acc
  else if ¬ startsWith element.Path lead then acc
  else
    let remaining := trimLeading element.Path lead
    if remaining = "" then acc
    else if containsText remaining "[x]" then (acc.1, acc.2.insert remaining ∅)
    else (acc.1.insert remaining (), acc.2)

/-- The body of the inner loop of the second loop of `loadProfile`, for one
`base` of `choices`. -/
def alternativeStep (remaining : String) (choices : GoMap (GoMap Unit)) (base : String) :
    GoMap (GoMap Unit) :=
  let stem := trimTrailing base "[x]"
  if startsWith remaining stem ∧ remaining ≠ base then
    if sameDepth stem remaining then
      choices.replace base (((choices.lookup base).getD ∅).insert remaining ())
    else choices
  else choices

/-- The body of the second loop of `loadProfile`. -/
def choicesStep (lead : String) (choices : GoMap (GoMap Unit)) (element : elementDefinition) :
    GoMap (GoMap Unit) :=
  if ¬ startsWith element.Path lead then choices
  else
    let remaining := trimLeading element.Path lead
    if remaining = "" then choices
    else choices.keys.foldl (alternativeStep remaining) choices

/-- The Go function `loadProfile`, from the point where the document has been
fetched and decoded: `fetched` is the `structureDefinition` that
`json.Unmarshal` yields, or the error of one of the steps before (the request,
the status, reading the body, decoding). The iteration order of a Go map is
unspecified; the order of the representation is used. -/
def loadProfile (fetched : Except String structureDefinition) : Except String RuleSet :=
  match fetched with
  | .error err => .error err
  | .ok profile =>
    if profile.ResourceType ≠ "StructureDefinition" then
      .error ("unexpected resourceType: " ++ profile.ResourceType)
    else
      let resourceType := profile.Type_
      if resourceType = "" then .error "profile missing type"
      else
        let lead := resourceType ++ "."
        let first := profile.Snapshot.foldl (requiredStep lead) (∅, ∅)
        let choices := profile.Snapshot.foldl (choicesStep lead) first.2
        .ok { ResourceType := resourceType
              RequiredPaths := first.1.keys
              Choices := choices.entries.map fun e => { BasePath := e.1, Choices := e.2.keys } }

/-! ### Required paths (`required.go`) -/

mutual
/-- The Go function `hasPathValue`. -/
def hasPathValue : JsonValue → List String → Bool
  | _, [] => true
  | .object typed, key :: rest => (hasPathMember typed key rest).getD false
  | .array typed, key :: rest => hasPathItems typed (key :: rest)
  | _, _ :: _ => false
/-- The loop of `hasPathValue` over the items of a list. -/
def hasPathItems : List JsonValue → List String → Bool
  | [], _ => false
  | item :: more, path => hasPathValue item path || hasPathItems more path
/-- The steps `value, ok := raw[key]` and `hasPathValue(value, rest)` of
`hasPath`: `none` when the map has no such key, and otherwise the answer for
the value the map holds (the last member of that name). -/
def hasPathMember : List (String × JsonValue) → String → List String → Option Bool
  | [], _, _ => none
  | (name, value) :: more, key, rest =>
    match hasPathMember more key rest with
    | some found => some found
    | none => if name = key then some (hasPathValue value rest) else none
end

/-- The Go function `hasPath`. -/
def hasPath (raw : List (String × JsonValue)) (path : List String) : Bool :=
  match path with
  | [] => true
  | key :: rest => (hasPathMember raw key rest).getD false

/-- The Go function `missingRequired`. The branch "unable to inspect resource"
is never taken: see `Dstu3.Resource.marshal`. -/
def missingRequired (resource : Dstu3.Resource) (rules : Option RuleSet) : List String :=
  match rules with
  | none => []
  | some rules =>
    match resource.marshal with
    | none => ["unable to marshal resource"]
    | some raw =>
      let missing := rules.RequiredPaths.foldl
        (fun missing field =>
          if ¬ hasPath raw (Search.split field '.') then
            missing ++ [rules.ResourceType ++ "." ++ field]
          else missing) []
      rules.Choices.foldl
        (fun missing choice =>
          let found := choice.Choices.any fun option => hasPath raw (Search.split option '.')
          if ¬ found then missing ++ [rules.ResourceType ++ "." ++ choice.BasePath]
          else missing) missing

/-! ### Outcomes (`outcome.go`) -/

/-- The Go struct `OperationIssue`. -/
structure OperationIssue where
  Severity : String
  Code : String
  Diagnostics : String := ""
deriving DecidableEq, Repr

/-- The Go struct `OperationOutcome`. -/
structure OperationOutcome where
  ResourceType : String
  Issue : List OperationIssue
deriving DecidableEq, Repr

/-- The Go function `NewOutcomeIssue`. -/
def NewOutcomeIssue (severity code diagnostics : String) : OperationOutcome :=
  { ResourceType := "OperationOutcome"
    Issue := [{ Severity := severity, Code := code, Diagnostics := diagnostics }] }

/-! ### The profile store and its cache (`loader.go`) -/

/-- The Go struct `ProfileStore`. A `*RuleSet` in the map may be nil. The TTL is
a `time.Duration` (nanoseconds) and the version an `int`: 64-bit integers. -/
structure ProfileStore where
  profiles : GoMap (Option RuleSet) := ∅
  cacheDir : String := ""
  cacheTTL : Int := 0
  version : Int := 0

/-- The Go struct `cacheEnvelope`. -/
structure cacheEnvelope where
  Version : Int := 0
  Rules : Option RuleSet := none
deriving DecidableEq, Repr

/-- The Go constant `CacheVersion`. -/
def CacheVersion : Int := 1

/-- The Go function `NewProfileStore`. -/
def NewProfileStore (cacheDir : String) (cacheTTL : Int) (version : Int) : ProfileStore :=
  let version := if version ≤ 0 then CacheVersion else version
  { profiles := ∅, cacheDir := cacheDir, cacheTTL := cacheTTL, version := version }

/-- The Go method `ProfileStore.Add`. -/
def ProfileStore.Add (p : ProfileStore) (profileURL : String) (rules : Option RuleSet) :
    ProfileStore :=
  { p with profiles := p.profiles.insert profileURL rules }

/-- The Go method `ProfileStore.Get`: `none` when `ok` is false. -/
def ProfileStore.Get (p : ProfileStore) (profileURL : String) : Option (Option RuleSet) :=
  p.profiles.lookup profileURL

/-- The Go call `strings.NewReplacer("://", "_", "/", "_", "\\", "_").Replace`:
at each position the first of the three texts that matches is replaced. -/
def replaceSeparators : List Char → List Char
  | [] => []
  | ':' :: '/' :: '/' :: rest => '_' :: replaceSeparators rest
  | c :: rest =>
    if c = '/' ∨ c = '\\' then '_' :: replaceSeparators rest
    else c :: replaceSeparators rest

/-- The step of `filepath.Clean` for one element of the path, on the elements
kept so far (the last one first): an empty element and "." are dropped, ".."
removes the element before it, or is kept where there is none to remove and
the path is not rooted. -/
def cleanStep (rooted : Bool) (out : List String) (element : String) : List String :=
  if element = "" ∨ element = "." then out
  else if element = ".." then
    match out with
    | top :: below => if top = ".." then ".." :: out else below
    | [] => if rooted then [] else [".."]
  else element :: out

/-- The Go function `filepath.Clean`, for the separator "/". -/
def filepathClean (path : String) : String :=
  if path = "" then "."
  else
    let rooted : Bool := path.toList.head? = some '/'
    let out := ((Search.split path '/').foldl (cleanStep rooted) []).reverse
    if rooted then "/" ++ "/".intercalate out
    else if out = [] then "." else "/".intercalate out

/-- The Go function `filepath.Join` of a directory and a file name. -/
def filepathJoin (dir file : String) : String :=
  if dir ≠ "" then filepathClean (dir ++ "/" ++ file)
  else if file ≠ "" then filepathClean file
  else ""

/-- The Go method `ProfileStore.cachePath`. -/
def ProfileStore.cachePath (p : ProfileStore) (profileURL : String) : String :=
  let sanitized := String.mk (replaceSeparators profileURL.toList)
  filepathJoin p.cacheDir (sanitized ++ ".json")

/-- The JSON object `json.Marshal` writes for a `ChoiceRule`. -/
def ChoiceRule.toJson (c : ChoiceRule) : JsonValue :=
  .object [("basePath", .string c.BasePath), ("choices", .array (c.Choices.map .string))]

/-- The JSON object `json.Marshal` writes for a `RuleSet` (a nil slice, written
`null`, and an empty one are not told apart: both are read back as an empty
list). -/
def RuleSet.toJson (r : RuleSet) : JsonValue :=
  .object [("resourceType", .string r.ResourceType),
    ("requiredPaths", .array (r.RequiredPaths.map .string)),
    ("choices", .array (r.Choices.map ChoiceRule.toJson))]

/-- The JSON object `json.Marshal` writes for a `cacheEnvelope`. -/
def cacheEnvelope.toJson (e : cacheEnvelope) : JsonValue :=
  .object [("version", .integer e.Version),
    ("rules", match e.Rules with
      | none => .null
      | some rules => rules.toJson)]

/-- The member that `json.Unmarshal` decodes into the struct field tagged
`name`: the last one whose name matches. (When several members match one
field, `encoding/json` decodes each of them in turn into the field; only the
last one is kept here. `json.Marshal` writes no such object.) -/
def fieldMember (fields : List (String × JsonValue)) (name : String) : Option JsonValue :=
  (fields.reverse.find? fun kv => foldName kv.1 = foldName name).map Prod.snd

/-- What `json.Unmarshal` stores into a `string` that holds `cur`, given the
member for it (`none`: there is no such member): `null` leaves the field as it
is, a text is stored, anything else is an error. -/
def decodeString (cur : String) : Option JsonValue → Option String
  | none => some cur
  | some .null => some cur
  | some (.string s) => some s
  | some _ => none

/-- What `json.Unmarshal` stores into an `int` that holds `cur`: an integer
literal that fits 64 bits is stored, any other number is an error. -/
def decodeInt (cur : Int) : Option JsonValue → Option Int
  | none => some cur
  | some .null => some cur
  | some (.integer n) => if -2 ^ 63 ≤ n ∧ n < 2 ^ 63 then some n else none
  | some _ => none

/-- The elements of an array, decoded one by one; an error of one is an error
of the whole. -/
def decodeAll {α : Type} (decode : JsonValue → Option α) : List JsonValue → Option (List α)
  | [] => some []
  | item :: more =>
    match decode item, decodeAll decode more with
    | some value, some values => some (value :: values)
    | _, _ => none

/-- What `json.Unmarshal` stores into a `[]string`. -/
def decodeStrings : Option JsonValue → Option (List String)
  | none => some []
  | some .null => some []
  | some (.array items) => decodeAll (fun item => decodeString "" (some item)) items
  | some _ => none

/-- What `json.Unmarshal` stores into a `ChoiceRule`. -/
def decodeChoiceRule : JsonValue → Option ChoiceRule
  | .null => some {}
  | .object fields =>
    match decodeString "" (fieldMember fields "basePath"),
      decodeStrings (fieldMember fields "choices") with
    | some basePath, some choices => some { BasePath := basePath, Choices := choices }
    | _, _ => none
  | _ => none

/-- What `json.Unmarshal` stores into a `[]ChoiceRule`. -/
def decodeChoices : Option JsonValue → Option (List ChoiceRule)
  | none => some []
  | some .null => some []
  | some (.array items) => decodeAll decodeChoiceRule items
  | some _ => none

/-- What `json.Unmarshal` stores into a new `RuleSet`, given a JSON object. -/
def decodeRuleSet (fields : List (String × JsonValue)) : Option RuleSet :=
  match decodeString "" (fieldMember fields "resourceType"),
    decodeStrings (fieldMember fields "requiredPaths"),
    decodeChoices (fieldMember fields "choices") with
  | some resourceType, some requiredPaths, some choices =>
    some { ResourceType := resourceType, RequiredPaths := requiredPaths, Choices := choices }
  | _, _, _ => none

/-- The Go call `json.Unmarshal(data, &envelope)` on a `cacheEnvelope`, given
the value the text denotes: `none` when it returns an error. Objects in which
two members match the same field are not modelled beyond "the last one
counts". -/
def decodeEnvelope : JsonValue → Option cacheEnvelope
  | .null => some {}
  | .object fields =>
    match decodeInt 0 (fieldMember fields "version"), fieldMember fields "rules" with
    | some version, none => some { Version := version, Rules := none }
    | some version, some .null => some { Version := version, Rules := none }
    | some version, some (.object rules) =>
      match decodeRuleSet rules with
      | some rules => some { Version := version, Rules := some rules }
      | none => none
    | _, _ => none
  | _ => none

/-- The content of a file: bytes that cannot be read (`os.ReadFile` fails),
bytes that are not JSON text, or JSON text (the value it denotes). -/
inductive FileData where
  | unreadable
  | text (bytes : String)
  | json (value : JsonValue)
deriving DecidableEq, Repr

/-- A file: its content and its modification time. -/
structure File where
  data : FileData
  ModTime : Int
deriving DecidableEq, Repr

/-- The file system: the files by path; on a read-only file system
`os.MkdirAll` and `os.WriteFile` fail. Directories are not modelled. -/
structure FileSystem where
  files : GoMap File := ∅
  readOnly : Bool := false

/-- The Go call `time.Since(t)` at time `now`: the difference, kept within the
range of a `time.Duration`. -/
def since (now t : Int) : Int := max (-2 ^ 63) (min (2 ^ 63 - 1) (now - t))

/-- The Go method `ProfileStore.readCache` at time `now`: the rule set of a
hit, `none` for a miss (`nil, false`). -/
def ProfileStore.readCache (p : ProfileStore) (fs : FileSystem) (now : Int)
    (profileURL : String) : Option RuleSet :=
  let path := p.cachePath profileURL
  match fs.files.lookup path with
  | none => none
  | some info =>
    if p.cacheTTL > 0 ∧ since now info.ModTime > p.cacheTTL then none
    else
      match info.data with
      | .unreadable => none
      | .text _ => none
      | .json value =>
        match decodeEnvelope value with
        | none => none
        | some envelope =>
          if envelope.Version ≠ p.version ∨ envelope.Rules = none then none
          else
            match envelope.Rules with
            | none => none
            | some rules => if rules.ResourceType = "" then none else some rules

/-- The Go method `ProfileStore.writeCache` at time `now`: the error it
returns, if any, and the file system it leaves. -/
def ProfileStore.writeCache (p : ProfileStore) (fs : FileSystem) (now : Int)
    (profileURL : String) (rules : Option RuleSet) : Option String × FileSystem :=
  let path := p.cachePath profileURL
  if fs.readOnly then (some "read-only file system", fs)
  else
    let data := cacheEnvelope.toJson { Version := p.version, Rules := rules }
    (none, { fs with files := fs.files.insert path { data := .json data, ModTime := now } })

/-- The Go method `ProfileStore.loadProfileRules` at time `now`: the rule set
or the error it returns, and the file system it leaves. `fetched` is what the
request for the profile document yields if it is made (see `loadProfile`). -/
def ProfileStore.loadProfileRules (p : ProfileStore) (fs : FileSystem) (now : Int)
    (fetched : Except String structureDefinition) (profileURL : String) :
    Except String RuleSet × FileSystem :=
  match (if p.cacheDir ≠ "" then p.readCache fs now profileURL else none) with
  | some cached => (.ok cached, fs)
  | none =>
    match loadProfile fetched with
    | .error err => (.error err, fs)
    | .ok profile =>
      if p.cacheDir ≠ "" then
        match p.writeCache fs now profileURL (some profile) with
        | (some err, fs1) => (.error err, fs1)
        | (none, fs1) => (.ok profile, fs1)
      else (.ok profile, fs)

/-- The loop of `ProfileStore.LoadDefaults` over the sorted resource types: the
error it returns, if any, and the profile store and the file system it leaves.
`fetch` is the network: what the request for each profile document yields; and
`clock` is the time at which each profile source is loaded. -/
def ProfileStore.loadSources (clock : String → Int)
    (fetch : String → Except String structureDefinition) (registry : Dstu3.Registry) :
    ProfileStore → FileSystem → List String → Option String × ProfileStore × FileSystem
  | p, fs, [] => (none, p, fs)
  | p, fs, resourceType :: rest =>
    match registry.Info resourceType with
    | none => ProfileStore.loadSources clock fetch registry p fs rest
    | some info =>
      if info.ProfileSource = "" then ProfileStore.loadSources clock fetch registry p fs rest
      else
        match p.loadProfileRules fs (clock info.ProfileSource) (fetch info.ProfileSource)
            info.ProfileSource with
        | (.error err, fs1) =>
          (some ("load profile " ++ info.ProfileSource ++ ": " ++ err), p, fs1)
        | (.ok rules, fs1) =>
          ProfileStore.loadSources clock fetch registry
            (p.Add info.ProfileSource (some rules)) fs1 rest

/-- The Go method `ProfileStore.LoadDefaults`. -/
def ProfileStore.LoadDefaults (p : ProfileStore) (fs : FileSystem) (clock : String → Int)
    (fetch : String → Except String structureDefinition) (registry : Dstu3.Registry) :
    Option String × ProfileStore × FileSystem :=
  ProfileStore.loadSources clock fetch registry p fs (sortStrings registry.ResourceTypes)

/-! ### The validator (`validator.go`) -/

/-- The Go struct `Validator`; `profiles` may be nil. -/
structure Validator where
  registry : Dstu3.Registry
  profiles : Option ProfileStore

/-- The Go function `NewValidator`. -/
def NewValidator (registry : Dstu3.Registry) (profiles : Option ProfileStore) : Validator :=
  { registry := registry, profiles := profiles }

/-- The Go method `Validator.applyProfile`: the message of the error it
returns, if any. -/
def Validator.applyProfile (v : Validator) (resource : Dstu3.Resource) (profileURL : String) :
    Option String :=
  match v.profiles with
  | none => some "profiles not loaded"
  | some profiles =>
    match profiles.Get profileURL with
    | none => some ("profile not loaded: " ++ profileURL)
    | some rules =>
      let missing := missingRequired resource rules
      if missing.length > 0 then
        some ("missing required fields: " ++ ", ".intercalate missing)
      else none

/-- The Go method `Validator.applyBaseProfile`. -/
def Validator.applyBaseProfile (v : Validator) (resource : Dstu3.Resource) : Option String :=
  match v.registry.Info resource.GetResourceType with
  | none => some ("unsupported resource type: " ++ resource.GetResourceType)
  | some info =>
    if info.ProfileSource = "" then none
    else v.applyProfile resource info.ProfileSource

/-- The Go method `Validator.Validate`: the outcome it returns, `none` for nil.
The resource is `none` for a nil interface value. -/
def Validator.Validate (v : Validator) (resource : Option Dstu3.Resource) (profile : String) :
    Option OperationOutcome :=
  match resource with
  | none => some (NewOutcomeIssue "error" "invalid" "resource is nil")
  | some resource =>
    let resourceType := resource.GetResourceType
    match v.registry.Info resourceType with
    | none =>
      some (NewOutcomeIssue "error" "invalid" ("unsupported resource type: " ++ resourceType))
    | some _ =>
      if (match resource.GetMeta with
          | none => false
          | some m => m.Profile.any fun p => Search.trimSpace p = "") then
        some (NewOutcomeIssue "error" "invalid" "meta.profile contains empty value")
      else if profile ≠ "" ∧ Search.trimSpace profile = "" then
        some (NewOutcomeIssue "error" "invalid" "profile must not be empty")
      else
        match (if profile ≠ "" then v.applyProfile resource profile else none) with
        | some err => some (NewOutcomeIssue "error" "invalid" err)
        | none =>
          match v.applyBaseProfile resource with
          | some err => some (NewOutcomeIssue "error" "invalid" err)
          | none => none

/-! ### Specification vocabulary for the validator -/

/-- The components of a path can be descended from a value: with no component
left the descent is done; into an object it looks up the next key; into a list
it succeeds if one element admits the remaining path; into anything else, with
components left, it fails. -/
inductive Descends : JsonValue → List String → Prop
  | done (value : JsonValue) : Descends value []
  | object (fields : List (String × JsonValue)) (key : String) (rest : List String)
      (value : JsonValue) :
      JsonValue.member fields key = some value → Descends value rest →
      Descends (.object fields) (key :: rest)
  | array (items : List JsonValue) (item : JsonValue) (key : String) (rest : List String) :
      item ∈ items → Descends item (key :: rest) → Descends (.array items) (key :: rest)

/-- The names "{ResourceType}.{path}" of the required paths of the rules that
the attribute tree `raw` lacks, in the order of the rules. -/
def missingPaths (raw : List (String × JsonValue)) (rules : RuleSet) : List String :=
  (rules.RequiredPaths.filter fun field => !hasPath raw (Search.split field '.')).map
    fun field => rules.ResourceType ++ "." ++ field

/-- Whether one of the alternative paths of the choice group exists in the
attribute tree `raw`. -/
def groupSatisfied (raw : List (String × JsonValue)) (choice : ChoiceRule) : Bool :=
  choice.Choices.any fun option => hasPath raw (Search.split option '.')

/-- The names "{ResourceType}.{basePath}" of the choice groups of the rules
that the attribute tree `raw` does not satisfy, in the order of the rules. -/
def unsatisfiedGroups (raw : List (String × JsonValue)) (rules : RuleSet) : List String :=
  (rules.Choices.filter fun choice => !groupSatisfied raw choice).map
    fun choice => rules.ResourceType ++ "." ++ choice.BasePath

/-- The rule set of the profile is loaded and the resource misses none of its
rules: `missingRequired` reports nothing. -/
def Validator.satisfied (v : Validator) (resource : Dstu3.Resource) (profileURL : String) :
    Prop :=
  ∃ profiles rules, v.profiles = some profiles ∧ profiles.Get profileURL = some rules ∧
    missingRequired resource rules = []

/-- An element of a profile document contributes to the rules derived for the
target type: its minimum occurrence is positive, its path starts with
"{targetType}." and goes on after it. -/
def contributes (targetType : String) (element : elementDefinition) : Prop :=
  0 < element.Min ∧ startsWith element.Path (targetType ++ ".") = true ∧
    trimLeading element.Path (targetType ++ ".") ≠ ""

/-- The relative path `path` is an alternative of the choice group with base
`base`, by the test of the second loop of `loadProfile`: it differs from the
base, starts with the base stripped of its trailing "[x]", and has as many "."
as that stripped base. -/
def alternativeOf (base path : String) : Prop :=
  startsWith path (trimTrailing base "[x]") = true ∧ path ≠ base ∧
    sameDepth (trimTrailing base "[x]") path = true

/-- The map `choices` of `loadProfile` holds the path `path` for the base
`base`. -/
def recorded (choices : GoMap (GoMap Unit)) (base path : String) : Prop :=
  ∃ options, choices.lookup base = some options ∧ path ∈ options.keys

/-- The name of the cache file of a profile: the URL with every "://", "/" and
"\\" replaced by "_", followed by ".json". -/
def cacheFileName (profileURL : String) : String :=
  String.mk (replaceSeparators profileURL.toList) ++ ".json"

/-- The text that `filepath.Join(dir, file)` puts before the name of a file
that lies directly in `dir`: nothing for the empty directory and for a
directory that cleans to "."; "/" for one that cleans to "/"; and otherwise the
cleaned directory followed by "/". -/
def directoryPart (dir : String) : String :=
  if dir = "" then ""
  else
    let rooted : Bool := dir.toList.head? = some '/'
    let out := ((Search.split dir '/').foldl (cleanStep rooted) []).reverse
    (if rooted then "/" else "") ++ (if out = [] then "" else "/".intercalate out ++ "/")

/-- The profile source of the patients in `NewRegistry`. -/
def patientSource : String := "https://hl7.org/fhir/STU3/patient.profile.json"

/-- A rule set that requires the gender of a patient. -/
def genderRules : RuleSet := { ResourceType := "Patient", RequiredPaths := ["gender"] }

/-- A rule set that requires the birth date of a patient. -/
def birthDateRules : RuleSet := { ResourceType := "Patient", RequiredPaths := ["birthDate"] }

/-- The rule set of the repository's test `TestMissingRequiredNestedPath`. -/
def nestedRules : RuleSet :=
  { ResourceType := "Patient", RequiredPaths := ["gender", "name.family"] }

/-- The rule set of the repository's test `TestMissingRequiredChoice`, with a
second choice group that has no alternatives. -/
def choiceRules : RuleSet :=
  { ResourceType := "Observation"
    Choices := [{ BasePath := "effective[x]",
                  Choices := ["effectiveDateTime", "effectivePeriod"] },
                { BasePath := "value[x]", Choices := [] }] }

/-- The patient `{"resourceType":"Patient","id":"pat-1"}`. -/
def patient1 : Dstu3.Resource := .patient { ResourceType := "Patient", ID := "pat-1" }

/-- The patient "pat-1" with gender "female". -/
def patient1Female : Dstu3.Resource :=
  .patient { ResourceType := "Patient", ID := "pat-1", Gender := "female" }

/-- The patient of `TestMissingRequiredNestedPath` after the test has set its
gender and name. -/
def patientSmith : Dstu3.Resource :=
  .patient { ResourceType := "Patient", Gender := "female", Name := [{ Family := ["Smith"] }] }

/-- An observation with an effective date and time. -/
def observationDated : Dstu3.Resource :=
  .observation { ResourceType := "Observation",
                 EffectiveDateTime := some "2024-01-01T00:00:00Z" }

/-- A validator whose only loaded rule set is `genderRules`, as the base
profile of the patients. -/
def genderValidator : Validator :=
  NewValidator Dstu3.NewRegistry
    (some ((NewProfileStore "" 0 0).Add patientSource (some genderRules)))

/-- A validator with `birthDateRules` as the base profile of the patients and
`genderRules` loaded as the profile "http://example.org/gender". -/
def twoProfileValidator : Validator :=
  NewValidator Dstu3.NewRegistry
    (some (((NewProfileStore "" 0 0).Add patientSource (some birthDateRules)).Add
      "http://example.org/gender" (some genderRules)))

/-- A profile document for observations: a required status (listed twice), a
required choice element, an optional choice element, a required nested
element, an element of another type and the root element. -/
def observationProfile : structureDefinition :=
  { ResourceType := "StructureDefinition"
    URL := "http://example.org/observation"
    Type_ := "Observation"
    Snapshot :=
      [{ Path := "Observation", Min := 0 },
       { Path := "Observation.", Min := 1 },
       { Path := "Observation.status", Min := 1 },
       { Path := "Observation.effective[x]", Min := 1 },
       { Path := "Observation.effectiveDateTime", Min := 0 },
       { Path := "Observation.value[x]", Min := 0 },
       { Path := "Observation.code.coding", Min := 1 },
       { Path := "Observation.subject", Min := 0 },
       { Path := "Patient.name", Min := 1 },
       { Path := "Observation.status", Min := 1 }] }

/-- A profile document for observations whose required choice element is the
bare choice marker, followed by the element whose path is the prefix alone and
by an optional element. -/
def markerProfile : structureDefinition :=
  { ResourceType := "StructureDefinition"
    URL := "http://example.org/marker"
    Type_ := "Observation"
    Snapshot :=
      [{ Path := "Observation.[x]", Min := 1 },
       { Path := "Observation.", Min := 0 },
       { Path := "Observation.value", Min := 0 }] }

/-- The profile source of the advance directives in `NewRegistry`. -/
def advanceDirectiveSource : String :=
  "https://hl7.org/fhir/STU3/advancedirective.profile.json"

/-- A network on which the profile document of the advance directives can be
fetched and no other document can. -/
def oneSourceNetwork (url : String) : Except String structureDefinition :=
  if url = advanceDirectiveSource then
    .ok { ResourceType := "StructureDefinition", Type_ := "AdvanceDirective",
          Snapshot := [{ Path := "AdvanceDirective.patient", Min := 1 }] }
  else .error "unreachable"

/-- A profile store with the cache directory "/cache", a TTL of one hour and
cache version 1. -/
def hourStore : ProfileStore := NewProfileStore "/cache" 3600000000000 1

/-- The file system after `hourStore` wrote `genderRules` for `patientSource`
at time 1000 into the empty file system. -/
def cachedFiles : FileSystem := (hourStore.writeCache {} 1000 patientSource (some genderRules)).2

end Validation

/-! ## Bundles (`bundle.go`) -/

namespace Bundle

/-- The Go struct `EntrySearch`. -/
structure EntrySearch where
  Mode : String := ""
deriving DecidableEq, Repr

/-- The Go struct `EntryResponse`. -/
structure EntryResponse where
  Status : String := ""
deriving DecidableEq, Repr

/-- The Go struct `Entry`; `Resource` is the address of the resource object, or
`none` for the nil interface. -/
structure Entry where
  FullURL : String := ""
  Resource : Option Ptr := none
  Search : Option EntrySearch := none
  Response : Option EntryResponse := none
deriving DecidableEq, Repr

/-- The Go struct `Bundle`. -/
structure Bundle where
  ResourceType : String
  Type_ : String
  Total : Int := 0
  Entry : List Bundle.Entry := []
deriving DecidableEq, Repr

/-- The Go function `NewSearchBundle`. -/
def NewSearchBundle (total : Int) : Bundle :=
  { ResourceType := "Bundle", Type_ := "searchset", Total := total }

/-- The Go function `NewBatchResponseBundle`. -/
def NewBatchResponseBundle : Bundle :=
  { ResourceType := "Bundle", Type_ := "batch-response" }

end Bundle

/-! ## The handlers (`handlers.go`) -/

namespace Api

open Store

/-- The Go struct `Server`, with the state of the store behind its pointer. (The
field `Searcher` is used by `handleSearch` alone, which is not modelled here.) -/
structure Server where
  Registry : Dstu3.Registry
  Validator : Validation.Validator
  Store : Store.Store

/-- What a handler sends with `c.JSON(status, body)`: an operation outcome, the
resource of an entry (its address; the JSON text written for it is not
modelled), or a bundle. -/
inductive Response where
  | outcome (status : Nat) (body : Validation.OperationOutcome)
  | resource (status : Nat) (body : Ptr)
  | bundle (status : Nat) (body : Bundle.Bundle)
deriving DecidableEq, Repr

/-- The text `err.Error()` of an error of the store. -/
def errorText : StoreError → String
  | .resourceIsNil => "resource is nil"
  | .resourceIdRequired => "resource id is required"
  | .alreadyExists => "resource already exists"
  | .typeAndIdRequired => "resource type and id are required"
  | .typeRequired => "resource type is required"
  | .notFound => "resource not found"

/-- The Go method `Server.decodeBody`; the body of the request can be read. -/
def Server.decodeBody (s : Server) (body : Dstu3.Payload) :
    Except Dstu3.DecodeError Dstu3.Resource :=
  s.Registry.DecodeResource body

/-- The Go method `Server.handleCreate` for the path parameter `type` and the
request body `body`, at time `now`: the response, and the server and the heap
as the call leaves them. The decoded resource is a new object of the heap. -/
def Server.handleCreate (s : Server) (h : Heap) (now : String) (typeParam : String)
    (body : Dstu3.Payload) : Response × Server × Heap :=
  match s.decodeBody body with
  | .error err =>
    (.outcome 400 (Validation.NewOutcomeIssue "error" "invalid" err.Error), s, h)
  | .ok resource =>
    let (p, h1) := h.alloc resource
    if resource.GetResourceType ≠ typeParam then
      (.outcome 400
        (Validation.NewOutcomeIssue "error" "invalid" "resourceType does not match URL"), s, h1)
    else if resource.GetID = "" then
      (.outcome 400 (Validation.NewOutcomeIssue "error" "required" "id is required"), s, h1)
    else
      match s.Validator.Validate (some resource) "" with
      | some outcome => (.outcome 422 outcome, s, h1)
      | none =>
        match s.Store.Create now h1 (some p) with
        | (.error err, store, h2) =>
          (.outcome 409 (Validation.NewOutcomeIssue "error" "conflict" (errorText err)),
            { s with Store := store }, h2)
        | (.ok entry, store, h2) => (.resource 201 entry.Resource, { s with Store := store }, h2)

/-! ### A request decoded into `map[string]any` -/

/-- The members of an object that a Go map keeps: for each name the last one. -/
def lastMembers : List (String × JsonValue) → List (String × JsonValue)
  | [] => []
  | kv :: more =>
    if more.any fun x => x.1 = kv.1 then lastMembers more else kv :: lastMembers more

/-- The members of a Go map in the order `json.Marshal` writes them: ascending
by name. -/
def sortMembers (fields : List (String × JsonValue)) : List (String × JsonValue) :=
  fields.insertionSort fun a b => strLE a.1 b.1

mutual
/-- The value that `json.Marshal` writes for the Go `any` into which
`json.Unmarshal` has decoded a JSON value: an object has become a
`map[string]any`, which keeps one member per name and is written in ascending
order of the names; a number has become a `float64`, and `float64` gives the
number written for it, or `none` where the number is out of range, which makes
`json.Unmarshal` fail. -/
def asAny (float64 : JsonValue → Option JsonValue) : JsonValue → Option JsonValue
  | .null => some .null
  | .bool b => some (.bool b)
  | .integer n => float64 (.integer n)
  | .fraction literal => float64 (.fraction literal)
  | .string s => some (.string s)
  | .array items => (asAnyItems float64 items).map .array
  | .object fields =>
    (asAnyFields float64 fields).map fun members => .object (sortMembers (lastMembers members))
/-- The elements of an array, each as `asAny` gives it. -/
def asAnyItems (float64 : JsonValue → Option JsonValue) :
    List JsonValue → Option (List JsonValue)
  | [] => some []
  | item :: more =>
    match asAny float64 item, asAnyItems float64 more with
    | some x, some xs => some (x :: xs)
    | _, _ => none
/-- The members of an object, each value as `asAny` gives it. -/
def asAnyFields (float64 : JsonValue → Option JsonValue) :
    List (String × JsonValue) → Option (List (String × JsonValue))
  | [] => some []
  | (name, value) :: more =>
    match asAny float64 value, asAnyFields float64 more with
    | some x, some xs => some ((name, x) :: xs)
    | _, _ => none
end

/-- What `json.Unmarshal` stores into a `map[string]any` that holds `cur`
(`[]` for the nil map): `null` stores nil, the members of an object are entered
into the map, anything else is an `UnmarshalTypeError`. The map is kept as its
members in the order `json.Marshal` writes them. -/
def decodeMap (float64 : JsonValue → Option JsonValue) (cur : List (String × JsonValue)) :
    JsonValue → Except Dstu3.DecodeError (List (String × JsonValue))
  | .null => .ok []
  | .object fields =>
    match asAnyFields float64 fields with
    | none => .error (.mismatch "number")
    | some members => .ok (sortMembers (lastMembers (cur ++ members)))
  | v => .error (.mismatch (Dstu3.kindOf v))

/-- The anonymous struct `bundleReq` of `handleBatchTransaction`. -/
structure bundleReq where
  ResourceType : String := ""
  Type_ : String := ""
  Entry : List (List (String × JsonValue)) := []
deriving DecidableEq, Repr

/-- One member of a JSON object decoded into a `bundleReq`; a member that
matches no field is passed over. -/
def bundleReq.decodeMember (float64 : JsonValue → Option JsonValue) (req : bundleReq)
    (name : String) (v : JsonValue) : Except Dstu3.DecodeError bundleReq :=
  if Dstu3.sameName name "resourceType" then
    (Dstu3.decodeText req.ResourceType v).map fun x => { req with ResourceType := x }
  else if Dstu3.sameName name "type" then
    (Dstu3.decodeText req.Type_ v).map fun x => { req with Type_ := x }
  else if Dstu3.sameName name "entry" then
    (Dstu3.decodeSlice (decodeMap float64) [] req.Entry v).map fun x => { req with Entry := x }
  else .ok req

/-- The Go call `json.Unmarshal(body, &bundleReq)`. -/
def decodeBundleReq (float64 : JsonValue → Option JsonValue) (body : Dstu3.Payload) :
    Except Dstu3.DecodeError bundleReq :=
  match body with
  | .malformed message => .error (.malformed message)
  | .json value => Dstu3.decodeObject (bundleReq.decodeMember float64) {} value

/-- The body of the loop of `handleBatchTransaction` for one entry, at time
`now`: the entry of the response, and the server and the heap as the iteration
leaves them. `json.Marshal(resourceRaw)` writes the value the map holds. -/
def Server.batchEntry (s : Server) (h : Heap) (now : String)
    (entry : List (String × JsonValue)) : Bundle.Entry × Server × Heap :=
  match JsonValue.member entry "resource" with
  | none => ({ Response := some { Status := "400" } }, s, h)
  | some resourceRaw =>
    match s.Registry.DecodeResource (.json resourceRaw) with
    | .error _ => ({ Response := some { Status := "400" } }, s, h)
    | .ok resource =>
      let (p, h1) := h.alloc resource
      match s.Validator.Validate (some resource) "" with
      | some _ => ({ Response := some { Status := "400" } }, s, h1)
      | none =>
        match s.Store.Update now h1 (some p) with
        | (.ok _, store, h2) =>
          ({ Response := some { Status := "200" } }, { s with Store := store }, h2)
        | (.error _, store, h2) =>
          ({ Response := some { Status := "400" } }, { s with Store := store }, h2)

/-- The loop of `handleBatchTransaction` over the entries of the request, from
the entry number `i` on; `now i` is the time at which entry `i` is processed. -/
def Server.batchEntries (now : Nat → String) :
    Nat → Server → Heap → List (List (String × JsonValue)) → List Bundle.Entry × Server × Heap
  | _, s, h, [] => ([], s, h)
  | i, s, h, entry :: more =>
    let (resp, s1, h1) := s.batchEntry h (now i) entry
    let (rest, s2, h2) := Server.batchEntries now (i + 1) s1 h1 more
    (resp :: rest, s2, h2)

/-- The Go method `Server.handleBatchTransaction` for the request body `body`. -/
def Server.handleBatchTransaction (s : Server) (h : Heap)
    (float64 : JsonValue → Option JsonValue) (now : Nat → String) (body : Dstu3.Payload) :
    Response × Server × Heap :=
  match decodeBundleReq float64 body with
  | .error err =>
    (.outcome 400 (Validation.NewOutcomeIssue "error" "invalid" err.Error), s, h)
  | .ok req =>
    if req.ResourceType ≠ "Bundle" then
      (.outcome 400 (Validation.NewOutcomeIssue "error" "invalid" "expected Bundle"), s, h)
    else
      let (entries, s1, h1) := Server.batchEntries now 0 s h req.Entry
      (.bundle 200 { Bundle.NewBatchResponseBundle with Entry := entries }, s1, h1)

/-! ### Specification vocabulary for the handlers -/

/-- The names of the JSON members that the struct of the resource declares: the
tags of the embedded `ResourceBase` and of its own fields (`types.go`). -/
def fieldNames : Dstu3.Resource → List String
  | .patient _ =>
    ["resourceType", "id", "meta", "text", "contained", "identifier", "name", "telecom",
     "gender", "birthDate", "address", "managingOrganization", "generalPractitioner"]
  | .practitioner _ =>
    ["resourceType", "id", "meta", "text", "contained", "identifier", "name", "telecom",
     "address"]
  | .practitionerRole _ =>
    ["resourceType", "id", "meta", "text", "contained", "practitioner", "organization",
     "location", "healthcareService"]
  | .organization _ =>
    ["resourceType", "id", "meta", "text", "contained", "identifier", "name", "telecom",
     "address", "partOf"]
  | .observation _ =>
    ["resourceType", "id", "meta", "text", "contained", "status", "code", "subject",
     "performer", "encounter", "specimen", "device", "effectiveDateTime", "effectivePeriod",
     "issued"]
  | .flag _ =>
    ["resourceType", "id", "meta", "text", "contained", "status", "category", "code",
     "subject", "encounter", "author"]
  | .consent _ =>
    ["resourceType", "id", "meta", "text", "contained", "status", "patient", "actor",
     "organization", "sourceReference"]
  | .advanceDirective _ =>
    ["resourceType", "id", "meta", "text", "contained", "patient", "author", "sourceReference"]
  | .location _ =>
    ["resourceType", "id", "meta", "text", "contained", "status", "name", "description",
     "mode", "type", "telecom", "address", "physicalType", "managingOrganization", "partOf"]
  | .task _ =>
    ["resourceType", "id", "meta", "text", "contained", "status", "intent", "priority",
     "description", "focus", "for", "requester", "owner", "executionPeriod", "reasonCode",
     "basedOn"]

/-- The struct of the resource declares a field for the member `name`: the name
is, without regard to case, one of its tags. -/
def declares (resource : Dstu3.Resource) (name : String) : Prop :=
  ∃ tag ∈ fieldNames resource, Dstu3.sameName name tag = true

/-- The entry of a batch is accepted by the server in the state (`s`, `h`) at
time `now`: it carries a resource that decodes, passes `Validate` and is
accepted by `Store.Update`. -/
def Server.accepts (s : Server) (h : Heap) (now : String)
    (entry : List (String × JsonValue)) : Prop :=
  ∃ resourceRaw resource out,
    JsonValue.member entry "resource" = some resourceRaw ∧
    s.Registry.DecodeResource (.json resourceRaw) = .ok resource ∧
    s.Validator.Validate (some resource) "" = none ∧
    (s.Store.Update now (h ++ [resource]) (some h.length)).1 = .ok out

/-- The server of the repository's tests (`setupTestServer`): the ten types of
`NewRegistry`, for each a rule set without rules, and a new store. -/
def testServer : Server :=
  { Registry := Dstu3.NewRegistry
    Validator := Validation.NewValidator Dstu3.NewRegistry
      (some (Dstu3.NewRegistry.ResourceTypes.foldl
        (fun profiles resourceType =>
          match Dstu3.NewRegistry.Info resourceType with
          | none => profiles
          | some info =>
            if info.ProfileSource = "" then profiles
            else profiles.Add info.ProfileSource (some { ResourceType := resourceType }))
        (Validation.NewProfileStore "" 0 Validation.CacheVersion)))
    Store := NewStore }

/-- The request body of the repository's test `TestCreateRejectsUnknownFields`. -/
def unknownFieldBody : Dstu3.Payload :=
  .json (.object [("resourceType", .string "Patient"), ("id", .string "pat-1"),
    ("unknownField", .string "nope")])

/-- The request body of the repository's test
`TestBatchTransactionCreatesResources`, with two more entries: one whose
resource has an unknown field and one without a resource. -/
def batchBody : Dstu3.Payload :=
  .json (.object [("resourceType", .string "Bundle"), ("type", .string "batch"),
    ("entry", .array
      [.object [("resource",
          .object [("resourceType", .string "Patient"), ("id", .string "pat-1"),
            ("unknownField", .string "nope")])],
       .object [("resource",
          .object [("resourceType", .string "Patient"), ("id", .string "pat-1")])],
       .object [("fullUrl", .string "urn:uuid:1")]])])

/-- The request that `json.Unmarshal` makes of `batchBody`: the members of each
map in ascending order of their names. -/
def batchReq : bundleReq :=
  { ResourceType := "Bundle"
    Type_ := "batch"
    Entry :=
      [[("resource",
          .object [("id", .string "pat-1"), ("resourceType", .string "Patient"),
            ("unknownField", .string "nope")])],
       [("resource", .object [("id", .string "pat-1"), ("resourceType", .string "Patient")])],
       [("fullUrl", .string "urn:uuid:1")]] }

/-- A `float64` for JSON texts whose numbers are integers of at most 15 digits,
which `float64` holds exactly. -/
def exactNumbers (v : JsonValue) : Option JsonValue := some v

end Api

namespace Store

/-! ## Lemmas on the heap -/

theorem applyMeta_length (h : Heap) (e : ResourceEntry) :
    (applyMeta h e).length = h.length := by
  unfold applyMeta
  split <;> simp

theorem applyMeta_get_self (h : Heap) (e : ResourceEntry) (r : Dstu3.Resource)
    (hr : h[e.Resource]? = some r) :
    (applyMeta h e)[e.Resource]? = some (stampMeta r e.VersionID e.LastUpdated) := by
  have hlt : e.Resource < h.length := by
    by_contra hge
    rw [List.getElem?_eq_none (Nat.le_of_not_lt hge)] at hr
    exact Option.noConfusion hr
  unfold applyMeta
  rw [hr]
  simp [List.getElem?_set, hlt]

theorem applyMeta_get_other (h : Heap) (e : ResourceEntry) (q : Ptr)
    (hq : q ≠ e.Resource) : (applyMeta h e)[q]? = h[q]? := by
  unfold applyMeta
  split
  · rfl
  · simp [List.getElem?_set, Ne.symm hq]

theorem getElem?_of_extends {h h1 : Heap} (hp : h <+: h1) {p : Ptr} (hlt : p < h.length) :
    h1[p]? = h[p]? := by
  obtain ⟨suf, rfl⟩ := hp
  exact List.getElem?_append_left hlt

theorem cloneOrShare_extends (h : Heap) (p : Ptr) : h <+: (cloneOrShare h p).2 := by
  unfold cloneOrShare Heap.Clone Heap.alloc
  split
  · rename_i res h1 heq
    split at heq
    · exact Except.noConfusion heq
    · split at heq
      · injection heq with heq
        injection heq with _ h2
        subst h2
        exact List.prefix_append _ _
      · exact Except.noConfusion heq
  · exact List.prefix_refl _

theorem cloneOrShare_get (h : Heap) (p : Ptr) (hlt : p < h.length) :
    (cloneOrShare h p).2[(cloneOrShare h p).1]? = h[p]? := by
  unfold cloneOrShare Heap.Clone Heap.alloc
  have hp : h[p]? = some h[p] := List.getElem?_eq_getElem hlt
  rw [hp]
  unfold Dstu3.Resource.cloneResource
  by_cases hc : (h[p].base.Contained.all Dstu3.RawMessage.isWellFormed) = true
  · simp [hc, hp]
  · simp [hc, hp]

theorem cloneOrShare_lt (h : Heap) (p : Ptr) (hlt : p < h.length) :
    (cloneOrShare h p).1 < (cloneOrShare h p).2.length := by
  have h1 := cloneOrShare_get h p hlt
  rw [List.getElem?_eq_getElem hlt] at h1
  by_contra hge
  rw [List.getElem?_eq_none (Nat.le_of_not_lt hge)] at h1
  exact Option.noConfusion h1

theorem cloneHistory_extends (l : List Ptr) :
    ∀ h : Heap, h <+: (cloneHistory h l).2 := by
  induction l with
  | nil => intro h; exact List.prefix_refl _
  | cons item rest ih =>
    intro h
    simp only [cloneHistory]
    exact (cloneOrShare_extends h item).trans (ih _)

theorem cloneHistory_length (l : List Ptr) :
    ∀ h : Heap, (cloneHistory h l).1.length = l.length := by
  induction l with
  | nil => intro h; rfl
  | cons item rest ih =>
    intro h
    simp only [cloneHistory, List.length_cons, ih]

theorem cloneHistory_map (l : List Ptr) :
    ∀ h : Heap, (∀ p ∈ l, p < h.length) →
      (cloneHistory h l).1.map (fun p => (cloneHistory h l).2[p]?) = l.map fun p => h[p]? := by
  induction l with
  | nil => intro h _; rfl
  | cons item rest ih =>
    intro h hl
    have hitem : item < h.length := hl item (List.mem_cons_self _ _)
    have hpre := cloneOrShare_extends h item
    have hrest : ∀ p ∈ rest, p < (cloneOrShare h item).2.length := fun p hp =>
      Nat.lt_of_lt_of_le (hl p (List.mem_cons_of_mem _ hp)) hpre.length_le
    simp only [cloneHistory, List.map_cons]
    rw [ih _ hrest]
    congr 1
    · rw [getElem?_of_extends (cloneHistory_extends rest _) (cloneOrShare_lt h item hitem)]
      exact cloneOrShare_get h item hitem
    · apply List.map_congr_left
      intro p hp
      exact getElem?_of_extends hpre (hl p (List.mem_cons_of_mem _ hp))

theorem cloneHistory_lt (l : List Ptr) :
    ∀ h : Heap, (∀ p ∈ l, p < h.length) →
      ∀ q ∈ (cloneHistory h l).1, q < (cloneHistory h l).2.length := by
  induction l with
  | nil => intro h _ q hq; simp [cloneHistory] at hq
  | cons item rest ih =>
    intro h hl q hq
    have hitem : item < h.length := hl item (List.mem_cons_self _ _)
    have hpre := cloneOrShare_extends h item
    have hrest : ∀ p ∈ rest, p < (cloneOrShare h item).2.length := fun p hp =>
      Nat.lt_of_lt_of_le (hl p (List.mem_cons_of_mem _ hp)) hpre.length_le
    simp only [cloneHistory, List.mem_cons] at hq ⊢
    rcases hq with rfl | hq
    · exact Nat.lt_of_lt_of_le (cloneOrShare_lt h item hitem)
        (cloneHistory_extends rest _).length_le
    · exact ih _ hrest q hq

theorem cloneEntry_extends (h : Heap) (e : ResourceEntry) : h <+: (cloneEntry h e).2 := by
  simp only [cloneEntry]
  exact (cloneOrShare_extends h e.Resource).trans (cloneHistory_extends _ _)

theorem cloneEntry_VersionID (h : Heap) (e : ResourceEntry) :
    (cloneEntry h e).1.VersionID = e.VersionID := rfl

theorem cloneEntry_LastUpdated (h : Heap) (e : ResourceEntry) :
    (cloneEntry h e).1.LastUpdated = e.LastUpdated := rfl

theorem cloneEntry_History_length (h : Heap) (e : ResourceEntry) :
    (cloneEntry h e).1.History.length = e.History.length := by
  simp only [cloneEntry, cloneHistory_length]

/-- The entry `cloneEntry` returns has the content of the entry it copies. -/
theorem cloneEntry_value (h : Heap) (e : ResourceEntry) (he : e.allocated h) :
    (cloneEntry h e).1.value (cloneEntry h e).2 = e.value h := by
  obtain ⟨hres, hhist⟩ := he
  have hpre := cloneOrShare_extends h e.Resource
  have hhist1 : ∀ p ∈ e.History, p < (cloneOrShare h e.Resource).2.length := fun p hp =>
    Nat.lt_of_lt_of_le (hhist p hp) hpre.length_le
  simp only [cloneEntry, ResourceEntry.value]
  rw [cloneHistory_map _ _ hhist1,
    getElem?_of_extends (cloneHistory_extends e.History _) (cloneOrShare_lt h e.Resource hres),
    cloneOrShare_get h e.Resource hres]
  congr 1
  apply List.map_congr_left
  intro p hp
  exact getElem?_of_extends hpre (hhist p hp)

theorem cloneEntry_allocated (h : Heap) (e : ResourceEntry) (he : e.allocated h) :
    (cloneEntry h e).1.allocated (cloneEntry h e).2 := by
  obtain ⟨hres, hhist⟩ := he
  have hpre := cloneOrShare_extends h e.Resource
  have hhist1 : ∀ p ∈ e.History, p < (cloneOrShare h e.Resource).2.length := fun p hp =>
    Nat.lt_of_lt_of_le (hhist p hp) hpre.length_le
  constructor
  · simp only [cloneEntry]
    exact Nat.lt_of_lt_of_le (cloneOrShare_lt h e.Resource hres)
      (cloneHistory_extends e.History _).length_le
  · simp only [cloneEntry]
    exact cloneHistory_lt _ _ hhist1

theorem allocated_of_extends {h h1 : Heap} (hp : h <+: h1) {e : ResourceEntry}
    (he : e.allocated h) : e.allocated h1 :=
  ⟨Nat.lt_of_lt_of_le he.1 hp.length_le, fun p hm => Nat.lt_of_lt_of_le (he.2 p hm) hp.length_le⟩

theorem value_of_extends {h h1 : Heap} (hp : h <+: h1) {e : ResourceEntry}
    (he : e.allocated h) : e.value h1 = e.value h := by
  simp only [ResourceEntry.value]
  rw [getElem?_of_extends hp he.1]
  congr 1
  apply List.map_congr_left
  intro p hm
  exact getElem?_of_extends hp (he.2 p hm)

/-! ## Lemmas on the two-level map -/

theorem entry_NewStore (t i : String) : NewStore.entry t i = none := by
  simp [Store.entry, NewStore]

theorem entry_setEntry_same (s : Store) (t i : String) (e : ResourceEntry) :
    (s.setEntry t i e).entry t i = some e := by
  simp [Store.entry, Store.setEntry]

theorem entry_setEntry_other (s : Store) (t i t1 i1 : String) (e : ResourceEntry)
    (hne : ¬ (t1 = t ∧ i1 = i)) : (s.setEntry t i e).entry t1 i1 = s.entry t1 i1 := by
  by_cases ht : t1 = t
  · subst ht
    have hi : i1 ≠ i := fun hi => hne ⟨rfl, hi⟩
    simp only [Store.entry, Store.setEntry, AList.lookup_insert]
    cases s.resources.lookup t1 with
    | none =>
      simp only [Option.getD_none, Option.some_bind, Option.none_bind,
        AList.lookup_insert_ne hi, AList.lookup_empty]
    | some items =>
      simp only [Option.getD_some, Option.some_bind, AList.lookup_insert_ne hi]
  · simp [Store.entry, Store.setEntry, AList.lookup_insert_ne ht]

theorem entry_ensureType (s : Store) (t t1 i1 : String) :
    (s.ensureType t).entry t1 i1 = s.entry t1 i1 := by
  unfold Store.ensureType
  split
  · rfl
  · rename_i hnone
    by_cases ht : t1 = t
    · subst ht
      simp [Store.entry, hnone]
    · simp [Store.entry, AList.lookup_insert_ne ht]

theorem ensureType_of_entry (s : Store) (t i : String) (e : ResourceEntry)
    (he : s.entry t i = some e) : s.ensureType t = s := by
  unfold Store.ensureType
  split
  · rfl
  · rename_i hnone
    simp [Store.entry, hnone] at he

/-! ## The operations, case by case -/

/-- The entry `Create` (and `Update` on a free slot) builds for the object at `p`. -/
theorem Create_ok (now : String) (s : Store) (h : Heap) (p : Ptr) (r : Dstu3.Resource)
    (hp : h[p]? = some r) (hid : r.GetID ≠ "")
    (hfree : s.entry r.GetResourceType r.GetID = none) :
    s.Create now h (some p) =
      (.ok (cloneEntry (applyMeta h ⟨p, "1", now, []⟩) ⟨p, "1", now, []⟩).1,
       (s.ensureType r.GetResourceType).setEntry r.GetResourceType r.GetID ⟨p, "1", now, []⟩,
       (cloneEntry (applyMeta h ⟨p, "1", now, []⟩) ⟨p, "1", now, []⟩).2) := by
  simp only [Store.Create, Heap.deref, Option.some_bind, hp, hid, if_false, entry_ensureType,
    hfree, newEntry]

theorem Create_exists (now : String) (s : Store) (h : Heap) (p : Ptr) (r : Dstu3.Resource)
    (e : ResourceEntry) (hp : h[p]? = some r) (hid : r.GetID ≠ "")
    (hstored : s.entry r.GetResourceType r.GetID = some e) :
    s.Create now h (some p) = (.error .alreadyExists, s, h) := by
  simp only [Store.Create, Heap.deref, Option.some_bind, hp, hid, if_false, entry_ensureType,
    hstored, ensureType_of_entry s _ _ e hstored]

theorem Create_idRequired (now : String) (s : Store) (h : Heap) (p : Ptr) (r : Dstu3.Resource)
    (hp : h[p]? = some r) (hid : r.GetID = "") :
    s.Create now h (some p) = (.error .resourceIdRequired, s, h) := by
  simp only [Store.Create, Heap.deref, Option.some_bind, hp, hid, if_true]

theorem Create_nil (now : String) (s : Store) (h : Heap) (resource : Option Ptr)
    (hp : h.deref resource = none) :
    s.Create now h resource = (.error .resourceIsNil, s, h) := by
  unfold Store.Create
  split
  · rename_i heq
    rw [hp] at heq
    exact Option.noConfusion heq
  · rfl

theorem Update_new (now : String) (s : Store) (h : Heap) (p : Ptr) (r : Dstu3.Resource)
    (hp : h[p]? = some r) (hid : r.GetID ≠ "")
    (hfree : s.entry r.GetResourceType r.GetID = none) :
    s.Update now h (some p) =
      (.ok (cloneEntry (applyMeta h ⟨p, "1", now, []⟩) ⟨p, "1", now, []⟩).1,
       (s.ensureType r.GetResourceType).setEntry r.GetResourceType r.GetID ⟨p, "1", now, []⟩,
       (cloneEntry (applyMeta h ⟨p, "1", now, []⟩) ⟨p, "1", now, []⟩).2) := by
  simp only [Store.Update, Heap.deref, Option.some_bind, hp, hid, if_false, entry_ensureType,
    hfree, newEntry]

theorem Update_existing (now : String) (s : Store) (h : Heap) (p : Ptr) (r : Dstu3.Resource)
    (e : ResourceEntry) (hp : h[p]? = some r) (hid : r.GetID ≠ "")
    (hstored : s.entry r.GetResourceType r.GetID = some e) :
    s.Update now h (some p) =
      (.ok (cloneEntry (applyMeta h (nextEntry now p e)) (nextEntry now p e)).1,
       s.setEntry r.GetResourceType r.GetID (nextEntry now p e),
       (cloneEntry (applyMeta h (nextEntry now p e)) (nextEntry now p e)).2) := by
  simp only [Store.Update, Heap.deref, Option.some_bind, hp, hid, if_false, entry_ensureType,
    hstored, ensureType_of_entry s _ _ e hstored, nextEntry]

theorem Update_idRequired (now : String) (s : Store) (h : Heap) (p : Ptr) (r : Dstu3.Resource)
    (hp : h[p]? = some r) (hid : r.GetID = "") :
    s.Update now h (some p) = (.error .resourceIdRequired, s, h) := by
  simp only [Store.Update, Heap.deref, Option.some_bind, hp, hid, if_true]

theorem Update_nil (now : String) (s : Store) (h : Heap) (resource : Option Ptr)
    (hp : h.deref resource = none) :
    s.Update now h resource = (.error .resourceIsNil, s, h) := by
  unfold Store.Update
  split
  · rename_i heq
    rw [hp] at heq
    exact Option.noConfusion heq
  · rfl

theorem Delete_ok (s : Store) (t i : String) (e : ResourceEntry) (ht : t ≠ "") (hi : i ≠ "")
    (hstored : s.entry t i = some e) :
    ∃ items, s.resources.lookup t = some items ∧
      s.Delete t i = (none, { resources := s.resources.insert t (items.erase i) }) := by
  unfold Store.entry at hstored
  cases hl : s.resources.lookup t with
  | none => rw [hl] at hstored; exact Option.noConfusion hstored
  | some items =>
    rw [hl, Option.some_bind] at hstored
    refine ⟨items, rfl, ?_⟩
    simp only [Store.Delete, ht, hi, or_self, if_false, hl, hstored]

theorem Delete_notFound (s : Store) (t i : String) (ht : t ≠ "") (hi : i ≠ "")
    (hfree : s.entry t i = none) : s.Delete t i = (some .notFound, s) := by
  unfold Store.entry at hfree
  cases hl : s.resources.lookup t with
  | none => simp only [Store.Delete, ht, hi, or_self, if_false, hl]
  | some items =>
    rw [hl, Option.some_bind] at hfree
    simp only [Store.Delete, ht, hi, or_self, if_false, hl, hfree]

theorem Delete_required (s : Store) (t i : String) (h : t = "" ∨ i = "") :
    s.Delete t i = (some .typeAndIdRequired, s) := by
  simp only [Store.Delete, h, if_true]

/-- A successful `Delete` was called on a stored key with a non-empty type and id. -/
theorem stored_of_Delete (s : Store) (t i : String) (hok : (s.Delete t i).1 = none) :
    t ≠ "" ∧ i ≠ "" ∧ ∃ e, s.entry t i = some e := by
  by_cases hreq : t = "" ∨ i = ""
  · rw [Delete_required s t i hreq] at hok
    exact Option.noConfusion hok
  · have ht : t ≠ "" := fun h => hreq (Or.inl h)
    have hi : i ≠ "" := fun h => hreq (Or.inr h)
    refine ⟨ht, hi, ?_⟩
    cases he : s.entry t i with
    | none =>
      rw [Delete_notFound s t i ht hi he] at hok
      exact Option.noConfusion hok
    | some e => exact ⟨e, rfl⟩

theorem entry_Delete_same (s : Store) (t i : String) (hok : (s.Delete t i).1 = none) :
    (s.Delete t i).2.entry t i = none := by
  obtain ⟨ht, hi, e, he⟩ := stored_of_Delete s t i hok
  obtain ⟨items, _, hdel⟩ := Delete_ok s t i e ht hi he
  rw [hdel]
  simp [Store.entry]

theorem entry_Delete_other (s : Store) (t i t1 i1 : String) (hne : ¬ (t1 = t ∧ i1 = i)) :
    (s.Delete t i).2.entry t1 i1 = s.entry t1 i1 := by
  by_cases hreq : t = "" ∨ i = ""
  · rw [Delete_required s t i hreq]
  · have ht : t ≠ "" := fun h => hreq (Or.inl h)
    have hi : i ≠ "" := fun h => hreq (Or.inr h)
    cases he : s.entry t i with
    | none => rw [Delete_notFound s t i ht hi he]
    | some e =>
      obtain ⟨items, hitems, hdel⟩ := Delete_ok s t i e ht hi he
      rw [hdel]
      by_cases htt : t1 = t
      · subst htt
        have hii : i1 ≠ i := fun h => hne ⟨rfl, h⟩
        simp [Store.entry, hitems, AList.lookup_erase_ne hii]
      · simp [Store.entry, AList.lookup_insert_ne htt]

/-! ## The invariant -/

theorem allocated_of_length_le {h h1 : Heap} (hle : h.length ≤ h1.length) {e : ResourceEntry}
    (he : e.allocated h) : e.allocated h1 :=
  ⟨Nat.lt_of_lt_of_le he.1 hle, fun p hm => Nat.lt_of_lt_of_le (he.2 p hm) hle⟩

theorem Inv_of_length_le {s : Store} {h h1 : Heap} (hinv : s.Inv h)
    (hle : h.length ≤ h1.length) : s.Inv h1 := fun t i e he =>
  ⟨allocated_of_length_le hle (hinv t i e he).1, (hinv t i e he).2⟩

theorem lt_length_of_getElem? {h : Heap} {p : Ptr} {r : Dstu3.Resource}
    (hp : h[p]? = some r) : p < h.length := by
  by_contra hge
  rw [List.getElem?_eq_none (Nat.le_of_not_lt hge)] at hp
  exact Option.noConfusion hp

theorem length_le_clone_applyMeta (h : Heap) (e e1 : ResourceEntry) :
    h.length ≤ (cloneEntry (applyMeta h e) e1).2.length := by
  have h1 := (cloneEntry_extends (applyMeta h e) e1).length_le
  rwa [applyMeta_length] at h1

theorem versioned_first (p : Ptr) (now : String) :
    (⟨p, "1", now, []⟩ : ResourceEntry).versioned := by
  show "1" = toString (0 + 1)
  decide

theorem Inv_NewStore (h : Heap) : NewStore.Inv h := fun t i e he => by
  rw [entry_NewStore] at he
  exact Option.noConfusion he

theorem Inv_setEntry {s : Store} {h : Heap} (hinv : s.Inv h) (t i : String)
    (e : ResourceEntry) (he : e.allocated h) (hv : e.versioned) (hi : i ≠ "") :
    (s.setEntry t i e).Inv h := by
  intro t1 i1 e1 h1
  by_cases hk : t1 = t ∧ i1 = i
  · obtain ⟨rfl, rfl⟩ := hk
    rw [entry_setEntry_same] at h1
    injection h1 with h1
    subst h1
    exact ⟨he, hv, hi⟩
  · rw [entry_setEntry_other s t i t1 i1 e hk] at h1
    exact hinv t1 i1 e1 h1

theorem Inv_ensureType {s : Store} {h : Heap} (hinv : s.Inv h) (t : String) :
    (s.ensureType t).Inv h := fun t1 i1 e1 h1 => by
  rw [entry_ensureType] at h1
  exact hinv t1 i1 e1 h1

theorem Inv_Create {s : Store} {h : Heap} (hinv : s.Inv h) (now : String)
    (resource : Option Ptr) :
    (s.Create now h resource).2.1.Inv (s.Create now h resource).2.2 := by
  cases hd : h.deref resource with
  | none => rw [Create_nil now s h resource hd]; exact hinv
  | some r =>
    cases resource with
    | none => simp [Heap.deref] at hd
    | some p =>
      have hp : h[p]? = some r := hd
      by_cases hid : r.GetID = ""
      · rw [Create_idRequired now s h p r hp hid]; exact hinv
      · cases he : s.entry r.GetResourceType r.GetID with
        | some e => rw [Create_exists now s h p r e hp hid he]; exact hinv
        | none =>
          rw [Create_ok now s h p r hp hid he]
          dsimp only
          refine Inv_of_length_le ?_ (length_le_clone_applyMeta h _ _)
          exact Inv_setEntry (Inv_ensureType hinv _) _ _ _
            ⟨lt_length_of_getElem? hp, fun q hq => by simp at hq⟩ (versioned_first p now) hid

theorem Inv_Update {s : Store} {h : Heap} (hinv : s.Inv h) (now : String)
    (resource : Option Ptr) :
    (s.Update now h resource).2.1.Inv (s.Update now h resource).2.2 := by
  cases hd : h.deref resource with
  | none => rw [Update_nil now s h resource hd]; exact hinv
  | some r =>
    cases resource with
    | none => simp [Heap.deref] at hd
    | some p =>
      have hp : h[p]? = some r := hd
      by_cases hid : r.GetID = ""
      · rw [Update_idRequired now s h p r hp hid]; exact hinv
      · cases he : s.entry r.GetResourceType r.GetID with
        | some e =>
          rw [Update_existing now s h p r e hp hid he]
          dsimp only
          refine Inv_of_length_le ?_ (length_le_clone_applyMeta h _ _)
          refine Inv_setEntry hinv _ _ _ ⟨lt_length_of_getElem? hp, ?_⟩ rfl hid
          intro q hq
          simp only [nextEntry, List.mem_append, List.mem_singleton] at hq
          rcases hq with hq | rfl
          · exact (hinv _ _ e he).1.2 q hq
          · exact (hinv _ _ e he).1.1
        | none =>
          rw [Update_new now s h p r hp hid he]
          dsimp only
          refine Inv_of_length_le ?_ (length_le_clone_applyMeta h _ _)
          exact Inv_setEntry (Inv_ensureType hinv _) _ _ _
            ⟨lt_length_of_getElem? hp, fun q hq => by simp at hq⟩ (versioned_first p now) hid

theorem Inv_Delete {s : Store} {h : Heap} (hinv : s.Inv h) (t i : String) :
    (s.Delete t i).2.Inv h := by
  intro t1 i1 e1 h1
  by_cases hk : t1 = t ∧ i1 = i
  · obtain ⟨rfl, rfl⟩ := hk
    cases hok : (s.Delete t1 i1).1 with
    | none =>
      rw [entry_Delete_same s t1 i1 hok] at h1
      exact Option.noConfusion h1
    | some err =>
      have hs : (s.Delete t1 i1).2 = s := by
        by_cases hreq : t1 = "" ∨ i1 = ""
        · rw [Delete_required s t1 i1 hreq]
        · have ht : t1 ≠ "" := fun h => hreq (Or.inl h)
          have hi : i1 ≠ "" := fun h => hreq (Or.inr h)
          cases he : s.entry t1 i1 with
          | none => rw [Delete_notFound s t1 i1 ht hi he]
          | some e =>
            obtain ⟨items, _, hdel⟩ := Delete_ok s t1 i1 e ht hi he
            rw [hdel] at hok
            exact Option.noConfusion hok
      rw [hs] at h1
      exact hinv t1 i1 e1 h1
  · rw [entry_Delete_other s t i t1 i1 hk] at h1
    exact hinv t1 i1 e1 h1

theorem Get_extends (s : Store) (h : Heap) (t i : String) : h <+: (s.Get h t i).2 := by
  unfold Store.Get
  split
  · exact List.prefix_refl _
  · split
    · exact List.prefix_refl _
    · exact cloneEntry_extends _ _

theorem cloneAll_extends (entries : GoMap ResourceEntry) (ids : List String) :
    ∀ h : Heap, h <+: (cloneAll entries h ids).2 := by
  induction ids with
  | nil => intro h; exact List.prefix_refl _
  | cons id rest ih =>
    intro h
    simp only [cloneAll]
    split
    · exact ih h
    · exact (cloneEntry_extends h _).trans (ih _)

theorem List_extends (s : Store) (h : Heap) (t : String) : h <+: (s.List h t).2 := by
  unfold Store.List
  split
  · exact List.prefix_refl _
  · split
    · exact List.prefix_refl _
    · exact cloneAll_extends _ _ _

/-- Every reachable state satisfies the invariant of the store. -/
theorem Reachable.inv {s : Store} {h : Heap} (hr : Reachable s h) : s.Inv h := by
  induction hr with
  | init h => exact Inv_NewStore h
  | alloc r _ ih => exact Inv_of_length_le ih (by simp)
  | create now resource _ ih => exact Inv_Create ih now resource
  | update now resource _ ih => exact Inv_Update ih now resource
  | delete t i _ ih => exact Inv_Delete ih t i
  | get t i _ ih => exact Inv_of_length_le ih (Get_extends _ _ t i).length_le
  | list t _ ih => exact Inv_of_length_le ih (List_extends _ _ t).length_le

theorem Get_ok (s : Store) (h : Heap) (t i : String) (e : ResourceEntry) (ht : t ≠ "")
    (hi : i ≠ "") (hstored : s.entry t i = some e) :
    s.Get h t i = (.ok (cloneEntry h e).1, (cloneEntry h e).2) := by
  simp only [Store.Get, ht, hi, or_self, if_false, hstored]

theorem Get_notFound (s : Store) (h : Heap) (t i : String) (ht : t ≠ "") (hi : i ≠ "")
    (hfree : s.entry t i = none) : s.Get h t i = (.error .notFound, h) := by
  simp only [Store.Get, ht, hi, or_self, if_false, hfree]

theorem Get_required (s : Store) (h : Heap) (t i : String) (hreq : t = "" ∨ i = "") :
    s.Get h t i = (.error .typeAndIdRequired, h) := by
  simp only [Store.Get, hreq, if_true]

theorem History_ok (s : Store) (h : Heap) (t i : String) (e : ResourceEntry) (ht : t ≠ "")
    (hi : i ≠ "") (hstored : s.entry t i = some e) :
    s.History h t i = (.ok (cloneEntry h e).1.History, (cloneEntry h e).2) := by
  simp only [Store.History, Get_ok s h t i e ht hi hstored]

/-! ## The resource after `applyMeta` -/

theorem base_withBase (r : Dstu3.Resource) (b : Dstu3.ResourceBase) :
    (r.withBase b).base = b := by
  cases r <;> rfl

theorem stampMeta_GetID (r : Dstu3.Resource) (v u : String) :
    (stampMeta r v u).GetID = r.GetID := by
  simp only [stampMeta, Dstu3.Resource.SetMeta, Dstu3.Resource.GetID, base_withBase]

theorem stampMeta_GetResourceType (r : Dstu3.Resource) (v u : String) :
    (stampMeta r v u).GetResourceType = r.GetResourceType := by
  simp only [stampMeta, Dstu3.Resource.SetMeta, Dstu3.Resource.GetResourceType, base_withBase]

theorem stampMeta_GetMeta (r : Dstu3.Resource) (v u : String) :
    (stampMeta r v u).GetMeta =
      some { VersionID := v, LastUpdated := u, Profile := (r.GetMeta.getD {}).Profile } := by
  simp only [stampMeta, Dstu3.Resource.SetMeta, Dstu3.Resource.GetMeta, base_withBase]

theorem stampMeta_eq_SetMeta (r : Dstu3.Resource) (v u : String) :
    stampMeta r v u = r.SetMeta (stampMeta r v u).GetMeta := by
  rw [stampMeta_GetMeta]
  rfl

/-! ## `Update` with a resource object that the entry does not hold -/

/-- The stored entry after `Update` replaces `e` by the object at `p`, which
`e` does not hold, and the entry the call returns. -/
theorem Update_unheld (now : String) (s : Store) (h : Heap) (p : Ptr) (r : Dstu3.Resource)
    (e : ResourceEntry) (hp : h[p]? = some r) (halloc : e.allocated h) (hid : r.GetID ≠ "")
    (hstored : s.entry r.GetResourceType r.GetID = some e)
    (hnew : p ∉ e.Resource :: e.History) :
    ∃ out h1,
      s.Update now h (some p) =
        (.ok out, s.setEntry r.GetResourceType r.GetID (nextEntry now p e), h1) ∧
      (nextEntry now p e).allocated h1 ∧
      (nextEntry now p e).value h1 =
        ⟨some (stampMeta r (toString (e.History.length + 2)) now),
         toString (e.History.length + 2), now,
         (e.value h).History ++ [(e.value h).Resource]⟩ ∧
      out.value h1 = (nextEntry now p e).value h1 ∧
      out.VersionID = toString (e.History.length + 2) ∧
      out.History.length = e.History.length + 1 ∧
      (∀ q, q ≠ p → q < h.length → h1[q]? = h[q]?) := by
  have hplt : p < h.length := lt_length_of_getElem? hp
  have hold : ∀ q ∈ (nextEntry now p e).History, q < h.length ∧ q ≠ p := by
    intro q hq
    simp only [nextEntry, List.mem_append, List.mem_singleton] at hq
    rcases hq with hq | rfl
    · exact ⟨halloc.2 q hq, fun heq => hnew (heq ▸ List.mem_cons_of_mem _ hq)⟩
    · exact ⟨halloc.1, fun heq => hnew (heq ▸ List.mem_cons_self _ _)⟩
  have halloc1 : (nextEntry now p e).allocated (applyMeta h (nextEntry now p e)) := by
    constructor
    · rw [applyMeta_length]
      exact hplt
    · intro q hq
      rw [applyMeta_length]
      exact (hold q hq).1
  have hval1 : (nextEntry now p e).value (applyMeta h (nextEntry now p e)) =
        ⟨some (stampMeta r (toString (e.History.length + 2)) now),
         toString (e.History.length + 2), now,
         (e.value h).History ++ [(e.value h).Resource]⟩ := by
    have hself := applyMeta_get_self h (nextEntry now p e) r hp
    have hother : ∀ q ∈ (nextEntry now p e).History,
        (applyMeta h (nextEntry now p e))[q]? = h[q]? := fun q hq =>
      applyMeta_get_other _ _ q (hold q hq).2
    simp only [ResourceEntry.value]
    rw [List.map_congr_left hother]
    have hr1 : (applyMeta h (nextEntry now p e))[(nextEntry now p e).Resource]? =
        some (stampMeta r (nextEntry now p e).VersionID (nextEntry now p e).LastUpdated) := hself
    rw [hr1]
    simp [nextEntry]
  refine ⟨_, _, Update_existing now s h p r e hp hid hstored,
    allocated_of_extends (cloneEntry_extends _ _) halloc1, ?_, ?_, ?_, ?_, ?_⟩
  · rw [value_of_extends (cloneEntry_extends _ _) halloc1]
    exact hval1
  · rw [cloneEntry_value _ _ halloc1, value_of_extends (cloneEntry_extends _ _) halloc1]
  · rw [cloneEntry_VersionID]
    simp [nextEntry]
  · rw [cloneEntry_History_length]
    simp [nextEntry]
  · intro q hq hlt
    rw [getElem?_of_extends (cloneEntry_extends _ _) (by rw [applyMeta_length]; exact hlt)]
    exact applyMeta_get_other _ _ q hq

/-- The stored entry after `Create` stores the object at `p` on a free slot. -/
theorem Create_at (now : String) (s : Store) (h : Heap) (p : Ptr) (r : Dstu3.Resource)
    (hp : h[p]? = some r) (hid : r.GetID ≠ "")
    (hfree : s.entry r.GetResourceType r.GetID = none) :
    (createAt (s, h) (p, now)).1.entry r.GetResourceType r.GetID = some ⟨p, "1", now, []⟩ ∧
    (⟨p, "1", now, []⟩ : ResourceEntry).allocated (createAt (s, h) (p, now)).2 ∧
    (⟨p, "1", now, []⟩ : ResourceEntry).value (createAt (s, h) (p, now)).2
      = ⟨some (stampMeta r "1" now), "1", now, []⟩ ∧
    (∀ q, q ≠ p → q < h.length → (createAt (s, h) (p, now)).2[q]? = h[q]?) := by
  have hplt : p < h.length := lt_length_of_getElem? hp
  have halloc0 : (⟨p, "1", now, []⟩ : ResourceEntry).allocated
      (applyMeta h ⟨p, "1", now, []⟩) :=
    ⟨by rw [applyMeta_length]; exact hplt, fun q hq => by simp at hq⟩
  simp only [createAt, Create_ok now s h p r hp hid hfree]
  refine ⟨entry_setEntry_same _ _ _ _,
    allocated_of_extends (cloneEntry_extends _ _) halloc0, ?_, ?_⟩
  · rw [value_of_extends (cloneEntry_extends _ _) halloc0]
    simp only [ResourceEntry.value, List.map_nil]
    rw [applyMeta_get_self h ⟨p, "1", now, []⟩ r hp]
  · intro q hq hlt
    rw [getElem?_of_extends (cloneEntry_extends _ _) (by rw [applyMeta_length]; exact hlt)]
    exact applyMeta_get_other _ _ q hq

/-- The entry stored under (t, i) after `Update` was called in turn with the
objects at the addresses of `xs`, pairwise different and not held by the entry,
when the entry held the object of `y` at version `|ys| + 1` with the history
`ys`. -/
theorem entry_after_updatesAt (c : Ptr → Option Dstu3.Resource) (t i : String) (hi : i ≠ "")
    (xs : List (Ptr × String)) :
    ∀ (ys : List (Ptr × String)) (y : Ptr × String) (st : Store × Heap) (e : ResourceEntry),
      (∀ x ∈ xs, ∃ r, c x.1 = some r ∧ st.2[x.1]? = some r ∧
        r.GetResourceType = t ∧ r.GetID = i) →
      (xs.map Prod.fst).Nodup →
      (∀ x ∈ xs, x.1 ∉ e.Resource :: e.History) →
      st.1.entry t i = some e → e.allocated st.2 →
      e.value st.2 =
        ⟨stampedAt c ys.length y, toString (ys.length + 1), y.2, ys.mapIdx (stampedAt c)⟩ →
      ∃ e1, (xs.foldl updateAt st).1.entry t i = some e1 ∧
        e1.allocated (xs.foldl updateAt st).2 ∧
        (e1.value (xs.foldl updateAt st).2).History
          = (ys ++ y :: xs).dropLast.mapIdx (stampedAt c) := by
  induction xs with
  | nil =>
    intro ys y st e _ _ _ he halloc hval
    refine ⟨e, he, halloc, ?_⟩
    show (e.value st.2).History = _
    rw [hval]
    simp
  | cons x xs ih =>
    intro ys y st e hxs hnd hnew he halloc hval
    obtain ⟨r, hc, hp, hxt, hxi⟩ := hxs x (List.mem_cons_self _ _)
    subst hxt hxi
    have hlen : e.History.length = ys.length := by
      have := congrArg (fun v => v.History.length) hval
      simpa [ResourceEntry.value] using this
    obtain ⟨out, h1, hupd, halloc1, hval1, _, _, _, hkeep⟩ :=
      Update_unheld x.2 st.1 st.2 x.1 r e hp halloc hi he (hnew x (List.mem_cons_self _ _))
    have hst : updateAt st x =
        (st.1.setEntry r.GetResourceType r.GetID (nextEntry x.2 x.1 e), h1) := by
      simp only [updateAt, hupd]
    simp only [List.map_cons, List.nodup_cons, List.mem_map, not_exists, not_and] at hnd
    have hne : ∀ z ∈ xs, z.1 ≠ x.1 := fun z hz heq => hnd.1 z hz heq
    have := ih (ys ++ [y]) x (updateAt st x) (nextEntry x.2 x.1 e)
      (by
        intro z hz
        obtain ⟨rz, hcz, hpz, hzt, hzi⟩ := hxs z (List.mem_cons_of_mem _ hz)
        refine ⟨rz, hcz, ?_, hzt, hzi⟩
        rw [hst]
        show h1[z.1]? = some rz
        rw [hkeep z.1 (hne z hz) (lt_length_of_getElem? hpz)]
        exact hpz)
      hnd.2
      (by
        intro z hz hmem
        simp only [nextEntry, List.mem_cons, List.mem_append, List.mem_singleton,
          List.not_mem_nil, or_false] at hmem
        rcases hmem with hmem | hmem | hmem
        · exact hne z hz hmem
        · exact hnew z (List.mem_cons_of_mem _ hz) (List.mem_cons_of_mem _ hmem)
        · exact hnew z (List.mem_cons_of_mem _ hz) (hmem ▸ List.mem_cons_self _ _))
      (by rw [hst]; exact entry_setEntry_same _ _ _ _)
      (by rw [hst]; exact halloc1)
      (by
        rw [hst]
        show (nextEntry x.2 x.1 e).value h1 = _
        rw [hval1, hval, hlen]
        simp [stampedAt, hc, List.mapIdx_concat])
    simpa [List.foldl_cons, List.append_assoc] using this

/-! ## `List` -/

theorem strLE_iff (a b : String) : strLE a b ↔ a ≤ b := String.le_iff_toList_le.symm

theorem strLE_total (a b : String) : strLE a b ∨ strLE b a := by
  simp only [strLE_iff]
  exact le_total a b

theorem strLE_trans (a b c : String) (hab : strLE a b) (hbc : strLE b c) : strLE a c := by
  simp only [strLE_iff] at *
  exact le_trans hab hbc

theorem sortStrings_sorted (ids : List String) (hnd : ids.Nodup) :
    (sortStrings ids).Sorted (· < ·) := by
  haveI : IsTotal String strLE := ⟨strLE_total⟩
  haveI : IsTrans String strLE := ⟨strLE_trans⟩
  have hs : (sortStrings ids).Sorted (· ≤ ·) :=
    (List.sorted_insertionSort strLE ids).imp fun {a b} hab => (strLE_iff a b).mp hab
  exact hs.lt_of_le ((List.perm_insertionSort strLE ids).nodup_iff.mpr hnd)

theorem mem_sortStrings (ids : List String) (id : String) : id ∈ sortStrings ids ↔ id ∈ ids :=
  (List.perm_insertionSort strLE ids).mem_iff

/-- The entries `cloneAll` returns are, id by id, copies of the entries of the map. -/
theorem cloneAll_spec (entries : GoMap ResourceEntry) (ids : List String) :
    ∀ h : Heap, (∀ id e, entries.lookup id = some e → e.allocated h) →
      (∀ id ∈ ids, ∃ e, entries.lookup id = some e) →
      List.Forall₂
        (fun id out => ∃ e, entries.lookup id = some e ∧
          out.allocated (cloneAll entries h ids).2 ∧
          out.value (cloneAll entries h ids).2 = e.value h)
        ids (cloneAll entries h ids).1 := by
  induction ids with
  | nil => intro h _ _; exact List.Forall₂.nil
  | cons id rest ih =>
    intro h hall hids
    obtain ⟨e, he⟩ := hids id (List.mem_cons_self _ _)
    have halloc := hall id e he
    have hext := cloneEntry_extends h e
    have hall1 : ∀ id1 e1, entries.lookup id1 = some e1 → e1.allocated (cloneEntry h e).2 :=
      fun id1 e1 he1 => allocated_of_extends hext (hall id1 e1 he1)
    have hext2 := cloneAll_extends entries rest (cloneEntry h e).2
    simp only [cloneAll, he]
    refine List.Forall₂.cons ⟨e, he, ?_, ?_⟩ ?_
    · exact allocated_of_extends hext2 (cloneEntry_allocated h e halloc)
    · rw [value_of_extends hext2 (cloneEntry_allocated h e halloc)]
      exact cloneEntry_value h e halloc
    · refine (ih _ hall1 fun id1 hm => hids id1 (List.mem_cons_of_mem _ hm)).imp ?_
      rintro id1 out ⟨e1, he1, ha, hv⟩
      refine ⟨e1, he1, ha, ?_⟩
      rw [hv]
      exact value_of_extends hext (hall id1 e1 he1)

theorem List_required (s : Store) (h : Heap) : s.List h "" = (.error .typeRequired, h) := by
  simp only [Store.List, if_true]

theorem List_unknown (s : Store) (h : Heap) (t : String) (ht : t ≠ "")
    (hnone : s.resources.lookup t = none) : s.List h t = (.ok [], h) := by
  simp only [Store.List, ht, if_false, hnone]

theorem List_known (s : Store) (h : Heap) (t : String) (ht : t ≠ "")
    (entries : GoMap ResourceEntry) (hsome : s.resources.lookup t = some entries) :
    s.List h t = (.ok (cloneAll entries h (sortStrings entries.keys)).1,
      (cloneAll entries h (sortStrings entries.keys)).2) := by
  simp only [Store.List, ht, if_false, hsome]

/-! ## Copies at new addresses -/

theorem cloneOrShare_fresh (h : Heap) (p : Ptr) (r : Dstu3.Resource) (hp : h[p]? = some r)
    (hc : clonable r) : cloneOrShare h p = (h.length, h ++ [r]) := by
  unfold clonable at hc
  simp only [cloneOrShare, Heap.Clone, hp, Dstu3.Resource.cloneResource, hc, if_true,
    Heap.alloc]

theorem cloneHistory_fresh (l : List Ptr) :
    ∀ h : Heap, (∀ p ∈ l, ∃ r, h[p]? = some r ∧ clonable r) →
      ∀ q ∈ (cloneHistory h l).1, h.length ≤ q := by
  induction l with
  | nil => intro h _ q hq; simp [cloneHistory] at hq
  | cons item rest ih =>
    intro h hl q hq
    obtain ⟨r, hr, hc⟩ := hl item (List.mem_cons_self _ _)
    simp only [cloneHistory, cloneOrShare_fresh h item r hr hc, List.mem_cons] at hq
    rcases hq with rfl | hq
    · exact Nat.le_refl _
    · have hrest : ∀ p ∈ rest, ∃ r1, (h ++ [r])[p]? = some r1 ∧ clonable r1 := by
        intro p hp
        obtain ⟨r1, hr1, hc1⟩ := hl p (List.mem_cons_of_mem _ hp)
        exact ⟨r1, by rw [List.getElem?_append_left (lt_length_of_getElem? hr1)]; exact hr1, hc1⟩
      have := ih _ hrest q hq
      rw [List.length_append] at this
      exact Nat.le_trans (Nat.le_add_right _ _) this

theorem cloneEntry_fresh (h : Heap) (e : ResourceEntry)
    (hc : ∀ p ∈ e.Resource :: e.History, ∃ r, h[p]? = some r ∧ clonable r) :
    ∀ q ∈ (cloneEntry h e).1.Resource :: (cloneEntry h e).1.History, h.length ≤ q := by
  obtain ⟨r, hr, hcr⟩ := hc e.Resource (List.mem_cons_self _ _)
  intro q hq
  simp only [cloneEntry, cloneOrShare_fresh h e.Resource r hr hcr, List.mem_cons] at hq
  rcases hq with rfl | hq
  · exact Nat.le_refl _
  · have hrest : ∀ p ∈ e.History, ∃ r1, (h ++ [r])[p]? = some r1 ∧ clonable r1 := by
      intro p hp
      obtain ⟨r1, hr1, hc1⟩ := hc p (List.mem_cons_of_mem _ hp)
      exact ⟨r1, by rw [List.getElem?_append_left (lt_length_of_getElem? hr1)]; exact hr1, hc1⟩
    have := cloneHistory_fresh e.History _ hrest q hq
    rw [List.length_append] at this
    exact Nat.le_trans (Nat.le_add_right _ _) this

/-- A write at an address the entry does not hold leaves the entry's content alone. -/
theorem value_set_of_le (h : Heap) (e : ResourceEntry) (h0 : Nat)
    (hlow : e.Resource < h0 ∧ ∀ p ∈ e.History, p < h0) (q : Ptr) (hq : h0 ≤ q)
    (v : Dstu3.Resource) : e.value (h.set q v) = e.value h := by
  have hne : ∀ p, p < h0 → (h.set q v)[p]? = h[p]? := fun p hp => by
    rw [List.getElem?_set_ne (Nat.ne_of_gt (Nat.lt_of_lt_of_le hp hq))]
  simp only [ResourceEntry.value]
  rw [hne _ hlow.1]
  congr 1
  apply List.map_congr_left
  intro p hp
  exact hne p (hlow.2 p hp)

/-! ## Properties of the store -/

/-- C1, as stated, fails: a resource with a non-empty id and an empty resource
type is created, and the following `Get` of its (type, id) is refused with
"resource type and id are required". -/
theorem create_then_get_untyped :
    untypedPatient.GetID ≠ "" ∧
    NewStore.entry untypedPatient.GetResourceType untypedPatient.GetID = none ∧
    (NewStore.Create "t0" [untypedPatient] (some 0)).1
      = .ok ⟨1, "1", "t0", []⟩ ∧
    ((NewStore.Create "t0" [untypedPatient] (some 0)).2.1.Get
        (NewStore.Create "t0" [untypedPatient] (some 0)).2.2
        untypedPatient.GetResourceType untypedPatient.GetID).1
      = .error .typeAndIdRequired := by
  decide

/-- C1 (amended): for every store state and every resource `r` with a non-empty
id and a non-empty resource type whose (type, id) is not stored, `Create(r)`
succeeds and a following `Get(type, id)` returns an entry with VersionID "1",
an empty History, and a resource with the type, id and fields of `r` whose
meta carries versionId "1" (and the creation time). -/
theorem create_then_get (now : String) (s : Store) (h : Heap) (p : Ptr) (r : Dstu3.Resource)
    (hp : h[p]? = some r) (hid : r.GetID ≠ "") (hty : r.GetResourceType ≠ "")
    (hfree : s.entry r.GetResourceType r.GetID = none) :
    ∃ out s1 h1 got h2 c,
      s.Create now h (some p) = (.ok out, s1, h1) ∧
      s1.Get h1 r.GetResourceType r.GetID = (.ok got, h2) ∧
      got.VersionID = "1" ∧ got.History = [] ∧
      h2[got.Resource]? = some c ∧
      c.GetResourceType = r.GetResourceType ∧ c.GetID = r.GetID ∧
      c = r.SetMeta c.GetMeta ∧
      c.GetMeta = some
        { VersionID := "1", LastUpdated := now, Profile := (r.GetMeta.getD {}).Profile } := by
  have hlt := lt_length_of_getElem? hp
  have halloc : (⟨p, "1", now, []⟩ : ResourceEntry).allocated
      (cloneEntry (applyMeta h ⟨p, "1", now, []⟩) ⟨p, "1", now, []⟩).2 :=
    ⟨Nat.lt_of_lt_of_le hlt (length_le_clone_applyMeta h _ _), fun q hq => by simp at hq⟩
  have halloc0 : (⟨p, "1", now, []⟩ : ResourceEntry).allocated (applyMeta h ⟨p, "1", now, []⟩) :=
    ⟨by rw [applyMeta_length]; exact hlt, fun q hq => by simp at hq⟩
  have hval := cloneEntry_value _ _ halloc
  rw [value_of_extends (cloneEntry_extends _ _) halloc0] at hval
  have hres := congrArg EntryValue.Resource hval
  simp only [ResourceEntry.value] at hres
  rw [applyMeta_get_self h ⟨p, "1", now, []⟩ r hp] at hres
  refine ⟨_, _, _, _, _, stampMeta r "1" now, Create_ok now s h p r hp hid hfree,
    Get_ok _ _ _ _ ⟨p, "1", now, []⟩ hty hid ?_, rfl, ?_, hres,
    stampMeta_GetResourceType r _ _, stampMeta_GetID r _ _, stampMeta_eq_SetMeta r _ _,
    stampMeta_GetMeta r _ _⟩
  · exact entry_setEntry_same _ _ _ _
  · simp only [cloneEntry, cloneHistory]

/-- C1 (amended), at a concrete input. -/
theorem create_then_get_witness :
    ([examplePatient "a"] : Heap)[0]? = some (examplePatient "a") ∧
    (examplePatient "a").GetID ≠ "" ∧ (examplePatient "a").GetResourceType ≠ "" ∧
    NewStore.entry (examplePatient "a").GetResourceType (examplePatient "a").GetID = none ∧
    ∃ out s1 h1 got h2 c,
      NewStore.Create "t0" [examplePatient "a"] (some 0) = (.ok out, s1, h1) ∧
      s1.Get h1 (examplePatient "a").GetResourceType (examplePatient "a").GetID
        = (.ok got, h2) ∧
      got.VersionID = "1" ∧ got.History = [] ∧
      h2[got.Resource]? = some c ∧
      c.GetResourceType = (examplePatient "a").GetResourceType ∧
      c.GetID = (examplePatient "a").GetID ∧
      c = (examplePatient "a").SetMeta c.GetMeta ∧
      c.GetMeta = some
        { VersionID := "1", LastUpdated := "t0",
          Profile := ((examplePatient "a").GetMeta.getD {}).Profile } :=
  ⟨by decide, by decide, by decide, by decide,
   create_then_get "t0" NewStore [examplePatient "a"] 0 (examplePatient "a")
     (by decide) (by decide) (by decide) (by decide)⟩

/-- C3: in every store state reachable from `NewStore()` by any sequence of
`Create`, `Update` and `Delete` calls (successful or failing), every stored
entry has a VersionID that is the decimal text of a positive integer `n`, and
its History has exactly `n - 1` snapshots. -/
theorem reachable_version_history (s : Store) (h : Heap) (hr : Reachable s h)
    (t i : String) (e : ResourceEntry) (he : s.entry t i = some e) :
    ∃ n : Nat, 0 < n ∧ e.VersionID = toString n ∧ e.History.length = n - 1 :=
  ⟨e.History.length + 1, Nat.succ_pos _, (hr.inv t i e he).2.1, rfl⟩

theorem reachable_afterCreate : Reachable afterCreate.2.1 afterCreate.2.2 :=
  Reachable.create "t0" (some 0) (Reachable.init [examplePatient "a", examplePatient "a"])

theorem reachable_afterUpdate : Reachable afterUpdate.2.1 afterUpdate.2.2 :=
  Reachable.update "t1" (some 1) reachable_afterCreate

/-- C3, at the state reached by a `Create` and an `Update` of the same patient. -/
theorem reachable_version_history_witness :
    Reachable afterUpdate.2.1 afterUpdate.2.2 ∧
    afterUpdate.2.1.entry "Patient" "a" = some ⟨1, "2", "t1", [0]⟩ ∧
    ∃ n : Nat, 0 < n ∧ (⟨1, "2", "t1", [0]⟩ : ResourceEntry).VersionID = toString n ∧
      (⟨1, "2", "t1", [0]⟩ : ResourceEntry).History.length = n - 1 :=
  ⟨reachable_afterUpdate, by decide,
   reachable_version_history afterUpdate.2.1 afterUpdate.2.2 reachable_afterUpdate
     "Patient" "a" ⟨1, "2", "t1", [0]⟩ (by decide)⟩

/-- C4: for every store state and every resource `r` with a non-empty id whose
(type, id) is not stored, `Update(r)` produces the same returned entry and the
same resulting state as `Create(r)`: the call succeeds with version "1" and an
empty history, and that entry is stored. -/
theorem update_absent_eq_create (now : String) (s : Store) (h : Heap) (p : Ptr)
    (r : Dstu3.Resource) (hp : h[p]? = some r) (hid : r.GetID ≠ "")
    (hfree : s.entry r.GetResourceType r.GetID = none) :
    s.Update now h (some p) = s.Create now h (some p) ∧
    ∃ out s1 h1, s.Create now h (some p) = (.ok out, s1, h1) ∧
      out.VersionID = "1" ∧ out.History = [] ∧
      s1.entry r.GetResourceType r.GetID = some ⟨p, "1", now, []⟩ := by
  refine ⟨?_, _, _, _, Create_ok now s h p r hp hid hfree, rfl, ?_, ?_⟩
  · rw [Update_new now s h p r hp hid hfree, Create_ok now s h p r hp hid hfree]
  · simp only [cloneEntry, cloneHistory]
  · exact entry_setEntry_same _ _ _ _

/-- C4, at a concrete input: patient "b" on the store that holds patient "a". -/
theorem update_absent_eq_create_witness :
    (afterCreate.2.2 ++ [examplePatient "b"])[3]? = some (examplePatient "b") ∧
    (examplePatient "b").GetID ≠ "" ∧
    afterCreate.2.1.entry (examplePatient "b").GetResourceType (examplePatient "b").GetID
      = none ∧
    afterCreate.2.1.Update "t1" (afterCreate.2.2 ++ [examplePatient "b"]) (some 3)
      = afterCreate.2.1.Create "t1" (afterCreate.2.2 ++ [examplePatient "b"]) (some 3) ∧
    ∃ out s1 h1,
      afterCreate.2.1.Create "t1" (afterCreate.2.2 ++ [examplePatient "b"]) (some 3)
        = (.ok out, s1, h1) ∧
      out.VersionID = "1" ∧ out.History = [] ∧
      s1.entry (examplePatient "b").GetResourceType (examplePatient "b").GetID
        = some ⟨3, "1", "t1", []⟩ :=
  ⟨by decide, by decide, by decide,
   update_absent_eq_create "t1" afterCreate.2.1 (afterCreate.2.2 ++ [examplePatient "b"]) 3
     (examplePatient "b") (by decide) (by decide) (by decide)⟩

/-- C5: `Create` fails when the resource id is empty and fails when (type, id)
is already stored, and in both cases the store and every resource object are
left as they were, so every stored entry (current resource, version and
history) is the same after the call as before it. -/
theorem create_failure_keeps_state (now : String) (s : Store) (h : Heap) (p : Ptr)
    (r : Dstu3.Resource) (hp : h[p]? = some r)
    (hfail : r.GetID = "" ∨ ∃ e, s.entry r.GetResourceType r.GetID = some e) :
    ∃ err, s.Create now h (some p) = (.error err, s, h) ∧
      (r.GetID = "" → err = .resourceIdRequired) ∧
      (r.GetID ≠ "" → err = .alreadyExists) := by
  by_cases hid : r.GetID = ""
  · exact ⟨_, Create_idRequired now s h p r hp hid, fun _ => rfl, fun hne => absurd hid hne⟩
  · rcases hfail with hempty | ⟨e, he⟩
    · exact absurd hempty hid
    · exact ⟨_, Create_exists now s h p r e hp hid he, fun hempty => absurd hempty hid,
        fun _ => rfl⟩

/-- C5, at a concrete input: creating patient "a" again on the store that holds it. -/
theorem create_failure_keeps_state_witness :
    afterCreate.2.2[1]? = some (examplePatient "a") ∧
    ((examplePatient "a").GetID = "" ∨
      ∃ e, afterCreate.2.1.entry (examplePatient "a").GetResourceType
        (examplePatient "a").GetID = some e) ∧
    ∃ err, afterCreate.2.1.Create "t1" afterCreate.2.2 (some 1)
        = (.error err, afterCreate.2.1, afterCreate.2.2) ∧
      ((examplePatient "a").GetID = "" → err = .resourceIdRequired) ∧
      ((examplePatient "a").GetID ≠ "" → err = .alreadyExists) :=
  ⟨by decide, Or.inr ⟨⟨0, "1", "t0", []⟩, by decide⟩,
   create_failure_keeps_state "t1" afterCreate.2.1 afterCreate.2.2 1 (examplePatient "a")
     (by decide) (Or.inr ⟨⟨0, "1", "t0", []⟩, by decide⟩)⟩

/-- C6: for every stored (type, id), whatever its version and history, after
`Delete(type, id)` succeeds `Get(type, id)` fails with not-found, and a
following `Create` of a resource with that type and id succeeds with version
"1" and an empty history: the entry stored for it holds no earlier snapshot. -/
theorem delete_then_get_create (s : Store) (h : Heap) (t i : String) (e : ResourceEntry)
    (hstored : s.entry t i = some e) (hok : (s.Delete t i).1 = none) :
    (s.Delete t i).2.Get h t i = (.error .notFound, h) ∧
    ∀ (now : String) (p : Ptr) (r : Dstu3.Resource), h[p]? = some r →
      r.GetResourceType = t → r.GetID = i →
      ∃ out s1 h1, (s.Delete t i).2.Create now h (some p) = (.ok out, s1, h1) ∧
        out.VersionID = "1" ∧ out.History = [] ∧
        s1.entry t i = some ⟨p, "1", now, []⟩ := by
  obtain ⟨ht, hi, _⟩ := stored_of_Delete s t i hok
  have hfree := entry_Delete_same s t i hok
  refine ⟨Get_notFound _ h t i ht hi hfree, ?_⟩
  intro now p r hp hrt hri
  subst hrt hri
  refine ⟨_, _, _, Create_ok now _ h p r hp hi hfree, rfl, ?_, ?_⟩
  · simp only [cloneEntry, cloneHistory]
  · exact entry_setEntry_same _ _ _ _

/-- C6, at a concrete input: patient "a" at version 2 is deleted and created again. -/
theorem delete_then_get_create_witness :
    afterUpdate.2.1.entry "Patient" "a" = some ⟨1, "2", "t1", [0]⟩ ∧
    (afterUpdate.2.1.Delete "Patient" "a").1 = none ∧
    (afterUpdate.2.1.Delete "Patient" "a").2.Get afterUpdate.2.2 "Patient" "a"
      = (.error .notFound, afterUpdate.2.2) ∧
    ∀ (now : String) (p : Ptr) (r : Dstu3.Resource), afterUpdate.2.2[p]? = some r →
      r.GetResourceType = "Patient" → r.GetID = "a" →
      ∃ out s1 h1,
        (afterUpdate.2.1.Delete "Patient" "a").2.Create now afterUpdate.2.2 (some p)
          = (.ok out, s1, h1) ∧
        out.VersionID = "1" ∧ out.History = [] ∧
        s1.entry "Patient" "a" = some ⟨p, "1", now, []⟩ :=
  ⟨by decide, by decide,
   delete_then_get_create afterUpdate.2.1 afterUpdate.2.2 "Patient" "a" ⟨1, "2", "t1", [0]⟩
     (by decide) (by decide)⟩

/-- C7, as stated, fails: for an empty type the key is not stored, and `Get`,
`Delete` and `History` fail with "resource type and id are required", which is
not the not-found error. -/
theorem absent_empty_type_not_notFound :
    NewStore.entry "" "x" = none ∧
    NewStore.Get [] "" "x" = (.error .typeAndIdRequired, []) ∧
    NewStore.Delete "" "x" = (some .typeAndIdRequired, NewStore) ∧
    NewStore.History [] "" "x" = (.error .typeAndIdRequired, []) ∧
    StoreError.typeAndIdRequired ≠ StoreError.notFound :=
  ⟨by decide, by decide, rfl, by decide, by decide⟩

/-- C7 (amended): for every store state and every (type, id) that is not
stored, `Get`, `Delete` and `History` each fail and leave the store and the
heap as they were; the error is not-found when the type and the id are both
non-empty, and "resource type and id are required" otherwise. -/
theorem absent_fails_keeps_state (s : Store) (h : Heap) (t i : String)
    (hfree : s.entry t i = none) :
    ∃ err, s.Get h t i = (.error err, h) ∧ s.Delete t i = (some err, s) ∧
      s.History h t i = (.error err, h) ∧
      (t ≠ "" ∧ i ≠ "" → err = .notFound) ∧
      (t = "" ∨ i = "" → err = .typeAndIdRequired) := by
  by_cases hreq : t = "" ∨ i = ""
  · refine ⟨.typeAndIdRequired, Get_required s h t i hreq, Delete_required s t i hreq, ?_,
      fun hne => ?_, fun _ => rfl⟩
    · simp only [Store.History, Get_required s h t i hreq]
    · rcases hreq with ht | hi
      · exact absurd ht hne.1
      · exact absurd hi hne.2
  · have ht : t ≠ "" := fun h => hreq (Or.inl h)
    have hi : i ≠ "" := fun h => hreq (Or.inr h)
    refine ⟨.notFound, Get_notFound s h t i ht hi hfree, Delete_notFound s t i ht hi hfree, ?_,
      fun _ => rfl, fun hr => absurd hr hreq⟩
    simp only [Store.History, Get_notFound s h t i ht hi hfree]

/-- C7 (amended), at a concrete input: patient "b" on the store that holds patient "a". -/
theorem absent_fails_keeps_state_witness :
    afterCreate.2.1.entry "Patient" "b" = none ∧
    ∃ err, afterCreate.2.1.Get afterCreate.2.2 "Patient" "b" = (.error err, afterCreate.2.2) ∧
      afterCreate.2.1.Delete "Patient" "b" = (some err, afterCreate.2.1) ∧
      afterCreate.2.1.History afterCreate.2.2 "Patient" "b" = (.error err, afterCreate.2.2) ∧
      (("Patient" : String) ≠ "" ∧ ("b" : String) ≠ "" → err = .notFound) ∧
      (("Patient" : String) = "" ∨ ("b" : String) = "" → err = .typeAndIdRequired) :=
  ⟨by decide,
   absent_fails_keeps_state afterCreate.2.1 afterCreate.2.2 "Patient" "b" (by decide)⟩

/-- C8, as stated, fails: for the empty resource type `List` returns the
error "resource type is required", not an empty result. -/
theorem list_empty_type_fails :
    (NewStore.List [] "").1 = .error .typeRequired ∧
    (afterCreate.2.1.List afterCreate.2.2 "").1 = .error .typeRequired := by
  decide

/-- C8 (amended): for every store state and every non-empty resource type,
`List(type)` returns without error exactly one entry per id stored under that
type, each a copy of the stored entry, in strictly ascending id order; for a
type under which nothing is stored the result is empty. -/
theorem list_sorted_entries (s : Store) (h : Heap) (hr : Reachable s h) (t : String)
    (ht : t ≠ "") :
    ∃ ids result h1,
      s.List h t = (.ok result, h1) ∧
      ids.Sorted (· < ·) ∧
      (∀ id, id ∈ ids ↔ ∃ e, s.entry t id = some e) ∧
      List.Forall₂ (fun id out => ∃ e, s.entry t id = some e ∧ out.value h1 = e.value h)
        ids result ∧
      ((∀ id, s.entry t id = none) → result = []) := by
  cases hl : s.resources.lookup t with
  | none =>
    refine ⟨[], [], h, List_unknown s h t ht hl, List.sorted_nil, ?_, List.Forall₂.nil,
      fun _ => rfl⟩
    intro id
    simp [Store.entry, hl]
  | some entries =>
    have hentry : ∀ id, s.entry t id = entries.lookup id := fun id => by
      simp [Store.entry, hl]
    have hmem : ∀ id, id ∈ sortStrings entries.keys ↔ ∃ e, s.entry t id = some e := by
      intro id
      rw [mem_sortStrings, ← AList.mem_keys, ← AList.lookup_isSome, hentry,
        Option.isSome_iff_exists]
    have hspec := cloneAll_spec entries (sortStrings entries.keys) h
      (fun id e he => (hr.inv t id e (by rw [hentry]; exact he)).1)
      (fun id hm => by
        obtain ⟨e, he⟩ := (hmem id).mp hm
        exact ⟨e, by rw [← hentry]; exact he⟩)
    refine ⟨sortStrings entries.keys, _, _, List_known s h t ht entries hl,
      sortStrings_sorted _ entries.keys_nodup, hmem, ?_, ?_⟩
    · refine hspec.imp ?_
      rintro id out ⟨e, he, _, hv⟩
      exact ⟨e, by rw [hentry]; exact he, hv⟩
    · intro hnone
      have hnil : sortStrings entries.keys = [] := by
        apply List.eq_nil_iff_forall_not_mem.mpr
        intro id hm
        obtain ⟨e, he⟩ := (hmem id).mp hm
        rw [hnone id] at he
        exact Option.noConfusion he
      rw [hnil]
      rfl

theorem reachable_twoPatients : Reachable twoPatients.2.1 twoPatients.2.2 :=
  Reachable.create "t1" (some 1)
    (Reachable.create "t0" (some 0) (Reachable.init [examplePatient "b", examplePatient "a"]))

/-- C8 (amended), at a concrete input: patients "b" and "a", created in this
order, are listed as "a", "b". -/
theorem list_sorted_entries_witness :
    Reachable twoPatients.2.1 twoPatients.2.2 ∧ ("Patient" : String) ≠ "" ∧
    ((twoPatients.2.1.List twoPatients.2.2 "Patient").1
      = .ok [⟨4, "1", "t1", []⟩, ⟨5, "1", "t0", []⟩]) ∧
    ∃ ids result h1,
      twoPatients.2.1.List twoPatients.2.2 "Patient" = (.ok result, h1) ∧
      ids.Sorted (· < ·) ∧
      (∀ id, id ∈ ids ↔ ∃ e, twoPatients.2.1.entry "Patient" id = some e) ∧
      List.Forall₂
        (fun id out => ∃ e, twoPatients.2.1.entry "Patient" id = some e ∧
          out.value h1 = e.value twoPatients.2.2)
        ids result ∧
      ((∀ id, twoPatients.2.1.entry "Patient" id = none) → result = []) :=
  ⟨reachable_twoPatients, by decide, by decide,
   list_sorted_entries twoPatients.2.1 twoPatients.2.2 reachable_twoPatients "Patient"
     (by decide)⟩

/-- C10, as stated, fails: a stored patient that `Clone` cannot copy is handed
out by `Get` itself (address 0), so setting its gender through the returned
entry changes what the next `Get` returns. -/
theorem get_shares_unclonable :
    (unclonableStored.2.1.Get unclonableStored.2.2 "Patient" "p").1
      = .ok ⟨0, "1", "t0", []⟩ ∧
    (unclonableStored.2.1.Get
        ((unclonableStored.2.1.Get unclonableStored.2.2 "Patient" "p").2.set 0
          unclonablePatientEdited) "Patient" "p").1
      = .ok ⟨0, "1", "t0", []⟩ ∧
    (unclonableStored.2.1.Get unclonableStored.2.2 "Patient" "p").2[0]?
      = some (stampMeta unclonablePatient "1" "t0") ∧
    (unclonableStored.2.1.Get
        ((unclonableStored.2.1.Get unclonableStored.2.2 "Patient" "p").2.set 0
          unclonablePatientEdited) "Patient" "p").2[0]?
      = some unclonablePatientEdited ∧
    unclonablePatientEdited ≠ stampMeta unclonablePatient "1" "t0" := by
  decide

/-- C10 (amended): for every stored (type, id) whose current resource and
history snapshots can all be cloned, `Get` returns the stored values, and
after any write to the resource or to a history snapshot that `Get` returned,
`Get` again returns the originally stored values. -/
theorem get_isolated (s : Store) (h : Heap) (hr : Reachable s h) (t i : String)
    (e got : ResourceEntry) (h1 : Heap) (hstored : s.entry t i = some e)
    (hget : s.Get h t i = (.ok got, h1))
    (hclone : ∀ p ∈ e.Resource :: e.History, ∃ r, h[p]? = some r ∧ clonable r) :
    got.value h1 = e.value h ∧
    ∀ q ∈ got.Resource :: got.History, ∀ v : Dstu3.Resource,
      ∃ got2 h2, s.Get (h1.set q v) t i = (.ok got2, h2) ∧ got2.value h2 = e.value h := by
  have hne : ¬ (t = "" ∨ i = "") := fun hreq => by
    rw [Get_required s h t i hreq] at hget
    injection hget with h1 _
    exact Except.noConfusion h1
  have ht : t ≠ "" := fun h => hne (Or.inl h)
  have hi : i ≠ "" := fun h => hne (Or.inr h)
  have halloc := (hr.inv t i e hstored).1
  rw [Get_ok s h t i e ht hi hstored] at hget
  injection hget with hgot hh1
  injection hgot with hgot
  subst hgot hh1
  refine ⟨cloneEntry_value h e halloc, ?_⟩
  intro q hq v
  have hfresh := cloneEntry_fresh h e hclone q hq
  have halloc1 : e.allocated ((cloneEntry h e).2.set q v) :=
    allocated_of_length_le (by rw [List.length_set]; exact (cloneEntry_extends h e).length_le)
      halloc
  refine ⟨_, _, Get_ok s _ t i e ht hi hstored, ?_⟩
  rw [cloneEntry_value _ e halloc1,
    value_set_of_le _ e h.length halloc q hfresh v]
  exact value_of_extends (cloneEntry_extends h e) halloc

/-- C10 (amended), at a concrete input: patient "a" stored at version 2. -/
theorem get_isolated_witness :
    Reachable afterUpdate.2.1 afterUpdate.2.2 ∧
    afterUpdate.2.1.entry "Patient" "a" = some ⟨1, "2", "t1", [0]⟩ ∧
    afterUpdate.2.1.Get afterUpdate.2.2 "Patient" "a"
      = (.ok ⟨5, "2", "t1", [6]⟩, (afterUpdate.2.1.Get afterUpdate.2.2 "Patient" "a").2) ∧
    (∀ p ∈ (⟨1, "2", "t1", [0]⟩ : ResourceEntry).Resource ::
        (⟨1, "2", "t1", [0]⟩ : ResourceEntry).History,
      ∃ r, afterUpdate.2.2[p]? = some r ∧ clonable r) ∧
    ((⟨5, "2", "t1", [6]⟩ : ResourceEntry).value
        (afterUpdate.2.1.Get afterUpdate.2.2 "Patient" "a").2
      = (⟨1, "2", "t1", [0]⟩ : ResourceEntry).value afterUpdate.2.2 ∧
    ∀ q ∈ (⟨5, "2", "t1", [6]⟩ : ResourceEntry).Resource ::
        (⟨5, "2", "t1", [6]⟩ : ResourceEntry).History, ∀ v : Dstu3.Resource,
      ∃ got2 h2,
        afterUpdate.2.1.Get
          ((afterUpdate.2.1.Get afterUpdate.2.2 "Patient" "a").2.set q v) "Patient" "a"
          = (.ok got2, h2) ∧
        got2.value h2 = (⟨1, "2", "t1", [0]⟩ : ResourceEntry).value afterUpdate.2.2) :=
  have hc : ∀ p ∈ (⟨1, "2", "t1", [0]⟩ : ResourceEntry).Resource ::
        (⟨1, "2", "t1", [0]⟩ : ResourceEntry).History,
      ∃ r, afterUpdate.2.2[p]? = some r ∧ clonable r := by
    intro p hp
    simp only [List.mem_cons, List.mem_singleton, List.not_mem_nil, or_false] at hp
    rcases hp with rfl | rfl
    · exact ⟨_, rfl, by decide⟩
    · exact ⟨_, rfl, by decide⟩
  ⟨reachable_afterUpdate, by decide, Prod.ext (by decide) rfl, hc,
   get_isolated afterUpdate.2.1 afterUpdate.2.2 reachable_afterUpdate "Patient" "a"
     ⟨1, "2", "t1", [0]⟩ ⟨5, "2", "t1", [6]⟩
     (afterUpdate.2.1.Get afterUpdate.2.2 "Patient" "a").2 (by decide)
     (Prod.ext (by decide) rfl) hc⟩

/-! ## Independent copies -/

theorem clonable_stampMeta (r : Dstu3.Resource) (v u : String) (hc : clonable r) :
    clonable (stampMeta r v u) := by
  unfold clonable at *
  simpa only [stampMeta, Dstu3.Resource.SetMeta, base_withBase] using hc

/-- After `applyMeta` every object that could be cloned still can. -/
theorem clonable_applyMeta (h : Heap) (e : ResourceEntry) (p : Ptr)
    (hp : ∃ r, h[p]? = some r ∧ clonable r) :
    ∃ r, (applyMeta h e)[p]? = some r ∧ clonable r := by
  obtain ⟨r, hr, hc⟩ := hp
  by_cases hpe : p = e.Resource
  · subst hpe
    exact ⟨_, applyMeta_get_self h e r hr, clonable_stampMeta r _ _ hc⟩
  · exact ⟨r, by rw [applyMeta_get_other h e p hpe]; exact hr, hc⟩

theorem clonable_of_extends {h h1 : Heap} (hext : h <+: h1) (p : Ptr)
    (hp : ∃ r, h[p]? = some r ∧ clonable r) : ∃ r, h1[p]? = some r ∧ clonable r := by
  obtain ⟨r, hr, hc⟩ := hp
  exact ⟨r, by rw [getElem?_of_extends hext (lt_length_of_getElem? hr)]; exact hr, hc⟩

/-- An address at or above the old heap size, below the new one, is isolated
from a store whose entries were all allocated in the old heap. -/
theorem isolated_of_fresh (h : Heap) (s1 : Store) (h1 : Heap) (q : Ptr)
    (hold : ∀ t i e, s1.entry t i = some e → e.allocated h) (hq : h.length ≤ q)
    (hlt : q < h1.length) : isolated h s1 h1 q :=
  ⟨hq, hlt, fun t i e v he => value_set_of_le h1 e h.length (hold t i e he) q hq v⟩

theorem cloneEntry_addresses_lt (h : Heap) (e : ResourceEntry) (he : e.allocated h) :
    ∀ q ∈ (cloneEntry h e).1.addresses, q < (cloneEntry h e).2.length := by
  intro q hq
  have ha := cloneEntry_allocated h e he
  simp only [ResourceEntry.addresses, List.mem_cons] at hq
  rcases hq with rfl | hq
  · exact ha.1
  · exact ha.2 q hq

/-- The copies `cloneAll` returns are at addresses the heap did not have. -/
theorem cloneAll_fresh (entries : GoMap ResourceEntry) (ids : List String) :
    ∀ h : Heap,
      (∀ id e, entries.lookup id = some e →
        e.allocated h ∧ ∀ p ∈ e.addresses, ∃ r, h[p]? = some r ∧ clonable r) →
      ∀ out ∈ (cloneAll entries h ids).1, ∀ q ∈ out.addresses,
        h.length ≤ q ∧ q < (cloneAll entries h ids).2.length := by
  induction ids with
  | nil => intro h _ out hout; simp [cloneAll] at hout
  | cons id rest ih =>
    intro h hall out hout q hq
    cases hl : entries.lookup id with
    | none =>
      simp only [cloneAll, hl] at hout ⊢
      exact ih h hall out hout q hq
    | some e =>
      have hext := cloneEntry_extends h e
      have hall1 : ∀ id1 e1, entries.lookup id1 = some e1 →
          e1.allocated (cloneEntry h e).2 ∧
            ∀ p ∈ e1.addresses, ∃ r, (cloneEntry h e).2[p]? = some r ∧ clonable r :=
        fun id1 e1 he1 => ⟨allocated_of_extends hext (hall id1 e1 he1).1,
          fun p hp => clonable_of_extends hext p ((hall id1 e1 he1).2 p hp)⟩
      simp only [cloneAll, hl, List.mem_cons] at hout ⊢
      rcases hout with rfl | hout
      · exact ⟨cloneEntry_fresh h e (hall id e hl).2 q hq,
          Nat.lt_of_lt_of_le (cloneEntry_addresses_lt h e (hall id e hl).1 q hq)
            (cloneAll_extends entries rest _).length_le⟩
      · have := ih _ hall1 out hout q hq
        exact ⟨Nat.le_trans hext.length_le this.1, this.2⟩

theorem Get_ok_inv (s : Store) (h : Heap) (t i : String) (got : ResourceEntry) (h1 : Heap)
    (hget : s.Get h t i = (.ok got, h1)) :
    ∃ e, s.entry t i = some e ∧ t ≠ "" ∧ i ≠ "" ∧
      got = (cloneEntry h e).1 ∧ h1 = (cloneEntry h e).2 := by
  by_cases hreq : t = "" ∨ i = ""
  · rw [Get_required s h t i hreq] at hget
    injection hget with h1 _
    exact Except.noConfusion h1
  · have ht : t ≠ "" := fun h => hreq (Or.inl h)
    have hi : i ≠ "" := fun h => hreq (Or.inr h)
    cases he : s.entry t i with
    | none =>
      rw [Get_notFound s h t i ht hi he] at hget
      injection hget with h1 _
      exact Except.noConfusion h1
    | some e =>
      rw [Get_ok s h t i e ht hi he] at hget
      injection hget with hgot hh1
      injection hgot with hgot
      exact ⟨e, rfl, ht, hi, hgot.symm, hh1.symm⟩

theorem addresses_clonable_applyMeta (h : Heap) (e : ResourceEntry)
    (hc : ∀ p ∈ e.addresses, ∃ r, h[p]? = some r ∧ clonable r) :
    ∀ p ∈ e.addresses, ∃ r, (applyMeta h e)[p]? = some r ∧ clonable r :=
  fun p hp => clonable_applyMeta h e p (hc p hp)

/-- The entry returned by a call that stored `e` after `applyMeta` is isolated. -/
theorem isolated_after_store (h : Heap) (s1 : Store) (e : ResourceEntry)
    (hinv : s1.Inv h) (he : e.allocated h)
    (hc : ∀ p ∈ e.addresses, ∃ r, h[p]? = some r ∧ clonable r) :
    ∀ q ∈ (cloneEntry (applyMeta h e) e).1.addresses,
      isolated h s1 (cloneEntry (applyMeta h e) e).2 q := by
  intro q hq
  have he1 : e.allocated (applyMeta h e) :=
    allocated_of_length_le (by rw [applyMeta_length]) he
  have hfresh := cloneEntry_fresh (applyMeta h e) e (addresses_clonable_applyMeta h e hc) q hq
  rw [applyMeta_length] at hfresh
  exact isolated_of_fresh h s1 _ q (fun t i e1 h1 => (hinv t i e1 h1).1) hfresh
    (cloneEntry_addresses_lt _ e he1 q hq)

/-- C11, as stated, fails: `SystemHistory` returns the stored resource itself
(address 0 of the store that holds patient "a"), every call returns that same
instance, and a write to it changes what `Get` returns. -/
theorem systemHistory_shares :
    afterCreate.2.1.entry "Patient" "a" = some ⟨0, "1", "t0", []⟩ ∧
    afterCreate.2.1.SystemHistory = [0] ∧
    (afterCreate.2.1.Get afterCreate.2.2 "Patient" "a").1 = .ok ⟨3, "1", "t0", []⟩ ∧
    (afterCreate.2.1.Get afterCreate.2.2 "Patient" "a").2[3]?
      = some (stampMeta (examplePatient "a") "1" "t0") ∧
    (afterCreate.2.1.Get (afterCreate.2.2.set 0 (examplePatient "edited")) "Patient" "a").1
      = .ok ⟨3, "1", "t0", []⟩ ∧
    (afterCreate.2.1.Get (afterCreate.2.2.set 0 (examplePatient "edited")) "Patient" "a").2[3]?
      = some (examplePatient "edited") ∧
    examplePatient "edited" ≠ stampMeta (examplePatient "a") "1" "t0" := by
  decide

/-- C11 (amended): when every stored resource object (and the one passed in)
can be cloned, every resource value returned by `Get`, `List`, `History`,
`Create` and `Update` is an independent copy: it lies at an address allocated
by that call, so no two calls return the same instance, and a write to it
changes the content of no stored entry. -/
theorem returned_values_isolated (s : Store) (h : Heap) (hr : Reachable s h)
    (hc : s.allClonable h) :
    (∀ t i got h1, s.Get h t i = (.ok got, h1) →
      ∀ q ∈ got.addresses, isolated h s h1 q) ∧
    (∀ t res h1, s.List h t = (.ok res, h1) →
      ∀ out ∈ res, ∀ q ∈ out.addresses, isolated h s h1 q) ∧
    (∀ t i hist h1, s.History h t i = (.ok hist, h1) →
      ∀ q ∈ hist, isolated h s h1 q) ∧
    (∀ now p r out s1 h1, h[p]? = some r → clonable r →
      s.Create now h (some p) = (.ok out, s1, h1) →
      ∀ q ∈ out.addresses, isolated h s1 h1 q) ∧
    (∀ now p r out s1 h1, h[p]? = some r → clonable r →
      s.Update now h (some p) = (.ok out, s1, h1) →
      ∀ q ∈ out.addresses, isolated h s1 h1 q) := by
  have hinv := hr.inv
  have hold : ∀ t i e, s.entry t i = some e → e.allocated h := fun t i e he => (hinv t i e he).1
  have hgetq : ∀ t i e, s.entry t i = some e →
      ∀ q ∈ (cloneEntry h e).1.addresses, isolated h s (cloneEntry h e).2 q :=
    fun t i e he q hq => isolated_of_fresh h s _ q hold (cloneEntry_fresh h e (hc t i e he) q hq)
      (cloneEntry_addresses_lt h e (hold t i e he) q hq)
  refine ⟨?_, ?_, ?_, ?_, ?_⟩
  · intro t i got h1 hget q hq
    obtain ⟨e, he, _, _, rfl, rfl⟩ := Get_ok_inv s h t i got h1 hget
    exact hgetq t i e he q hq
  · intro t res h1 hlist out hout q hq
    by_cases ht : t = ""
    · subst ht
      rw [List_required] at hlist
      injection hlist with h1 _
      exact Except.noConfusion h1
    · cases hl : s.resources.lookup t with
      | none =>
        rw [List_unknown s h t ht hl] at hlist
        injection hlist with hres _
        injection hres with hres
        subst hres
        simp at hout
      | some entries =>
        rw [List_known s h t ht entries hl] at hlist
        injection hlist with hres hh1
        injection hres with hres
        subst hres hh1
        have hentry : ∀ id, s.entry t id = entries.lookup id := fun id => by
          simp [Store.entry, hl]
        have hall : ∀ id e, entries.lookup id = some e →
            e.allocated h ∧ ∀ p ∈ e.addresses, ∃ r, h[p]? = some r ∧ clonable r :=
          fun id e he => ⟨hold t id e (by rw [hentry]; exact he),
            hc t id e (by rw [hentry]; exact he)⟩
        have := cloneAll_fresh entries _ h hall out hout q hq
        exact isolated_of_fresh h s _ q hold this.1 this.2
  · intro t i hist h1 hhist q hq
    cases hg : s.Get h t i with
    | mk res h2 =>
      cases res with
      | error err =>
        simp only [Store.History, hg] at hhist
        injection hhist with h1 _
        exact Except.noConfusion h1
      | ok got =>
        simp only [Store.History, hg] at hhist
        injection hhist with hres hh
        injection hres with hres
        subst hres hh
        obtain ⟨e, he, _, _, rfl, rfl⟩ := Get_ok_inv s h t i got h2 hg
        exact hgetq t i e he q (List.mem_cons_of_mem _ hq)
  · intro now p r out s1 h1 hp hcr hcreate q hq
    by_cases hid : r.GetID = ""
    · rw [Create_idRequired now s h p r hp hid] at hcreate
      injection hcreate with h1 _
      exact Except.noConfusion h1
    · cases he : s.entry r.GetResourceType r.GetID with
      | some e =>
        rw [Create_exists now s h p r e hp hid he] at hcreate
        injection hcreate with h1 _
        exact Except.noConfusion h1
      | none =>
        rw [Create_ok now s h p r hp hid he] at hcreate
        injection hcreate with hout hrest
        injection hout with hout
        injection hrest with hs1 hh1
        subst hout hs1 hh1
        have he0 : (⟨p, "1", now, []⟩ : ResourceEntry).allocated h :=
          ⟨lt_length_of_getElem? hp, fun q hq => by simp at hq⟩
        refine isolated_after_store h _ ⟨p, "1", now, []⟩
          (Inv_setEntry (Inv_ensureType hinv _) _ _ _ he0 (versioned_first p now) hid) he0
          ?_ q hq
        intro p1 hp1
        simp only [ResourceEntry.addresses, List.mem_cons, List.not_mem_nil, or_false] at hp1
        subst hp1
        exact ⟨r, hp, hcr⟩
  · intro now p r out s1 h1 hp hcr hupdate q hq
    by_cases hid : r.GetID = ""
    · rw [Update_idRequired now s h p r hp hid] at hupdate
      injection hupdate with h1 _
      exact Except.noConfusion h1
    · cases he : s.entry r.GetResourceType r.GetID with
      | some e =>
        rw [Update_existing now s h p r e hp hid he] at hupdate
        injection hupdate with hout hrest
        injection hout with hout
        injection hrest with hs1 hh1
        subst hout hs1 hh1
        have hea := hold _ _ e he
        have he0 : (nextEntry now p e).allocated h := by
          refine ⟨lt_length_of_getElem? hp, ?_⟩
          intro q hq
          simp only [nextEntry, List.mem_append, List.mem_singleton] at hq
          rcases hq with hq | rfl
          · exact hea.2 q hq
          · exact hea.1
        refine isolated_after_store h _ (nextEntry now p e)
          (Inv_setEntry hinv _ _ _ he0 rfl hid) he0 ?_ q hq
        intro p1 hp1
        simp only [ResourceEntry.addresses, nextEntry, List.mem_cons, List.mem_append,
          List.mem_singleton, List.not_mem_nil, or_false] at hp1
        rcases hp1 with rfl | hp1 | rfl
        · exact ⟨r, hp, hcr⟩
        · exact hc _ _ e he p1 (List.mem_cons_of_mem _ hp1)
        · exact hc _ _ e he _ (List.mem_cons_self _ _)
      | none =>
        rw [Update_new now s h p r hp hid he] at hupdate
        injection hupdate with hout hrest
        injection hout with hout
        injection hrest with hs1 hh1
        subst hout hs1 hh1
        have he0 : (⟨p, "1", now, []⟩ : ResourceEntry).allocated h :=
          ⟨lt_length_of_getElem? hp, fun q hq => by simp at hq⟩
        refine isolated_after_store h _ ⟨p, "1", now, []⟩
          (Inv_setEntry (Inv_ensureType hinv _) _ _ _ he0 (versioned_first p now) hid) he0
          ?_ q hq
        intro p1 hp1
        simp only [ResourceEntry.addresses, List.mem_cons, List.not_mem_nil, or_false] at hp1
        subst hp1
        exact ⟨r, hp, hcr⟩

theorem allClonable_of_heap (s : Store) (h : Heap) (hinv : s.Inv h)
    (hall : ∀ r ∈ h, clonable r) : s.allClonable h := by
  intro t i e he p hp
  have ha := (hinv t i e he).1
  have hlt : p < h.length := by
    simp only [List.mem_cons] at hp
    rcases hp with rfl | hp
    · exact ha.1
    · exact ha.2 p hp
  exact ⟨h[p], List.getElem?_eq_getElem hlt, hall _ (List.getElem_mem hlt)⟩

/-- C11 (amended), at a concrete input: the store that holds patient "a" at version 2. -/
theorem returned_values_isolated_witness :
    Reachable afterUpdate.2.1 afterUpdate.2.2 ∧
    afterUpdate.2.1.allClonable afterUpdate.2.2 ∧
    ((∀ t i got h1, afterUpdate.2.1.Get afterUpdate.2.2 t i = (.ok got, h1) →
      ∀ q ∈ got.addresses, isolated afterUpdate.2.2 afterUpdate.2.1 h1 q) ∧
    (∀ t res h1, afterUpdate.2.1.List afterUpdate.2.2 t = (.ok res, h1) →
      ∀ out ∈ res, ∀ q ∈ out.addresses, isolated afterUpdate.2.2 afterUpdate.2.1 h1 q) ∧
    (∀ t i hist h1, afterUpdate.2.1.History afterUpdate.2.2 t i = (.ok hist, h1) →
      ∀ q ∈ hist, isolated afterUpdate.2.2 afterUpdate.2.1 h1 q) ∧
    (∀ now p r out s1 h1, afterUpdate.2.2[p]? = some r → clonable r →
      afterUpdate.2.1.Create now afterUpdate.2.2 (some p) = (.ok out, s1, h1) →
      ∀ q ∈ out.addresses, isolated afterUpdate.2.2 s1 h1 q) ∧
    (∀ now p r out s1 h1, afterUpdate.2.2[p]? = some r → clonable r →
      afterUpdate.2.1.Update now afterUpdate.2.2 (some p) = (.ok out, s1, h1) →
      ∀ q ∈ out.addresses, isolated afterUpdate.2.2 s1 h1 q)) :=
  ⟨reachable_afterUpdate,
   allClonable_of_heap _ _ reachable_afterUpdate.inv (by decide),
   returned_values_isolated afterUpdate.2.1 afterUpdate.2.2 reachable_afterUpdate
     (allClonable_of_heap _ _ reachable_afterUpdate.inv (by decide))⟩

end Store

/-! ## Lemmas on the search engine -/

namespace Search

open Store

theorem List_ok_of_ne (s : Store) (h : Heap) (t : String) (ht : t ≠ "") :
    ∃ listed h1, s.List h t = (.ok listed, h1) := by
  cases hl : s.resources.lookup t with
  | none => exact ⟨_, _, List_unknown s h t ht hl⟩
  | some entries => exact ⟨_, _, List_known s h t ht entries hl⟩

theorem List_nothing (s : Store) (h : Heap) (t : String) (ht : t ≠ "")
    (hnone : ∀ id, s.entry t id = none) : s.List h t = (.ok [], h) := by
  cases hl : s.resources.lookup t with
  | none => exact List_unknown s h t ht hl
  | some entries =>
    have hkeys : entries.keys = [] := by
      apply List.eq_nil_iff_forall_not_mem.mpr
      intro id hm
      have hsome := AList.lookup_isSome.mpr (AList.mem_keys.mpr hm)
      have := hnone id
      simp only [Store.entry, hl, Option.some_bind] at this
      rw [this] at hsome
      exact Bool.noConfusion hsome
    rw [List_known s h t ht entries hl, hkeys]
    rfl

/-- `expand` returns no error. -/
theorem expand_fst (s : Store) (entries : List ResourceEntry) (depth maxDepth : Nat)
    (st : Expansion) : (expand s entries depth maxDepth st).1 = none := by
  unfold expand
  split <;> rfl

theorem expand_one (s : Store) (h : Heap) (entries : List ResourceEntry) :
    expand s entries 1 2 { seen := [], result := [], heap := h }
      = (none, levelOne s h entries) := by
  simp [expand, levelOne]

theorem expand_two (s : Store) (st1 : Expansion) :
    expand s st1.result 2 2 st1 = (none, levelTwo s st1) := by
  simp [expand, levelTwo]

/-- `expandIncludes` returns no error: it returns nothing when neither include
parameter is given, the level-1 entries when `_include:iterate` is absent, and
the entries of both levels otherwise. -/
theorem expandIncludes_eq (s : Store) (h : Heap) (entries : List ResourceEntry)
    (query : Values) :
    expandIncludes s h entries query =
      if (query.values "_include").length = 0 ∧ (query.values "_include:iterate").length = 0
      then (.ok [], h)
      else if (query.values "_include:iterate").length > 0
      then (.ok (levelTwo s (levelOne s h entries)).result,
            (levelTwo s (levelOne s h entries)).heap)
      else (.ok (levelOne s h entries).result, (levelOne s h entries).heap) := by
  unfold expandIncludes
  simp only [expand_one, expand_two]

theorem expandIncludes_ok (s : Store) (h : Heap) (entries : List ResourceEntry)
    (query : Values) : ∃ inc h2, expandIncludes s h entries query = (.ok inc, h2) := by
  rw [expandIncludes_eq]
  split
  · exact ⟨_, _, rfl⟩
  · split
    · exact ⟨_, _, rfl⟩
    · exact ⟨_, _, rfl⟩

/-- `Search`, step by step, once `List` has returned the entries. -/
theorem Search_of_List (sr : Searcher) (h : Heap) (t : String) (query : Values)
    (listed : List ResourceEntry) (h1 : Heap) (hl : sr.store.List h t = (.ok listed, h1)) :
    sr.Search h t query =
      match applyCount
          (sortEntries h1 (filterByProfile h1 listed (query.Get "_profile"))
            (query.Get "_sort")) (query.Get "_count") with
      | .error err => (.error err, h1)
      | .ok entries =>
        match expandIncludes sr.store h1 entries query with
        | (.error err, h2) => (.error err, h2)
        | (.ok includes, h2) =>
          (.ok { Entries := entries, Included := includes,
                 Count := (sortEntries h1 (filterByProfile h1 listed (query.Get "_profile"))
                   (query.Get "_sort")).length,
                 IncludeDepth := 2 }, h2) := by
  simp only [Searcher.Search, hl]

theorem parseCount_error (count : String) (err : SearchError)
    (h : parseCount count = .error err) : err = .invalidCount := by
  unfold parseCount at h
  split at h
  · injection h with h; exact h.symm
  · split at h
    · injection h with h; exact h.symm
    · exact Except.noConfusion h

theorem parseCount_nonneg (count : String) (parsed : Int)
    (h : parseCount count = .ok parsed) : 0 ≤ parsed := by
  unfold parseCount at h
  split at h
  · exact Except.noConfusion h
  · split at h
    · exact Except.noConfusion h
    · rename_i hneg
      injection h with h
      subst h
      exact Int.not_lt.mp hneg

theorem applyCount_error (entries : List ResourceEntry) (countParam : String)
    (err : SearchError) (h : applyCount entries countParam = .error err) :
    err = .invalidCount ∧ parseCount countParam = .error .invalidCount := by
  unfold applyCount at h
  split at h
  · cases hp : parseCount countParam with
    | error e =>
      have he := parseCount_error countParam e hp
      subst he
      rw [hp] at h
      injection h with h
      exact ⟨h.symm, rfl⟩
    | ok parsed =>
      rw [hp] at h
      dsimp only at h
      split at h <;> exact Except.noConfusion h
  · exact Except.noConfusion h

theorem applyCount_nil (countParam : String)
    (hc : countParam = "" ∨ ∃ parsed, parseCount countParam = .ok parsed) :
    applyCount [] countParam = .ok [] := by
  unfold applyCount
  split
  · rename_i hne
    rcases hc with hc | ⟨parsed, hp⟩
    · exact absurd hc hne
    · rw [hp]
      dsimp only
      split <;> simp
  · rfl

/-- C12, as stated, fails: "Foo" is not a registered type, and `Search` for it
returns a result (an empty one), not an error. -/
theorem search_unregistered_type :
    Dstu3.NewRegistry.Info "Foo" = none ∧
    ((NewSearcher Dstu3.NewRegistry includeStore.1).Search includeStore.2 "Foo"
        (query1 "_include" "*")).1
      = .ok ⟨[], [], 0, 2⟩ := by
  decide

/-- C12 (amended): `Search` does not consult the registry, so for a type that
is not registered it behaves as for any other type: it fails only for the
empty type ("resource type is required") or for an invalid `_count`, and
returns a result otherwise, the empty one with Count 0 when nothing is stored
under the type. -/
theorem search_ignores_registry (sr : Searcher) (h : Heap) (t : String) (query : Values) :
    (∀ registry, (NewSearcher registry sr.store).Search h t query = sr.Search h t query) ∧
    (∀ err, (sr.Search h t query).1 = .error err →
      (t = "" ∧ err = .store .typeRequired) ∨
      (err = .invalidCount ∧ parseCount (query.Get "_count") = .error .invalidCount)) ∧
    (t ≠ "" → (∀ id, sr.store.entry t id = none) →
      (query.Get "_count" = "" ∨ ∃ parsed, parseCount (query.Get "_count") = .ok parsed) →
      sr.Search h t query = (.ok ⟨[], [], 0, 2⟩, h)) := by
  refine ⟨fun _ => rfl, ?_, ?_⟩
  · intro err herr
    by_cases ht : t = ""
    · subst ht
      simp only [Searcher.Search, List_required] at herr
      injection herr with herr
      exact Or.inl ⟨rfl, herr.symm⟩
    · obtain ⟨listed, h1, hl⟩ := List_ok_of_ne sr.store h t ht
      rw [Search_of_List sr h t query listed h1 hl] at herr
      split at herr
      · rename_i e he
        injection herr with herr
        subst herr
        exact Or.inr (applyCount_error _ _ e he)
      · rename_i entries _
        obtain ⟨inc, h2, hi⟩ := expandIncludes_ok sr.store h1 entries query
        rw [hi] at herr
        exact Except.noConfusion herr
  · intro ht hnone hc
    rw [Search_of_List sr h t query [] h (List_nothing sr.store h t ht hnone)]
    have hf : filterByProfile h [] (query.Get "_profile") = [] := by
      unfold filterByProfile
      split <;> rfl
    have hs : sortEntries h [] (query.Get "_sort") = [] := by
      unfold sortEntries
      split <;> rfl
    rw [hf, hs, applyCount_nil _ hc]
    simp [expandIncludes_eq, levelOne, levelTwo]

/-- C12 (amended), at a concrete input: the type "Foo" on the store of the
include test. -/
theorem search_ignores_registry_witness :
    (∀ registry, (NewSearcher registry includeStore.1).Search includeStore.2 "Foo"
        (query1 "_count" "1")
      = (NewSearcher Dstu3.NewRegistry includeStore.1).Search includeStore.2 "Foo"
        (query1 "_count" "1")) ∧
    (∀ err, ((NewSearcher Dstu3.NewRegistry includeStore.1).Search includeStore.2 "Foo"
        (query1 "_count" "1")).1 = .error err →
      (("Foo" : String) = "" ∧ err = .store .typeRequired) ∨
      (err = .invalidCount ∧
        parseCount ((query1 "_count" "1").Get "_count") = .error .invalidCount)) ∧
    (("Foo" : String) ≠ "" → (∀ id, includeStore.1.entry "Foo" id = none) →
      ((query1 "_count" "1").Get "_count" = "" ∨
        ∃ parsed, parseCount ((query1 "_count" "1").Get "_count") = .ok parsed) →
      (NewSearcher Dstu3.NewRegistry includeStore.1).Search includeStore.2 "Foo"
        (query1 "_count" "1") = (.ok ⟨[], [], 0, 2⟩, includeStore.2)) :=
  search_ignores_registry (NewSearcher Dstu3.NewRegistry includeStore.1) includeStore.2 "Foo"
    (query1 "_count" "1")

/-! ### `parseCount` on decimal text -/

theorem decimalValue_append_singleton (ds : List Char) (c : Char) :
    decimalValue (ds ++ [c]) = 10 * decimalValue ds + (c.toNat - '0'.toNat) := by
  simp [decimalValue, List.foldl_append]

theorem digitChar_spec (k : Nat) (hk : k < 10) :
    (Nat.digitChar k).isDigit = true ∧ (Nat.digitChar k).toNat - '0'.toNat = k ∧
      isSpace (Nat.digitChar k) = false ∧ Nat.digitChar k ≠ '\r' ∧ Nat.digitChar k ≠ '\n' ∧
      Nat.digitChar k ≠ '+' ∧ Nat.digitChar k ≠ '-' := by
  interval_cases k <;> decide

/-- The digits `Nat.toDigits` puts in front of `ds`: at least one, all decimal
digits, denoting `n`. -/
theorem toDigitsCore_spec (fuel : Nat) :
    ∀ (n : Nat) (ds : List Char), n < fuel →
      ∃ pre, Nat.toDigitsCore 10 fuel n ds = pre ++ ds ∧ pre ≠ [] ∧
        (∀ c ∈ pre, c.isDigit = true) ∧ decimalValue pre = n ∧
        (∃ k, k < 10 ∧ pre.head? = some (Nat.digitChar k)) := by
  induction fuel with
  | zero => intro n ds hn; exact absurd hn (Nat.not_lt_zero _)
  | succ fuel ih =>
    intro n ds hn
    have hmod : n % 10 < 10 := Nat.mod_lt _ (by decide)
    obtain ⟨hd, hv, _⟩ := digitChar_spec (n % 10) hmod
    by_cases h0 : n / 10 = 0
    · refine ⟨[Nat.digitChar (n % 10)], ?_, by simp, ?_, ?_, n % 10, hmod, rfl⟩
      · simp [Nat.toDigitsCore, h0]
      · intro c hc
        simp only [List.mem_singleton] at hc
        subst hc
        exact hd
      · have hlt : n < 10 := by omega
        simp only [decimalValue, List.foldl_cons, List.foldl_nil, Nat.mul_zero, Nat.zero_add]
        rw [hv]
        exact Nat.mod_eq_of_lt hlt
    · have hlt : n / 10 < fuel := by
        have : n / 10 < n := Nat.div_lt_self (by omega) (by decide)
        omega
      obtain ⟨pre, hpre, hne, hdig, hval, hhead⟩ :=
        ih (n / 10) (Nat.digitChar (n % 10) :: ds) hlt
      refine ⟨pre ++ [Nat.digitChar (n % 10)], ?_, by simp, ?_, ?_, ?_⟩
      · simp [Nat.toDigitsCore, h0, hpre]
      · intro c hc
        simp only [List.mem_append, List.mem_singleton] at hc
        rcases hc with hc | rfl
        · exact hdig c hc
        · exact hd
      · rw [decimalValue_append_singleton, hval, hv]
        omega
      · obtain ⟨k, hk, hh⟩ := hhead
        refine ⟨k, hk, ?_⟩
        cases pre with
        | nil => exact absurd rfl hne
        | cons a l => simpa using hh

theorem takeWhile_all (p : Char → Bool) (l : List Char) (h : ∀ c ∈ l, p c = true) :
    l.takeWhile p = l := by
  induction l with
  | nil => rfl
  | cons a l ih =>
    simp only [List.takeWhile_cons, h a (List.mem_cons_self _ _), if_true]
    rw [ih fun c hc => h c (List.mem_cons_of_mem _ hc)]

/-- `Sscanf` reads the decimal text of `n` as `n`, when `n` fits 64 bits. -/
theorem sscanfInt_toString (n : Nat) (hn : n < 2 ^ 63) :
    sscanfInt (toString n) = some (n : Int) := by
  obtain ⟨pre, hpre, hne, hdig, hval, k, hk, hhead⟩ :=
    toDigitsCore_spec (n + 1) n [] (Nat.lt_succ_self n)
  have hlist : (toString n).toList = pre := by
    show (Nat.toDigits 10 n) = pre
    simpa [Nat.toDigits] using hpre
  cases pre with
  | nil => exact absurd rfl hne
  | cons c cs =>
    simp only [List.head?_cons, Option.some.injEq] at hhead
    obtain ⟨_, _, hsp, hcr, hnl, hplus, hminus⟩ := digitChar_spec k hk
    rw [← hhead] at hsp hcr hnl hplus hminus
    have hskip : skipSpace (c :: cs) = some (c :: cs) := by
      simp [skipSpace, hcr, hnl, hsp]
    have htw : (c :: cs).takeWhile Char.isDigit = c :: cs := takeWhile_all _ _ hdig
    simp only [sscanfInt, hlist, hskip, hplus, hminus, or_self, if_false, htw, hval,
      decide_False]
    have hn1 : n < 9223372036854775808 := by simpa using hn
    simp [hn1]

theorem parseCount_toString (n : Nat) (hn : n < 2 ^ 63) :
    parseCount (toString n) = .ok (n : Int) := by
  simp [parseCount, sscanfInt_toString n hn]

/-! ### Sorting returns the same entries -/

theorem sliceStable_perm {α : Type} (less : α → α → Bool) (l : List α) :
    (sliceStable less l).Perm l :=
  List.perm_insertionSort _ l

theorem sortEntries_perm (h : Heap) (entries : List ResourceEntry) (sortParam : String) :
    (sortEntries h entries sortParam).Perm entries := by
  unfold sortEntries
  split
  · exact List.Perm.refl _
  · exact sliceStable_perm _ _

theorem sortEntries_length (h : Heap) (entries : List ResourceEntry) (sortParam : String) :
    (sortEntries h entries sortParam).length = entries.length :=
  (sortEntries_perm h entries sortParam).length_eq

theorem applyCount_toString (entries : List ResourceEntry) (n : Nat) (hn : n < 2 ^ 63) :
    applyCount entries (toString n) = .ok (entries.take n) := by
  have hne : toString n ≠ "" := by
    intro h
    have := parseCount_toString n hn
    rw [h] at this
    have hempty : parseCount "" = .error .invalidCount := by decide
    rw [hempty] at this
    exact Except.noConfusion this
  simp only [applyCount, hne, ne_eq, not_false_eq_true, if_true, parseCount_toString n hn]
  by_cases hlt : (n : Int) < (entries.length : Int)
  · simp [hlt]
  · simp only [hlt, if_false]
    have : entries.length ≤ n := by omega
    rw [List.take_of_length_le this]

/-- C13, as stated, fails: for the empty type `Search` fails whatever the
count, and the decimal text of 2^63 is refused as a count. -/
theorem search_count_refused :
    ((NewSearcher Dstu3.NewRegistry twoPatients.2.1).Search twoPatients.2.2 ""
        (query1 "_count" "1")).1 = .error (.store .typeRequired) ∧
    query1 "_count" "9223372036854775808" = query1 "_count" (toString (2 ^ 63)) ∧
    ((NewSearcher Dstu3.NewRegistry twoPatients.2.1).Search twoPatients.2.2 "Patient"
        (query1 "_count" "9223372036854775808")).1 = .error .invalidCount :=
  ⟨by decide, rfl, by decide⟩

/-- C13 (amended): for every store, non-empty type and query whose `_count` is
the decimal text of a non-negative integer `N` below 2^63, with `M` resources
passing the `_profile` filter: `Search` returns as primary entries exactly the
first `min(N, M)` entries of the filtered, sorted list, and reports Count = `M`;
in particular with `N = 1` and `M ≥ 1` it returns exactly one entry. -/
theorem search_count (sr : Searcher) (h : Heap) (t : String) (query : Values) (N : Nat)
    (ht : t ≠ "") (hN : N < 2 ^ 63) (hcount : query.Get "_count" = toString N) :
    ∃ listed h1 res h2,
      sr.store.List h t = (.ok listed, h1) ∧
      sr.Search h t query = (.ok res, h2) ∧
      res.Entries =
        (sortEntries h1 (filterByProfile h1 listed (query.Get "_profile"))
          (query.Get "_sort")).take N ∧
      res.Count = (filterByProfile h1 listed (query.Get "_profile")).length ∧
      res.Entries.length = min N res.Count ∧
      (N = 1 → 1 ≤ res.Count → res.Entries.length = 1) := by
  obtain ⟨listed, h1, hl⟩ := List_ok_of_ne sr.store h t ht
  obtain ⟨inc, h2, hi⟩ := expandIncludes_ok sr.store h1
    ((sortEntries h1 (filterByProfile h1 listed (query.Get "_profile"))
      (query.Get "_sort")).take N) query
  have hs := Search_of_List sr h t query listed h1 hl
  rw [hcount, applyCount_toString _ N hN] at hs
  simp only [hi] at hs
  refine ⟨listed, h1, _, h2, hl, hs, rfl, sortEntries_length _ _ _, ?_, ?_⟩
  · simp only [List.length_take]
  · intro h1N hM
    subst h1N
    dsimp only at hM ⊢
    simp only [List.length_take]
    omega

/-- C13 (amended), at a concrete input: a count of 1 on the store with two patients. -/
theorem search_count_witness :
    ("Patient" : String) ≠ "" ∧ 1 < 2 ^ 63 ∧
    (query1 "_count" "1").Get "_count" = toString 1 ∧
    ((NewSearcher Dstu3.NewRegistry twoPatients.2.1).Search twoPatients.2.2 "Patient"
        (query1 "_count" "1")).1 = .ok ⟨[⟨4, "1", "t1", []⟩], [], 2, 2⟩ ∧
    ∃ listed h1 res h2,
      (NewSearcher Dstu3.NewRegistry twoPatients.2.1).store.List twoPatients.2.2 "Patient"
        = (.ok listed, h1) ∧
      (NewSearcher Dstu3.NewRegistry twoPatients.2.1).Search twoPatients.2.2 "Patient"
        (query1 "_count" "1") = (.ok res, h2) ∧
      res.Entries =
        (sortEntries h1 (filterByProfile h1 listed ((query1 "_count" "1").Get "_profile"))
          ((query1 "_count" "1").Get "_sort")).take 1 ∧
      res.Count = (filterByProfile h1 listed ((query1 "_count" "1").Get "_profile")).length ∧
      res.Entries.length = min 1 res.Count ∧
      (1 = 1 → 1 ≤ res.Count → res.Entries.length = 1) :=
  ⟨by decide, by decide, by decide, by decide,
   search_count (NewSearcher Dstu3.NewRegistry twoPatients.2.1) twoPatients.2.2 "Patient"
     (query1 "_count" "1") 1 (by decide) (by decide) (by decide)⟩

/-- C14: the text "1abc" is not the decimal text of a number, yet `parseCount`
accepts it as 1 and `Search` returns a result; so do " 1" and "+1". -/
theorem count_trailing_text_accepted :
    parseCount "1abc" = .ok 1 ∧ parseCount " 1" = .ok 1 ∧ parseCount "+1" = .ok 1 ∧
    ((NewSearcher Dstu3.NewRegistry twoPatients.2.1).Search twoPatients.2.2 "Patient"
        (query1 "_count" "1abc")).1 = .ok ⟨[⟨4, "1", "t1", []⟩], [], 2, 2⟩ := by
  decide

/-! ### `sort.SliceStable` by the sort value -/

theorem strLT_iff (a b : String) : strLT a b ↔ a < b := String.lt_iff_toList_lt.symm

/-- An element is not `less` than the one before it: in the ascending sort its
value is not smaller, in the descending sort not greater. -/
theorem sortLess_false_iff (h : Heap) (desc : Bool) (field : String) (a b : ResourceEntry) :
    sortLess h desc field b a = false ↔
      if desc then sortValue h b field ≤ sortValue h a field
      else sortValue h a field ≤ sortValue h b field := by
  cases desc <;> simp [sortLess, strLT_iff]

theorem sliceStable_sorted (h : Heap) (desc : Bool) (field : String)
    (l : List ResourceEntry) :
    (sliceStable (sortLess h desc field) l).Sorted fun a b =>
      sortLess h desc field b a = false := by
  haveI : IsTotal ResourceEntry fun a b => sortLess h desc field b a = false :=
    ⟨fun a b => by
      simp only [sortLess_false_iff]
      cases desc
      · exact le_total _ _
      · exact le_total _ _⟩
  haveI : IsTrans ResourceEntry fun a b => sortLess h desc field b a = false :=
    ⟨fun a b c hab hbc => by
      simp only [sortLess_false_iff] at *
      cases desc
      · exact le_trans hab hbc
      · exact le_trans hbc hab⟩
  exact List.sorted_insertionSort _ l

theorem filter_orderedInsert {α : Type} (r : α → α → Prop) [DecidableRel r] (p : α → Bool)
    (hp : ∀ a b, p a = true → p b = true → r a b) (a : α) (l : List α) :
    (l.orderedInsert r a).filter p = (a :: l).filter p := by
  induction l with
  | nil => rfl
  | cons b l ih =>
    by_cases hr : r a b
    · simp [List.orderedInsert, hr]
    · simp only [List.orderedInsert, hr, if_false]
      by_cases hpa : p a = true
      · have hpb : p b = false := by
          by_contra hb
          exact hr (hp a b hpa (by simpa using hb))
        simp only [List.filter_cons, hpb, hpa, if_true] at ih ⊢
        simpa using ih
      · simp only [List.filter_cons, hpa] at ih ⊢
        simp [ih]

/-- A stable sort keeps the elements that share a key in their input order. -/
theorem filter_insertionSort {α : Type} (r : α → α → Prop) [DecidableRel r] (p : α → Bool)
    (hp : ∀ a b, p a = true → p b = true → r a b) (l : List α) :
    (l.insertionSort r).filter p = l.filter p := by
  induction l with
  | nil => rfl
  | cons a l ih =>
    rw [List.insertionSort_cons_eq_take_drop] at *
    rw [← List.orderedInsert_eq_take_drop, filter_orderedInsert r p hp]
    simp only [List.filter_cons, ih]

theorem insertionSort_of_all {α : Type} (r : α → α → Prop) [DecidableRel r]
    (hr : ∀ a b, r a b) (l : List α) : l.insertionSort r = l :=
  List.Sorted.insertionSort_eq (List.pairwise_of_forall hr)

theorem sortValue_unrecognized (h : Heap) (e : ResourceEntry) (field : String)
    (h1 : field ≠ "_lastUpdated") (h2 : field ≠ "id") (h3 : field ≠ "date") :
    sortValue h e field = "" := by
  simp [sortValue, h1, h2, h3]

/-! ### The heap during a search -/

theorem cloneAll_allocated (entries : GoMap ResourceEntry) (ids : List String) :
    ∀ h : Heap, (∀ id e, entries.lookup id = some e → e.allocated h) →
      ∀ out ∈ (cloneAll entries h ids).1, out.allocated (cloneAll entries h ids).2 := by
  induction ids with
  | nil => intro h _ out hout; simp [cloneAll] at hout
  | cons id rest ih =>
    intro h hall out hout
    cases hl : entries.lookup id with
    | none =>
      simp only [cloneAll, hl] at hout ⊢
      exact ih h hall out hout
    | some e =>
      have hext := cloneEntry_extends h e
      simp only [cloneAll, hl, List.mem_cons] at hout ⊢
      rcases hout with rfl | hout
      · exact allocated_of_extends (cloneAll_extends entries rest _)
          (cloneEntry_allocated h e (hall id e hl))
      · exact ih _ (fun id1 e1 he1 => allocated_of_extends hext (hall id1 e1 he1)) out hout

/-- The entries `List` returns are allocated in the heap it leaves, which
extends the heap it found. -/
theorem List_allocated (s : Store) (h : Heap) (hinv : s.Inv h) (t : String)
    (listed : List ResourceEntry) (h1 : Heap) (hl : s.List h t = (.ok listed, h1)) :
    h <+: h1 ∧ ∀ e ∈ listed, e.allocated h1 := by
  have hext := List_extends s h t
  rw [hl] at hext
  refine ⟨hext, ?_⟩
  by_cases ht : t = ""
  · subst ht
    rw [List_required] at hl
    injection hl with h1 _
    exact Except.noConfusion h1
  · cases hlk : s.resources.lookup t with
    | none =>
      rw [List_unknown s h t ht hlk] at hl
      injection hl with hres _
      injection hres with hres
      subst hres
      intro e he
      simp at he
    | some entries =>
      rw [List_known s h t ht entries hlk] at hl
      injection hl with hres hh1
      injection hres with hres
      subst hres hh1
      exact cloneAll_allocated entries _ h fun id e he =>
        (hinv t id e (by simp [Store.entry, hlk, he])).1

theorem expandRef_extends (s : Store) (st : Expansion) (ref : Dstu3.Reference) :
    st.heap <+: (expandRef s st ref).heap := by
  unfold expandRef
  split
  · rename_i type id _
    dsimp only
    split
    · exact List.prefix_refl _
    · have hg := Get_extends s st.heap type id
      split
      · exact List.prefix_refl _
      · rename_i included h1 heq
        rw [heq] at hg
        exact hg
  · exact List.prefix_refl _

theorem foldl_expandRef_extends (s : Store) (refs : List Dstu3.Reference) :
    ∀ st : Expansion, st.heap <+: (refs.foldl (expandRef s) st).heap := by
  induction refs with
  | nil => intro st; exact List.prefix_refl _
  | cons ref rest ih =>
    intro st
    exact (expandRef_extends s st ref).trans (ih _)

theorem expandEntry_extends (s : Store) (st : Expansion) (e : ResourceEntry) :
    st.heap <+: (expandEntry s st e).heap :=
  foldl_expandRef_extends s _ st

theorem foldl_expandEntry_extends (s : Store) (entries : List ResourceEntry) :
    ∀ st : Expansion, st.heap <+: (entries.foldl (expandEntry s) st).heap := by
  induction entries with
  | nil => intro st; exact List.prefix_refl _
  | cons e rest ih =>
    intro st
    exact (expandEntry_extends s st e).trans (ih _)

theorem levelOne_extends (s : Store) (h : Heap) (entries : List ResourceEntry) :
    h <+: (levelOne s h entries).heap :=
  foldl_expandEntry_extends s entries { seen := [], result := [], heap := h }

theorem levelTwo_extends (s : Store) (st1 : Expansion) : st1.heap <+: (levelTwo s st1).heap :=
  foldl_expandEntry_extends s st1.result st1

theorem expandIncludes_extends (s : Store) (h : Heap) (entries : List ResourceEntry)
    (query : Values) : h <+: (expandIncludes s h entries query).2 := by
  rw [expandIncludes_eq]
  split
  · exact List.prefix_refl _
  · split
    · exact (levelOne_extends s h entries).trans (levelTwo_extends s _)
    · exact levelOne_extends s h entries

theorem sortValue_of_extends {h h1 : Heap} (hext : h <+: h1) (e : ResourceEntry)
    (he : e.Resource < h.length) (field : String) :
    sortValue h1 e field = sortValue h e field := by
  simp only [sortValue, getElem?_of_extends hext he]

theorem refsOf_of_extends {h h1 : Heap} (hext : h <+: h1) (e : ResourceEntry)
    (he : e.Resource < h.length) : refsOf h1 e = refsOf h e := by
  simp only [refsOf, getElem?_of_extends hext he]

theorem mem_filterByProfile (h : Heap) (entries : List ResourceEntry) (profile : String)
    (e : ResourceEntry) (he : e ∈ filterByProfile h entries profile) : e ∈ entries := by
  unfold filterByProfile at he
  split at he
  · exact he
  · exact List.mem_of_mem_filter he

theorem mem_applyCount (entries kept : List ResourceEntry) (countParam : String)
    (hk : applyCount entries countParam = .ok kept) : kept.Sublist entries := by
  unfold applyCount at hk
  split at hk
  · split at hk
    · exact Except.noConfusion hk
    · split at hk
      · injection hk with hk
        subst hk
        exact List.take_sublist _ _
      · injection hk with hk
        subst hk
        exact List.Sublist.refl _
  · injection hk with hk
    subst hk
    exact List.Sublist.refl _

/-! ### `sortEntries` -/

theorem sortEntries_of_key (h : Heap) (entries : List ResourceEntry) (sortParam : String)
    (desc : Bool) (field : String) (hk : sortKey sortParam = some (desc, field)) :
    sortEntries h entries sortParam = sliceStable (sortLess h desc field) entries := by
  simp only [sortEntries, hk]

theorem sortEntries_sorted_of_key (h : Heap) (entries : List ResourceEntry)
    (sortParam : String) (desc : Bool) (field : String)
    (hk : sortKey sortParam = some (desc, field)) :
    (sortEntries h entries sortParam).Sorted fun a b =>
      if desc then sortValue h b field ≤ sortValue h a field
      else sortValue h a field ≤ sortValue h b field := by
  rw [sortEntries_of_key h entries sortParam desc field hk]
  exact (sliceStable_sorted h desc field entries).imp fun {a b} hab =>
    (sortLess_false_iff h desc field a b).mp hab

theorem sortKey_recognized (field : String)
    (hf : field = "_lastUpdated" ∨ field = "id" ∨ field = "date") :
    sortKey field = some (false, field) ∧ sortKey ("-" ++ field) = some (true, field) := by
  rcases hf with rfl | rfl | rfl <;> exact ⟨by decide, by decide⟩

theorem applyCount_ok (entries : List ResourceEntry) (countParam : String)
    (hc : countParam = "" ∨ ∃ parsed, parseCount countParam = .ok parsed) :
    ∃ kept, applyCount entries countParam = .ok kept := by
  unfold applyCount
  split
  · rename_i hne
    rcases hc with hc | ⟨parsed, hp⟩
    · exact absurd hc hne
    · rw [hp]
      dsimp only
      split
      · exact ⟨_, rfl⟩
      · exact ⟨_, rfl⟩
  · exact ⟨_, rfl⟩

/-- The primary entries of a successful search, sorted by the key of the query
as read in the heap the search leaves. -/
theorem Search_sorted (sr : Searcher) (h : Heap) (hr : Reachable sr.store h) (t : String)
    (query : Values) (desc : Bool) (field : String) (ht : t ≠ "")
    (hk : sortKey (query.Get "_sort") = some (desc, field))
    (hc : query.Get "_count" = "" ∨ ∃ parsed, parseCount (query.Get "_count") = .ok parsed) :
    ∃ res h2, sr.Search h t query = (.ok res, h2) ∧
      res.Entries.Sorted fun a b =>
        if desc then sortValue h2 b field ≤ sortValue h2 a field
        else sortValue h2 a field ≤ sortValue h2 b field := by
  obtain ⟨listed, h1, hl⟩ := List_ok_of_ne sr.store h t ht
  obtain ⟨_, hallocated⟩ := List_allocated sr.store h hr.inv t listed h1 hl
  obtain ⟨kept, hkept⟩ := applyCount_ok
    (sortEntries h1 (filterByProfile h1 listed (query.Get "_profile")) (query.Get "_sort"))
    (query.Get "_count") hc
  obtain ⟨inc, h2, hi⟩ := expandIncludes_ok sr.store h1 kept query
  have hext : h1 <+: h2 := by
    have := expandIncludes_extends sr.store h1 kept query
    rwa [hi] at this
  have hs := Search_of_List sr h t query listed h1 hl
  rw [hkept] at hs
  simp only [hi] at hs
  refine ⟨_, h2, hs, ?_⟩
  have hsub := mem_applyCount _ kept _ hkept
  have hsorted := (sortEntries_sorted_of_key h1
    (filterByProfile h1 listed (query.Get "_profile")) (query.Get "_sort") desc field
    hk).sublist hsub
  have hmem : ∀ e ∈ kept, e.Resource < h1.length := fun e he =>
    (hallocated e (mem_filterByProfile h1 listed _ e
      ((sortEntries_perm h1 _ _).mem_iff.mp (hsub.subset he)))).1
  refine List.Pairwise.imp_of_mem ?_ hsorted
  intro a b ha hb hab
  rw [sortValue_of_extends hext a (hmem a ha), sortValue_of_extends hext b (hmem b hb)]
  exact hab

/-- C15: for every list of entries and every recognized sort key
(`_lastUpdated`, `id`, `date`), `sortEntries` returns a permutation of its
input whose sort keys are non-decreasing under string comparison, or
non-increasing when the key is prefixed with "-"; and a search with such a
`_sort` (`-date` in particular) succeeds, whatever date fields the resources
have, and returns its primary entries in that order. -/
theorem sortEntries_sorted (h : Heap) (entries : List ResourceEntry) (field : String)
    (hf : field = "_lastUpdated" ∨ field = "id" ∨ field = "date") :
    (sortEntries h entries field).Perm entries ∧
    ((sortEntries h entries field).Sorted fun a b =>
      sortValue h a field ≤ sortValue h b field) ∧
    (sortEntries h entries ("-" ++ field)).Perm entries ∧
    ((sortEntries h entries ("-" ++ field)).Sorted fun a b =>
      sortValue h b field ≤ sortValue h a field) ∧
    (∀ (sr : Searcher) (t : String) (query : Values), Reachable sr.store h → t ≠ "" →
      query.Get "_sort" = "-" ++ field →
      (query.Get "_count" = "" ∨ ∃ parsed, parseCount (query.Get "_count") = .ok parsed) →
      ∃ res h2, sr.Search h t query = (.ok res, h2) ∧
        res.Entries.Sorted fun a b => sortValue h2 b field ≤ sortValue h2 a field) := by
  obtain ⟨hasc, hdesc⟩ := sortKey_recognized field hf
  refine ⟨sortEntries_perm _ _ _, ?_, sortEntries_perm _ _ _, ?_, ?_⟩
  · simpa using sortEntries_sorted_of_key h entries field false field hasc
  · simpa using sortEntries_sorted_of_key h entries ("-" ++ field) true field hdesc
  · intro sr t query hr ht hsort hc
    obtain ⟨res, h2, hs, hsorted⟩ :=
      Search_sorted sr h hr t query true field ht (by rw [hsort]; exact hdesc) hc
    exact ⟨res, h2, hs, by simpa using hsorted⟩

/-- C15, at a concrete input: the two observations of the repository's test
`TestObservationSortDateDescending`, sorted by `-date`, come latest first. -/
theorem sortEntries_sorted_witness :
    (("date" : String) = "_lastUpdated" ∨ ("date" : String) = "id" ∨
      ("date" : String) = "date") ∧
    sortEntries observationStore.2 [⟨0, "1", "t0", []⟩, ⟨2, "1", "t1", []⟩] "-date"
      = [⟨2, "1", "t1", []⟩, ⟨0, "1", "t0", []⟩] ∧
    ((sortEntries observationStore.2 [⟨0, "1", "t0", []⟩, ⟨2, "1", "t1", []⟩]
        ("-" ++ "date")).Sorted fun a b =>
      sortValue observationStore.2 b "date" ≤ sortValue observationStore.2 a "date") :=
  ⟨by decide, by decide,
    (sortEntries_sorted observationStore.2 [⟨0, "1", "t0", []⟩, ⟨2, "1", "t1", []⟩] "date"
      (by decide)).2.2.2.1⟩

/-- C16: `sortEntries` is stable in both directions: the entries that share a
sort key keep their relative input order, for ascending and for descending
sorts alike; for an unrecognized sort key, and where no key is given, the
output list equals the input list. -/
theorem sortEntries_stable (h : Heap) (entries : List ResourceEntry) (sortParam : String) :
    (∀ desc field, sortKey sortParam = some (desc, field) → ∀ k : String,
      (sortEntries h entries sortParam).filter (fun e => sortValue h e field = k)
        = entries.filter fun e => sortValue h e field = k) ∧
    (∀ desc field, sortKey sortParam = some (desc, field) →
      field ≠ "_lastUpdated" → field ≠ "id" → field ≠ "date" →
      sortEntries h entries sortParam = entries) ∧
    (sortKey sortParam = none → sortEntries h entries sortParam = entries) := by
  refine ⟨?_, ?_, ?_⟩
  · intro desc field hk k
    rw [sortEntries_of_key h entries sortParam desc field hk]
    apply filter_insertionSort
    intro a b ha hb
    have ha1 : sortValue h a field = k := by simpa using ha
    have hb1 : sortValue h b field = k := by simpa using hb
    rw [sortLess_false_iff, ha1, hb1]
    cases desc <;> simp
  · intro desc field hk h1 h2 h3
    rw [sortEntries_of_key h entries sortParam desc field hk]
    apply insertionSort_of_all
    intro a b
    rw [sortLess_false_iff, sortValue_unrecognized h a field h1 h2 h3,
      sortValue_unrecognized h b field h1 h2 h3]
    cases desc <;> simp
  · intro hk
    simp only [sortEntries, hk]

/-! ### Entries are stored under the type and the id of their resource -/

theorem sameKeys_refl (h : Heap) : sameKeys h h := fun _ r hp => ⟨r, hp, rfl, rfl⟩

theorem sameKeys_trans {h h1 h2 : Heap} (h01 : sameKeys h h1) (h12 : sameKeys h1 h2) :
    sameKeys h h2 := fun p r hp => by
  obtain ⟨r1, hp1, ht1, hi1⟩ := h01 p r hp
  obtain ⟨r2, hp2, ht2, hi2⟩ := h12 p r1 hp1
  exact ⟨r2, hp2, ht2.trans ht1, hi2.trans hi1⟩

theorem sameKeys_of_extends {h h1 : Heap} (hext : h <+: h1) : sameKeys h h1 := fun _ r hp =>
  ⟨r, (getElem?_of_extends hext (lt_length_of_getElem? hp)).trans hp, rfl, rfl⟩

theorem sameKeys_applyMeta (h : Heap) (e : ResourceEntry) : sameKeys h (applyMeta h e) := by
  intro p r hp
  by_cases hpe : p = e.Resource
  · subst hpe
    exact ⟨_, applyMeta_get_self h e r hp, stampMeta_GetResourceType r _ _, stampMeta_GetID r _ _⟩
  · exact ⟨r, (applyMeta_get_other h e p hpe).trans hp, rfl, rfl⟩

theorem Keyed_of_sameKeys {s : Store} {h h1 : Heap} (hk : s.Keyed h) (hs : sameKeys h h1) :
    s.Keyed h1 := fun t i e he => by
  obtain ⟨r, hp, ht, hi⟩ := hk t i e he
  obtain ⟨r1, hp1, ht1, hi1⟩ := hs _ r hp
  exact ⟨r1, hp1, ht1.trans ht, hi1.trans hi⟩

theorem Keyed_NewStore (h : Heap) : NewStore.Keyed h := fun t i e he => by
  rw [entry_NewStore] at he
  exact Option.noConfusion he

theorem Keyed_setEntry {s : Store} {h : Heap} (hk : s.Keyed h) (e : ResourceEntry)
    (r : Dstu3.Resource) (hp : h[e.Resource]? = some r) :
    (s.setEntry r.GetResourceType r.GetID e).Keyed h := by
  intro t1 i1 e1 h1
  by_cases hkey : t1 = r.GetResourceType ∧ i1 = r.GetID
  · obtain ⟨rfl, rfl⟩ := hkey
    rw [entry_setEntry_same] at h1
    injection h1 with h1
    subst h1
    exact ⟨r, hp, rfl, rfl⟩
  · rw [entry_setEntry_other s _ _ t1 i1 e hkey] at h1
    exact hk t1 i1 e1 h1

theorem Keyed_ensureType {s : Store} {h : Heap} (hk : s.Keyed h) (t : String) :
    (s.ensureType t).Keyed h := fun t1 i1 e1 h1 => by
  rw [entry_ensureType] at h1
  exact hk t1 i1 e1 h1

theorem sameKeys_clone_applyMeta (h : Heap) (e e1 : ResourceEntry) :
    sameKeys h (cloneEntry (applyMeta h e) e1).2 :=
  sameKeys_trans (sameKeys_applyMeta h e) (sameKeys_of_extends (cloneEntry_extends _ _))

theorem Keyed_Create {s : Store} {h : Heap} (hk : s.Keyed h) (now : String)
    (resource : Option Ptr) :
    (s.Create now h resource).2.1.Keyed (s.Create now h resource).2.2 := by
  cases hd : h.deref resource with
  | none => rw [Create_nil now s h resource hd]; exact hk
  | some r =>
    cases resource with
    | none => simp [Heap.deref] at hd
    | some p =>
      have hp : h[p]? = some r := hd
      by_cases hid : r.GetID = ""
      · rw [Create_idRequired now s h p r hp hid]; exact hk
      · cases he : s.entry r.GetResourceType r.GetID with
        | some e => rw [Create_exists now s h p r e hp hid he]; exact hk
        | none =>
          rw [Create_ok now s h p r hp hid he]
          dsimp only
          exact Keyed_of_sameKeys (Keyed_setEntry (Keyed_ensureType hk _) ⟨p, "1", now, []⟩ r hp)
            (sameKeys_clone_applyMeta h _ _)

theorem Keyed_Update {s : Store} {h : Heap} (hk : s.Keyed h) (now : String)
    (resource : Option Ptr) :
    (s.Update now h resource).2.1.Keyed (s.Update now h resource).2.2 := by
  cases hd : h.deref resource with
  | none => rw [Update_nil now s h resource hd]; exact hk
  | some r =>
    cases resource with
    | none => simp [Heap.deref] at hd
    | some p =>
      have hp : h[p]? = some r := hd
      by_cases hid : r.GetID = ""
      · rw [Update_idRequired now s h p r hp hid]; exact hk
      · cases he : s.entry r.GetResourceType r.GetID with
        | some e =>
          rw [Update_existing now s h p r e hp hid he]
          dsimp only
          exact Keyed_of_sameKeys (Keyed_setEntry hk (nextEntry now p e) r hp)
            (sameKeys_clone_applyMeta h _ _)
        | none =>
          rw [Update_new now s h p r hp hid he]
          dsimp only
          exact Keyed_of_sameKeys (Keyed_setEntry (Keyed_ensureType hk _) ⟨p, "1", now, []⟩ r hp)
            (sameKeys_clone_applyMeta h _ _)

/-- What `Delete` leaves stored was stored before. -/
theorem entry_of_Delete (s : Store) (t i t1 i1 : String) (e1 : ResourceEntry)
    (h1 : (s.Delete t i).2.entry t1 i1 = some e1) : s.entry t1 i1 = some e1 := by
  by_cases hk : t1 = t ∧ i1 = i
  · obtain ⟨rfl, rfl⟩ := hk
    cases hok : (s.Delete t1 i1).1 with
    | none =>
      rw [entry_Delete_same s t1 i1 hok] at h1
      exact Option.noConfusion h1
    | some err =>
      have hs : (s.Delete t1 i1).2 = s := by
        by_cases hreq : t1 = "" ∨ i1 = ""
        · rw [Delete_required s t1 i1 hreq]
        · have ht : t1 ≠ "" := fun h => hreq (Or.inl h)
          have hi : i1 ≠ "" := fun h => hreq (Or.inr h)
          cases he : s.entry t1 i1 with
          | none => rw [Delete_notFound s t1 i1 ht hi he]
          | some e =>
            obtain ⟨items, _, hdel⟩ := Delete_ok s t1 i1 e ht hi he
            rw [hdel] at hok
            exact Option.noConfusion hok
      rw [hs] at h1
      exact h1
  · rw [entry_Delete_other s t i t1 i1 hk] at h1
    exact h1

/-- In every reachable state each entry is stored under the resource type and
the id of its current resource. -/
theorem keyed_of_reachable {s : Store} {h : Heap} (hr : Reachable s h) : s.Keyed h := by
  induction hr with
  | init h => exact Keyed_NewStore h
  | alloc r _ ih => exact Keyed_of_sameKeys ih (sameKeys_of_extends (List.prefix_append _ _))
  | create now resource _ ih => exact Keyed_Create ih now resource
  | update now resource _ ih => exact Keyed_Update ih now resource
  | delete t i _ ih => exact fun t1 i1 e1 h1 => ih t1 i1 e1 (entry_of_Delete _ t i t1 i1 e1 h1)
  | get t i _ ih => exact Keyed_of_sameKeys ih (sameKeys_of_extends (Get_extends _ _ t i))
  | list t _ ih => exact Keyed_of_sameKeys ih (sameKeys_of_extends (List_extends _ _ t))

/-- The state after the caller builds a resource object and calls `Update`
with it is reachable. -/
theorem reachable_updateWith (st : Store × Heap) (x : Dstu3.Resource × String)
    (hr : Reachable st.1 st.2) : Reachable (updateWith st x).1 (updateWith st x).2 :=
  Reachable.update x.2 (some st.2.length) (Reachable.alloc x.1 hr)

theorem reachable_includeStore : Reachable includeStore.1 includeStore.2 :=
  reachable_updateWith _ _ (reachable_updateWith _ _ (Reachable.init []))

theorem reachable_observationStore : Reachable observationStore.1 observationStore.2 :=
  reachable_updateWith _ _ (reachable_updateWith _ _ (Reachable.init []))

/-! ### `strings.Split` at one character -/

theorem splitChars_ne_nil (sep : Char) (cs : List Char) : splitChars sep cs ≠ [] := by
  cases cs with
  | nil => simp [splitChars]
  | cons c cs =>
    simp only [splitChars]
    split <;> simp

/-- The text splits into one part more than it has separators. -/
theorem splitChars_length (sep : Char) (cs : List Char) :
    (splitChars sep cs).length = cs.count sep + 1 := by
  induction cs with
  | nil => rfl
  | cons c cs ih =>
    simp only [splitChars]
    split
    · rename_i hc
      subst hc
      simp [ih]
    · rename_i hc
      have hne : (c == sep) = false := by simpa using hc
      simp only [List.length_cons, List.length_tail, ih, List.count_cons, hne]
      simp

theorem splitChars_one (sep : Char) (cs : List Char) :
    ∀ b, splitChars sep cs = [b] → cs = b := by
  induction cs with
  | nil =>
    intro b hb
    simp only [splitChars, List.cons.injEq, and_true] at hb
    exact hb
  | cons c cs ih =>
    intro b hb
    simp only [splitChars] at hb
    split at hb
    · simp only [List.cons.injEq] at hb
      exact absurd hb.2 (splitChars_ne_nil sep cs)
    · cases hs : splitChars sep cs with
      | nil => exact absurd hs (splitChars_ne_nil sep cs)
      | cons x xs =>
        rw [hs] at hb
        simp only [List.headD_cons, List.tail_cons, List.cons.injEq] at hb
        obtain ⟨hb1, hb2⟩ := hb
        subst hb2
        rw [ih x hs]
        exact hb1

/-- The two parts of a text that splits in two, joined by the separator, are
the text. -/
theorem splitChars_two (sep : Char) (cs : List Char) :
    ∀ a b, splitChars sep cs = [a, b] → a ++ sep :: b = cs := by
  induction cs with
  | nil =>
    intro a b hab
    simp [splitChars] at hab
  | cons c cs ih =>
    intro a b hab
    simp only [splitChars] at hab
    split at hab
    · rename_i hc
      simp only [List.cons.injEq] at hab
      obtain ⟨ha, hb⟩ := hab
      subst ha
      rw [splitChars_one sep cs b hb, hc]
      rfl
    · cases hs : splitChars sep cs with
      | nil => exact absurd hs (splitChars_ne_nil sep cs)
      | cons x xs =>
        rw [hs] at hab
        simp only [List.headD_cons, List.tail_cons, List.cons.injEq] at hab
        obtain ⟨ha, hb⟩ := hab
        subst ha hb
        rw [← ih x b hs]
        rfl

theorem split_length (r : String) :
    (split r '/').length = r.toList.count '/' + 1 := by
  simp only [split, List.length_map, splitChars_length]

/-- The key `parts[0] + "/" + parts[1]` of a reference that splits in two is
the text of the reference. -/
theorem split_two (r type id : String) (h : split r '/' = [type, id]) :
    type ++ "/" ++ id = r := by
  unfold split at h
  cases hs : splitChars '/' r.toList with
  | nil => exact absurd hs (splitChars_ne_nil _ _)
  | cons a rest =>
    cases rest with
    | nil => rw [hs] at h; simp at h
    | cons b rest =>
      cases rest with
      | cons c rest => rw [hs] at h; simp at h
      | nil =>
        rw [hs] at h
        simp only [List.map_cons, List.map_nil, List.cons.injEq, and_true] at h
        obtain ⟨ha, hb⟩ := h
        subst ha hb
        have hj := splitChars_two '/' r.toList a b hs
        apply String.ext
        simpa [List.append_assoc] using hj

/-! ### One reference -/

theorem resolvable_iff (s : Store) (ref : Dstu3.Reference) :
    resolvable s ref = true ↔
      ∃ type id e, split ref.Reference '/' = [type, id] ∧ type ≠ "" ∧ id ≠ "" ∧
        s.entry type id = some e := by
  unfold resolvable
  split
  · rename_i type id hsp
    constructor
    · intro hd
      obtain ⟨ht, hi, he⟩ := of_decide_eq_true hd
      obtain ⟨e, he⟩ := Option.isSome_iff_exists.mp he
      exact ⟨type, id, e, hsp, ht, hi, he⟩
    · rintro ⟨type1, id1, e, h1, ht, hi, he⟩
      rw [hsp] at h1
      simp only [List.cons.injEq, and_true] at h1
      obtain ⟨rfl, rfl⟩ := h1
      exact decide_eq_true ⟨ht, hi, by rw [he]; rfl⟩
  · rename_i hsp
    constructor
    · intro hf
      exact Bool.noConfusion hf
    · rintro ⟨type, id, e, h2, _⟩
      exact absurd h2 (hsp type id)

/-- A reference whose key was seen changes nothing. -/
theorem expandRef_of_seen (s : Store) (st : Expansion) (ref : Dstu3.Reference)
    (hseen : ref.Reference ∈ st.seen) : expandRef s st ref = st := by
  unfold expandRef
  split
  · rename_i type id hsp
    dsimp only
    rw [split_two _ _ _ hsp, if_pos hseen]
  · rfl

/-- A reference that does not resolve changes nothing. -/
theorem expandRef_of_unresolvable (s : Store) (st : Expansion) (ref : Dstu3.Reference)
    (hun : resolvable s ref = false) : expandRef s st ref = st := by
  unfold expandRef
  split
  · rename_i type id hsp
    dsimp only
    split
    · rfl
    · by_cases hreq : type = "" ∨ id = ""
      · rw [Get_required s st.heap type id hreq]
      · have ht : type ≠ "" := fun h => hreq (Or.inl h)
        have hi : id ≠ "" := fun h => hreq (Or.inr h)
        cases he : s.entry type id with
        | none => rw [Get_notFound s st.heap type id ht hi he]
        | some e =>
          have : resolvable s ref = true :=
            (resolvable_iff s ref).mpr ⟨type, id, e, hsp, ht, hi, he⟩
          rw [hun] at this
          exact Bool.noConfusion this
  · rfl

/-- A reference that resolves and was not seen adds a copy of its target. -/
theorem expandRef_of_new (s : Store) (st : Expansion) (ref : Dstu3.Reference)
    (hres : resolvable s ref = true) (hnew : ref.Reference ∉ st.seen) :
    ∃ type id e, split ref.Reference '/' = [type, id] ∧ s.entry type id = some e ∧
      expandRef s st ref =
        { seen := ref.Reference :: st.seen,
          result := st.result ++ [(cloneEntry st.heap e).1],
          heap := (cloneEntry st.heap e).2 } := by
  obtain ⟨type, id, e, hsp, ht, hi, he⟩ := (resolvable_iff s ref).mp hres
  refine ⟨type, id, e, hsp, he, ?_⟩
  unfold expandRef
  rw [hsp]
  dsimp only
  rw [split_two _ _ _ hsp, if_neg hnew, Get_ok s st.heap type id e ht hi he]

/-! ### First occurrences -/

theorem firstOccurrences_filter (p : String → Bool) (l : List String) :
    firstOccurrences (l.filter p) = (firstOccurrences l).filter p := by
  induction l with
  | nil => rfl
  | cons a l ih =>
    by_cases hp : p a = true
    · simp only [List.filter_cons, hp, if_true, firstOccurrences, ih, List.filter_filter]
      congr 1
      apply List.filter_congr
      intro x _
      exact Bool.and_comm _ _
    · simp only [List.filter_cons, hp, firstOccurrences, List.filter_filter]
      simp only [Bool.false_eq_true, if_false]
      rw [ih]
      apply List.filter_congr
      intro x _
      by_cases hx : x = a
      · subst hx
        simp [hp]
      · simp [hx]

theorem mem_firstOccurrences (l : List String) (a : String) :
    a ∈ firstOccurrences l ↔ a ∈ l := by
  induction l with
  | nil => simp [firstOccurrences]
  | cons b l ih =>
    simp only [firstOccurrences, List.mem_cons, List.mem_filter, ih, decide_eq_true_eq]
    by_cases hab : a = b
    · simp [hab]
    · simp [hab]

theorem firstOccurrences_nodup (l : List String) : (firstOccurrences l).Nodup := by
  induction l with
  | nil => simp [firstOccurrences]
  | cons b l ih =>
    simp only [firstOccurrences, List.nodup_cons, List.mem_filter, decide_eq_true_eq]
    exact ⟨fun h => h.2 rfl, ih.filter _⟩

/-! ### The references of a list of entries, one after the other -/

theorem copyOfKey_of_extends {s : Store} {h h1 : Heap} (hext : h <+: h1) (hinv : s.Inv h)
    {k : String} {inc : ResourceEntry} (hc : copyOfKey s h k inc) : copyOfKey s h1 k inc := by
  obtain ⟨type, id, e, hsp, he, hall, hval⟩ := hc
  refine ⟨type, id, e, hsp, he, allocated_of_extends hext hall, ?_⟩
  rw [value_of_extends hext hall, value_of_extends hext (hinv type id e he).1, hval]

theorem targets_cons (s : Store) (ref : Dstu3.Reference) (refs : List Dstu3.Reference) :
    targets s (ref :: refs) =
      if resolvable s ref = true then ref.Reference :: targets s refs else targets s refs := by
  unfold targets
  by_cases hr : resolvable s ref = true
  · simp [List.filter_cons, hr]
  · simp [List.filter_cons, hr]

/-- What the inner loop of `expand` does over a list of references: it appends
to the result a copy of each target not seen before, in the order of first
occurrence, and marks these targets as seen. -/
theorem foldl_expandRef_spec (s : Store) (refs : List Dstu3.Reference) :
    ∀ st : Expansion, s.Inv st.heap →
      ∃ added,
        (refs.foldl (expandRef s) st).result = st.result ++ added ∧
        (∀ k, k ∈ (refs.foldl (expandRef s) st).seen ↔
          k ∈ firstOccurrences ((targets s refs).filter fun k => k ∉ st.seen) ∨ k ∈ st.seen) ∧
        List.Forall₂ (copyOfKey s (refs.foldl (expandRef s) st).heap)
          (firstOccurrences ((targets s refs).filter fun k => k ∉ st.seen)) added := by
  induction refs with
  | nil =>
    intro st _
    exact ⟨[], by simp, by simp [targets, firstOccurrences], by
      simp [targets, firstOccurrences]⟩
  | cons ref rest ih =>
    intro st hinv
    rw [List.foldl_cons, targets_cons]
    by_cases hres : resolvable s ref = true
    · by_cases hseen : ref.Reference ∈ st.seen
      · rw [expandRef_of_seen s st ref hseen, if_pos hres, List.filter_cons]
        simp only [hseen, not_true_eq_false, decide_False, Bool.false_eq_true, if_false]
        exact ih st hinv
      · obtain ⟨type, id, e, hsp, he, hx⟩ := expandRef_of_new s st ref hres hseen
        have hext := cloneEntry_extends st.heap e
        have hinv1 : s.Inv (expandRef s st ref).heap := by
          rw [hx]
          exact Inv_of_length_le hinv hext.length_le
        obtain ⟨added, hres1, hseen1, hcopies⟩ := ih (expandRef s st ref) hinv1
        have hkeys : firstOccurrences
              ((ref.Reference :: targets s rest).filter fun k => k ∉ st.seen)
            = ref.Reference :: firstOccurrences
              ((targets s rest).filter fun k => k ∉ (expandRef s st ref).seen) := by
          rw [List.filter_cons]
          simp only [hseen, not_false_eq_true, decide_True, if_true, firstOccurrences]
          rw [← firstOccurrences_filter, List.filter_filter, hx]
          congr 2
          apply List.filter_congr
          intro x _
          simp [and_comm]
        rw [if_pos hres, hkeys]
        refine ⟨(cloneEntry st.heap e).1 :: added, ?_, ?_, ?_⟩
        · rw [hres1, hx]
          simp
        · intro k
          rw [hseen1 k, hx]
          simp only [List.mem_cons]
          tauto
        · refine List.Forall₂.cons ?_ hcopies
          have hfin := foldl_expandRef_extends s rest (expandRef s st ref)
          refine copyOfKey_of_extends hfin hinv1 ?_
          rw [hx]
          exact ⟨type, id, e, hsp, he, cloneEntry_allocated st.heap e (hinv type id e he).1,
            (cloneEntry_value st.heap e (hinv type id e he).1).trans
              (value_of_extends hext (hinv type id e he).1).symm⟩
    · have hun : resolvable s ref = false := by simpa using hres
      rw [expandRef_of_unresolvable s st ref hun, if_neg hres]
      exact ih st hinv

theorem allRefs_cons (h : Heap) (e : ResourceEntry) (entries : List ResourceEntry) :
    allRefs h (e :: entries) = refsOf h e ++ allRefs h entries := by
  simp [allRefs]

theorem allRefs_of_extends {h h1 : Heap} (hext : h <+: h1) (entries : List ResourceEntry)
    (hall : ∀ e ∈ entries, e.Resource < h.length) : allRefs h1 entries = allRefs h entries := by
  induction entries with
  | nil => rfl
  | cons e rest ih =>
    rw [allRefs_cons, allRefs_cons, refsOf_of_extends hext e (hall e (List.mem_cons_self _ _)),
      ih fun x hx => hall x (List.mem_cons_of_mem _ hx)]

/-- The two loops of `expand` scan the references of the entries in one
sequence: entry after entry, and the references of each in their order. -/
theorem foldl_expandEntry_eq (s : Store) (hs : Heap) (entries : List ResourceEntry) :
    ∀ st : Expansion, hs <+: st.heap → (∀ e ∈ entries, e.Resource < hs.length) →
      entries.foldl (expandEntry s) st = (allRefs hs entries).foldl (expandRef s) st := by
  induction entries with
  | nil => intro st _ _; rfl
  | cons e rest ih =>
    intro st hext hall
    have he : expandEntry s st e = (refsOf hs e).foldl (expandRef s) st := by
      unfold expandEntry
      rw [refsOf_of_extends hext e (hall e (List.mem_cons_self _ _))]
    rw [List.foldl_cons, allRefs_cons, List.foldl_append, ← he]
    exact ih _ (hext.trans (expandEntry_extends s st e))
      fun x hx => hall x (List.mem_cons_of_mem _ hx)

/-! ### The two levels of the expansion -/

theorem forall₂_allocated {s : Store} {h : Heap} {keys : List String}
    {l : List ResourceEntry} (hc : List.Forall₂ (copyOfKey s h) keys l) :
    ∀ e ∈ l, e.allocated h := by
  induction hc with
  | nil => intro e he; simp at he
  | cons hab _ ih =>
    intro e he
    rcases List.mem_cons.mp he with rfl | he
    · obtain ⟨_, _, _, _, _, hall, _⟩ := hab
      exact hall
    · exact ih e he

theorem forall₂_of_extends {s : Store} {h h1 : Heap} (hext : h <+: h1) (hinv : s.Inv h)
    {keys : List String} {l : List ResourceEntry}
    (hc : List.Forall₂ (copyOfKey s h) keys l) : List.Forall₂ (copyOfKey s h1) keys l :=
  hc.imp fun _ _ hab => copyOfKey_of_extends hext hinv hab

/-- Level 1: the result holds a copy of each level-1 target, in order, and
these targets are the keys seen. -/
theorem levelOne_spec (s : Store) (h : Heap) (hinv : s.Inv h) (entries : List ResourceEntry)
    (hall : ∀ e ∈ entries, e.Resource < h.length) :
    List.Forall₂ (copyOfKey s (levelOne s h entries).heap) (levelOneKeys s h entries)
      (levelOne s h entries).result ∧
    ∀ k, k ∈ (levelOne s h entries).seen ↔ k ∈ levelOneKeys s h entries := by
  have heq : levelOne s h entries
      = (allRefs h entries).foldl (expandRef s) { seen := [], result := [], heap := h } :=
    foldl_expandEntry_eq s h entries _ (List.prefix_refl _) hall
  obtain ⟨added, hres, hseen, hcopies⟩ :=
    foldl_expandRef_spec s (allRefs h entries) { seen := [], result := [], heap := h } hinv
  rw [← heq] at hres hseen hcopies
  simp only [List.nil_append, List.not_mem_nil, not_false_eq_true, decide_True,
    List.filter_true, or_false] at hres hseen hcopies
  rw [hres]
  exact ⟨hcopies, hseen⟩

/-- Level 2: the result of level 1, followed by a copy of each level-2 target,
in order. -/
theorem levelTwo_spec (s : Store) (st1 : Expansion) (hinv : s.Inv st1.heap)
    (hall : ∀ e ∈ st1.result, e.Resource < st1.heap.length) :
    ∃ l2, (levelTwo s st1).result = st1.result ++ l2 ∧
      List.Forall₂ (copyOfKey s (levelTwo s st1).heap)
        (firstOccurrences
          ((targets s (allRefs st1.heap st1.result)).filter fun k => k ∉ st1.seen)) l2 := by
  have heq : levelTwo s st1 = (allRefs st1.heap st1.result).foldl (expandRef s) st1 :=
    foldl_expandEntry_eq s st1.heap st1.result st1 (List.prefix_refl _) hall
  obtain ⟨added, hres, _, hcopies⟩ :=
    foldl_expandRef_spec s (allRefs st1.heap st1.result) st1 hinv
  rw [← heq] at hres hcopies
  exact ⟨added, hres, hcopies⟩

theorem levelOneKeys_of_extends {h h1 : Heap} (hext : h <+: h1) (s : Store)
    (entries : List ResourceEntry) (hall : ∀ e ∈ entries, e.Resource < h.length) :
    levelOneKeys s h1 entries = levelOneKeys s h entries := by
  unfold levelOneKeys
  rw [allRefs_of_extends hext entries hall]

theorem wantsIncludes_of_wantsIterate (query : Values) (hi : wantsIterate query) :
    wantsIncludes query := by
  unfold wantsIncludes
  unfold wantsIterate at hi
  omega

/-- The entries of a successful search and what it includes: the copies of
the level-1 targets, followed by the copies of the level-2 targets when
`_include:iterate` is given; nothing when no include parameter is given. All
is read in the heap the search leaves. -/
theorem Search_included (sr : Searcher) (h : Heap) (hr : Reachable sr.store h) (t : String)
    (query : Values) (res : SearchResult) (h2 : Heap)
    (hs : sr.Search h t query = (.ok res, h2)) :
    h <+: h2 ∧ (∀ e ∈ res.Entries, e.allocated h2) ∧
    ∃ l1 l2, res.Included = l1 ++ l2 ∧
      (¬ wantsIncludes query → l1 = []) ∧
      (¬ wantsIterate query → l2 = []) ∧
      (wantsIncludes query →
        List.Forall₂ (copyOfKey sr.store h2) (levelOneKeys sr.store h2 res.Entries) l1) ∧
      (wantsIterate query →
        List.Forall₂ (copyOfKey sr.store h2) (levelTwoKeys sr.store h2 res.Entries l1) l2) := by
  by_cases ht : t = ""
  · subst ht
    simp only [Searcher.Search, List_required] at hs
    injection hs with hs _
    exact Except.noConfusion hs
  obtain ⟨listed, h1, hl⟩ := List_ok_of_ne sr.store h t ht
  obtain ⟨hext1, hallocated⟩ := List_allocated sr.store h hr.inv t listed h1 hl
  have hinv1 : sr.store.Inv h1 := Inv_of_length_le hr.inv hext1.length_le
  rw [Search_of_List sr h t query listed h1 hl] at hs
  cases hk : applyCount
      (sortEntries h1 (filterByProfile h1 listed (query.Get "_profile")) (query.Get "_sort"))
      (query.Get "_count") with
  | error err =>
    rw [hk] at hs
    injection hs with hs _
    exact Except.noConfusion hs
  | ok kept =>
    rw [hk] at hs
    dsimp only at hs
    have hkept : ∀ e ∈ kept, e.allocated h1 := fun e he =>
      hallocated e (mem_filterByProfile h1 listed _ e
        ((sortEntries_perm h1 _ _).mem_iff.mp ((mem_applyCount _ kept _ hk).subset he)))
    have hkept1 : ∀ e ∈ kept, e.Resource < h1.length := fun e he => (hkept e he).1
    obtain ⟨hc1, hseen1⟩ := levelOne_spec sr.store h1 hinv1 kept hkept1
    have hext2 := levelOne_extends sr.store h1 kept
    have hinv2 : sr.store.Inv (levelOne sr.store h1 kept).heap :=
      Inv_of_length_le hinv1 hext2.length_le
    have hall1 := forall₂_allocated hc1
    rw [expandIncludes_eq] at hs
    by_cases hw : (query.values "_include").length = 0 ∧
        (query.values "_include:iterate").length = 0
    · rw [if_pos hw] at hs
      simp only [Prod.mk.injEq, Except.ok.injEq] at hs
      obtain ⟨rfl, rfl⟩ := hs
      refine ⟨hext1, hkept, [], [], rfl, fun _ => rfl, fun _ => rfl, ?_, ?_⟩
      · intro hwi
        exact absurd hw hwi
      · intro hwi
        exact absurd hw (wantsIncludes_of_wantsIterate query hwi)
    · rw [if_neg hw] at hs
      by_cases hi : (query.values "_include:iterate").length > 0
      · rw [if_pos hi] at hs
        simp only [Prod.mk.injEq, Except.ok.injEq] at hs
        obtain ⟨rfl, rfl⟩ := hs
        obtain ⟨l2, hres2, hc2⟩ := levelTwo_spec sr.store (levelOne sr.store h1 kept) hinv2
          fun e he => (hall1 e he).1
        have hext3 := levelTwo_extends sr.store (levelOne sr.store h1 kept)
        have hext13 := hext2.trans hext3
        refine ⟨hext1.trans hext13, fun e he => allocated_of_extends hext13 (hkept e he),
          (levelOne sr.store h1 kept).result, l2, hres2, fun hwi => absurd hw hwi,
          fun hwi => absurd hi hwi, ?_, ?_⟩
        · intro _
          dsimp only
          rw [levelOneKeys_of_extends hext13 sr.store kept hkept1]
          exact forall₂_of_extends hext3 hinv2 hc1
        · intro _
          dsimp only
          unfold levelTwoKeys
          rw [levelOneKeys_of_extends hext13 sr.store kept hkept1,
            allRefs_of_extends hext3 _ fun e he => (hall1 e he).1]
          have hfil : (targets sr.store
                (allRefs (levelOne sr.store h1 kept).heap (levelOne sr.store h1 kept).result)).filter
                (fun k => k ∉ levelOneKeys sr.store h1 kept)
              = (targets sr.store
                (allRefs (levelOne sr.store h1 kept).heap (levelOne sr.store h1 kept).result)).filter
                (fun k => k ∉ (levelOne sr.store h1 kept).seen) := by
            apply List.filter_congr
            intro k _
            simp only [hseen1 k]
          rw [hfil]
          exact hc2
      · rw [if_neg hi] at hs
        simp only [Prod.mk.injEq, Except.ok.injEq] at hs
        obtain ⟨rfl, rfl⟩ := hs
        refine ⟨hext1.trans hext2, fun e he => allocated_of_extends hext2 (hkept e he),
          (levelOne sr.store h1 kept).result, [], (List.append_nil _).symm,
          fun hwi => absurd hw hwi, fun _ => rfl, ?_, fun hwi => absurd hwi hi⟩
        intro _
        dsimp only
        rw [levelOneKeys_of_extends hext2 sr.store kept hkept1]
        exact hc1

/-! ### Properties of the include expansion -/

theorem forall₂_exists_left {α β : Type} {R : α → β → Prop} {as : List α} {bs : List β}
    (hf : List.Forall₂ R as bs) : ∀ b ∈ bs, ∃ a ∈ as, R a b := by
  induction hf with
  | nil => intro b hb; simp at hb
  | cons hab _ ih =>
    intro b hb
    rcases List.mem_cons.mp hb with rfl | hb
    · exact ⟨_, List.mem_cons_self _ _, hab⟩
    · obtain ⟨a, ha, hr⟩ := ih b hb
      exact ⟨a, List.mem_cons_of_mem _ ha, hr⟩

theorem forall₂_exists_right {α β : Type} {R : α → β → Prop} {as : List α} {bs : List β}
    (hf : List.Forall₂ R as bs) : ∀ a ∈ as, ∃ b ∈ bs, R a b := by
  induction hf with
  | nil => intro a ha; simp at ha
  | cons hab _ ih =>
    intro a ha
    rcases List.mem_cons.mp ha with rfl | ha
    · exact ⟨_, List.mem_cons_self _ _, hab⟩
    · obtain ⟨b, hb, hr⟩ := ih a ha
      exact ⟨b, List.mem_cons_of_mem _ hb, hr⟩

theorem mem_targets (s : Store) (refs : List Dstu3.Reference) (k : String) :
    k ∈ targets s refs ↔ ∃ ref ∈ refs, resolvable s ref = true ∧ ref.Reference = k := by
  simp only [targets, List.mem_map, List.mem_filter]
  constructor
  · rintro ⟨ref, ⟨hm, hr⟩, hk⟩
    exact ⟨ref, hm, hr, hk⟩
  · rintro ⟨ref, hm, hr, hk⟩
    exact ⟨ref, ⟨hm, hr⟩, hk⟩

theorem mem_allRefs (h : Heap) (entries : List ResourceEntry) (ref : Dstu3.Reference) :
    ref ∈ allRefs h entries ↔ ∃ e ∈ entries, ref ∈ refsOf h e := by
  simp only [allRefs, List.mem_flatMap]

/-- A level-1 target is the text of a reference of a primary entry that resolves. -/
theorem mem_levelOneKeys (s : Store) (h : Heap) (entries : List ResourceEntry) (k : String) :
    k ∈ levelOneKeys s h entries ↔
      ∃ src ∈ entries, ∃ ref ∈ refsOf h src, resolvable s ref = true ∧ ref.Reference = k := by
  simp only [levelOneKeys, mem_firstOccurrences, mem_targets, mem_allRefs]
  constructor
  · rintro ⟨ref, ⟨src, hsrc, hm⟩, hr, hk⟩
    exact ⟨src, hsrc, ref, hm, hr, hk⟩
  · rintro ⟨src, hsrc, ref, hm, hr, hk⟩
    exact ⟨ref, ⟨src, hsrc, hm⟩, hr, hk⟩

/-- A level-2 target is the text of a reference of a level-1 entry that
resolves, and is no level-1 target. -/
theorem mem_levelTwoKeys (s : Store) (h : Heap) (entries l1 : List ResourceEntry)
    (k : String) :
    k ∈ levelTwoKeys s h entries l1 ↔
      (∃ mid ∈ l1, ∃ ref ∈ refsOf h mid, resolvable s ref = true ∧ ref.Reference = k) ∧
      k ∉ levelOneKeys s h entries := by
  simp only [levelTwoKeys, mem_firstOccurrences, List.mem_filter, mem_targets, mem_allRefs,
    decide_eq_true_eq]
  constructor
  · rintro ⟨⟨ref, ⟨mid, hmid, hm⟩, hr, hk⟩, hnot⟩
    exact ⟨⟨mid, hmid, ref, hm, hr, hk⟩, hnot⟩
  · rintro ⟨⟨mid, hmid, ref, hm, hr, hk⟩, hnot⟩
    exact ⟨⟨ref, ⟨mid, hmid, hm⟩, hr, hk⟩, hnot⟩

theorem values_insert_same (query : Values) (key : String) (vs : List String) :
    Values.values (query.insert key vs) key = vs := by
  simp [Values.values]

theorem values_insert_ne (query : Values) (key key1 : String) (vs : List String)
    (hne : key1 ≠ key) : Values.values (query.insert key vs) key1 = query.values key1 := by
  simp [Values.values, AList.lookup_insert_ne hne]

/-- `Search` reads of the query the first value of `_profile`, `_sort` and
`_count`, and whether `_include` and `_include:iterate` have a value. -/
theorem Search_congr (sr : Searcher) (h : Heap) (t : String) (q1 q2 : Values)
    (hp : q1.Get "_profile" = q2.Get "_profile") (hsort : q1.Get "_sort" = q2.Get "_sort")
    (hcount : q1.Get "_count" = q2.Get "_count")
    (hinc : (q1.values "_include").length = 0 ↔ (q2.values "_include").length = 0)
    (hit : (q1.values "_include:iterate").length = 0 ↔
      (q2.values "_include:iterate").length = 0) :
    sr.Search h t q1 = sr.Search h t q2 := by
  have hexp : ∀ h1 entries,
      expandIncludes sr.store h1 entries q1 = expandIncludes sr.store h1 entries q2 := by
    intro h1 entries
    rw [expandIncludes_eq, expandIncludes_eq]
    simp only [gt_iff_lt, Nat.pos_iff_ne_zero, ne_eq, hinc, hit]
  simp only [Searcher.Search, hp, hsort, hcount, hexp]

/-- C17: every entry in the Included list of a search is a copy of the stored
target of a reference of a primary entry, or, only when `_include:iterate` is
present, of a reference of such a level-1 included entry, so nothing further
than two references from the primary entries is included; without an include
parameter nothing is included; and the search is the same whether
`_include:iterate` is given once or many times. -/
theorem included_within_two_levels (sr : Searcher) (h : Heap) (hr : Reachable sr.store h)
    (t : String) (query : Values) (res : SearchResult) (h2 : Heap)
    (hs : sr.Search h t query = (.ok res, h2)) :
    (∀ inc ∈ res.Included,
      (∃ src ∈ res.Entries, ∃ ref ∈ refsOf h2 src,
        copyOfKey sr.store h2 ref.Reference inc) ∨
      (wantsIterate query ∧ ∃ mid ∈ res.Included,
        (∃ src ∈ res.Entries, ∃ ref ∈ refsOf h2 src,
          copyOfKey sr.store h2 ref.Reference mid) ∧
        ∃ ref ∈ refsOf h2 mid, copyOfKey sr.store h2 ref.Reference inc)) ∧
    (¬ wantsIncludes query → res.Included = []) ∧
    (∀ v vs w ws, sr.Search h t (query.insert "_include:iterate" (v :: vs))
      = sr.Search h t (query.insert "_include:iterate" (w :: ws))) := by
  obtain ⟨_, _, l1, l2, hinc, hno1, hno2, hc1, hc2⟩ := Search_included sr h hr t query res h2 hs
  have hlevel1 : wantsIncludes query → ∀ inc ∈ l1, ∃ src ∈ res.Entries, ∃ ref ∈ refsOf h2 src,
      copyOfKey sr.store h2 ref.Reference inc := by
    intro hw inc hmem
    obtain ⟨k, hk, hcopy⟩ := forall₂_exists_left (hc1 hw) inc hmem
    obtain ⟨src, hsrc, ref, href, _, rfl⟩ := (mem_levelOneKeys _ _ _ _).mp hk
    exact ⟨src, hsrc, ref, href, hcopy⟩
  refine ⟨?_, ?_, ?_⟩
  · intro inc hmem
    rw [hinc] at hmem
    rcases List.mem_append.mp hmem with h1 | h2m
    · by_cases hw : wantsIncludes query
      · exact Or.inl (hlevel1 hw inc h1)
      · rw [hno1 hw] at h1
        simp at h1
    · by_cases hw : wantsIterate query
      · right
        obtain ⟨k, hk, hcopy⟩ := forall₂_exists_left (hc2 hw) inc h2m
        obtain ⟨⟨mid, hmid, ref, href, _, rfl⟩, _⟩ := (mem_levelTwoKeys _ _ _ _ _).mp hk
        refine ⟨hw, mid, ?_, hlevel1 (wantsIncludes_of_wantsIterate query hw) mid hmid,
          ref, href, hcopy⟩
        rw [hinc]
        exact List.mem_append_left _ hmid
      · rw [hno2 hw] at h2m
        simp at h2m
  · intro hw
    have hw2 : ¬ wantsIterate query := fun hi => hw (wantsIncludes_of_wantsIterate query hi)
    rw [hinc, hno1 hw, hno2 hw2]
    rfl
  · intro v vs w ws
    apply Search_congr
    · simp only [Values.Get]
      rw [values_insert_ne query "_include:iterate" "_profile" _ (by decide),
        values_insert_ne query "_include:iterate" "_profile" _ (by decide)]
    · simp only [Values.Get]
      rw [values_insert_ne query "_include:iterate" "_sort" _ (by decide),
        values_insert_ne query "_include:iterate" "_sort" _ (by decide)]
    · simp only [Values.Get]
      rw [values_insert_ne query "_include:iterate" "_count" _ (by decide),
        values_insert_ne query "_include:iterate" "_count" _ (by decide)]
    · rw [values_insert_ne query "_include:iterate" "_include" _ (by decide),
        values_insert_ne query "_include:iterate" "_include" _ (by decide)]
    · rw [values_insert_same, values_insert_same]
      simp

theorem reachable_referralStore : Reachable referralStore.1 referralStore.2 :=
  reachable_updateWith _ _ (reachable_updateWith _ _ (reachable_updateWith _ _
    (reachable_updateWith _ _ (reachable_updateWith _ _ (Reachable.init [])))))

/-- C17, at a concrete input: on the chain of references patient → "org-1" →
"org-2" → "org-3", a search for the patients with `_include:iterate` includes
"org-1" and the practitioner (level 1) and "org-2" (level 2), and not "org-3". -/
theorem included_within_two_levels_witness :
    Reachable referralSearcher.store referralStore.2 ∧
    (referralSearcher.Search referralStore.2 "Patient" (query1 "_include:iterate" "*")).1
      = .ok ⟨[⟨10, "1", "t4", []⟩],
          [⟨11, "1", "t2", []⟩, ⟨12, "1", "t3", []⟩, ⟨13, "1", "t1", []⟩], 1, 2⟩ ∧
    [(⟨11, "1", "t2", []⟩ : ResourceEntry), ⟨12, "1", "t3", []⟩, ⟨13, "1", "t1", []⟩].map
        (typeAndId referralHeap)
      = [some ("Organization", "org-1"), some ("Practitioner", "pr-1"),
         some ("Organization", "org-2")] ∧
    (∀ inc ∈ [(⟨11, "1", "t2", []⟩ : ResourceEntry), ⟨12, "1", "t3", []⟩, ⟨13, "1", "t1", []⟩],
      (∃ src ∈ [(⟨10, "1", "t4", []⟩ : ResourceEntry)], ∃ ref ∈ refsOf referralHeap src,
        copyOfKey referralSearcher.store referralHeap ref.Reference inc) ∨
      (wantsIterate (query1 "_include:iterate" "*") ∧
        ∃ mid ∈ [(⟨11, "1", "t2", []⟩ : ResourceEntry), ⟨12, "1", "t3", []⟩,
            ⟨13, "1", "t1", []⟩],
          (∃ src ∈ [(⟨10, "1", "t4", []⟩ : ResourceEntry)], ∃ ref ∈ refsOf referralHeap src,
            copyOfKey referralSearcher.store referralHeap ref.Reference mid) ∧
          ∃ ref ∈ refsOf referralHeap mid,
            copyOfKey referralSearcher.store referralHeap ref.Reference inc)) :=
  ⟨reachable_referralStore, by decide, by decide,
    (included_within_two_levels referralSearcher referralStore.2 reachable_referralStore
      "Patient" (query1 "_include:iterate" "*")
      ⟨[⟨10, "1", "t4", []⟩],
        [⟨11, "1", "t2", []⟩, ⟨12, "1", "t3", []⟩, ⟨13, "1", "t1", []⟩], 1, 2⟩
      referralHeap (Prod.ext (by decide) rfl)).1⟩

/-- A copy of the entry stored under "type/id" holds a resource of that type
and id. -/
theorem typeAndId_of_copy {s : Store} {h : Heap} {k : String} {inc : ResourceEntry}
    (hk : s.Keyed h) (hc : copyOfKey s h k inc) :
    ∃ type id e, typeAndId h inc = some (type, id) ∧ s.entry type id = some e ∧
      type ++ "/" ++ id = k := by
  obtain ⟨type, id, e, hsp, he, _, hval⟩ := hc
  obtain ⟨r, hp, ht, hi⟩ := hk type id e he
  have hres : h[inc.Resource]? = h[e.Resource]? := congrArg EntryValue.Resource hval
  refine ⟨type, id, e, ?_, he, split_two _ _ _ hsp⟩
  simp only [typeAndId, hres, hp, Option.map_some', ht, hi]

theorem map_typeAndId_of_copies {s : Store} {h : Heap} {keys : List String}
    {l : List ResourceEntry} (hk : s.Keyed h) (hc : List.Forall₂ (copyOfKey s h) keys l) :
    (l.map (typeAndId h)).map (Option.map fun p => p.1 ++ "/" ++ p.2) = keys.map some := by
  induction hc with
  | nil => rfl
  | cons hab _ ih =>
    obtain ⟨type, id, e, ht, _, hj⟩ := typeAndId_of_copy hk hab
    simp only [List.map_cons, ih, ht, Option.map_some', hj]

/-- Copies of the entries stored under distinct keys hold resources of distinct
type and id. -/
theorem nodup_of_copies {s : Store} {h : Heap} {keys : List String}
    {l : List ResourceEntry} (hk : s.Keyed h) (hc : List.Forall₂ (copyOfKey s h) keys l)
    (hnd : keys.Nodup) : (l.map (typeAndId h)).Nodup := by
  apply List.Nodup.of_map (Option.map fun p : String × String => p.1 ++ "/" ++ p.2)
  rw [map_typeAndId_of_copies hk hc]
  exact hnd.map (Option.some_injective _)

theorem levelKeys_nodup (s : Store) (h : Heap) (entries l1 : List ResourceEntry) :
    (levelOneKeys s h entries ++ levelTwoKeys s h entries l1).Nodup := by
  rw [List.nodup_append]
  refine ⟨firstOccurrences_nodup _, firstOccurrences_nodup _, ?_⟩
  intro k h1 h2
  exact ((mem_levelTwoKeys s h entries l1 k).mp h2).2 h1

/-- C18: for every reachable store and every query, the resources of the
Included list of a search are of pairwise distinct type and id, across level 1
and level 2 together; each is of the type and id of a stored entry. -/
theorem included_no_duplicates (sr : Searcher) (h : Heap) (hr : Reachable sr.store h)
    (t : String) (query : Values) (res : SearchResult) (h2 : Heap)
    (hs : sr.Search h t query = (.ok res, h2)) :
    (res.Included.map (typeAndId h2)).Nodup ∧
    ∀ inc ∈ res.Included, ∃ type id e,
      typeAndId h2 inc = some (type, id) ∧ sr.store.entry type id = some e := by
  obtain ⟨hext, _, l1, l2, hinc, hno1, hno2, hc1, hc2⟩ :=
    Search_included sr h hr t query res h2 hs
  have hk : sr.store.Keyed h2 := Keyed_of_sameKeys (keyed_of_reachable hr)
    (sameKeys_of_extends hext)
  have hall : ∃ keys, keys.Nodup ∧ List.Forall₂ (copyOfKey sr.store h2) keys res.Included := by
    rw [hinc]
    by_cases hw : wantsIncludes query
    · by_cases hi : wantsIterate query
      · exact ⟨_, levelKeys_nodup sr.store h2 res.Entries l1,
          List.rel_append (hc1 hw) (hc2 hi)⟩
      · rw [hno2 hi, List.append_nil]
        exact ⟨_, firstOccurrences_nodup _, hc1 hw⟩
    · have hi : ¬ wantsIterate query := fun hi => hw (wantsIncludes_of_wantsIterate query hi)
      rw [hno1 hw, hno2 hi]
      exact ⟨[], List.nodup_nil, List.Forall₂.nil⟩
  obtain ⟨keys, hnd, hcopies⟩ := hall
  refine ⟨nodup_of_copies hk hcopies hnd, ?_⟩
  intro inc hmem
  obtain ⟨k, _, hcopy⟩ := forall₂_exists_left hcopies inc hmem
  obtain ⟨type, id, e, ht, he, _⟩ := typeAndId_of_copy hk hcopy
  exact ⟨type, id, e, ht, he⟩

/-- C18, at a concrete input: the patient of `referralStore` refers to "org-1"
twice, and a search with `_include` includes it once. -/
theorem included_no_duplicates_witness :
    Reachable referralSearcher.store referralStore.2 ∧
    (referralSearcher.Search referralStore.2 "Patient" (query1 "_include" "*")).1
      = .ok ⟨[⟨10, "1", "t4", []⟩], [⟨11, "1", "t2", []⟩, ⟨12, "1", "t3", []⟩], 1, 2⟩ ∧
    [(⟨11, "1", "t2", []⟩ : ResourceEntry), ⟨12, "1", "t3", []⟩].map
        (typeAndId (referralSearcher.Search referralStore.2 "Patient"
          (query1 "_include" "*")).2)
      = [some ("Organization", "org-1"), some ("Practitioner", "pr-1")] ∧
    ([(⟨11, "1", "t2", []⟩ : ResourceEntry), ⟨12, "1", "t3", []⟩].map
        (typeAndId (referralSearcher.Search referralStore.2 "Patient"
          (query1 "_include" "*")).2)).Nodup :=
  ⟨reachable_referralStore, by decide, by decide,
    (included_no_duplicates referralSearcher referralStore.2 reachable_referralStore
      "Patient" (query1 "_include" "*")
      ⟨[⟨10, "1", "t4", []⟩], [⟨11, "1", "t2", []⟩, ⟨12, "1", "t3", []⟩], 1, 2⟩
      (referralSearcher.Search referralStore.2 "Patient" (query1 "_include" "*")).2
      (Prod.ext (by decide) rfl)).1⟩

/-- `Search` returns a result for a non-empty type and an absent or valid
`_count`, whatever the include parameters. -/
theorem Search_ok (sr : Searcher) (h : Heap) (t : String) (query : Values) (ht : t ≠ "")
    (hc : query.Get "_count" = "" ∨ ∃ parsed, parseCount (query.Get "_count") = .ok parsed) :
    ∃ res h2, sr.Search h t query = (.ok res, h2) := by
  obtain ⟨listed, h1, hl⟩ := List_ok_of_ne sr.store h t ht
  obtain ⟨kept, hkept⟩ := applyCount_ok
    (sortEntries h1 (filterByProfile h1 listed (query.Get "_profile")) (query.Get "_sort"))
    (query.Get "_count") hc
  obtain ⟨inc, h2, hi⟩ := expandIncludes_ok sr.store h1 kept query
  have hs := Search_of_List sr h t query listed h1 hl
  rw [hkept] at hs
  simp only [hi] at hs
  exact ⟨_, h2, hs⟩

/-- A reference whose text has not exactly one "/", or names a type and id
under which nothing is stored, does not resolve. -/
theorem unresolvable_of_malformed_or_absent (s : Store) (ref : Dstu3.Reference)
    (hun : ref.Reference.toList.count '/' ≠ 1 ∨
      ∃ type id, split ref.Reference '/' = [type, id] ∧ s.entry type id = none) :
    resolvable s ref = false := by
  cases hres : resolvable s ref with
  | false => rfl
  | true =>
    obtain ⟨type, id, e, hsp, _, _, he⟩ := (resolvable_iff s ref).mp hres
    rcases hun with hcount | ⟨type1, id1, hsp1, hnone⟩
    · have hlen := split_length ref.Reference
      rw [hsp] at hlen
      simp only [List.length_cons, List.length_nil] at hlen
      omega
    · rw [hsp] at hsp1
      simp only [List.cons.injEq, and_true] at hsp1
      obtain ⟨rfl, rfl⟩ := hsp1
      rw [he] at hnone
      exact Option.noConfusion hnone

/-- C19: include expansion never makes `Search` fail: for a non-empty type and
an absent or valid `_count` the search returns a result, whatever references
the resources hold; a reference whose text is not of the form "Type/id" (not
exactly one "/"), or whose type and id name nothing stored, changes nothing
(no included entry, no error), and the references before and after it are
resolved as if it were absent; every reference of a primary entry that names a
stored entry has a copy of that entry in the Included list. -/
theorem unresolved_references_dropped (sr : Searcher) (h : Heap)
    (hr : Reachable sr.store h) (t : String) (query : Values) (ht : t ≠ "")
    (hc : query.Get "_count" = "" ∨ ∃ parsed, parseCount (query.Get "_count") = .ok parsed) :
    (∃ res h2, sr.Search h t query = (.ok res, h2) ∧
      (wantsIncludes query → ∀ src ∈ res.Entries, ∀ ref ∈ refsOf h2 src,
        ∀ type id e, split ref.Reference '/' = [type, id] → type ≠ "" → id ≠ "" →
          sr.store.entry type id = some e →
          ∃ inc ∈ res.Included, copyOfKey sr.store h2 ref.Reference inc)) ∧
    (∀ ref : Dstu3.Reference,
      (ref.Reference.toList.count '/' ≠ 1 ∨
        ∃ type id, split ref.Reference '/' = [type, id] ∧ sr.store.entry type id = none) →
      (∀ st : Expansion, expandRef sr.store st ref = st) ∧
      ∀ (st : Expansion) (refs1 refs2 : List Dstu3.Reference),
        (refs1 ++ ref :: refs2).foldl (expandRef sr.store) st
          = (refs1 ++ refs2).foldl (expandRef sr.store) st) := by
  constructor
  · obtain ⟨res, h2, hs⟩ := Search_ok sr h t query ht hc
    refine ⟨res, h2, hs, ?_⟩
    intro hw src hsrc ref href type id e hsp htype hid he
    obtain ⟨_, _, l1, l2, hinc, _, _, hc1, _⟩ := Search_included sr h hr t query res h2 hs
    have hk : ref.Reference ∈ levelOneKeys sr.store h2 res.Entries :=
      (mem_levelOneKeys _ _ _ _).mpr ⟨src, hsrc, ref, href,
        (resolvable_iff sr.store ref).mpr ⟨type, id, e, hsp, htype, hid, he⟩, rfl⟩
    obtain ⟨inc, hmem, hcopy⟩ := forall₂_exists_right (hc1 hw) _ hk
    refine ⟨inc, ?_, hcopy⟩
    rw [hinc]
    exact List.mem_append_left _ hmem
  · intro ref hun
    have hres := unresolvable_of_malformed_or_absent sr.store ref hun
    refine ⟨fun st => expandRef_of_unresolvable sr.store st ref hres, ?_⟩
    intro st refs1 refs2
    rw [List.foldl_append, List.foldl_cons, expandRef_of_unresolvable sr.store _ ref hres,
      List.foldl_append]

/-- C19, at a concrete input: the patient of `referralStore` holds, after two
references that resolve, a reference to a practitioner that is not stored and
two texts not of the form "Type/id"; the search returns its result, with the
two targets that are stored. -/
theorem unresolved_references_dropped_witness :
    Reachable referralSearcher.store referralStore.2 ∧ ("Patient" : String) ≠ "" ∧
    (query1 "_include" "*").Get "_count" = "" ∧
    (referralSearcher.Search referralStore.2 "Patient" (query1 "_include" "*")).1
      = .ok ⟨[⟨10, "1", "t4", []⟩], [⟨11, "1", "t2", []⟩, ⟨12, "1", "t3", []⟩], 1, 2⟩ ∧
    (∀ st : Expansion,
      expandRef referralSearcher.store st { Reference := "Practitioner/missing" } = st) ∧
    (∀ st : Expansion,
      expandRef referralSearcher.store st { Reference := "urn:uuid:1" } = st) ∧
    (∀ st : Expansion,
      expandRef referralSearcher.store st { Reference := "Organization/org-2/_history/1" }
        = st) :=
  ⟨reachable_referralStore, by decide, by decide, by decide,
    ((unresolved_references_dropped referralSearcher referralStore.2 reachable_referralStore
      "Patient" (query1 "_include" "*") (by decide) (Or.inl (by decide))).2
        { Reference := "Practitioner/missing" }
        (Or.inr ⟨"Practitioner", "missing", by decide, by decide⟩)).1,
    ((unresolved_references_dropped referralSearcher referralStore.2 reachable_referralStore
      "Patient" (query1 "_include" "*") (by decide) (Or.inl (by decide))).2
        { Reference := "urn:uuid:1" } (Or.inl (by decide))).1,
    ((unresolved_references_dropped referralSearcher referralStore.2 reachable_referralStore
      "Patient" (query1 "_include" "*") (by decide) (Or.inl (by decide))).2
        { Reference := "Organization/org-2/_history/1" } (Or.inl (by decide))).1⟩

/-- The first occurrences, scanning from the left: a text is appended when it
has not occurred before. -/
theorem firstOccurrences_append_singleton (l : List String) (a : String) :
    firstOccurrences (l ++ [a]) =
      if a ∈ l then firstOccurrences l else firstOccurrences l ++ [a] := by
  induction l with
  | nil => simp [firstOccurrences]
  | cons b l ih =>
    have hcons : firstOccurrences (b :: l ++ [a])
        = b :: (firstOccurrences (l ++ [a])).filter fun c => c ≠ b := rfl
    rw [hcons, ih]
    by_cases hal : a ∈ l
    · simp [hal, firstOccurrences]
    · by_cases hab : a = b
      · subst hab
        simp [hal, firstOccurrences, List.filter_append]
      · simp [hal, hab, firstOccurrences, List.filter_append]

/-- C20: the Included list of a search is the level-1 entries followed by the
level-2 entries; the level-1 entries are the copies of the targets of the
references of the primary entries, in the order of first occurrence when the
primary entries are scanned in list order and the references of each in the
order `References()` returns them; the level-2 entries (present only with
`_include:iterate`) are, in the same order over the level-1 entries, the
copies of the targets not included at level 1. -/
theorem included_order (sr : Searcher) (h : Heap) (hr : Reachable sr.store h) (t : String)
    (query : Values) (res : SearchResult) (h2 : Heap)
    (hs : sr.Search h t query = (.ok res, h2)) :
    ∃ l1 l2, res.Included = l1 ++ l2 ∧
      (¬ wantsIncludes query → l1 = []) ∧
      (¬ wantsIterate query → l2 = []) ∧
      (wantsIncludes query →
        List.Forall₂ (copyOfKey sr.store h2)
          (firstOccurrences (targets sr.store (res.Entries.flatMap (refsOf h2)))) l1) ∧
      (wantsIterate query →
        List.Forall₂ (copyOfKey sr.store h2)
          (firstOccurrences ((targets sr.store (l1.flatMap (refsOf h2))).filter fun k =>
            k ∉ firstOccurrences (targets sr.store (res.Entries.flatMap (refsOf h2))))) l2) := by
  obtain ⟨_, _, l1, l2, hinc, hno1, hno2, hc1, hc2⟩ := Search_included sr h hr t query res h2 hs
  exact ⟨l1, l2, hinc, hno1, hno2, hc1, hc2⟩

/-- C20, at a concrete input: on `referralStore` with `_include:iterate`, the
Included list is the copies of "org-1" and "pr-1" (level 1, in the order the
patient refers to them) followed by the copy of "org-2" (level 2). -/
theorem included_order_witness :
    Reachable referralSearcher.store referralStore.2 ∧
    (referralSearcher.Search referralStore.2 "Patient" (query1 "_include:iterate" "*")).1
      = .ok ⟨[⟨10, "1", "t4", []⟩],
          [⟨11, "1", "t2", []⟩, ⟨12, "1", "t3", []⟩, ⟨13, "1", "t1", []⟩], 1, 2⟩ ∧
    firstOccurrences (targets referralSearcher.store
        ([(⟨10, "1", "t4", []⟩ : ResourceEntry)].flatMap (refsOf referralHeap)))
      = ["Organization/org-1", "Practitioner/pr-1"] ∧
    firstOccurrences ((targets referralSearcher.store
        ([(⟨11, "1", "t2", []⟩ : ResourceEntry), ⟨12, "1", "t3", []⟩].flatMap
          (refsOf referralHeap))).filter fun k =>
        k ∉ firstOccurrences (targets referralSearcher.store
          ([(⟨10, "1", "t4", []⟩ : ResourceEntry)].flatMap (refsOf referralHeap))))
      = ["Organization/org-2"] ∧
    ∃ l1 l2,
      [(⟨11, "1", "t2", []⟩ : ResourceEntry), ⟨12, "1", "t3", []⟩, ⟨13, "1", "t1", []⟩]
        = l1 ++ l2 ∧
      (¬ wantsIncludes (query1 "_include:iterate" "*") → l1 = []) ∧
      (¬ wantsIterate (query1 "_include:iterate" "*") → l2 = []) ∧
      (wantsIncludes (query1 "_include:iterate" "*") →
        List.Forall₂ (copyOfKey referralSearcher.store referralHeap)
          (firstOccurrences (targets referralSearcher.store
            ([(⟨10, "1", "t4", []⟩ : ResourceEntry)].flatMap (refsOf referralHeap)))) l1) ∧
      (wantsIterate (query1 "_include:iterate" "*") →
        List.Forall₂ (copyOfKey referralSearcher.store referralHeap)
          (firstOccurrences ((targets referralSearcher.store
            (l1.flatMap (refsOf referralHeap))).filter fun k =>
              k ∉ firstOccurrences (targets referralSearcher.store
                ([(⟨10, "1", "t4", []⟩ : ResourceEntry)].flatMap (refsOf referralHeap)))))
          l2) :=
  ⟨reachable_referralStore, by decide, by decide, by decide,
    included_order referralSearcher referralStore.2 reachable_referralStore
      "Patient" (query1 "_include:iterate" "*")
      ⟨[⟨10, "1", "t4", []⟩],
        [⟨11, "1", "t2", []⟩, ⟨12, "1", "t3", []⟩, ⟨13, "1", "t1", []⟩], 1, 2⟩
      referralHeap (Prod.ext (by decide) rfl)⟩

/-! ### The `_profile` filter -/

/-- C21: for every list of entries and every non-empty `_profile` value `p`,
`filterByProfile` returns, in their original order, exactly the entries whose
`meta.profile` list contains a string equal to `p` (the list filtered by that
test); for the empty value, which is what an absent `_profile` reads as, it
returns the list unchanged. -/
theorem filterByProfile_spec (h : Heap) (entries : List ResourceEntry) (profile : String)
    (query : Values) :
    (profile ≠ "" →
      ∃ keep : ResourceEntry → Bool,
        (∀ e, keep e = true ↔ declaresProfile h profile e) ∧
        filterByProfile h entries profile = entries.filter keep) ∧
    (profile ≠ "" → ∀ e, e ∈ filterByProfile h entries profile ↔
      e ∈ entries ∧ declaresProfile h profile e) ∧
    (filterByProfile h entries profile).Sublist entries ∧
    filterByProfile h entries "" = entries ∧
    (query.lookup "_profile" = none →
      filterByProfile h entries (query.Get "_profile") = entries) := by
  have hkeep : ∀ e : ResourceEntry,
      (match (h[e.Resource]?).bind fun r => r.GetMeta with
        | none => false
        | some m => m.Profile.any fun p => p = profile) = true ↔
      declaresProfile h profile e := by
    intro e
    unfold declaresProfile
    cases hr : h[e.Resource]? with
    | none => simp
    | some r =>
      cases hm : r.GetMeta with
      | none => simp [hm]
      | some m =>
        simp only [Option.some_bind, hm, List.any_eq_true, decide_eq_true_eq]
        constructor
        · rintro ⟨p, hp, rfl⟩
          exact ⟨r, m, rfl, hm, hp⟩
        · rintro ⟨r1, m1, h1, h2, hp⟩
          injection h1 with h1
          subst h1
          rw [hm] at h2
          injection h2 with h2
          subst h2
          exact ⟨profile, hp, rfl⟩
  have hfilter : profile ≠ "" → filterByProfile h entries profile =
      entries.filter fun e =>
        match (h[e.Resource]?).bind fun r => r.GetMeta with
        | none => false
        | some m => m.Profile.any fun p => p = profile := by
    intro hp
    simp only [filterByProfile, hp, if_false]
  refine ⟨?_, ?_, ?_, ?_, ?_⟩
  · intro hp
    exact ⟨_, hkeep, hfilter hp⟩
  · intro hp e
    rw [hfilter hp, List.mem_filter, hkeep e]
  · by_cases hp : profile = ""
    · subst hp
      simp [filterByProfile]
    · rw [hfilter hp]
      exact List.filter_sublist _
  · simp [filterByProfile]
  · intro hnone
    simp [filterByProfile, Values.Get, Values.values, hnone]

/-! ### The sort value for the key `date` -/

/-- C36: for the sort key `date`, the sort value of an entry whose resource is
an observation is its effectiveDateTime if that is present; else the start of
its effectivePeriod if the period is present; else its issued timestamp; and
the sort value of an entry whose resource is of any other type is the empty
string. -/
theorem sortValue_date (h : Heap) (entry : ResourceEntry) :
    (∀ obs : Dstu3.Observation, h[entry.Resource]? = some (.observation obs) →
      (∀ d, obs.EffectiveDateTime = some d → sortValue h entry "date" = d) ∧
      (obs.EffectiveDateTime = none → ∀ period, obs.EffectivePeriod = some period →
        sortValue h entry "date" = period.Start) ∧
      (obs.EffectiveDateTime = none → obs.EffectivePeriod = none →
        sortValue h entry "date" = obs.Issued)) ∧
    (∀ r : Dstu3.Resource, h[entry.Resource]? = some r →
      (∀ obs : Dstu3.Observation, r ≠ .observation obs) → sortValue h entry "date" = "") := by
  have hdate : sortValue h entry "date" =
      match h[entry.Resource]? with
      | some (.observation obs) =>
        match obs.EffectiveDateTime with
        | some d => d
        | none =>
          match obs.EffectivePeriod with
          | some period => period.Start
          | none => obs.Issued
      | _ => "" := by
    unfold sortValue
    rw [if_neg (by decide), if_neg (by decide), if_pos rfl]
  constructor
  · intro obs hobs
    rw [hdate, hobs]
    refine ⟨?_, ?_, ?_⟩
    · intro d hd
      simp only [hd]
    · intro hd period hp
      simp only [hd, hp]
    · intro hd hp
      simp only [hd, hp]
  · intro r hr hother
    rw [hdate, hr]
    cases r with
    | observation obs => exact absurd rfl (hother obs)
    | _ => rfl

/-! ### The primary entries and the included entries together -/

theorem map_eq_of_forall₂ {α β γ : Type} {R : α → β → Prop} {f : β → γ} {g : α → γ}
    {as : List α} {bs : List β} (hf : List.Forall₂ R as bs)
    (hfg : ∀ a b, R a b → f b = g a) : bs.map f = as.map g := by
  induction hf with
  | nil => rfl
  | cons hab _ ih => rw [List.map_cons, List.map_cons, hfg _ _ hab, ih]

theorem typeAndId_of_extends {h h1 : Heap} (hext : h <+: h1) (e : ResourceEntry)
    (he : e.Resource < h.length) : typeAndId h1 e = typeAndId h e := by
  simp only [typeAndId, getElem?_of_extends hext he]

/-- The entries `List` returns hold resources of pairwise distinct type and
id. -/
theorem List_typeAndId_nodup (s : Store) (h : Heap) (hr : Reachable s h) (t : String)
    (listed : List ResourceEntry) (h1 : Heap) (hl : s.List h t = (.ok listed, h1)) :
    (listed.map (typeAndId h1)).Nodup := by
  by_cases ht : t = ""
  · subst ht
    rw [List_required] at hl
    injection hl with hl _
    exact Except.noConfusion hl
  · cases hlk : s.resources.lookup t with
    | none =>
      rw [List_unknown s h t ht hlk] at hl
      simp only [Prod.mk.injEq, Except.ok.injEq] at hl
      obtain ⟨rfl, _⟩ := hl
      exact List.nodup_nil
    | some entries =>
      have hentry : ∀ id, s.entry t id = entries.lookup id := fun id => by
        simp [Store.entry, hlk]
      rw [List_known s h t ht entries hlk] at hl
      simp only [Prod.mk.injEq, Except.ok.injEq] at hl
      obtain ⟨rfl, rfl⟩ := hl
      have hspec := cloneAll_spec entries (sortStrings entries.keys) h
        (fun id e he => (hr.inv t id e (by rw [hentry]; exact he)).1)
        (fun id hm => by
          have hk : id ∈ entries.keys := (mem_sortStrings _ _).mp hm
          exact Option.isSome_iff_exists.mp (AList.lookup_isSome.mpr (AList.mem_keys.mpr hk)))
      have hmap : (cloneAll entries h (sortStrings entries.keys)).1.map
            (typeAndId (cloneAll entries h (sortStrings entries.keys)).2)
          = (sortStrings entries.keys).map fun id => some (t, id) := by
        refine map_eq_of_forall₂ hspec ?_
        rintro id out ⟨e, he, _, hv⟩
        obtain ⟨r, hp, hrt, hri⟩ := keyed_of_reachable hr t id e (by rw [hentry]; exact he)
        have hres : (cloneAll entries h (sortStrings entries.keys)).2[out.Resource]?
            = h[e.Resource]? := congrArg EntryValue.Resource hv
        simp only [typeAndId, hres, hp, Option.map_some', hrt, hri]
      rw [hmap]
      have hnd : (sortStrings entries.keys).Nodup :=
        (List.perm_insertionSort strLE entries.keys).nodup_iff.mpr entries.keys_nodup
      apply hnd.map
      intro a b hab
      simp only [Option.some.injEq, Prod.mk.injEq, true_and] at hab
      exact hab

/-- The primary entries of a search are among the entries `List` returns, and
hold resources of pairwise distinct type and id. -/
theorem Search_entries_nodup (sr : Searcher) (h : Heap) (hr : Reachable sr.store h)
    (t : String) (query : Values) (res : SearchResult) (h2 : Heap)
    (hs : sr.Search h t query = (.ok res, h2)) :
    (res.Entries.map (typeAndId h2)).Nodup := by
  by_cases ht : t = ""
  · subst ht
    simp only [Searcher.Search, List_required] at hs
    injection hs with hs _
    exact Except.noConfusion hs
  obtain ⟨listed, h1, hl⟩ := List_ok_of_ne sr.store h t ht
  obtain ⟨_, hallocated⟩ := List_allocated sr.store h hr.inv t listed h1 hl
  have hnd := List_typeAndId_nodup sr.store h hr t listed h1 hl
  rw [Search_of_List sr h t query listed h1 hl] at hs
  cases hk : applyCount
      (sortEntries h1 (filterByProfile h1 listed (query.Get "_profile")) (query.Get "_sort"))
      (query.Get "_count") with
  | error err =>
    rw [hk] at hs
    injection hs with hs _
    exact Except.noConfusion hs
  | ok kept =>
    rw [hk] at hs
    dsimp only at hs
    obtain ⟨inc, h3, hi⟩ := expandIncludes_ok sr.store h1 kept query
    have hext := expandIncludes_extends sr.store h1 kept query
    rw [hi] at hs hext
    simp only [Prod.mk.injEq, Except.ok.injEq] at hs
    obtain ⟨rfl, rfl⟩ := hs
    dsimp only
    have hfilter : (filterByProfile h1 listed (query.Get "_profile")).Sublist listed := by
      unfold filterByProfile
      split
      · exact List.Sublist.refl _
      · exact List.filter_sublist _
    have hnd1 : ((filterByProfile h1 listed (query.Get "_profile")).map
        (typeAndId h1)).Nodup := hnd.sublist (hfilter.map _)
    have hnd2 : ((sortEntries h1 (filterByProfile h1 listed (query.Get "_profile"))
        (query.Get "_sort")).map (typeAndId h1)).Nodup :=
      ((sortEntries_perm h1 _ _).map _).nodup_iff.mpr hnd1
    have hnd3 : (kept.map (typeAndId h1)).Nodup :=
      hnd2.sublist ((mem_applyCount _ kept _ hk).map _)
    have hkept : ∀ e ∈ kept, e.allocated h1 := fun e he =>
      hallocated e (mem_filterByProfile h1 listed _ e
        ((sortEntries_perm h1 _ _).mem_iff.mp ((mem_applyCount _ kept _ hk).subset he)))
    have hmap : kept.map (typeAndId h3) = kept.map (typeAndId h1) :=
      List.map_congr_left fun e he => typeAndId_of_extends hext e (hkept e he).1
    rw [hmap]
    exact hnd3

/-- C35, as stated, fails: the organization "org-2" of `partOfStore` is part of
"org-1"; a search for the organizations with `_include` returns "org-1" and
"org-2" as primary entries and "org-1" again as included entry. -/
theorem included_entry_also_primary :
    ((NewSearcher Dstu3.NewRegistry partOfStore.1).Search partOfStore.2 "Organization"
        (query1 "_include" "*")).1
      = .ok ⟨[⟨4, "1", "t0", []⟩, ⟨5, "1", "t1", []⟩], [⟨6, "1", "t0", []⟩], 2, 2⟩ ∧
    ([(⟨4, "1", "t0", []⟩ : ResourceEntry), ⟨5, "1", "t1", []⟩] ++
        [(⟨6, "1", "t0", []⟩ : ResourceEntry)]).map
        (typeAndId ((NewSearcher Dstu3.NewRegistry partOfStore.1).Search partOfStore.2
          "Organization" (query1 "_include" "*")).2)
      = [some ("Organization", "org-1"), some ("Organization", "org-2"),
         some ("Organization", "org-1")] ∧
    ¬ ([some ("Organization", "org-1"), some ("Organization", "org-2"),
        some ("Organization", "org-1")] : List (Option (String × String))).Nodup := by
  decide

/-- C35 (amended): for every reachable store and every query, the primary
entries of a search hold resources of pairwise distinct type and id, and so do
the included entries. (An included entry may be of the type and id of a
primary entry.) -/
theorem result_no_duplicates_in_each_part (sr : Searcher) (h : Heap)
    (hr : Reachable sr.store h) (t : String) (query : Values) (res : SearchResult)
    (h2 : Heap) (hs : sr.Search h t query = (.ok res, h2)) :
    (res.Entries.map (typeAndId h2)).Nodup ∧ (res.Included.map (typeAndId h2)).Nodup := by
  refine ⟨Search_entries_nodup sr h hr t query res h2 hs, ?_⟩
  obtain ⟨hext, _, l1, l2, hinc, hno1, hno2, hc1, hc2⟩ :=
    Search_included sr h hr t query res h2 hs
  have hk : sr.store.Keyed h2 := Keyed_of_sameKeys (keyed_of_reachable hr)
    (sameKeys_of_extends hext)
  rw [hinc]
  by_cases hw : wantsIncludes query
  · by_cases hi : wantsIterate query
    · exact nodup_of_copies hk (List.rel_append (hc1 hw) (hc2 hi))
        (levelKeys_nodup sr.store h2 res.Entries l1)
    · rw [hno2 hi, List.append_nil]
      exact nodup_of_copies hk (hc1 hw) (firstOccurrences_nodup _)
  · have hi : ¬ wantsIterate query := fun hi => hw (wantsIncludes_of_wantsIterate query hi)
    rw [hno1 hw, hno2 hi]
    exact List.nodup_nil

theorem reachable_partOfStore : Reachable partOfStore.1 partOfStore.2 :=
  reachable_updateWith _ _ (reachable_updateWith _ _ (Reachable.init []))

/-- C35 (amended), at a concrete input: the search for the organizations of
`partOfStore` with `_include`. -/
theorem result_no_duplicates_in_each_part_witness :
    Reachable (NewSearcher Dstu3.NewRegistry partOfStore.1).store partOfStore.2 ∧
    ((NewSearcher Dstu3.NewRegistry partOfStore.1).Search partOfStore.2 "Organization"
        (query1 "_include" "*")).1
      = .ok ⟨[⟨4, "1", "t0", []⟩, ⟨5, "1", "t1", []⟩], [⟨6, "1", "t0", []⟩], 2, 2⟩ ∧
    ([(⟨4, "1", "t0", []⟩ : ResourceEntry), ⟨5, "1", "t1", []⟩].map
        (typeAndId ((NewSearcher Dstu3.NewRegistry partOfStore.1).Search partOfStore.2
          "Organization" (query1 "_include" "*")).2)).Nodup ∧
    ([(⟨6, "1", "t0", []⟩ : ResourceEntry)].map
        (typeAndId ((NewSearcher Dstu3.NewRegistry partOfStore.1).Search partOfStore.2
          "Organization" (query1 "_include" "*")).2)).Nodup :=
  ⟨reachable_partOfStore, by decide,
    result_no_duplicates_in_each_part (NewSearcher Dstu3.NewRegistry partOfStore.1)
      partOfStore.2 reachable_partOfStore "Organization" (query1 "_include" "*")
      ⟨[⟨4, "1", "t0", []⟩, ⟨5, "1", "t1", []⟩], [⟨6, "1", "t0", []⟩], 2, 2⟩
      ((NewSearcher Dstu3.NewRegistry partOfStore.1).Search partOfStore.2 "Organization"
        (query1 "_include" "*")).2
      (Prod.ext (by decide) rfl)⟩

end Search

/-! ## Lemmas on the validator -/

namespace Validation

open Store

/-! ### `hasPath` -/

theorem member_nil (key : String) : JsonValue.member [] key = none := rfl

theorem member_cons (name : String) (value : JsonValue) (more : List (String × JsonValue))
    (key : String) :
    JsonValue.member ((name, value) :: more) key =
      match JsonValue.member more key with
      | some found => some found
      | none => if name = key then some value else none := by
  unfold JsonValue.member
  rw [List.reverse_cons, List.find?_append]
  cases hf : more.reverse.find? fun kv => decide (kv.1 = key) with
  | some found => simp
  | none =>
    by_cases hk : name = key
    · simp [hk]
    · simp [hk]

/-- The lookup of `hasPath`, by the member the map holds. -/
theorem hasPathMember_eq (fields : List (String × JsonValue)) (key : String)
    (rest : List String) :
    hasPathMember fields key rest =
      (JsonValue.member fields key).map fun value => hasPathValue value rest := by
  induction fields with
  | nil => simp [hasPathMember, member_nil]
  | cons kv more ih =>
    obtain ⟨name, value⟩ := kv
    rw [hasPathMember, ih, member_cons]
    cases JsonValue.member more key with
    | some found => simp
    | none =>
      by_cases hk : name = key
      · simp [hk]
      · simp [hk]

theorem hasPathItems_eq (items : List JsonValue) (path : List String) :
    hasPathItems items path = items.any fun item => hasPathValue item path := by
  induction items with
  | nil => simp [hasPathItems]
  | cons item more ih => simp [hasPathItems, ih]

theorem hasPath_cons (raw : List (String × JsonValue)) (key : String) (rest : List String) :
    hasPath raw (key :: rest) =
      match JsonValue.member raw key with
      | none => false
      | some value => hasPathValue value rest := by
  simp only [hasPath, hasPathMember_eq]
  cases JsonValue.member raw key <;> rfl

theorem hasPathValue_nil (value : JsonValue) : hasPathValue value [] = true := by
  cases value <;> simp [hasPathValue]

theorem hasPathValue_object (fields : List (String × JsonValue)) (key : String)
    (rest : List String) :
    hasPathValue (.object fields) (key :: rest) = hasPath fields (key :: rest) := by
  simp [hasPathValue, hasPath]

theorem hasPathValue_array (items : List JsonValue) (key : String) (rest : List String) :
    hasPathValue (.array items) (key :: rest)
      = items.any fun item => hasPathValue item (key :: rest) := by
  rw [hasPathValue, hasPathItems_eq]

mutual
/-- Where `hasPathValue` holds, the path can be descended from the value. -/
theorem descends_of_hasPathValue :
    ∀ (value : JsonValue) (path : List String), hasPathValue value path = true →
      Descends value path
  | value, [], _ => Descends.done value
  | .object fields, key :: rest, h => by
    rw [hasPathValue] at h
    cases hm : hasPathMember fields key rest with
    | none => rw [hm] at h; simp at h
    | some found =>
      rw [hm] at h
      have hfound : found = true := by simpa using h
      subst hfound
      obtain ⟨value, hvalue, hd⟩ := descends_of_hasPathMember fields key rest hm
      exact Descends.object fields key rest value hvalue hd
  | .array items, key :: rest, h => by
    rw [hasPathValue] at h
    obtain ⟨item, hitem, hd⟩ := descends_of_hasPathItems items (key :: rest) h
    exact Descends.array items item key rest hitem hd
  | .null, _ :: _, h => by simp [hasPathValue] at h
  | .bool _, _ :: _, h => by simp [hasPathValue] at h
  | .integer _, _ :: _, h => by simp [hasPathValue] at h
  | .fraction _, _ :: _, h => by simp [hasPathValue] at h
  | .string _, _ :: _, h => by simp [hasPathValue] at h
theorem descends_of_hasPathItems :
    ∀ (items : List JsonValue) (path : List String), hasPathItems items path = true →
      ∃ item ∈ items, Descends item path
  | [], _, h => by simp [hasPathItems] at h
  | item :: more, path, h => by
    rw [hasPathItems, Bool.or_eq_true] at h
    rcases h with h | h
    · exact ⟨item, List.mem_cons_self _ _, descends_of_hasPathValue item path h⟩
    · obtain ⟨found, hfound, hd⟩ := descends_of_hasPathItems more path h
      exact ⟨found, List.mem_cons_of_mem _ hfound, hd⟩
theorem descends_of_hasPathMember :
    ∀ (fields : List (String × JsonValue)) (key : String) (rest : List String),
      hasPathMember fields key rest = some true →
      ∃ value, JsonValue.member fields key = some value ∧ Descends value rest
  | [], _, _, h => by simp [hasPathMember] at h
  | (name, value) :: more, key, rest, h => by
    rw [hasPathMember] at h
    rw [member_cons]
    cases hm : hasPathMember more key rest with
    | some found =>
      rw [hm] at h
      have hfound : found = true := by simpa using h
      subst hfound
      obtain ⟨v, hv, hd⟩ := descends_of_hasPathMember more key rest hm
      exact ⟨v, by rw [hv], hd⟩
    | none =>
      rw [hm] at h
      have hnone : JsonValue.member more key = none := by
        rw [hasPathMember_eq] at hm
        simpa using hm
      rw [hnone]
      by_cases hk : name = key
      · simp only [hk, if_true, Option.some.injEq] at h ⊢
        exact ⟨value, rfl, descends_of_hasPathValue value rest h⟩
      · simp [hk] at h
end

/-- Where the path can be descended from the value, `hasPathValue` holds. -/
theorem hasPathValue_of_descends {value : JsonValue} {path : List String}
    (hd : Descends value path) : hasPathValue value path = true := by
  induction hd with
  | done value => exact hasPathValue_nil value
  | object fields key rest value hm _ ih =>
    rw [hasPathValue_object, hasPath_cons, hm]
    exact ih
  | array items item key rest hitem _ ih =>
    rw [hasPathValue_array, List.any_eq_true]
    exact ⟨item, hitem, ih⟩

theorem hasPathValue_iff (value : JsonValue) (path : List String) :
    hasPathValue value path = true ↔ Descends value path :=
  ⟨descends_of_hasPathValue value path, hasPathValue_of_descends⟩

theorem hasPath_iff (raw : List (String × JsonValue)) (key : String) (rest : List String) :
    hasPath raw (key :: rest) = true ↔
      ∃ value, JsonValue.member raw key = some value ∧ Descends value rest := by
  rw [hasPath_cons]
  cases hm : JsonValue.member raw key with
  | none => simp
  | some value =>
    simp only [Option.some.injEq, exists_eq_left']
    exact hasPathValue_iff value rest

/-! ### `missingRequired` -/

theorem foldl_append_if {α : Type} (keep : α → Prop) [DecidablePred keep] (name : α → String)
    (l : List α) : ∀ init : List String,
    l.foldl (fun missing x => if keep x then missing ++ [name x] else missing) init
      = init ++ (l.filter fun x => decide (keep x)).map name := by
  induction l with
  | nil => intro init; simp
  | cons x l ih =>
    intro init
    rw [List.foldl_cons, ih]
    by_cases hk : keep x
    · simp [hk, List.filter_cons]
    · simp [hk, List.filter_cons]

/-- What `missingRequired` returns for a resource that can be serialised: the
missing required paths, followed by the unsatisfied choice groups. -/
theorem missingRequired_eq (resource : Dstu3.Resource) (rules : RuleSet)
    (raw : List (String × JsonValue)) (hraw : resource.marshal = some raw) :
    missingRequired resource (some rules) = missingPaths raw rules ++ unsatisfiedGroups raw rules := by
  simp only [missingRequired, hraw]
  rw [foldl_append_if (fun field => ¬ hasPath raw (Search.split field '.') = true)
      (fun field => rules.ResourceType ++ "." ++ field) rules.RequiredPaths [],
    foldl_append_if
      (fun choice : ChoiceRule =>
        ¬ (choice.Choices.any fun option => hasPath raw (Search.split option '.')) = true)
      (fun choice => rules.ResourceType ++ "." ++ choice.BasePath) rules.Choices]
  simp only [List.nil_append, missingPaths, unsatisfiedGroups, groupSatisfied]
  congr 2
  · apply List.filter_congr
    intro x _
    cases hasPath raw (Search.split x '.') <;> simp
  · apply List.filter_congr
    intro x _
    cases (x.Choices.any fun option => hasPath raw (Search.split option '.')) <;> simp

theorem missingRequired_unmarshalable (resource : Dstu3.Resource) (rules : RuleSet)
    (hraw : resource.marshal = none) :
    missingRequired resource (some rules) = ["unable to marshal resource"] := by
  simp only [missingRequired, hraw]

theorem missingRequired_nil (resource : Dstu3.Resource) : missingRequired resource none = [] :=
  rfl

/-! ### `Validate` -/

theorem length_pos_iff_ne_nil (l : List String) : l.length > 0 ↔ l ≠ [] := by
  cases l <;> simp

theorem applyProfile_loaded (v : Validator) (resource : Dstu3.Resource) (url : String)
    (profiles : ProfileStore) (rules : Option RuleSet) (hp : v.profiles = some profiles)
    (hg : profiles.Get url = some rules) :
    v.applyProfile resource url =
      if (missingRequired resource rules).length > 0 then
        some ("missing required fields: " ++ ", ".intercalate (missingRequired resource rules))
      else none := by
  simp only [Validator.applyProfile, hp, hg]

/-- `applyProfile` returns no error exactly when the rule set is loaded and
`missingRequired` reports nothing. -/
theorem applyProfile_none_iff (v : Validator) (resource : Dstu3.Resource) (url : String) :
    v.applyProfile resource url = none ↔ v.satisfied resource url := by
  constructor
  · intro h
    cases hp : v.profiles with
    | none => simp [Validator.applyProfile, hp] at h
    | some profiles =>
      cases hg : profiles.Get url with
      | none => simp [Validator.applyProfile, hp, hg] at h
      | some rules =>
        rw [applyProfile_loaded v resource url profiles rules hp hg] at h
        by_cases hm : missingRequired resource rules = []
        · exact ⟨profiles, rules, hp, hg, hm⟩
        · rw [if_pos ((length_pos_iff_ne_nil _).mpr hm)] at h
          exact Option.noConfusion h
  · rintro ⟨ps, rs, hp, hg, hm⟩
    rw [applyProfile_loaded v resource url ps rs hp hg, hm]
    rfl

/-- The error of `applyProfile`, case by case. -/
theorem applyProfile_some (v : Validator) (resource : Dstu3.Resource) (url err : String)
    (h : v.applyProfile resource url = some err) :
    err = "profiles not loaded" ∨ err = "profile not loaded: " ++ url ∨
      ∃ profiles rules, v.profiles = some profiles ∧ profiles.Get url = some rules ∧
        missingRequired resource rules ≠ [] ∧
        err = "missing required fields: " ++ ", ".intercalate (missingRequired resource rules) := by
  unfold Validator.applyProfile at h
  cases hp : v.profiles with
  | none =>
    rw [hp] at h
    injection h with h
    exact Or.inl h.symm
  | some profiles =>
    rw [hp] at h
    dsimp only at h
    cases hg : profiles.Get url with
    | none =>
      rw [hg] at h
      injection h with h
      exact Or.inr (Or.inl h.symm)
    | some rules =>
      rw [hg] at h
      dsimp only at h
      split at h
      · rename_i hlen
        injection h with h
        exact Or.inr (Or.inr ⟨profiles, rules, rfl, hg,
          (length_pos_iff_ne_nil _).mp hlen, h.symm⟩)
      · exact Option.noConfusion h

/-- `applyProfile` on a loaded rule set that the resource does not satisfy. -/
theorem applyProfile_missing (v : Validator) (resource : Dstu3.Resource) (url : String)
    (profiles : ProfileStore) (rules : Option RuleSet) (hp : v.profiles = some profiles)
    (hg : profiles.Get url = some rules) (hm : missingRequired resource rules ≠ []) :
    v.applyProfile resource url =
      some ("missing required fields: " ++ ", ".intercalate (missingRequired resource rules)) := by
  unfold Validator.applyProfile
  rw [hp]
  dsimp only
  rw [hg]
  dsimp only
  rw [if_pos ((length_pos_iff_ne_nil _).mpr hm)]

theorem applyBaseProfile_of_info (v : Validator) (resource : Dstu3.Resource)
    (info : Dstu3.ResourceInfo) (hinfo : v.registry.Info resource.GetResourceType = some info) :
    v.applyBaseProfile resource =
      if info.ProfileSource = "" then none else v.applyProfile resource info.ProfileSource := by
  simp only [Validator.applyBaseProfile, hinfo]

/-- Whether a `meta.profile` of the resource is blank, as `Validate` tests it. -/
theorem blankProfile_iff (resource : Dstu3.Resource) :
    (match resource.GetMeta with
      | none => false
      | some m => m.Profile.any fun p => Search.trimSpace p = "") = false ↔
    ∀ m, resource.GetMeta = some m → ∀ p ∈ m.Profile, Search.trimSpace p ≠ "" := by
  cases hm : resource.GetMeta with
  | none => simp
  | some m =>
    simp only [Option.some.injEq, forall_eq', List.any_eq_false, decide_eq_true_eq]

/-- `Validate`, step by step, for a resource of a registered type. -/
theorem Validate_of_info (v : Validator) (resource : Dstu3.Resource) (profile : String)
    (info : Dstu3.ResourceInfo) (hinfo : v.registry.Info resource.GetResourceType = some info) :
    v.Validate (some resource) profile =
      if (match resource.GetMeta with
          | none => false
          | some m => m.Profile.any fun p => Search.trimSpace p = "") = true then
        some (NewOutcomeIssue "error" "invalid" "meta.profile contains empty value")
      else if profile ≠ "" ∧ Search.trimSpace profile = "" then
        some (NewOutcomeIssue "error" "invalid" "profile must not be empty")
      else
        match (if profile ≠ "" then v.applyProfile resource profile else none) with
        | some err => some (NewOutcomeIssue "error" "invalid" err)
        | none =>
          match (if info.ProfileSource = "" then none
                 else v.applyProfile resource info.ProfileSource) with
          | some err => some (NewOutcomeIssue "error" "invalid" err)
          | none => none := by
  simp only [Validator.Validate, hinfo, applyBaseProfile_of_info v resource info hinfo]

theorem Validate_unregistered (v : Validator) (resource : Dstu3.Resource) (profile : String)
    (hinfo : v.registry.Info resource.GetResourceType = none) :
    v.Validate (some resource) profile =
      some (NewOutcomeIssue "error" "invalid"
        ("unsupported resource type: " ++ resource.GetResourceType)) := by
  simp only [Validator.Validate, hinfo]

/-- `Validate` returns no outcome exactly when the type is registered, no
declared profile is blank, the supplied profile (if any) is not blank and
satisfied, and the base profile (if any) is satisfied. -/
theorem Validate_none_iff (v : Validator) (resource : Dstu3.Resource) (profile : String) :
    v.Validate (some resource) profile = none ↔
      (∃ info, v.registry.Info resource.GetResourceType = some info ∧
        (info.ProfileSource ≠ "" → v.satisfied resource info.ProfileSource)) ∧
      (∀ m, resource.GetMeta = some m → ∀ p ∈ m.Profile, Search.trimSpace p ≠ "") ∧
      (profile ≠ "" → Search.trimSpace profile ≠ "" ∧ v.satisfied resource profile) := by
  cases hinfo : v.registry.Info resource.GetResourceType with
  | none =>
    rw [Validate_unregistered v resource profile hinfo]
    simp
  | some info =>
    rw [Validate_of_info v resource profile info hinfo, ← blankProfile_iff]
    simp only [Option.some.injEq, exists_eq_left']
    cases hblank : (match resource.GetMeta with
        | none => false
        | some m => m.Profile.any fun p => Search.trimSpace p = "") with
    | true => simp
    | false =>
      simp only [Bool.false_eq_true, if_false, true_and]
      by_cases hp : profile = ""
      · subst hp
        simp only [ne_eq, not_true_eq_false, false_and, if_false, false_implies, and_true]
        by_cases hs : info.ProfileSource = ""
        · simp [hs]
        · simp only [hs, if_false, not_false_eq_true, true_implies,
            ← applyProfile_none_iff]
          cases v.applyProfile resource info.ProfileSource <;> simp
      · by_cases ht : Search.trimSpace profile = ""
        · simp [hp, ht]
        · simp only [ne_eq, hp, not_false_eq_true, ht, and_false, if_false, if_true,
            true_implies, true_and, ← applyProfile_none_iff]
          cases v.applyProfile resource profile with
          | some err => simp
          | none =>
            simp only [true_and]
            by_cases hs : info.ProfileSource = ""
            · simp [hs]
            · simp only [hs, if_false, not_false_eq_true, true_implies]
              cases v.applyProfile resource info.ProfileSource <;> simp

/-- Every outcome `Validate` returns for a resource is one issue of severity
"error" and code "invalid", with one of six diagnostics. -/
theorem Validate_some (v : Validator) (resource : Dstu3.Resource) (profile : String)
    (outcome : OperationOutcome) (h : v.Validate (some resource) profile = some outcome) :
    ∃ diagnostics, outcome = NewOutcomeIssue "error" "invalid" diagnostics ∧
      (diagnostics = "unsupported resource type: " ++ resource.GetResourceType ∨
       diagnostics = "meta.profile contains empty value" ∨
       diagnostics = "profile must not be empty" ∨
       diagnostics = "profiles not loaded" ∨
       (∃ url, diagnostics = "profile not loaded: " ++ url) ∨
       ∃ rules, missingRequired resource rules ≠ [] ∧
         diagnostics =
           "missing required fields: " ++ ", ".intercalate (missingRequired resource rules)) := by
  have hap : ∀ url err, v.applyProfile resource url = some err →
      err = "profiles not loaded" ∨ (∃ url, err = "profile not loaded: " ++ url) ∨
      ∃ rules, missingRequired resource rules ≠ [] ∧
        err = "missing required fields: " ++ ", ".intercalate (missingRequired resource rules) := by
    intro url err he
    rcases applyProfile_some v resource url err he with h1 | h2 | ⟨_, rules, _, _, hm, h3⟩
    · exact Or.inl h1
    · exact Or.inr (Or.inl ⟨url, h2⟩)
    · exact Or.inr (Or.inr ⟨rules, hm, h3⟩)
  cases hinfo : v.registry.Info resource.GetResourceType with
  | none =>
    rw [Validate_unregistered v resource profile hinfo] at h
    injection h with h
    exact ⟨_, h.symm, Or.inl rfl⟩
  | some info =>
    rw [Validate_of_info v resource profile info hinfo] at h
    split at h
    · injection h with h
      exact ⟨_, h.symm, Or.inr (Or.inl rfl)⟩
    · split at h
      · injection h with h
        exact ⟨_, h.symm, Or.inr (Or.inr (Or.inl rfl))⟩
      · split at h
        · rename_i err herr
          injection h with h
          have herr1 : v.applyProfile resource profile = some err := by
            split at herr
            · exact herr
            · exact Option.noConfusion herr
          exact ⟨err, h.symm, Or.inr (Or.inr (Or.inr (hap profile err herr1)))⟩
        · split at h
          · rename_i err herr
            injection h with h
            have herr1 : v.applyProfile resource info.ProfileSource = some err := by
              split at herr
              · exact Option.noConfusion herr
              · exact herr
            exact ⟨err, h.symm, Or.inr (Or.inr (Or.inr (hap _ err herr1)))⟩
          · exact Option.noConfusion h

/-- C22: `Validate` returns no outcome if and only if the resource's type is
registered, every identifier in its `meta.profile` is non-blank, the profile
argument, if supplied, is non-blank, loaded and satisfied (`missingRequired`
reports nothing for its rule set), and the base profile source of the type, if
it has one, is loaded and satisfied; otherwise it returns one issue of severity
"error" whose diagnostic is that of an unsupported type, an invalid meta, a
blank profile, a profile that is not loaded, or missing fields. -/
theorem validate_succeeds_iff (v : Validator) (resource : Dstu3.Resource) (profile : String) :
    (v.Validate (some resource) profile = none ↔
      (∃ info, v.registry.Info resource.GetResourceType = some info ∧
        (info.ProfileSource ≠ "" → v.satisfied resource info.ProfileSource)) ∧
      (∀ m, resource.GetMeta = some m → ∀ p ∈ m.Profile, Search.trimSpace p ≠ "") ∧
      (profile ≠ "" → Search.trimSpace profile ≠ "" ∧ v.satisfied resource profile)) ∧
    (∀ outcome, v.Validate (some resource) profile = some outcome →
      ∃ diagnostics, outcome = NewOutcomeIssue "error" "invalid" diagnostics ∧
        (diagnostics = "unsupported resource type: " ++ resource.GetResourceType ∨
         diagnostics = "meta.profile contains empty value" ∨
         diagnostics = "profile must not be empty" ∨
         diagnostics = "profiles not loaded" ∨
         (∃ url, diagnostics = "profile not loaded: " ++ url) ∨
         ∃ rules, missingRequired resource rules ≠ [] ∧
           diagnostics = "missing required fields: " ++
             ", ".intercalate (missingRequired resource rules))) :=
  ⟨Validate_none_iff v resource profile, Validate_some v resource profile⟩

/-- A resource that lacks a required path of the rules does not satisfy them,
and neither does one that cannot be serialised. -/
theorem missingRequired_ne_nil (resource : Dstu3.Resource) (rules : RuleSet) (field : String)
    (hfield : field ∈ rules.RequiredPaths)
    (hmiss : ∀ raw, resource.marshal = some raw →
      hasPath raw (Search.split field '.') = false) :
    missingRequired resource (some rules) ≠ [] := by
  cases hraw : resource.marshal with
  | none =>
    rw [missingRequired_unmarshalable resource rules hraw]
    simp
  | some raw =>
    rw [missingRequired_eq resource rules raw hraw]
    intro hnil
    have hmem : rules.ResourceType ++ "." ++ field ∈ missingPaths raw rules := by
      unfold missingPaths
      refine List.mem_map.mpr ⟨field, List.mem_filter.mpr ⟨hfield, ?_⟩, rfl⟩
      rw [hmiss raw hraw]
      rfl
    rw [List.append_eq_nil] at hnil
    rw [hnil.1] at hmem
    simp at hmem

/-- C23: for every resource of a registered type that has a base profile
source: if the base rule set is not loaded, or the resource misses a required
path of it, `Validate` fails (returns an issue of severity "error") whatever
profile argument is given, also one that is loaded and satisfied. -/
theorem base_profile_always_applied (v : Validator) (resource : Dstu3.Resource)
    (info : Dstu3.ResourceInfo) (hinfo : v.registry.Info resource.GetResourceType = some info)
    (hsource : info.ProfileSource ≠ "")
    (hbase : (∀ profiles, v.profiles = some profiles →
        profiles.Get info.ProfileSource = none) ∨
      ∃ profiles rules, v.profiles = some profiles ∧
        profiles.Get info.ProfileSource = some (some rules) ∧
        ∃ field ∈ rules.RequiredPaths, ∀ raw, resource.marshal = some raw →
          hasPath raw (Search.split field '.') = false) :
    ∀ profile, ∃ diagnostics,
      v.Validate (some resource) profile = some (NewOutcomeIssue "error" "invalid" diagnostics) := by
  intro profile
  cases hv : v.Validate (some resource) profile with
  | some outcome =>
    obtain ⟨diagnostics, hd, _⟩ := Validate_some v resource profile outcome hv
    exact ⟨diagnostics, by rw [hd]⟩
  | none =>
    exfalso
    obtain ⟨⟨info1, hinfo1, hsat⟩, _, _⟩ := (Validate_none_iff v resource profile).mp hv
    rw [hinfo] at hinfo1
    injection hinfo1 with hinfo1
    subst hinfo1
    obtain ⟨profiles, rules, hp, hg, hm⟩ := hsat hsource
    rcases hbase with hnot | ⟨profiles1, rules1, hp1, hg1, field, hfield, hmiss⟩
    · rw [hnot profiles hp] at hg
      exact Option.noConfusion hg
    · rw [hp] at hp1
      injection hp1 with hp1
      subst hp1
      rw [hg] at hg1
      injection hg1 with hg1
      subst hg1
      exact missingRequired_ne_nil resource rules1 field hfield hmiss hm

/-- C23, at a concrete input: the patient "pat-1" has no gender, which the base
profile of the patients requires; validation fails without a profile argument
and with one that is not loaded. -/
theorem base_profile_always_applied_witness :
    genderValidator.registry.Info patient1.GetResourceType
      = some ⟨"Patient", .patient { ResourceType := "Patient" },
          "http://hl7.org/fhir/StructureDefinition/Patient", patientSource⟩ ∧
    patientSource ≠ "" ∧
    genderValidator.Validate (some patient1) ""
      = some (NewOutcomeIssue "error" "invalid" "missing required fields: Patient.gender") ∧
    ∀ profile, ∃ diagnostics,
      genderValidator.Validate (some patient1) profile
        = some (NewOutcomeIssue "error" "invalid" diagnostics) :=
  ⟨by decide, by decide, by decide,
    base_profile_always_applied genderValidator patient1
      ⟨"Patient", .patient { ResourceType := "Patient" },
        "http://hl7.org/fhir/StructureDefinition/Patient", patientSource⟩
      (by decide) (by decide)
      (Or.inr ⟨(NewProfileStore "" 0 0).Add patientSource (some genderRules), genderRules,
        rfl, by decide, "gender", by decide, fun raw hraw => by
          have hr : raw = patient1.members := by
            have : patient1.marshal = some patient1.members := by decide
            rw [this] at hraw
            injection hraw with hraw
            exact hraw.symm
          subst hr
          decide⟩)⟩

/-- C24, as stated, fails: the patient "pat-1" has neither the gender that the
supplied profile requires nor the birth date that the base profile of the
patients requires; `Validate` stops at the supplied profile, and its diagnostic
names "Patient.gender" only, not the missing path of the base profile. -/
theorem validate_names_first_failure_only :
    missingRequired patient1 (some genderRules) = ["Patient.gender"] ∧
    missingRequired patient1 (some birthDateRules) = ["Patient.birthDate"] ∧
    twoProfileValidator.Validate (some patient1) "http://example.org/gender"
      = some (NewOutcomeIssue "error" "invalid" "missing required fields: Patient.gender") ∧
    twoProfileValidator.Validate (some patient1Female) "http://example.org/gender"
      = some (NewOutcomeIssue "error" "invalid" "missing required fields: Patient.birthDate") := by
  decide

/-- C24 (amended): when `Validate` fails because fields are missing, it returns
exactly one issue, of severity "error", whose diagnostic lists what
`missingRequired` reports for the first rule set that the resource fails: the
supplied profile's if the resource misses any of its rules, and otherwise the
base profile's. For a resource that can be serialised that list names, as
"{ResourceType}.{path}" with the resource type of the rule set, every missing
required path and every unsatisfied choice group of that rule set. -/
theorem validate_missing_fields (v : Validator) (resource : Dstu3.Resource) (profile : String)
    (info : Dstu3.ResourceInfo) (hinfo : v.registry.Info resource.GetResourceType = some info)
    (hmeta : ∀ m, resource.GetMeta = some m → ∀ p ∈ m.Profile, Search.trimSpace p ≠ "") :
    (∀ profiles rules, Search.trimSpace profile ≠ "" → v.profiles = some profiles →
      profiles.Get profile = some rules → missingRequired resource rules ≠ [] →
      v.Validate (some resource) profile =
        some (NewOutcomeIssue "error" "invalid"
          ("missing required fields: " ++
            ", ".intercalate (missingRequired resource rules)))) ∧
    (∀ profiles rules,
      (profile = "" ∨ (Search.trimSpace profile ≠ "" ∧ v.satisfied resource profile)) →
      info.ProfileSource ≠ "" → v.profiles = some profiles →
      profiles.Get info.ProfileSource = some rules → missingRequired resource rules ≠ [] →
      v.Validate (some resource) profile =
        some (NewOutcomeIssue "error" "invalid"
          ("missing required fields: " ++
            ", ".intercalate (missingRequired resource rules)))) ∧
    (∀ rules raw, resource.marshal = some raw →
      missingRequired resource (some rules)
        = missingPaths raw rules ++ unsatisfiedGroups raw rules) ∧
    (∀ outcome, v.Validate (some resource) profile = some outcome →
      ∃ diagnostics, outcome.Issue = [⟨"error", "invalid", diagnostics⟩]) := by
  have hblank := (blankProfile_iff resource).mpr hmeta
  refine ⟨?_, ?_, ?_, ?_⟩
  · intro profiles rules htrim hp hg hm
    have hne : profile ≠ "" := by
      rintro rfl
      exact htrim (by decide)
    rw [Validate_of_info v resource profile info hinfo, hblank,
      applyProfile_missing v resource profile profiles rules hp hg hm]
    simp [hne, htrim]
  · intro profiles rules hprofile hsource hp hg hm
    rw [Validate_of_info v resource profile info hinfo, hblank,
      applyProfile_missing v resource info.ProfileSource profiles rules hp hg hm]
    rcases hprofile with rfl | ⟨htrim, hsat⟩
    · simp [hsource]
    · have hne : profile ≠ "" := by
        rintro rfl
        exact htrim (by decide)
      rw [(applyProfile_none_iff v resource profile).mpr hsat]
      simp [hne, htrim, hsource]
  · intro rules raw hraw
    exact missingRequired_eq resource rules raw hraw
  · intro outcome hv
    obtain ⟨diagnostics, hd, _⟩ := Validate_some v resource profile outcome hv
    exact ⟨diagnostics, by rw [hd]; rfl⟩

/-- C24 (amended), at a concrete input: the patient "pat-1" without a gender,
validated against the rule set that requires "gender", fails with a diagnostic
that names "Patient.gender", and with gender "female" it passes. -/
theorem validate_missing_fields_witness :
    genderValidator.registry.Info patient1.GetResourceType
      = some ⟨"Patient", .patient { ResourceType := "Patient" },
          "http://hl7.org/fhir/StructureDefinition/Patient", patientSource⟩ ∧
    (∀ m, patient1.GetMeta = some m → ∀ p ∈ m.Profile, Search.trimSpace p ≠ "") ∧
    genderValidator.Validate (some patient1) ""
      = some (NewOutcomeIssue "error" "invalid" "missing required fields: Patient.gender") ∧
    genderValidator.Validate (some patient1Female) "" = none ∧
    ∀ outcome, genderValidator.Validate (some patient1) "" = some outcome →
      ∃ diagnostics, outcome.Issue = [⟨"error", "invalid", diagnostics⟩] :=
  ⟨by decide, by decide, by decide, by decide,
    (validate_missing_fields genderValidator patient1 ""
      ⟨"Patient", .patient { ResourceType := "Patient" },
        "http://hl7.org/fhir/StructureDefinition/Patient", patientSource⟩
      (by decide) (by decide)).2.2.2⟩

/-! ### Required paths and choice groups -/

theorem split_ne_nil (s : String) (sep : Char) : Search.split s sep ≠ [] := by
  unfold Search.split
  intro h
  exact Search.splitChars_ne_nil sep s.toList (List.map_eq_nil_iff.mp h)

theorem qualified_injective (resourceType a b : String)
    (h : resourceType ++ "." ++ a = resourceType ++ "." ++ b) : a = b := by
  have h1 := congrArg String.data h
  simp only [String.data_append, List.append_assoc] at h1
  have h2 := List.append_cancel_left (List.append_cancel_left h1)
  exact String.ext h2

/-- A required path is named among the missing paths exactly when the tree
lacks it. -/
theorem mem_missingPaths (raw : List (String × JsonValue)) (rules : RuleSet) (field : String)
    (hfield : field ∈ rules.RequiredPaths) :
    rules.ResourceType ++ "." ++ field ∈ missingPaths raw rules ↔
      hasPath raw (Search.split field '.') = false := by
  unfold missingPaths
  rw [List.mem_map]
  constructor
  · rintro ⟨other, hmem, heq⟩
    have := qualified_injective _ _ _ heq
    subst this
    simpa using (List.mem_filter.mp hmem).2
  · intro hmiss
    exact ⟨field, List.mem_filter.mpr ⟨hfield, by rw [hmiss]; rfl⟩, rfl⟩

/-- C25: for every attribute tree and every non-empty path, `hasPath` holds
exactly when the first component is a key of the tree and the remaining
components can be descended from its value: into an object by looking up the
next key, into a list if at least one element admits the remaining path (so
not into an empty list), and not into a scalar with components left; the path
that `missingRequired` splits a required path into is never empty, and for a
resource with attribute tree `raw` it reports, before the choice groups, the
required paths for which `hasPath` is false, and no other. -/
theorem hasPath_descends (raw : List (String × JsonValue)) (key : String)
    (rest : List String) :
    (hasPath raw (key :: rest) = true ↔
      ∃ value, JsonValue.member raw key = some value ∧ Descends value rest) ∧
    (∀ value path, hasPathValue value path = true ↔ Descends value path) ∧
    (∀ value, hasPathValue value [] = true) ∧
    (∀ fields, hasPathValue (.object fields) (key :: rest) = hasPath fields (key :: rest)) ∧
    (∀ items, hasPathValue (.array items) (key :: rest) = true ↔
      ∃ item ∈ items, hasPathValue item (key :: rest) = true) ∧
    hasPathValue (.array []) (key :: rest) = false ∧
    (∀ s, hasPathValue (.string s) (key :: rest) = false) ∧
    (∀ n, hasPathValue (.integer n) (key :: rest) = false) ∧
    (∀ literal, hasPathValue (.fraction literal) (key :: rest) = false) ∧
    (∀ b, hasPathValue (.bool b) (key :: rest) = false) ∧
    hasPathValue .null (key :: rest) = false ∧
    (∀ field, Search.split field '.' ≠ []) ∧
    (∀ (resource : Dstu3.Resource) (rules : RuleSet), resource.marshal = some raw →
      (∃ groups, missingRequired resource (some rules) = missingPaths raw rules ++ groups) ∧
      missingPaths raw rules =
        (rules.RequiredPaths.filter fun field => !hasPath raw (Search.split field '.')).map
          (fun field => rules.ResourceType ++ "." ++ field) ∧
      ∀ field ∈ rules.RequiredPaths,
        (rules.ResourceType ++ "." ++ field ∈ missingPaths raw rules ↔
          hasPath raw (Search.split field '.') = false)) := by
  refine ⟨hasPath_iff raw key rest, hasPathValue_iff, hasPathValue_nil,
    fun fields => hasPathValue_object fields key rest, ?_, ?_, ?_, ?_, ?_, ?_, ?_,
    fun field => split_ne_nil field '.', ?_⟩
  · intro items
    rw [hasPathValue_array, List.any_eq_true]
  · simp [hasPathValue_array]
  · intro s
    simp [hasPathValue]
  · intro n
    simp [hasPathValue]
  · intro literal
    simp [hasPathValue]
  · intro b
    simp [hasPathValue]
  · simp [hasPathValue]
  · intro resource rules hraw
    exact ⟨⟨_, missingRequired_eq resource rules raw hraw⟩, rfl,
      fun field hfield => mem_missingPaths raw rules field hfield⟩

/-- C26, as stated, fails for a resource that `json.Marshal` refuses: for the
patient whose `contained` holds bytes that are not JSON, `missingRequired`
records "unable to marshal resource" and no entry for the choice group, which
has no alternative. -/
theorem choice_group_not_reported :
    Store.unclonablePatient.marshal = none ∧
    missingRequired Store.unclonablePatient
        (some { ResourceType := "Patient", Choices := [{ BasePath := "deceased[x]" }] })
      = ["unable to marshal resource"] ∧
    "Patient.deceased[x]" ∉ missingRequired Store.unclonablePatient
        (some { ResourceType := "Patient", Choices := [{ BasePath := "deceased[x]" }] }) := by
  decide

/-- C26 (amended): for every resource that can be serialised, with attribute
tree `raw`, and every rule set, `missingRequired` records after the missing
required paths, for each choice group in order, nothing if at least one of its
alternative paths exists in the tree and otherwise the one entry
"{ResourceType}.{basePath}"; a group with an empty list of alternatives is
reported for every such resource. For a resource that cannot be serialised it
returns the one entry "unable to marshal resource". -/
theorem choice_groups_reported (resource : Dstu3.Resource) (rules : RuleSet)
    (raw : List (String × JsonValue)) (hraw : resource.marshal = some raw) :
    missingRequired resource (some rules)
      = missingPaths raw rules ++
        (rules.Choices.filter fun choice =>
          !choice.Choices.any fun option => hasPath raw (Search.split option '.')).map
          (fun choice => rules.ResourceType ++ "." ++ choice.BasePath) ∧
    (∀ choice ∈ rules.Choices,
      ((∃ option ∈ choice.Choices, hasPath raw (Search.split option '.') = true) →
        (unsatisfiedGroups raw { rules with Choices := [choice] }) = []) ∧
      ((¬ ∃ option ∈ choice.Choices, hasPath raw (Search.split option '.') = true) →
        (unsatisfiedGroups raw { rules with Choices := [choice] })
          = [rules.ResourceType ++ "." ++ choice.BasePath] ∧
        rules.ResourceType ++ "." ++ choice.BasePath ∈ missingRequired resource (some rules)) ∧
      (choice.Choices = [] →
        rules.ResourceType ++ "." ++ choice.BasePath ∈ missingRequired resource (some rules))) ∧
    (∀ other : Dstu3.Resource, other.marshal = none →
      missingRequired other (some rules) = ["unable to marshal resource"]) := by
  have heq := missingRequired_eq resource rules raw hraw
  have hmem : ∀ choice ∈ rules.Choices,
      (¬ ∃ option ∈ choice.Choices, hasPath raw (Search.split option '.') = true) →
      rules.ResourceType ++ "." ++ choice.BasePath ∈ missingRequired resource (some rules) := by
    intro choice hchoice hnone
    rw [heq]
    apply List.mem_append_right
    unfold unsatisfiedGroups
    refine List.mem_map.mpr ⟨choice, List.mem_filter.mpr ⟨hchoice, ?_⟩, rfl⟩
    simp only [groupSatisfied, Bool.not_eq_true', List.any_eq_false]
    intro option hoption
    simpa using fun h => hnone ⟨option, hoption, h⟩
  refine ⟨heq, ?_, fun other hother => missingRequired_unmarshalable other rules hother⟩
  intro choice hchoice
  refine ⟨?_, ?_, ?_⟩
  · rintro ⟨option, hoption, hpath⟩
    have hsat : groupSatisfied raw choice = true :=
      List.any_eq_true.mpr ⟨option, hoption, hpath⟩
    simp [unsatisfiedGroups, hsat]
  · intro hnone
    have hsat : groupSatisfied raw choice = false := by
      simp only [groupSatisfied, List.any_eq_false]
      intro option hoption
      simpa using fun h => hnone ⟨option, hoption, h⟩
    exact ⟨by simp [unsatisfiedGroups, hsat], hmem choice hchoice hnone⟩
  · intro hempty
    apply hmem choice hchoice
    rw [hempty]
    simp

/-- C26 (amended), at a concrete input: the observation with an effective date
and time satisfies the choice group "effective[x]" of the repository's test,
and is reported for the group without alternatives. -/
theorem choice_groups_reported_witness :
    observationDated.marshal = some observationDated.members ∧
    missingRequired observationDated (some choiceRules) = ["Observation.value[x]"] ∧
    missingRequired (.observation { ResourceType := "Observation" }) (some choiceRules)
      = ["Observation.effective[x]", "Observation.value[x]"] ∧
    missingRequired observationDated (some choiceRules)
      = missingPaths observationDated.members choiceRules ++
        (choiceRules.Choices.filter fun choice =>
          !choice.Choices.any fun option =>
            hasPath observationDated.members (Search.split option '.')).map
          (fun choice => choiceRules.ResourceType ++ "." ++ choice.BasePath) :=
  ⟨by decide, by decide, by decide,
    (choice_groups_reported observationDated choiceRules observationDated.members
      (by decide)).1⟩

/-- The repository's test `TestMissingRequiredNestedPath`: the patient without
gender and name misses both paths, the one with both misses none ("name" is a
list, one element of which has a "family"). -/
theorem missingRequired_nested_example :
    missingRequired (.patient { ResourceType := "Patient" }) (some nestedRules)
      = ["Patient.gender", "Patient.name.family"] ∧
    missingRequired patientSmith (some nestedRules) = [] := by
  decide

/-! ### The cache of rule sets -/

theorem decodeAll_strings (l : List String) :
    decodeAll (fun item => decodeString "" (some item)) (l.map JsonValue.string) = some l := by
  induction l with
  | nil => rfl
  | cons a l ih =>
    simp only [List.map_cons, decodeAll, ih]
    rfl

theorem decodeChoiceRule_toJson (c : ChoiceRule) : decodeChoiceRule c.toJson = some c := by
  have h1 : fieldMember [("basePath", JsonValue.string c.BasePath),
      ("choices", JsonValue.array (c.Choices.map JsonValue.string))] "basePath"
      = some (JsonValue.string c.BasePath) := by
    simp only [fieldMember, List.reverse_cons, List.reverse_nil, List.nil_append,
      List.singleton_append, List.find?]
    have : decide (foldName "choices" = foldName "basePath") = false := by decide
    have : decide (foldName "basePath" = foldName "basePath") = true := by decide
    simp [*]
  have h2 : fieldMember [("basePath", JsonValue.string c.BasePath),
      ("choices", JsonValue.array (c.Choices.map JsonValue.string))] "choices"
      = some (JsonValue.array (c.Choices.map JsonValue.string)) := by
    simp only [fieldMember, List.reverse_cons, List.reverse_nil, List.nil_append,
      List.singleton_append, List.find?]
    have : decide (foldName "choices" = foldName "choices") = true := by decide
    simp [*]
  simp only [decodeChoiceRule, ChoiceRule.toJson, h1, h2, decodeStrings, decodeAll_strings]
  rfl

theorem decodeAll_choices (l : List ChoiceRule) :
    decodeAll decodeChoiceRule (l.map ChoiceRule.toJson) = some l := by
  induction l with
  | nil => rfl
  | cons a l ih =>
    simp only [List.map_cons, decodeAll, ih, decodeChoiceRule_toJson]

theorem decodeRuleSet_toJson (r : RuleSet) :
    decodeRuleSet [("resourceType", .string r.ResourceType),
      ("requiredPaths", .array (r.RequiredPaths.map .string)),
      ("choices", .array (r.Choices.map ChoiceRule.toJson))] = some r := by
  have h1 : fieldMember [("resourceType", JsonValue.string r.ResourceType),
      ("requiredPaths", JsonValue.array (r.RequiredPaths.map JsonValue.string)),
      ("choices", JsonValue.array (r.Choices.map ChoiceRule.toJson))] "resourceType"
      = some (JsonValue.string r.ResourceType) := by
    simp only [fieldMember, List.reverse_cons, List.reverse_nil, List.nil_append,
      List.singleton_append, List.cons_append, List.find?]
    have : decide (foldName "choices" = foldName "resourceType") = false := by decide
    have : decide (foldName "requiredPaths" = foldName "resourceType") = false := by decide
    have : decide (foldName "resourceType" = foldName "resourceType") = true := by decide
    simp [*]
  have h2 : fieldMember [("resourceType", JsonValue.string r.ResourceType),
      ("requiredPaths", JsonValue.array (r.RequiredPaths.map JsonValue.string)),
      ("choices", JsonValue.array (r.Choices.map ChoiceRule.toJson))] "requiredPaths"
      = some (JsonValue.array (r.RequiredPaths.map JsonValue.string)) := by
    simp only [fieldMember, List.reverse_cons, List.reverse_nil, List.nil_append,
      List.singleton_append, List.cons_append, List.find?]
    have : decide (foldName "choices" = foldName "requiredPaths") = false := by decide
    have : decide (foldName "requiredPaths" = foldName "requiredPaths") = true := by decide
    simp [*]
  have h3 : fieldMember [("resourceType", JsonValue.string r.ResourceType),
      ("requiredPaths", JsonValue.array (r.RequiredPaths.map JsonValue.string)),
      ("choices", JsonValue.array (r.Choices.map ChoiceRule.toJson))] "choices"
      = some (JsonValue.array (r.Choices.map ChoiceRule.toJson)) := by
    simp only [fieldMember, List.reverse_cons, List.reverse_nil, List.nil_append,
      List.singleton_append, List.cons_append, List.find?]
    have : decide (foldName "choices" = foldName "choices") = true := by decide
    simp [*]
  simp only [decodeRuleSet, h1, h2, h3, decodeStrings, decodeChoices, decodeAll_strings,
    decodeAll_choices]
  rfl

theorem fieldMember_version (a b : JsonValue) :
    fieldMember [("version", a), ("rules", b)] "version" = some a := by
  simp only [fieldMember, List.reverse_cons, List.reverse_nil, List.nil_append,
    List.singleton_append, List.find?]
  have : decide (foldName "rules" = foldName "version") = false := by decide
  have : decide (foldName "version" = foldName "version") = true := by decide
  simp [*]

theorem fieldMember_rules (a b : JsonValue) :
    fieldMember [("version", a), ("rules", b)] "rules" = some b := by
  simp only [fieldMember, List.reverse_cons, List.reverse_nil, List.nil_append,
    List.singleton_append, List.find?]
  have : decide (foldName "rules" = foldName "rules") = true := by decide
  simp [*]

/-- What `json.Unmarshal` reads from what `json.Marshal` wrote for an envelope
that holds a rule set is that envelope. -/
theorem decodeEnvelope_toJson (version : Int) (rules : RuleSet)
    (hint : -2 ^ 63 ≤ version ∧ version < 2 ^ 63) :
    decodeEnvelope (cacheEnvelope.toJson { Version := version, Rules := some rules })
      = some { Version := version, Rules := some rules } := by
  have hi : decodeInt 0 (some (JsonValue.integer version)) = some version := by
    show (if -2 ^ 63 ≤ version ∧ version < 2 ^ 63 then some version else none) = some version
    rw [if_pos hint]
  simp only [decodeEnvelope, cacheEnvelope.toJson, RuleSet.toJson, fieldMember_version,
    fieldMember_rules, hi, decodeRuleSet_toJson]

theorem cachePath_of_cacheDir (p1 p2 : ProfileStore) (url : String)
    (hdir : p2.cacheDir = p1.cacheDir) : p2.cachePath url = p1.cachePath url := by
  simp only [ProfileStore.cachePath, hdir]

/-- `readCache`, step by step, once `os.Stat` has found the file. -/
theorem readCache_of_file (p : ProfileStore) (fs : FileSystem) (now : Int) (url : String)
    (info : File) (hfile : fs.files.lookup (p.cachePath url) = some info) :
    p.readCache fs now url =
      if p.cacheTTL > 0 ∧ since now info.ModTime > p.cacheTTL then none
      else
        match info.data with
        | .unreadable => none
        | .text _ => none
        | .json value =>
          match decodeEnvelope value with
          | none => none
          | some envelope =>
            if envelope.Version ≠ p.version ∨ envelope.Rules = none then none
            else
              match envelope.Rules with
              | none => none
              | some rules => if rules.ResourceType = "" then none else some rules := by
  simp only [ProfileStore.readCache, hfile]

/-- C27: for every rule set with a non-empty resource type and every profile
URL: after `writeCache` has written it (returned no error), `readCache` on a
profile store with the same cache directory and the same version, with the TTL
disabled (zero or less) or the age of the file not above the TTL, is a hit that
returns the rule set written. -/
theorem cache_round_trip (p1 p2 : ProfileStore) (fs fs1 : FileSystem) (written now : Int)
    (url : String) (rules : RuleSet) (htype : rules.ResourceType ≠ "")
    (hdir : p2.cacheDir = p1.cacheDir) (hversion : p2.version = p1.version)
    (hint : -2 ^ 63 ≤ p1.version ∧ p1.version < 2 ^ 63)
    (hwrite : p1.writeCache fs written url (some rules) = (none, fs1))
    (httl : p2.cacheTTL ≤ 0 ∨ since now written ≤ p2.cacheTTL) :
    p2.readCache fs1 now url = some rules := by
  unfold ProfileStore.writeCache at hwrite
  by_cases hro : fs.readOnly = true
  · rw [if_pos hro] at hwrite
    injection hwrite with h1 _
    exact Option.noConfusion h1
  · rw [if_neg hro] at hwrite
    injection hwrite with _ h2
    subst h2
    have hfile : ({ fs with files := (fs.files.insert (p1.cachePath url)
          ⟨.json (cacheEnvelope.toJson { Version := p1.version, Rules := some rules }),
            written⟩) } : FileSystem).files.lookup (p2.cachePath url)
        = some ⟨.json (cacheEnvelope.toJson { Version := p1.version, Rules := some rules }),
            written⟩ := by
      rw [cachePath_of_cacheDir p1 p2 url hdir]
      exact AList.lookup_insert _
    rw [readCache_of_file p2 _ now url _ hfile]
    have hnot : ¬ (p2.cacheTTL > 0 ∧ since now written > p2.cacheTTL) := by
      rintro ⟨h1, h2⟩
      rcases httl with h | h <;> omega
    rw [if_neg hnot]
    dsimp only
    rw [decodeEnvelope_toJson p1.version rules hint]
    simp [hversion, htype]

/-- C27, at a concrete input: `genderRules`, written by the store with a TTL of
one hour at time 1000, is read back at time 2000. -/
theorem cache_round_trip_witness :
    genderRules.ResourceType ≠ "" ∧ (-2 ^ 63 ≤ hourStore.version ∧ hourStore.version < 2 ^ 63) ∧
    hourStore.writeCache {} 1000 patientSource (some genderRules) = (none, cachedFiles) ∧
    (hourStore.cacheTTL ≤ 0 ∨ since 2000 1000 ≤ hourStore.cacheTTL) ∧
    hourStore.cachePath patientSource
      = "/cache/https_hl7.org_fhir_STU3_patient.profile.json.json" ∧
    hourStore.readCache cachedFiles 2000 patientSource = some genderRules :=
  ⟨by decide, by decide, rfl, by decide, by decide,
    cache_round_trip hourStore hourStore {} cachedFiles 1000 2000 patientSource genderRules
      (by decide) rfl rfl (by decide) rfl (by decide)⟩

/-- C28: `readCache` reports a miss (it has no error to report) whenever the
cache file is absent or cannot be read, its content is not JSON or not a valid
envelope, the envelope's version differs from the version of the store, the
envelope has no rules or rules with an empty resource type, or the TTL is
positive and the file is older than the TTL; with a TTL of zero or less the
result does not depend on the clock or on the modification time of the file. -/
theorem readCache_miss (p : ProfileStore) (fs : FileSystem) (now : Int) (url : String) :
    (fs.files.lookup (p.cachePath url) = none → p.readCache fs now url = none) ∧
    (∀ info, fs.files.lookup (p.cachePath url) = some info →
      (info.data = .unreadable → p.readCache fs now url = none) ∧
      (∀ bytes, info.data = .text bytes → p.readCache fs now url = none) ∧
      (∀ value, info.data = .json value → decodeEnvelope value = none →
        p.readCache fs now url = none) ∧
      (∀ value envelope, info.data = .json value → decodeEnvelope value = some envelope →
        (envelope.Version ≠ p.version ∨ envelope.Rules = none ∨
          ∃ rules, envelope.Rules = some rules ∧ rules.ResourceType = "") →
        p.readCache fs now url = none) ∧
      (p.cacheTTL > 0 → since now info.ModTime > p.cacheTTL →
        p.readCache fs now url = none)) ∧
    (p.cacheTTL ≤ 0 →
      (∀ later, p.readCache fs later url = p.readCache fs now url) ∧
      ∀ info modTime, fs.files.lookup (p.cachePath url) = some info →
        p.readCache { fs with files := (fs.files.insert (p.cachePath url)
            ⟨info.data, modTime⟩) } now url
          = p.readCache fs now url) := by
  refine ⟨?_, ?_, ?_⟩
  · intro hnone
    simp only [ProfileStore.readCache, hnone]
  · intro info hfile
    rw [readCache_of_file p fs now url info hfile]
    refine ⟨?_, ?_, ?_, ?_, ?_⟩
    · intro hd
      rw [hd]
      split <;> rfl
    · intro bytes hd
      rw [hd]
      split <;> rfl
    · intro value hd hdec
      rw [hd]
      dsimp only
      rw [hdec]
      split <;> rfl
    · intro value envelope hd hdec hbad
      rw [hd]
      dsimp only
      rw [hdec]
      dsimp only
      split
      · rfl
      · rcases hbad with hv | hr | ⟨rules, hr, ht⟩
        · simp [hv]
        · simp [hr]
        · simp [hr, ht]
    · intro h1 h2
      rw [if_pos ⟨h1, h2⟩]
  · intro httl
    have hnot : ∀ t modTime, ¬ (p.cacheTTL > 0 ∧ since t modTime > p.cacheTTL) := by
      rintro t modTime ⟨h1, _⟩
      omega
    constructor
    · intro later
      cases hfile : fs.files.lookup (p.cachePath url) with
      | none => simp only [ProfileStore.readCache, hfile]
      | some info =>
        rw [readCache_of_file p fs later url info hfile,
          readCache_of_file p fs now url info hfile, if_neg (hnot _ _), if_neg (hnot _ _)]
    · intro info modTime hfile
      rw [readCache_of_file p fs now url info hfile,
        readCache_of_file p _ now url ⟨info.data, modTime⟩ (AList.lookup_insert _),
        if_neg (hnot _ _), if_neg (hnot _ _)]

/-- C28, at concrete inputs: the repository's tests
`TestProfileCacheVersionInvalidation` and `TestProfileCacheTTLInvalidation`: the
file written for version 1 is a miss for version 2, and a miss once it is older
than the TTL; for a path with no file, read is a miss. -/
theorem readCache_miss_witness :
    ({ hourStore with version := 2 } : ProfileStore).readCache cachedFiles 2000 patientSource
      = none ∧
    hourStore.readCache cachedFiles 3600000002000 patientSource = none ∧
    hourStore.readCache cachedFiles 2000 "http://example.org/other" = none ∧
    (cachedFiles.files.lookup (hourStore.cachePath "http://example.org/other") = none →
      hourStore.readCache cachedFiles 2000 "http://example.org/other" = none) :=
  ⟨by decide, by decide, by decide,
    (readCache_miss hourStore cachedFiles 2000 "http://example.org/other").1⟩

/-! ### The rule set derived from a profile document -/

theorem startsWith_append (lead rest : String) : startsWith (lead ++ rest) lead = true := by
  simp [startsWith, String.data_append]

theorem trimLeading_append (lead rest : String) : trimLeading (lead ++ rest) lead = rest := by
  simp only [trimLeading, startsWith_append, if_true]
  apply String.ext
  show (lead ++ rest).data.drop lead.data.length = rest.data
  rw [String.data_append, List.drop_left]

/-- A text that starts with `lead` is `lead` followed by what `trimLeading`
leaves. -/
theorem append_trimLeading (s lead : String) (h : startsWith s lead = true) :
    lead ++ trimLeading s lead = s := by
  simp only [trimLeading, h, if_true]
  apply String.ext
  obtain ⟨t, ht⟩ := List.isPrefixOf_iff_prefix.mp h
  have hs : s.data = lead.data ++ t := ht.symm
  show (lead ++ String.mk (s.data.drop lead.data.length)).data = s.data
  rw [String.data_append, hs, List.drop_left]

/-- An element contributes the relative path `path` exactly when its minimum
occurrence is positive and its path is "{targetType}.{path}", with `path`
non-empty. -/
theorem contributes_iff (targetType : String) (element : elementDefinition) (path : String) :
    contributes targetType element ∧ trimLeading element.Path (targetType ++ ".") = path ↔
      0 < element.Min ∧ element.Path = targetType ++ "." ++ path ∧ path ≠ "" := by
  unfold contributes
  constructor
  · rintro ⟨⟨hmin, hstart, hne⟩, rfl⟩
    exact ⟨hmin, (append_trimLeading _ _ hstart).symm, hne⟩
  · rintro ⟨hmin, hpath, hne⟩
    rw [hpath, trimLeading_append, startsWith_append]
    exact ⟨⟨hmin, rfl, hne⟩, rfl⟩

theorem requiredStep_of_not (lead : String) (acc : GoMap Unit × GoMap (GoMap Unit))
    (element : elementDefinition)
    (h : ¬ (0 < element.Min ∧ startsWith element.Path lead = true ∧
      trimLeading element.Path lead ≠ "")) :
    requiredStep lead acc element = acc := by
  unfold requiredStep
  by_cases h1 : element.Min ≤ 0
  · simp [h1]
  · by_cases h2 : startsWith element.Path lead = true
    · by_cases h3 : trimLeading element.Path lead = ""
      · simp [h1, h2, h3]
      · exact absurd ⟨by omega, h2, h3⟩ h
    · simp [h1, h2]

theorem requiredStep_of_contributes (lead : String) (acc : GoMap Unit × GoMap (GoMap Unit))
    (element : elementDefinition)
    (h : 0 < element.Min ∧ startsWith element.Path lead = true ∧
      trimLeading element.Path lead ≠ "") :
    requiredStep lead acc element =
      if containsText (trimLeading element.Path lead) "[x]" = true then
        (acc.1, acc.2.insert (trimLeading element.Path lead) ∅)
      else (acc.1.insert (trimLeading element.Path lead) (), acc.2) := by
  obtain ⟨h1, h2, h3⟩ := h
  have h1' : ¬ element.Min ≤ 0 := by omega
  simp [requiredStep, h1', h2, h3]

/-- The keys of `required` after one step of the first loop. -/
theorem requiredStep_keys_fst (lead : String) (acc : GoMap Unit × GoMap (GoMap Unit))
    (element : elementDefinition) (k : String) :
    k ∈ (requiredStep lead acc element).1.keys ↔
      k ∈ acc.1.keys ∨
        ((0 < element.Min ∧ startsWith element.Path lead = true ∧
            trimLeading element.Path lead ≠ "") ∧
          containsText (trimLeading element.Path lead) "[x]" = false ∧
          trimLeading element.Path lead = k) := by
  by_cases hc : 0 < element.Min ∧ startsWith element.Path lead = true ∧
      trimLeading element.Path lead ≠ ""
  · rw [requiredStep_of_contributes lead acc element hc]
    generalize trimLeading element.Path lead = r at hc ⊢
    cases hx : containsText r "[x]" with
    | true =>
      rw [if_pos rfl]
      constructor
      · intro h
        exact Or.inl h
      · rintro (h | ⟨_, h, _⟩)
        · exact h
        · exact Bool.noConfusion h
    | false =>
      rw [if_neg (by simp)]
      dsimp only
      have hins : k ∈ (AList.insert r () acc.1).keys ↔ k = r ∨ k ∈ acc.1.keys := by
        rw [← AList.mem_keys, AList.mem_insert, AList.mem_keys]
      rw [hins]
      constructor
      · rintro (h | h)
        · exact Or.inr ⟨hc, rfl, h.symm⟩
        · exact Or.inl h
      · rintro (h | ⟨_, _, h⟩)
        · exact Or.inr h
        · exact Or.inl h.symm
  · rw [requiredStep_of_not lead acc element hc]
    constructor
    · intro h
      exact Or.inl h
    · rintro (h | ⟨h, _⟩)
      · exact h
      · exact absurd h hc

/-- The keys of `choices` after one step of the first loop. -/
theorem requiredStep_keys_snd (lead : String) (acc : GoMap Unit × GoMap (GoMap Unit))
    (element : elementDefinition) (k : String) :
    k ∈ (requiredStep lead acc element).2.keys ↔
      k ∈ acc.2.keys ∨
        ((0 < element.Min ∧ startsWith element.Path lead = true ∧
            trimLeading element.Path lead ≠ "") ∧
          containsText (trimLeading element.Path lead) "[x]" = true ∧
          trimLeading element.Path lead = k) := by
  by_cases hc : 0 < element.Min ∧ startsWith element.Path lead = true ∧
      trimLeading element.Path lead ≠ ""
  · rw [requiredStep_of_contributes lead acc element hc]
    generalize trimLeading element.Path lead = r at hc ⊢
    cases hx : containsText r "[x]" with
    | false =>
      rw [if_neg (by simp)]
      constructor
      · intro h
        exact Or.inl h
      · rintro (h | ⟨_, h, _⟩)
        · exact h
        · exact Bool.noConfusion h
    | true =>
      rw [if_pos rfl]
      dsimp only
      have hins : k ∈ (AList.insert r (∅ : GoMap Unit) acc.2).keys ↔ k = r ∨ k ∈ acc.2.keys := by
        rw [← AList.mem_keys, AList.mem_insert, AList.mem_keys]
      rw [hins]
      constructor
      · rintro (h | h)
        · exact Or.inr ⟨hc, rfl, h.symm⟩
        · exact Or.inl h
      · rintro (h | ⟨_, _, h⟩)
        · exact Or.inr h
        · exact Or.inl h.symm
  · rw [requiredStep_of_not lead acc element hc]
    constructor
    · intro h
      exact Or.inl h
    · rintro (h | ⟨h, _⟩)
      · exact h
      · exact absurd h hc

/-- The keys of the maps `required` and `choices` after the first loop. -/
theorem foldl_requiredStep_keys (lead : String) (elements : List elementDefinition) :
    ∀ (acc : GoMap Unit × GoMap (GoMap Unit)) (k : String),
      (k ∈ (elements.foldl (requiredStep lead) acc).1.keys ↔
        k ∈ acc.1.keys ∨ ∃ element ∈ elements,
          (0 < element.Min ∧ startsWith element.Path lead = true ∧
            trimLeading element.Path lead ≠ "") ∧
          containsText (trimLeading element.Path lead) "[x]" = false ∧
          trimLeading element.Path lead = k) ∧
      (k ∈ (elements.foldl (requiredStep lead) acc).2.keys ↔
        k ∈ acc.2.keys ∨ ∃ element ∈ elements,
          (0 < element.Min ∧ startsWith element.Path lead = true ∧
            trimLeading element.Path lead ≠ "") ∧
          containsText (trimLeading element.Path lead) "[x]" = true ∧
          trimLeading element.Path lead = k) := by
  induction elements with
  | nil =>
    intro acc k
    constructor
    · constructor
      · intro h
        exact Or.inl h
      · rintro (h | ⟨_, h, _⟩)
        · exact h
        · simp at h
    · constructor
      · intro h
        exact Or.inl h
      · rintro (h | ⟨_, h, _⟩)
        · exact h
        · simp at h
  | cons element rest ih =>
    intro acc k
    rw [List.foldl_cons]
    obtain ⟨ih1, ih2⟩ := ih (requiredStep lead acc element) k
    rw [ih1, ih2, requiredStep_keys_fst, requiredStep_keys_snd]
    constructor
    · constructor
      · rintro ((h | h) | ⟨e, he, h⟩)
        · exact Or.inl h
        · exact Or.inr ⟨element, List.mem_cons_self _ _, h⟩
        · exact Or.inr ⟨e, List.mem_cons_of_mem _ he, h⟩
      · rintro (h | ⟨e, he, h⟩)
        · exact Or.inl (Or.inl h)
        · rcases List.mem_cons.mp he with rfl | he
          · exact Or.inl (Or.inr h)
          · exact Or.inr ⟨e, he, h⟩
    · constructor
      · rintro ((h | h) | ⟨e, he, h⟩)
        · exact Or.inl h
        · exact Or.inr ⟨element, List.mem_cons_self _ _, h⟩
        · exact Or.inr ⟨e, List.mem_cons_of_mem _ he, h⟩
      · rintro (h | ⟨e, he, h⟩)
        · exact Or.inl (Or.inl h)
        · rcases List.mem_cons.mp he with rfl | he
          · exact Or.inl (Or.inr h)
          · exact Or.inr ⟨e, he, h⟩

theorem alternativeStep_keys (remaining : String) (choices : GoMap (GoMap Unit))
    (base : String) : (alternativeStep remaining choices base).keys = choices.keys := by
  unfold alternativeStep
  dsimp only
  split
  · split
    · exact AList.keys_replace _ _ _
    · rfl
  · rfl

theorem foldl_alternativeStep_keys (remaining : String) (bases : List String) :
    ∀ choices : GoMap (GoMap Unit),
      (bases.foldl (alternativeStep remaining) choices).keys = choices.keys := by
  induction bases with
  | nil => intro choices; rfl
  | cons base rest ih =>
    intro choices
    rw [List.foldl_cons, ih, alternativeStep_keys]

theorem choicesStep_keys (lead : String) (choices : GoMap (GoMap Unit))
    (element : elementDefinition) : (choicesStep lead choices element).keys = choices.keys := by
  unfold choicesStep
  split
  · rfl
  · dsimp only
    split
    · rfl
    · exact foldl_alternativeStep_keys _ _ _

/-- The second loop of `loadProfile` leaves the bases of the choice groups as
they are. -/
theorem foldl_choicesStep_keys (lead : String) (elements : List elementDefinition) :
    ∀ choices : GoMap (GoMap Unit),
      (elements.foldl (choicesStep lead) choices).keys = choices.keys := by
  induction elements with
  | nil => intro choices; rfl
  | cons element rest ih =>
    intro choices
    rw [List.foldl_cons, ih, choicesStep_keys]

/-- `loadProfile` on a document of kind "StructureDefinition" with a target
type. -/
theorem loadProfile_ok (profile : structureDefinition)
    (hkind : profile.ResourceType = "StructureDefinition") (htype : profile.Type_ ≠ "") :
    loadProfile (.ok profile) =
      .ok { ResourceType := profile.Type_
            RequiredPaths :=
              (profile.Snapshot.foldl (requiredStep (profile.Type_ ++ ".")) (∅, ∅)).1.keys
            Choices :=
              ((profile.Snapshot.foldl (choicesStep (profile.Type_ ++ "."))
                (profile.Snapshot.foldl (requiredStep (profile.Type_ ++ ".")) (∅, ∅)).2).entries.map
                fun e => { BasePath := e.1, Choices := e.2.keys }) } := by
  simp [loadProfile, hkind, htype]

theorem containsText_empty : containsText "" "[x]" = false := by decide

/-- C29: for every profile document with target type `T`, `loadProfile`
returns a rule set for `T` whose RequiredPaths are, without repetition, exactly
the relative paths `path` of the elements with path "T.{path}", `path`
non-empty and without the choice marker "[x]", and a positive minimum
occurrence; an element whose path does not start with "T." contributes
nothing. -/
theorem required_paths_derived (profile : structureDefinition)
    (hkind : profile.ResourceType = "StructureDefinition") (htype : profile.Type_ ≠ "") :
    ∃ rules, loadProfile (.ok profile) = .ok rules ∧
      rules.ResourceType = profile.Type_ ∧ rules.RequiredPaths.Nodup ∧
      ∀ path, path ∈ rules.RequiredPaths ↔
        ∃ element ∈ profile.Snapshot,
          element.Path = profile.Type_ ++ "." ++ path ∧ path ≠ "" ∧
          containsText path "[x]" = false ∧ 0 < element.Min := by
  refine ⟨_, loadProfile_ok profile hkind htype, rfl, AList.keys_nodup _, ?_⟩
  intro path
  dsimp only
  rw [(foldl_requiredStep_keys (profile.Type_ ++ ".") profile.Snapshot (∅, ∅) path).1]
  simp only [AList.keys_empty, List.not_mem_nil, false_or]
  constructor
  · rintro ⟨element, hmem, hc, hx, hk⟩
    obtain ⟨hmin, hpath, hne⟩ := (contributes_iff profile.Type_ element path).mp ⟨hc, hk⟩
    subst hk
    exact ⟨element, hmem, hpath, hne, hx, hmin⟩
  · rintro ⟨element, hmem, hpath, hne, hx, hmin⟩
    obtain ⟨hc, hk⟩ := (contributes_iff profile.Type_ element path).mpr ⟨hmin, hpath, hne⟩
    exact ⟨element, hmem, hc, by rw [hk]; exact hx, hk⟩

/-- C29, at a concrete input: the profile document for observations yields the
required paths "status" (listed twice in the document, once in the rules) and
"code.coding". -/
theorem required_paths_derived_witness :
    observationProfile.ResourceType = "StructureDefinition" ∧ observationProfile.Type_ ≠ "" ∧
    loadProfile (.ok observationProfile)
      = .ok { ResourceType := "Observation", RequiredPaths := ["status", "code.coding"],
              Choices := [⟨"effective[x]", ["effectiveDateTime"]⟩] } ∧
    ∃ rules, loadProfile (.ok observationProfile) = .ok rules ∧
      rules.ResourceType = observationProfile.Type_ ∧ rules.RequiredPaths.Nodup ∧
      ∀ path, path ∈ rules.RequiredPaths ↔
        ∃ element ∈ observationProfile.Snapshot,
          element.Path = observationProfile.Type_ ++ "." ++ path ∧ path ≠ "" ∧
          containsText path "[x]" = false ∧ 0 < element.Min :=
  ⟨by decide, by decide, by decide,
    required_paths_derived observationProfile (by decide) (by decide)⟩

/-- C30, as stated, fails: the element "Observation.value[x]" of the profile
document has the prefix and the choice marker, but its minimum occurrence is 0;
the derived rule set has no choice group with base "value[x]". -/
theorem optional_choice_not_derived :
    (⟨"Observation.value[x]", 0⟩ : elementDefinition) ∈ observationProfile.Snapshot ∧
    startsWith "Observation.value[x]" (observationProfile.Type_ ++ ".") = true ∧
    trimLeading "Observation.value[x]" (observationProfile.Type_ ++ ".") = "value[x]" ∧
    containsText "value[x]" "[x]" = true ∧
    loadProfile (.ok observationProfile)
      = .ok { ResourceType := "Observation", RequiredPaths := ["status", "code.coding"],
              Choices := [⟨"effective[x]", ["effectiveDateTime"]⟩] } ∧
    ¬ ∃ choice ∈ [(⟨"effective[x]", ["effectiveDateTime"]⟩ : ChoiceRule)],
      choice.BasePath = "value[x]" := by
  decide

/-- C30 (amended): for every profile document with target type `T`, the bases
of the choice groups of the derived rule set are, without repetition, exactly
the relative paths `base` of the elements with path "T.{base}", `base`
containing the choice marker "[x]", and a positive minimum occurrence: every
such element becomes the base of a choice group, and an element with minimum
occurrence 0 does not. -/
theorem choice_groups_derived (profile : structureDefinition)
    (hkind : profile.ResourceType = "StructureDefinition") (htype : profile.Type_ ≠ "") :
    ∃ rules, loadProfile (.ok profile) = .ok rules ∧
      (rules.Choices.map fun choice => choice.BasePath).Nodup ∧
      ∀ base, (∃ choice ∈ rules.Choices, choice.BasePath = base) ↔
        ∃ element ∈ profile.Snapshot,
          element.Path = profile.Type_ ++ "." ++ base ∧
          containsText base "[x]" = true ∧ 0 < element.Min := by
  refine ⟨_, loadProfile_ok profile hkind htype, ?_, ?_⟩
  · dsimp only
    rw [List.map_map]
    exact AList.keys_nodup _
  · intro base
    dsimp only
    have hkeys : (∃ choice ∈ ((profile.Snapshot.foldl (choicesStep (profile.Type_ ++ "."))
          (profile.Snapshot.foldl (requiredStep (profile.Type_ ++ ".")) (∅, ∅)).2).entries.map
          fun e => ({ BasePath := e.1, Choices := e.2.keys } : ChoiceRule)),
          choice.BasePath = base) ↔
        base ∈ (profile.Snapshot.foldl (choicesStep (profile.Type_ ++ "."))
          (profile.Snapshot.foldl (requiredStep (profile.Type_ ++ ".")) (∅, ∅)).2).keys := by
      simp only [List.mem_map, AList.keys, List.keys]
      constructor
      · rintro ⟨choice, ⟨e, he, rfl⟩, rfl⟩
        exact ⟨e, he, rfl⟩
      · rintro ⟨e, he, rfl⟩
        exact ⟨_, ⟨e, he, rfl⟩, rfl⟩
    rw [hkeys, foldl_choicesStep_keys,
      (foldl_requiredStep_keys (profile.Type_ ++ ".") profile.Snapshot (∅, ∅) base).2]
    simp only [AList.keys_empty, List.not_mem_nil, false_or]
    constructor
    · rintro ⟨element, hmem, hc, hx, hk⟩
      obtain ⟨hmin, hpath, _⟩ := (contributes_iff profile.Type_ element base).mp ⟨hc, hk⟩
      subst hk
      exact ⟨element, hmem, hpath, hx, hmin⟩
    · rintro ⟨element, hmem, hpath, hx, hmin⟩
      have hne : base ≠ "" := by
        rintro rfl
        rw [containsText_empty] at hx
        exact Bool.noConfusion hx
      obtain ⟨hc, hk⟩ := (contributes_iff profile.Type_ element base).mpr ⟨hmin, hpath, hne⟩
      exact ⟨element, hmem, hc, by rw [hk]; exact hx, hk⟩

/-- C30 (amended), at a concrete input: the required choice element
"Observation.effective[x]" of the profile document is the base of the one
choice group derived. -/
theorem choice_groups_derived_witness :
    observationProfile.ResourceType = "StructureDefinition" ∧ observationProfile.Type_ ≠ "" ∧
    ∃ rules, loadProfile (.ok observationProfile) = .ok rules ∧
      (rules.Choices.map fun choice => choice.BasePath).Nodup ∧
      ∀ base, (∃ choice ∈ rules.Choices, choice.BasePath = base) ↔
        ∃ element ∈ observationProfile.Snapshot,
          element.Path = observationProfile.Type_ ++ "." ++ base ∧
          containsText base "[x]" = true ∧ 0 < element.Min :=
  ⟨by decide, by decide, choice_groups_derived observationProfile (by decide) (by decide)⟩

/-! ### The alternatives of a choice group -/

theorem dlookup_kreplace {V : Type} (a k : String) (b : V) :
    ∀ l : List (Sigma fun _ : String => V),
      List.dlookup k (List.kreplace a b l) =
        if k = a ∧ (List.dlookup a l).isSome = true then some b else List.dlookup k l := by
  intro l
  induction l with
  | nil => simp [List.kreplace]
  | cons hd tl ih =>
    obtain ⟨a1, b1⟩ := hd
    by_cases h : a = a1
    · subst h
      have hrep : List.kreplace a b (⟨a, b1⟩ :: tl) = ⟨a, b⟩ :: tl :=
        List.lookmap_cons_some _ _ (by simp)
      rw [hrep]
      by_cases hk : k = a
      · subst hk
        simp [List.dlookup_cons_eq]
      · have e1 : List.dlookup k (⟨a, b⟩ :: tl) = List.dlookup k tl :=
          List.dlookup_cons_ne _ _ hk
        have e2 : List.dlookup k (⟨a, b1⟩ :: tl) = List.dlookup k tl :=
          List.dlookup_cons_ne _ _ hk
        rw [e1, e2, if_neg (fun e => hk e.1)]
    · have hrep : List.kreplace a b (⟨a1, b1⟩ :: tl) = ⟨a1, b1⟩ :: List.kreplace a b tl :=
        List.lookmap_cons_none _ _ (by simp [h])
      rw [hrep]
      by_cases hk : k = a1
      · subst hk
        have hka : ¬ k = a := fun e => h e.symm
        rw [List.dlookup_cons_eq, List.dlookup_cons_eq, if_neg (fun e => hka e.1)]
      · have e1 : List.dlookup k (⟨a1, b1⟩ :: List.kreplace a b tl) =
            List.dlookup k (List.kreplace a b tl) := List.dlookup_cons_ne _ _ hk
        have e2 : List.dlookup k (⟨a1, b1⟩ :: tl) = List.dlookup k tl :=
          List.dlookup_cons_ne _ _ hk
        have e3 : List.dlookup a (⟨a1, b1⟩ :: tl) = List.dlookup a tl :=
          List.dlookup_cons_ne _ _ h
        rw [e1, e2, e3, ih]

/-- The Go statement `m[a] = b` for a key the map holds: the other keys keep
their values. -/
theorem lookup_replace {V : Type} (a k : String) (b : V) (s : GoMap V) :
    (s.replace a b).lookup k =
      if k = a ∧ a ∈ s.keys then some b else s.lookup k := by
  have h := dlookup_kreplace a k b s.entries
  have hmem : ((List.dlookup a s.entries).isSome = true) ↔ a ∈ s.keys := by
    rw [← AList.mem_keys]
    exact AList.lookup_isSome
  simp only [hmem] at h
  exact h

theorem alternativeStep_spec (remaining : String) (choices : GoMap (GoMap Unit))
    (base k r : String) (hbase : base ∈ choices.keys) :
    recorded (alternativeStep remaining choices base) k r ↔
      recorded choices k r ∨ (k = base ∧ r = remaining ∧ alternativeOf base remaining) := by
  obtain ⟨m0, hm0⟩ : ∃ m0, choices.lookup base = some m0 := by
    have h : (choices.lookup base).isSome = true := by
      rw [AList.lookup_isSome, AList.mem_keys]
      exact hbase
    exact Option.isSome_iff_exists.mp h
  unfold alternativeStep alternativeOf recorded
  dsimp only
  by_cases h1 : startsWith remaining (trimTrailing base "[x]") = true ∧ remaining ≠ base
  · by_cases h2 : sameDepth (trimTrailing base "[x]") remaining = true
    · rw [if_pos h1, if_pos h2, lookup_replace, hm0]
      dsimp only [Option.getD]
      by_cases hk : k = base
      · subst hk
        rw [if_pos ⟨rfl, hbase⟩, hm0]
        have hins : r ∈ (AList.insert remaining () m0).keys ↔ r = remaining ∨ r ∈ m0.keys := by
          rw [← AList.mem_keys, AList.mem_insert, AList.mem_keys]
        constructor
        · rintro ⟨m, hm, hr⟩
          cases hm
          rcases hins.mp hr with h | h
          · exact Or.inr ⟨rfl, h, h1.1, h1.2, h2⟩
          · exact Or.inl ⟨m0, rfl, h⟩
        · rintro (⟨m, hm, hr⟩ | ⟨_, h, _⟩)
          · cases hm
            exact ⟨_, rfl, hins.mpr (Or.inr hr)⟩
          · exact ⟨_, rfl, hins.mpr (Or.inl h)⟩
      · rw [if_neg (fun e => hk e.1)]
        constructor
        · intro h
          exact Or.inl h
        · rintro (h | ⟨h, _⟩)
          · exact h
          · exact absurd h hk
    · rw [if_pos h1, if_neg h2]
      constructor
      · intro h
        exact Or.inl h
      · rintro (h | ⟨_, _, _, _, h⟩)
        · exact h
        · exact absurd h h2
  · rw [if_neg h1]
    constructor
    · intro h
      exact Or.inl h
    · rintro (h | ⟨_, _, h, h', _⟩)
      · exact h
      · exact absurd ⟨h, h'⟩ h1

theorem foldl_alternativeStep_spec (remaining : String) (bases : List String) :
    ∀ choices : GoMap (GoMap Unit), (∀ base ∈ bases, base ∈ choices.keys) → ∀ k r : String,
      (recorded (bases.foldl (alternativeStep remaining) choices) k r ↔
        recorded choices k r ∨ (k ∈ bases ∧ r = remaining ∧ alternativeOf k remaining)) := by
  induction bases with
  | nil =>
    intro choices _ k r
    constructor
    · intro h
      exact Or.inl h
    · rintro (h | ⟨h, _⟩)
      · exact h
      · simp at h
  | cons base rest ih =>
    intro choices hall k r
    rw [List.foldl_cons, ih]
    · rw [alternativeStep_spec remaining choices base k r (hall base (List.mem_cons_self _ _))]
      constructor
      · rintro ((h | ⟨rfl, h⟩) | ⟨hk, h⟩)
        · exact Or.inl h
        · exact Or.inr ⟨List.mem_cons_self _ _, h⟩
        · exact Or.inr ⟨List.mem_cons_of_mem _ hk, h⟩
      · rintro (h | ⟨hk, h⟩)
        · exact Or.inl (Or.inl h)
        · rcases List.mem_cons.mp hk with rfl | hk
          · exact Or.inl (Or.inr ⟨rfl, h⟩)
          · exact Or.inr ⟨hk, h⟩
    · intro b hb
      rw [alternativeStep_keys]
      exact hall b (List.mem_cons_of_mem _ hb)

/-- What one element adds to the map `choices` in the second loop of
`loadProfile`. -/
theorem choicesStep_spec (lead : String) (choices : GoMap (GoMap Unit))
    (element : elementDefinition) (k r : String) :
    recorded (choicesStep lead choices element) k r ↔
      recorded choices k r ∨
        (k ∈ choices.keys ∧ startsWith element.Path lead = true ∧
          trimLeading element.Path lead ≠ "" ∧ r = trimLeading element.Path lead ∧
          alternativeOf k r) := by
  unfold choicesStep
  by_cases h1 : startsWith element.Path lead = true
  · by_cases h2 : trimLeading element.Path lead = ""
    · simp only [h1, h2, not_true_eq_false, if_false, if_true]
      constructor
      · intro h
        exact Or.inl h
      · rintro (h | ⟨_, _, h, _⟩)
        · exact h
        · exact absurd rfl h
    · simp only [h1, h2, not_true_eq_false, if_false]
      rw [foldl_alternativeStep_spec _ _ _ (fun _ hb => hb)]
      constructor
      · rintro (h | ⟨hk, rfl, h⟩)
        · exact Or.inl h
        · exact Or.inr ⟨hk, trivial, h2, rfl, h⟩
      · rintro (h | ⟨hk, _, _, rfl, h⟩)
        · exact Or.inl h
        · exact Or.inr ⟨hk, rfl, h⟩
  · simp only [h1, not_false_eq_true, if_true]
    constructor
    · intro h
      exact Or.inl h
    · rintro (h | ⟨_, h, _⟩)
      · exact h
      · exact Bool.noConfusion h

theorem foldl_choicesStep_spec (lead : String) (elements : List elementDefinition) :
    ∀ (choices : GoMap (GoMap Unit)) (k r : String),
      (recorded (elements.foldl (choicesStep lead) choices) k r ↔
        recorded choices k r ∨
          (k ∈ choices.keys ∧ ∃ element ∈ elements, startsWith element.Path lead = true ∧
            trimLeading element.Path lead ≠ "" ∧ r = trimLeading element.Path lead ∧
            alternativeOf k r)) := by
  induction elements with
  | nil =>
    intro choices k r
    constructor
    · intro h
      exact Or.inl h
    · rintro (h | ⟨_, _, h, _⟩)
      · exact h
      · simp at h
  | cons element rest ih =>
    intro choices k r
    rw [List.foldl_cons, ih, choicesStep_spec, choicesStep_keys]
    constructor
    · rintro ((h | ⟨hk, h⟩) | ⟨hk, e, he, h⟩)
      · exact Or.inl h
      · exact Or.inr ⟨hk, element, List.mem_cons_self _ _, h⟩
      · exact Or.inr ⟨hk, e, List.mem_cons_of_mem _ he, h⟩
    · rintro (h | ⟨hk, e, he, h⟩)
      · exact Or.inl (Or.inl h)
      · rcases List.mem_cons.mp he with rfl | he
        · exact Or.inl (Or.inr ⟨hk, h⟩)
        · exact Or.inr ⟨hk, e, he, h⟩

/-- The first loop of `loadProfile` leaves every choice group without
alternatives. -/
theorem foldl_requiredStep_recorded (lead : String) (elements : List elementDefinition) :
    ∀ acc : GoMap Unit × GoMap (GoMap Unit), (∀ k r, ¬ recorded acc.2 k r) →
      ∀ k r, ¬ recorded (elements.foldl (requiredStep lead) acc).2 k r := by
  induction elements with
  | nil => intro acc h; exact h
  | cons element rest ih =>
    intro acc h
    rw [List.foldl_cons]
    apply ih
    intro k r
    by_cases hc : 0 < element.Min ∧ startsWith element.Path lead = true ∧
        trimLeading element.Path lead ≠ ""
    · rw [requiredStep_of_contributes lead acc element hc]
      split
      · rintro ⟨m, hm, hr⟩
        dsimp only at hm
        by_cases hk : k = trimLeading element.Path lead
        · subst hk
          rw [AList.lookup_insert] at hm
          cases hm
          simp at hr
        · rw [AList.lookup_insert_ne hk] at hm
          exact h k r ⟨m, hm, hr⟩
      · exact h k r
    · rw [requiredStep_of_not lead acc element hc]
      exact h k r

/-- C31, as stated, fails: in the profile document `markerProfile` the element
"Observation." is a prefixed element whose relative path "" differs from the
base "[x]", starts with the stripped base "" and has as many "." as it, but the
choice group derived for "[x]" has the alternative "value" alone. -/
theorem empty_alternative_not_derived :
    loadProfile (.ok markerProfile)
      = .ok { ResourceType := "Observation", RequiredPaths := [],
              Choices := [⟨"[x]", ["value"]⟩] } ∧
    (⟨"Observation.", 0⟩ : elementDefinition) ∈ markerProfile.Snapshot ∧
    startsWith "Observation." (markerProfile.Type_ ++ ".") = true ∧
    trimLeading "Observation." (markerProfile.Type_ ++ ".") = "" ∧
    "" ≠ "[x]" ∧ startsWith "" (trimTrailing "[x]" "[x]") = true ∧
    sameDepth (trimTrailing "[x]" "[x]") "" = true ∧
    "" ∉ (⟨"[x]", ["value"]⟩ : ChoiceRule).Choices := by
  decide

/-- C31 (amended): for every profile document with target type `T` and every
choice group with base `b` of the derived rule set, the alternatives of the
group are, without repetition, exactly the non-empty relative paths `r` of the
elements with path "T.{r}" such that `r` differs from `b`, starts with `b`
stripped of its trailing "[x]" and has as many "." as that stripped base,
whatever the minimum occurrence of the element. -/
theorem choice_alternatives_derived (profile : structureDefinition)
    (hkind : profile.ResourceType = "StructureDefinition") (htype : profile.Type_ ≠ "") :
    ∃ rules, loadProfile (.ok profile) = .ok rules ∧
      ∀ choice ∈ rules.Choices, choice.Choices.Nodup ∧
        ∀ r, r ∈ choice.Choices ↔
          ∃ element ∈ profile.Snapshot,
            element.Path = profile.Type_ ++ "." ++ r ∧ r ≠ "" ∧ r ≠ choice.BasePath ∧
            startsWith r (trimTrailing choice.BasePath "[x]") = true ∧
            sameDepth (trimTrailing choice.BasePath "[x]") r = true := by
  refine ⟨_, loadProfile_ok profile hkind htype, ?_⟩
  intro choice hchoice
  dsimp only at hchoice
  obtain ⟨e, he, rfl⟩ := List.mem_map.mp hchoice
  refine ⟨AList.keys_nodup _, ?_⟩
  intro r
  dsimp only
  have hlook : (profile.Snapshot.foldl (choicesStep (profile.Type_ ++ "."))
      (profile.Snapshot.foldl (requiredStep (profile.Type_ ++ ".")) (∅, ∅)).2).lookup e.1
        = some e.2 := by
    have : e.2 ∈ (profile.Snapshot.foldl (choicesStep (profile.Type_ ++ "."))
        (profile.Snapshot.foldl (requiredStep (profile.Type_ ++ ".")) (∅, ∅)).2).lookup e.1 :=
      AList.mem_lookup_iff.mpr he
    exact this
  have hkey : e.1 ∈ (profile.Snapshot.foldl (requiredStep (profile.Type_ ++ "."))
      (∅, ∅)).2.keys := by
    rw [← foldl_choicesStep_keys (profile.Type_ ++ ".") profile.Snapshot]
    exact List.mem_keys_of_mem he
  have hrec : r ∈ e.2.keys ↔
      recorded (profile.Snapshot.foldl (choicesStep (profile.Type_ ++ "."))
        (profile.Snapshot.foldl (requiredStep (profile.Type_ ++ ".")) (∅, ∅)).2) e.1 r := by
    constructor
    · intro h
      exact ⟨e.2, hlook, h⟩
    · rintro ⟨m, hm, h⟩
      rw [hlook] at hm
      cases hm
      exact h
  have hnone : ∀ k r, ¬ recorded
      (profile.Snapshot.foldl (requiredStep (profile.Type_ ++ ".")) (∅, ∅)).2 k r := by
    apply foldl_requiredStep_recorded
    rintro k r ⟨m, hm, _⟩
    simp [AList.lookup_empty] at hm
  rw [hrec, foldl_choicesStep_spec]
  constructor
  · rintro (h | ⟨_, element, hmem, hstart, hne, hr, hsw, hd, hs⟩)
    · exact absurd h (hnone _ _)
    · subst hr
      exact ⟨element, hmem, (append_trimLeading _ _ hstart).symm, hne, hd, hsw, hs⟩
  · rintro ⟨element, hmem, hpath, hne, hd, hstart, hs⟩
    refine Or.inr ⟨hkey, element, hmem, ?_, ?_, ?_, hstart, hd, hs⟩
    · rw [hpath]
      exact startsWith_append _ _
    · rw [hpath, trimLeading_append]
      exact hne
    · rw [hpath, trimLeading_append]

/-- C31 (amended), at a concrete input: in the profile document for
observations the choice group "effective[x]" has the alternative
"effectiveDateTime", an element with minimum occurrence 0. -/
theorem choice_alternatives_derived_witness :
    observationProfile.ResourceType = "StructureDefinition" ∧ observationProfile.Type_ ≠ "" ∧
    loadProfile (.ok observationProfile)
      = .ok { ResourceType := "Observation", RequiredPaths := ["status", "code.coding"],
              Choices := [⟨"effective[x]", ["effectiveDateTime"]⟩] } ∧
    (⟨"Observation.effectiveDateTime", 0⟩ : elementDefinition) ∈ observationProfile.Snapshot ∧
    ∃ rules, loadProfile (.ok observationProfile) = .ok rules ∧
      ∀ choice ∈ rules.Choices, choice.Choices.Nodup ∧
        ∀ r, r ∈ choice.Choices ↔
          ∃ element ∈ observationProfile.Snapshot,
            element.Path = observationProfile.Type_ ++ "." ++ r ∧ r ≠ "" ∧
            r ≠ choice.BasePath ∧
            startsWith r (trimTrailing choice.BasePath "[x]") = true ∧
            sameDepth (trimTrailing choice.BasePath "[x]") r = true :=
  ⟨by decide, by decide, by decide, by decide,
    choice_alternatives_derived observationProfile (by decide) (by decide)⟩

/-! ### The path of a cache file -/

theorem replaceSeparators_clean : ∀ cs : List Char,
    '/' ∉ replaceSeparators cs ∧ '\\' ∉ replaceSeparators cs := by
  intro cs
  induction cs using replaceSeparators.induct with
  | case1 => simp [replaceSeparators]
  | case2 rest ih =>
    simp only [replaceSeparators, List.mem_cons, not_or]
    exact ⟨⟨by decide, ih.1⟩, ⟨by decide, ih.2⟩⟩
  | case3 c rest hne hsep ih =>
    rw [replaceSeparators]
    · simp only [hsep, if_true, List.mem_cons, not_or]
      exact ⟨⟨by decide, ih.1⟩, ⟨by decide, ih.2⟩⟩
    · exact hne
  | case4 c rest hne hsep ih =>
    rw [replaceSeparators]
    · simp only [hsep, if_false, List.mem_cons, not_or]
      refine ⟨⟨?_, ih.1⟩, ⟨?_, ih.2⟩⟩
      · intro h
        exact hsep (Or.inl h.symm)
      · intro h
        exact hsep (Or.inr h.symm)
    · exact hne

theorem splitChars_append (sep : Char) (b : List Char) : ∀ a : List Char,
    Search.splitChars sep (a ++ sep :: b) = Search.splitChars sep a ++ Search.splitChars sep b := by
  intro a
  induction a with
  | nil => simp [Search.splitChars]
  | cons c a ih =>
    have hne := Search.splitChars_ne_nil sep a
    have e : (c :: a) ++ sep :: b = c :: (a ++ sep :: b) := rfl
    rw [e]
    by_cases hc : c = sep
    · simp only [Search.splitChars, hc, if_true, ih]
      rfl
    · simp only [Search.splitChars, hc, if_false, ih]
      cases hs : Search.splitChars sep a with
      | nil => exact absurd hs hne
      | cons x xs => rfl

theorem splitChars_of_not_mem (sep : Char) : ∀ b : List Char, sep ∉ b →
    Search.splitChars sep b = [b] := by
  intro b
  induction b with
  | nil => intro _; rfl
  | cons c b ih =>
    intro h
    have hc : ¬ c = sep := fun e => h (e ▸ List.mem_cons_self _ _)
    have hb : sep ∉ b := fun e => h (List.mem_cons_of_mem _ e)
    simp [Search.splitChars, hc, ih hb]

/-- `strings.Split(dir + "/" + file, "/")` for a file name without "/". -/
theorem split_dir_file (dir file : String) (hfile : '/' ∉ file.toList) :
    Search.split (dir ++ "/" ++ file) '/' = Search.split dir '/' ++ [file] := by
  unfold Search.split
  have hdata : (dir ++ "/" ++ file).toList = dir.toList ++ '/' :: file.toList := by
    show (dir ++ "/" ++ file).data = dir.data ++ '/' :: file.data
    rw [String.data_append, String.data_append]
    simp
  rw [hdata, splitChars_append, splitChars_of_not_mem _ _ hfile]
  simp

theorem intercalate_go_append (sep file : String) : ∀ (xs : List String) (acc : String),
    String.intercalate.go acc sep (xs ++ [file]) =
      String.intercalate.go acc sep xs ++ sep ++ file := by
  intro xs
  induction xs with
  | nil => intro acc; rfl
  | cons x xs ih =>
    intro acc
    show String.intercalate.go (acc ++ sep ++ x) sep (xs ++ [file]) = _
    rw [ih]
    rfl

theorem intercalate_append_singleton (sep file : String) (xs : List String) :
    sep.intercalate (xs ++ [file]) =
      (if xs = [] then "" else sep.intercalate xs ++ sep) ++ file := by
  cases xs with
  | nil =>
    show file = "" ++ file
    exact (String.empty_append file).symm
  | cons x xs =>
    show String.intercalate.go x sep (xs ++ [file]) = _
    rw [intercalate_go_append, if_neg (by simp)]
    rfl

theorem cacheFileName_data (url : String) :
    (cacheFileName url).toList = replaceSeparators url.toList ++ ".json".toList := by
  show (String.mk (replaceSeparators url.toList) ++ ".json").data = _
  rw [String.data_append]
  rfl

theorem cacheFileName_clean (url : String) :
    '/' ∉ (cacheFileName url).toList ∧ '\\' ∉ (cacheFileName url).toList := by
  rw [cacheFileName_data]
  have h := replaceSeparators_clean url.toList
  constructor
  · intro hm
    rcases List.mem_append.mp hm with h1 | h1
    · exact h.1 h1
    · exact absurd h1 (by decide)
  · intro hm
    rcases List.mem_append.mp hm with h1 | h1
    · exact h.2 h1
    · exact absurd h1 (by decide)

theorem cacheFileName_length (url : String) : 5 ≤ (cacheFileName url).toList.length := by
  rw [cacheFileName_data, List.length_append]
  have : ".json".toList.length = 5 := by decide
  omega

theorem cacheFileName_ne (url : String) (s : String) (hs : s.toList.length < 5) :
    cacheFileName url ≠ s := by
  intro h
  have := cacheFileName_length url
  rw [h] at this
  omega

/-- `filepath.Join(dir, file)` for the name of a cache file. -/
theorem filepathJoin_cacheFileName (dir url : String) :
    filepathJoin dir (cacheFileName url) = directoryPart dir ++ cacheFileName url := by
  have hclean := (cacheFileName_clean url).1
  have h0 : cacheFileName url ≠ "" := cacheFileName_ne url "" (by decide)
  have h1 : cacheFileName url ≠ "." := cacheFileName_ne url "." (by decide)
  have h2 : cacheFileName url ≠ ".." := cacheFileName_ne url ".." (by decide)
  have hstep : ∀ (rooted : Bool) (out : List String),
      cleanStep rooted out (cacheFileName url) = cacheFileName url :: out := by
    intro rooted out
    simp [cleanStep, h0, h1, h2]
  unfold filepathJoin directoryPart
  by_cases hdir : dir = ""
  · subst hdir
    rw [if_neg (by simp), if_pos h0, if_pos rfl]
    unfold filepathClean
    rw [if_neg h0]
    have hsplit : Search.split (cacheFileName url) '/' = [cacheFileName url] := by
      unfold Search.split
      rw [splitChars_of_not_mem _ _ hclean]
      rfl
    have hroot : ((cacheFileName url).toList.head? = some '/') = False := by
      apply eq_false
      intro h
      cases hl : (cacheFileName url).toList with
      | nil => rw [hl] at h; simp at h
      | cons c cs =>
        rw [hl] at h
        simp only [List.head?_cons, Option.some.injEq] at h
        apply hclean
        rw [hl, h]
        exact List.mem_cons_self _ _
    simp only [hsplit, List.foldl_cons, List.foldl_nil, hstep, List.reverse_singleton, hroot,
      decide_False, Bool.false_eq_true, if_false]
    rw [if_neg (by simp)]
    show cacheFileName url = "" ++ cacheFileName url
    exact (String.empty_append _).symm
  · rw [if_pos hdir, if_neg hdir]
    unfold filepathClean
    have hne : dir ++ "/" ++ cacheFileName url ≠ "" := by
      intro h
      have := congrArg String.length h
      simp at this
      exact absurd this.1.2 (by decide)
    rw [if_neg hne]
    have hhead : (dir ++ "/" ++ cacheFileName url).toList.head? = dir.toList.head? := by
      have hd : (dir ++ "/" ++ cacheFileName url).toList
          = dir.toList ++ ("/" ++ cacheFileName url).toList := by
        show (dir ++ "/" ++ cacheFileName url).data = dir.data ++ ("/" ++ cacheFileName url).data
        rw [String.append_assoc, String.data_append]
      rw [hd]
      cases hl : dir.toList with
      | nil =>
        exfalso
        apply hdir
        apply String.ext
        exact hl
      | cons c cs => rfl
    rw [split_dir_file _ _ hclean]
    simp only [hhead, List.foldl_append, List.foldl_cons, List.foldl_nil, hstep,
      List.reverse_cons]
    rw [intercalate_append_singleton]
    cases hr : decide (dir.toList.head? = some '/') with
    | true =>
      simp only [if_true]
      rw [String.append_assoc]
    | false =>
      simp only [Bool.false_eq_true, if_false]
      rw [if_neg (by simp), String.empty_append]

theorem append_left_cancel (a b c : String) (h : a ++ b = a ++ c) : b = c := by
  apply String.ext
  have := congrArg String.data h
  rw [String.data_append, String.data_append] at this
  exact List.append_cancel_left this

/-- C37, as stated, fails: the two different profile URLs "http://a/b" and
"http_a_b" map to the same cache file, "/cache/http_a_b.json". -/
theorem cachePath_collision :
    "http://a/b" ≠ "http_a_b" ∧
    hourStore.cachePath "http://a/b" = "/cache/http_a_b.json" ∧
    hourStore.cachePath "http_a_b" = "/cache/http_a_b.json" := by
  decide

/-- C37 (amended): the name of the cache file of a profile URL (the URL with
every "://", "/" and "\\" replaced by "_", plus ".json") contains no path
separator; the path `cachePath` returns is that name behind a text that
depends on the cache directory alone, so the file lies directly in the cache
directory; and for a fixed cache directory two profile URLs map to the same
path exactly when they are equal after the replacement. -/
theorem cachePath_spec (p : ProfileStore) :
    (∀ url, '/' ∉ (cacheFileName url).toList ∧ '\\' ∉ (cacheFileName url).toList) ∧
    (∀ url, p.cachePath url = directoryPart p.cacheDir ++ cacheFileName url) ∧
    (∀ url1 url2, p.cachePath url1 = p.cachePath url2 ↔
      replaceSeparators url1.toList = replaceSeparators url2.toList) := by
  have hpath : ∀ url, p.cachePath url = directoryPart p.cacheDir ++ cacheFileName url :=
    fun url => filepathJoin_cacheFileName p.cacheDir url
  refine ⟨cacheFileName_clean, hpath, ?_⟩
  intro url1 url2
  rw [hpath, hpath]
  constructor
  · intro h
    have hname := congrArg String.toList (append_left_cancel _ _ _ h)
    rw [cacheFileName_data, cacheFileName_data] at hname
    exact List.append_cancel_right hname
  · intro h
    unfold cacheFileName
    rw [h]

/-! ### `LoadDefaults` -/

theorem Get_Add_same (p : ProfileStore) (url : String) (rules : Option RuleSet) :
    (p.Add url rules).Get url = some rules := by
  simp [ProfileStore.Get, ProfileStore.Add, AList.lookup_insert]

theorem Get_Add_other (p : ProfileStore) (url other : String) (rules : Option RuleSet)
    (h : other ≠ url) : (p.Add url rules).Get other = p.Get other := by
  simp [ProfileStore.Get, ProfileStore.Add, AList.lookup_insert_ne h]

/-- The loop of `LoadDefaults` passes over a type without a profile source. -/
theorem loadSources_skip (clock : String → Int)
    (fetch : String → Except String structureDefinition) (registry : Dstu3.Registry)
    (p : ProfileStore) (fs : FileSystem) (t : String) (rest : List String)
    (h : ∀ info, registry.Info t = some info → info.ProfileSource = "") :
    ProfileStore.loadSources clock fetch registry p fs (t :: rest) =
      ProfileStore.loadSources clock fetch registry p fs rest := by
  cases hinfo : registry.Info t with
  | none => simp only [ProfileStore.loadSources, hinfo]
  | some info => simp only [ProfileStore.loadSources, hinfo, h info hinfo, if_true]

/-- The loop of `LoadDefaults` returns at a source whose load fails. -/
theorem loadSources_fail (clock : String → Int)
    (fetch : String → Except String structureDefinition) (registry : Dstu3.Registry)
    (p : ProfileStore) (fs : FileSystem) (t : String) (rest : List String)
    (info : Dstu3.ResourceInfo) (cause : String) (fs1 : FileSystem)
    (hinfo : registry.Info t = some info) (hsrc : info.ProfileSource ≠ "")
    (hload : p.loadProfileRules fs (clock info.ProfileSource) (fetch info.ProfileSource)
      info.ProfileSource = (.error cause, fs1)) :
    ProfileStore.loadSources clock fetch registry p fs (t :: rest) =
      (some ("load profile " ++ info.ProfileSource ++ ": " ++ cause), p, fs1) := by
  simp only [ProfileStore.loadSources, hinfo, hsrc, if_false, hload]

/-- The loop of `LoadDefaults` registers the rules of a source it has loaded and
goes on. -/
theorem loadSources_next (clock : String → Int)
    (fetch : String → Except String structureDefinition) (registry : Dstu3.Registry)
    (p : ProfileStore) (fs : FileSystem) (t : String) (rest : List String)
    (info : Dstu3.ResourceInfo) (rules : RuleSet) (fs1 : FileSystem)
    (hinfo : registry.Info t = some info) (hsrc : info.ProfileSource ≠ "")
    (hload : p.loadProfileRules fs (clock info.ProfileSource) (fetch info.ProfileSource)
      info.ProfileSource = (.ok rules, fs1)) :
    ProfileStore.loadSources clock fetch registry p fs (t :: rest) =
      ProfileStore.loadSources clock fetch registry
        (p.Add info.ProfileSource (some rules)) fs1 rest := by
  simp only [ProfileStore.loadSources, hinfo, hsrc, if_false, hload]

/-- The three cases of one iteration of the loop of `LoadDefaults`. -/
theorem loadSources_cases (clock : String → Int)
    (fetch : String → Except String structureDefinition) (registry : Dstu3.Registry)
    (p : ProfileStore) (fs : FileSystem) (t : String) :
    (∀ info, registry.Info t = some info → info.ProfileSource = "") ∨
    (∃ info cause fs1, registry.Info t = some info ∧ info.ProfileSource ≠ "" ∧
      p.loadProfileRules fs (clock info.ProfileSource) (fetch info.ProfileSource)
        info.ProfileSource = (.error cause, fs1)) ∨
    (∃ info rules fs1, registry.Info t = some info ∧ info.ProfileSource ≠ "" ∧
      p.loadProfileRules fs (clock info.ProfileSource) (fetch info.ProfileSource)
        info.ProfileSource = (.ok rules, fs1)) := by
  cases hinfo : registry.Info t with
  | none =>
    left
    intro info h
    exact Option.noConfusion h
  | some info =>
    by_cases hsrc : info.ProfileSource = ""
    · left
      intro info1 h
      cases h
      exact hsrc
    · cases hload : p.loadProfileRules fs (clock info.ProfileSource)
          (fetch info.ProfileSource) info.ProfileSource with
      | mk result fs1 =>
        cases result with
        | error cause => exact Or.inr (Or.inl ⟨info, cause, fs1, rfl, hsrc, hload⟩)
        | ok rules => exact Or.inr (Or.inr ⟨info, rules, fs1, rfl, hsrc, hload⟩)

/-- After a successful run of the loop, a rule set is registered for the
profile source of every type of the list, and for every source for which one
was registered before. -/
theorem loadSources_ok (clock : String → Int)
    (fetch : String → Except String structureDefinition) (registry : Dstu3.Registry)
    (types : List String) :
    ∀ (p : ProfileStore) (fs : FileSystem) (p1 : ProfileStore) (fs1 : FileSystem),
      ProfileStore.loadSources clock fetch registry p fs types = (none, p1, fs1) →
      (∀ t ∈ types, ∀ info, registry.Info t = some info → info.ProfileSource ≠ "" →
        ∃ rules, p1.Get info.ProfileSource = some (some rules)) ∧
      (∀ url rules, p.Get url = some (some rules) →
        ∃ rules1, p1.Get url = some (some rules1)) := by
  induction types with
  | nil =>
    intro p fs p1 fs1 h
    simp only [ProfileStore.loadSources, Prod.mk.injEq, true_and] at h
    obtain ⟨rfl, _⟩ := h
    exact ⟨fun t ht => absurd ht (List.not_mem_nil _), fun url rules h => ⟨rules, h⟩⟩
  | cons t rest ih =>
    intro p fs p1 fs1 h
    rcases loadSources_cases clock fetch registry p fs t with
      hnone | ⟨info, cause, fs2, hinfo, hsrc, hload⟩ | ⟨info, rules, fs2, hinfo, hsrc, hload⟩
    · rw [loadSources_skip clock fetch registry p fs t rest hnone] at h
      obtain ⟨h1, h2⟩ := ih p fs p1 fs1 h
      refine ⟨?_, h2⟩
      intro t1 ht1 info hinfo hsrc
      rcases List.mem_cons.mp ht1 with rfl | ht1
      · exact absurd (hnone info hinfo) hsrc
      · exact h1 t1 ht1 info hinfo hsrc
    · rw [loadSources_fail clock fetch registry p fs t rest info cause fs2 hinfo hsrc hload] at h
      simp at h
    · rw [loadSources_next clock fetch registry p fs t rest info rules fs2 hinfo hsrc hload] at h
      obtain ⟨h1, h2⟩ := ih _ fs2 p1 fs1 h
      constructor
      · intro t1 ht1 info1 hinfo1 hsrc1
        rcases List.mem_cons.mp ht1 with rfl | ht1
        · rw [hinfo] at hinfo1
          cases hinfo1
          exact h2 _ rules (Get_Add_same p _ _)
        · exact h1 t1 ht1 info1 hinfo1 hsrc1
      · intro url rules0 hget
        by_cases hu : url = info.ProfileSource
        · subst hu
          exact h2 _ rules (Get_Add_same p _ _)
        · exact h2 url rules0 (by rw [Get_Add_other p _ _ _ hu]; exact hget)

/-- A failing run of the loop: the types before the failing one are passed
with success and leave the profile store the run returns; the load of the
source of the failing type fails; the run stops there, whatever follows it in
the list; and the table holds what it held before and the rule sets of the
sources loaded before the failure. -/
theorem loadSources_error (clock : String → Int)
    (fetch : String → Except String structureDefinition) (registry : Dstu3.Registry)
    (types : List String) :
    ∀ (p : ProfileStore) (fs : FileSystem) (err : String) (p1 : ProfileStore)
      (fs1 : FileSystem),
      ProfileStore.loadSources clock fetch registry p fs types = (some err, p1, fs1) →
      ∃ done failed rest info cause fs0,
        types = done ++ failed :: rest ∧ registry.Info failed = some info ∧
        info.ProfileSource ≠ "" ∧
        ProfileStore.loadSources clock fetch registry p fs done = (none, p1, fs0) ∧
        p1.loadProfileRules fs0 (clock info.ProfileSource) (fetch info.ProfileSource)
          info.ProfileSource = (.error cause, fs1) ∧
        err = "load profile " ++ info.ProfileSource ++ ": " ++ cause ∧
        (∀ later, ProfileStore.loadSources clock fetch registry p fs (done ++ failed :: later)
          = (some err, p1, fs1)) ∧
        (∀ url, p1.Get url = p.Get url ∨
          ∃ t ∈ done, ∃ loaded, registry.Info t = some loaded ∧ loaded.ProfileSource = url ∧
            ∃ rules, p1.Get url = some (some rules)) := by
  induction types with
  | nil =>
    intro p fs err p1 fs1 h
    simp [ProfileStore.loadSources] at h
  | cons t rest ih =>
    intro p fs err p1 fs1 h
    rcases loadSources_cases clock fetch registry p fs t with
      hnone | ⟨info, cause, fs2, hinfo, hsrc, hload⟩ | ⟨info, rules, fs2, hinfo, hsrc, hload⟩
    · rw [loadSources_skip clock fetch registry p fs t rest hnone] at h
      obtain ⟨done, failed, rest1, info, cause, fs0, hsplit, hinfo, hsrc, hdone, hfail, herr,
        hlater, htable⟩ := ih p fs err p1 fs1 h
      refine ⟨t :: done, failed, rest1, info, cause, fs0, by rw [hsplit]; rfl, hinfo, hsrc,
        ?_, hfail, herr, ?_, ?_⟩
      · rw [loadSources_skip clock fetch registry p fs t done hnone]
        exact hdone
      · intro later
        rw [List.cons_append, loadSources_skip clock fetch registry p fs t _ hnone]
        exact hlater later
      · intro url
        rcases htable url with h1 | ⟨t1, ht1, h1⟩
        · exact Or.inl h1
        · exact Or.inr ⟨t1, List.mem_cons_of_mem _ ht1, h1⟩
    · rw [loadSources_fail clock fetch registry p fs t rest info cause fs2 hinfo hsrc hload] at h
      simp only [Prod.mk.injEq, Option.some.injEq] at h
      obtain ⟨rfl, rfl, rfl⟩ := h
      refine ⟨[], t, rest, info, cause, fs, rfl, hinfo, hsrc, rfl, hload, rfl, ?_,
        fun url => Or.inl rfl⟩
      intro later
      exact loadSources_fail clock fetch registry p fs t later info cause fs2 hinfo hsrc hload
    · rw [loadSources_next clock fetch registry p fs t rest info rules fs2 hinfo hsrc hload] at h
      obtain ⟨done, failed, rest1, info1, cause, fs0, hsplit, hinfo1, hsrc1, hdone, hfail,
        herr, hlater, htable⟩ := ih _ fs2 err p1 fs1 h
      refine ⟨t :: done, failed, rest1, info1, cause, fs0, by rw [hsplit]; rfl, hinfo1, hsrc1,
        ?_, hfail, herr, ?_, ?_⟩
      · rw [loadSources_next clock fetch registry p fs t done info rules fs2 hinfo hsrc hload]
        exact hdone
      · intro later
        rw [List.cons_append,
          loadSources_next clock fetch registry p fs t _ info rules fs2 hinfo hsrc hload]
        exact hlater later
      · intro url
        rcases htable url with h1 | ⟨t1, ht1, h1⟩
        · by_cases hu : url = info.ProfileSource
          · subst hu
            refine Or.inr ⟨t, List.mem_cons_self _ _, info, hinfo, rfl, rules, ?_⟩
            rw [h1]
            exact Get_Add_same p _ _
          · left
            rw [h1]
            exact Get_Add_other p _ _ _ hu
        · exact Or.inr ⟨t1, List.mem_cons_of_mem _ ht1, h1⟩

/-- C33, as stated, fails: with the ten types of `NewRegistry` and a network on
which only the profile document of the advance directives can be fetched,
`LoadDefaults` returns the error of the second source in ascending order, that
of the consents, and the profile table, which was empty before the call, holds
the rule set of the advance directives. -/
theorem loadDefaults_keeps_loaded_rules :
    ((NewProfileStore "" 0 0).LoadDefaults {} (fun _ => 0) oneSourceNetwork
      Dstu3.NewRegistry).1 =
      some "load profile https://hl7.org/fhir/STU3/consent.profile.json: unreachable" ∧
    (NewProfileStore "" 0 0).Get advanceDirectiveSource = none ∧
    ((NewProfileStore "" 0 0).LoadDefaults {} (fun _ => 0) oneSourceNetwork
      Dstu3.NewRegistry).2.1.Get advanceDirectiveSource =
      some (some { ResourceType := "AdvanceDirective", RequiredPaths := ["patient"] }) := by
  decide

/-- C33 (amended): if `LoadDefaults` returns success, a rule set is registered
for the profile source of every registered resource type that has one. If it
returns an error, the load of the source of one type `failed` has failed and
the error names that source; the types before `failed` in ascending order were
passed with success and left the profile store that the call leaves; no later
source is loaded (the outcome is the same whatever follows `failed`); and the
profile table holds, besides what it held before the call, the rule sets of the
sources loaded before the failure. -/
theorem loadDefaults_spec (p : ProfileStore) (fs : FileSystem) (clock : String → Int)
    (fetch : String → Except String structureDefinition) (registry : Dstu3.Registry) :
    (∀ p1 fs1, p.LoadDefaults fs clock fetch registry = (none, p1, fs1) →
      ∀ t info, registry.Info t = some info → info.ProfileSource ≠ "" →
        ∃ rules, p1.Get info.ProfileSource = some (some rules)) ∧
    (∀ err p1 fs1, p.LoadDefaults fs clock fetch registry = (some err, p1, fs1) →
      ∃ done failed rest info cause fs0,
        sortStrings registry.ResourceTypes = done ++ failed :: rest ∧
        registry.Info failed = some info ∧ info.ProfileSource ≠ "" ∧
        ProfileStore.loadSources clock fetch registry p fs done = (none, p1, fs0) ∧
        p1.loadProfileRules fs0 (clock info.ProfileSource) (fetch info.ProfileSource)
          info.ProfileSource = (.error cause, fs1) ∧
        err = "load profile " ++ info.ProfileSource ++ ": " ++ cause ∧
        (∀ later, ProfileStore.loadSources clock fetch registry p fs (done ++ failed :: later)
          = (some err, p1, fs1)) ∧
        (∀ url, p1.Get url = p.Get url ∨
          ∃ t ∈ done, ∃ loaded, registry.Info t = some loaded ∧ loaded.ProfileSource = url ∧
            ∃ rules, p1.Get url = some (some rules))) := by
  constructor
  · intro p1 fs1 h t info hinfo hsrc
    have hmem : t ∈ sortStrings registry.ResourceTypes := by
      refine (mem_sortStrings registry.ResourceTypes t).mpr ?_
      have : (registry.resources.lookup t).isSome = true := by
        unfold Dstu3.Registry.Info at hinfo
        rw [hinfo]
        rfl
      rw [AList.lookup_isSome, AList.mem_keys] at this
      exact this
    exact (loadSources_ok clock fetch registry _ p fs p1 fs1 h).1 t hmem info hinfo hsrc
  · intro err p1 fs1 h
    exact loadSources_error clock fetch registry _ p fs err p1 fs1 h

end Validation

/-! ## The store: what an entry holds and what an operation leaves alone -/

namespace Store

/-! ## The stored resource carries its key, its version and its timestamp -/

theorem Stamped_of_extends {s : Store} {h h1 : Heap} (hs : s.Stamped h) (hext : h <+: h1) :
    s.Stamped h1 := fun t i e he => by
  obtain ⟨r, m, hp, hm⟩ := hs t i e he
  exact ⟨r, m, (getElem?_of_extends hext (lt_length_of_getElem? hp)).trans hp, hm⟩

theorem Stamped_NewStore (h : Heap) : NewStore.Stamped h := fun t i e he => by
  rw [entry_NewStore] at he
  exact Option.noConfusion he

theorem Stamped_ensureType {s : Store} {h : Heap} (hs : s.Stamped h) (t : String) :
    (s.ensureType t).Stamped h := fun t1 i1 e1 h1 => by
  rw [entry_ensureType] at h1
  exact hs t1 i1 e1 h1

/-- The entry written for the object at `e.Resource` and the stamp `applyMeta`
puts on that object. -/
theorem Stamped_setEntry {s : Store} {h : Heap} (hs : s.Stamped h) (hk : s.Keyed h)
    (e : ResourceEntry) (r : Dstu3.Resource) (hp : h[e.Resource]? = some r) :
    (s.setEntry r.GetResourceType r.GetID e).Stamped (applyMeta h e) := by
  intro t1 i1 e1 h1
  by_cases hkey : t1 = r.GetResourceType ∧ i1 = r.GetID
  · obtain ⟨rfl, rfl⟩ := hkey
    rw [entry_setEntry_same] at h1
    injection h1 with h1
    subst h1
    exact ⟨_, _, applyMeta_get_self h e r hp, stampMeta_GetMeta r _ _, rfl, rfl⟩
  · rw [entry_setEntry_other s _ _ t1 i1 e hkey] at h1
    obtain ⟨r1, m, hp1, hm⟩ := hs t1 i1 e1 h1
    obtain ⟨r2, hp2, ht2, hi2⟩ := hk t1 i1 e1 h1
    have hne : e1.Resource ≠ e.Resource := by
      intro heq
      rw [heq, hp] at hp2
      injection hp2 with hp2
      subst hp2
      exact hkey ⟨ht2.symm, hi2.symm⟩
    exact ⟨r1, m, (applyMeta_get_other h e _ hne).trans hp1, hm⟩

theorem Stamped_Create {s : Store} {h : Heap} (hs : s.Stamped h) (hk : s.Keyed h)
    (now : String) (resource : Option Ptr) :
    (s.Create now h resource).2.1.Stamped (s.Create now h resource).2.2 := by
  cases hd : h.deref resource with
  | none => rw [Create_nil now s h resource hd]; exact hs
  | some r =>
    cases resource with
    | none => simp [Heap.deref] at hd
    | some p =>
      have hp : h[p]? = some r := hd
      by_cases hid : r.GetID = ""
      · rw [Create_idRequired now s h p r hp hid]; exact hs
      · cases he : s.entry r.GetResourceType r.GetID with
        | some e => rw [Create_exists now s h p r e hp hid he]; exact hs
        | none =>
          rw [Create_ok now s h p r hp hid he]
          dsimp only
          exact Stamped_of_extends
            (Stamped_setEntry (Stamped_ensureType hs _) (Search.Keyed_ensureType hk _)
              ⟨p, "1", now, []⟩ r hp)
            (cloneEntry_extends _ _)

theorem Stamped_Update {s : Store} {h : Heap} (hs : s.Stamped h) (hk : s.Keyed h)
    (now : String) (resource : Option Ptr) :
    (s.Update now h resource).2.1.Stamped (s.Update now h resource).2.2 := by
  cases hd : h.deref resource with
  | none => rw [Update_nil now s h resource hd]; exact hs
  | some r =>
    cases resource with
    | none => simp [Heap.deref] at hd
    | some p =>
      have hp : h[p]? = some r := hd
      by_cases hid : r.GetID = ""
      · rw [Update_idRequired now s h p r hp hid]; exact hs
      · cases he : s.entry r.GetResourceType r.GetID with
        | some e =>
          rw [Update_existing now s h p r e hp hid he]
          dsimp only
          exact Stamped_of_extends (Stamped_setEntry hs hk (nextEntry now p e) r hp)
            (cloneEntry_extends _ _)
        | none =>
          rw [Update_new now s h p r hp hid he]
          dsimp only
          exact Stamped_of_extends
            (Stamped_setEntry (Stamped_ensureType hs _) (Search.Keyed_ensureType hk _)
              ⟨p, "1", now, []⟩ r hp)
            (cloneEntry_extends _ _)

/-- In every reachable state the metadata of each current resource carries the
version and the timestamp of its entry. -/
theorem stamped_of_reachable {s : Store} {h : Heap} (hr : Reachable s h) : s.Stamped h := by
  induction hr with
  | init h => exact Stamped_NewStore h
  | alloc r _ ih => exact Stamped_of_extends ih (List.prefix_append _ _)
  | create now resource hr0 ih => exact Stamped_Create ih (Search.keyed_of_reachable hr0) now resource
  | update now resource hr0 ih => exact Stamped_Update ih (Search.keyed_of_reachable hr0) now resource
  | delete t i _ ih =>
    exact fun t1 i1 e1 h1 => ih t1 i1 e1 (Search.entry_of_Delete _ t i t1 i1 e1 h1)
  | get t i _ ih => exact Stamped_of_extends ih (Get_extends _ _ t i)
  | list t _ ih => exact Stamped_of_extends ih (List_extends _ _ t)

/-- A successful `Create` or `Update` of the object at `p`: the entry it
stores. -/
theorem stored_entry_of_ok (s : Store) (h : Heap) (now : String) (p : Ptr)
    (r : Dstu3.Resource) (hp : h[p]? = some r) (out : ResourceEntry) (s1 : Store) (h1 : Heap)
    (hok : s.Create now h (some p) = (.ok out, s1, h1) ∨
      s.Update now h (some p) = (.ok out, s1, h1)) :
    ∃ (s0 : Store) (e : ResourceEntry), (∀ t1 i1, s0.entry t1 i1 = s.entry t1 i1) ∧
      e.Resource = p ∧ e.LastUpdated = now ∧
      s1 = s0.setEntry r.GetResourceType r.GetID e ∧
      h1 = (cloneEntry (applyMeta h e) e).2 := by
  by_cases hid : r.GetID = ""
  · rw [Create_idRequired now s h p r hp hid, Update_idRequired now s h p r hp hid] at hok
    simp at hok
  · cases he : s.entry r.GetResourceType r.GetID with
    | some e =>
      rw [Create_exists now s h p r e hp hid he, Update_existing now s h p r e hp hid he] at hok
      rcases hok with hok | hok
      · simp at hok
      · simp only [Prod.mk.injEq] at hok
        obtain ⟨_, rfl, rfl⟩ := hok
        exact ⟨s, nextEntry now p e, fun _ _ => rfl, rfl, rfl, rfl, rfl⟩
    | none =>
      rw [Create_ok now s h p r hp hid he, Update_new now s h p r hp hid he] at hok
      have hok1 : ((s.ensureType r.GetResourceType).setEntry r.GetResourceType r.GetID
            ⟨p, "1", now, []⟩,
          (cloneEntry (applyMeta h ⟨p, "1", now, []⟩) ⟨p, "1", now, []⟩).2) = (s1, h1) := by
        rcases hok with hok | hok
        · exact (Prod.mk.inj hok).2
        · exact (Prod.mk.inj hok).2
      obtain ⟨rfl, rfl⟩ := Prod.mk.inj hok1
      exact ⟨s.ensureType r.GetResourceType, ⟨p, "1", now, []⟩,
        fun t1 i1 => entry_ensureType s _ t1 i1, rfl, rfl, rfl, rfl⟩

/-- A successful `Create` or `Update` of the object at `p`, which holds `r`:
the entry stored under the key of `r` holds `p`, and the object at `p` is `r`
with the version and the timestamp of the entry written into its meta. -/
theorem stored_of_ok (s : Store) (h : Heap) (now : String) (p : Ptr) (r : Dstu3.Resource)
    (hp : h[p]? = some r) (out : ResourceEntry) (s1 : Store) (h1 : Heap)
    (hok : s.Create now h (some p) = (.ok out, s1, h1) ∨
      s.Update now h (some p) = (.ok out, s1, h1)) :
    ∃ e, s1.entry r.GetResourceType r.GetID = some e ∧ e.Resource = p ∧
      e.LastUpdated = now ∧ h1[p]? = some (stampMeta r e.VersionID now) := by
  obtain ⟨s0, e, _, hres, hnow, rfl, rfl⟩ := stored_entry_of_ok s h now p r hp out s1 h1 hok
  subst hres hnow
  refine ⟨e, entry_setEntry_same _ _ _ _, rfl, rfl, ?_⟩
  have hlt : e.Resource < (applyMeta h e).length := by
    rw [applyMeta_length]
    exact lt_length_of_getElem? hp
  rw [getElem?_of_extends (cloneEntry_extends _ _) hlt]
  exact applyMeta_get_self h e r hp

/-- A failing `Update` leaves the store and the heap as they are. -/
theorem Update_error (s : Store) (h : Heap) (now : String) (resource : Option Ptr)
    (err : StoreError) (hfail : (s.Update now h resource).1 = .error err) :
    (s.Update now h resource).2 = (s, h) := by
  cases hd : h.deref resource with
  | none => rw [Update_nil now s h resource hd]
  | some r =>
    cases resource with
    | none => simp [Heap.deref] at hd
    | some p =>
      have hp : h[p]? = some r := hd
      by_cases hid : r.GetID = ""
      · rw [Update_idRequired now s h p r hp hid]
      · cases he : s.entry r.GetResourceType r.GetID with
        | some e =>
          rw [Update_existing now s h p r e hp hid he] at hfail
          exact Except.noConfusion hfail
        | none =>
          rw [Update_new now s h p r hp hid he] at hfail
          exact Except.noConfusion hfail

/-- A call of `Update` leaves a heap that extends the heap it found. -/
theorem Update_length_le (s : Store) (h : Heap) (now : String) (resource : Option Ptr) :
    h.length ≤ (s.Update now h resource).2.2.length := by
  cases hd : h.deref resource with
  | none => rw [Update_nil now s h resource hd]
  | some r =>
    cases resource with
    | none => simp [Heap.deref] at hd
    | some p =>
      have hp : h[p]? = some r := hd
      by_cases hid : r.GetID = ""
      · rw [Update_idRequired now s h p r hp hid]
      · cases he : s.entry r.GetResourceType r.GetID with
        | some e =>
          rw [Update_existing now s h p r e hp hid he]
          dsimp only
          exact length_le_clone_applyMeta h _ _
        | none =>
          rw [Update_new now s h p r hp hid he]
          dsimp only
          exact length_le_clone_applyMeta h _ _

/-! ## The entries an operation does not name -/

theorem KeyedAll_of_sameKeys {s : Store} {h h1 : Heap} (hk : s.KeyedAll h)
    (hs : sameKeys h h1) : s.KeyedAll h1 := fun t i e he q hq => by
  obtain ⟨r, hp, ht, hi⟩ := hk t i e he q hq
  obtain ⟨r1, hp1, ht1, hi1⟩ := hs _ r hp
  exact ⟨r1, hp1, ht1.trans ht, hi1.trans hi⟩

theorem KeyedAll_NewStore (h : Heap) : NewStore.KeyedAll h := fun t i e he => by
  rw [entry_NewStore] at he
  exact Option.noConfusion he

theorem KeyedAll_ensureType {s : Store} {h : Heap} (hk : s.KeyedAll h) (t : String) :
    (s.ensureType t).KeyedAll h := fun t1 i1 e1 h1 => by
  rw [entry_ensureType] at h1
  exact hk t1 i1 e1 h1

/-- The entry written under the key of `r` holds objects of that key, if its
addresses do. -/
theorem KeyedAll_setEntry {s : Store} {h : Heap} (hk : s.KeyedAll h) (e : ResourceEntry)
    (r : Dstu3.Resource)
    (he : ∀ q ∈ e.Resource :: e.History, ∃ r1 : Dstu3.Resource, h[q]? = some r1 ∧
      r1.GetResourceType = r.GetResourceType ∧ r1.GetID = r.GetID) :
    (s.setEntry r.GetResourceType r.GetID e).KeyedAll h := by
  intro t1 i1 e1 h1
  by_cases hkey : t1 = r.GetResourceType ∧ i1 = r.GetID
  · obtain ⟨rfl, rfl⟩ := hkey
    rw [entry_setEntry_same] at h1
    injection h1 with h1
    subst h1
    exact he
  · rw [entry_setEntry_other s _ _ t1 i1 e hkey] at h1
    exact hk t1 i1 e1 h1

theorem KeyedAll_Create {s : Store} {h : Heap} (hk : s.KeyedAll h) (now : String)
    (resource : Option Ptr) :
    (s.Create now h resource).2.1.KeyedAll (s.Create now h resource).2.2 := by
  cases hd : h.deref resource with
  | none => rw [Create_nil now s h resource hd]; exact hk
  | some r =>
    cases resource with
    | none => simp [Heap.deref] at hd
    | some p =>
      have hp : h[p]? = some r := hd
      by_cases hid : r.GetID = ""
      · rw [Create_idRequired now s h p r hp hid]; exact hk
      · cases he : s.entry r.GetResourceType r.GetID with
        | some e => rw [Create_exists now s h p r e hp hid he]; exact hk
        | none =>
          rw [Create_ok now s h p r hp hid he]
          dsimp only
          refine KeyedAll_of_sameKeys
            (KeyedAll_setEntry (KeyedAll_ensureType hk _) ⟨p, "1", now, []⟩ r ?_)
            (Search.sameKeys_clone_applyMeta h _ _)
          intro q hq
          simp only [List.mem_singleton] at hq
          subst hq
          exact ⟨r, hp, rfl, rfl⟩

theorem KeyedAll_Update {s : Store} {h : Heap} (hk : s.KeyedAll h) (now : String)
    (resource : Option Ptr) :
    (s.Update now h resource).2.1.KeyedAll (s.Update now h resource).2.2 := by
  cases hd : h.deref resource with
  | none => rw [Update_nil now s h resource hd]; exact hk
  | some r =>
    cases resource with
    | none => simp [Heap.deref] at hd
    | some p =>
      have hp : h[p]? = some r := hd
      by_cases hid : r.GetID = ""
      · rw [Update_idRequired now s h p r hp hid]; exact hk
      · cases he : s.entry r.GetResourceType r.GetID with
        | some e =>
          rw [Update_existing now s h p r e hp hid he]
          dsimp only
          refine KeyedAll_of_sameKeys (KeyedAll_setEntry hk (nextEntry now p e) r ?_)
            (Search.sameKeys_clone_applyMeta h _ _)
          intro q hq
          simp only [nextEntry, List.mem_cons, List.mem_append, List.mem_singleton,
            List.not_mem_nil, or_false] at hq
          rcases hq with rfl | hq | rfl
          · exact ⟨r, hp, rfl, rfl⟩
          · exact hk _ _ e he q (List.mem_cons_of_mem _ hq)
          · exact hk _ _ e he _ (List.mem_cons_self _ _)
        | none =>
          rw [Update_new now s h p r hp hid he]
          dsimp only
          refine KeyedAll_of_sameKeys
            (KeyedAll_setEntry (KeyedAll_ensureType hk _) ⟨p, "1", now, []⟩ r ?_)
            (Search.sameKeys_clone_applyMeta h _ _)
          intro q hq
          simp only [List.mem_singleton] at hq
          subst hq
          exact ⟨r, hp, rfl, rfl⟩

/-- In every reachable state the objects of each entry, current and snapshots,
have the resource type and the id the entry is stored under. -/
theorem keyedAll_of_reachable {s : Store} {h : Heap} (hr : Reachable s h) : s.KeyedAll h := by
  induction hr with
  | init h => exact KeyedAll_NewStore h
  | alloc r _ ih =>
    exact KeyedAll_of_sameKeys ih (Search.sameKeys_of_extends (List.prefix_append _ _))
  | create now resource _ ih => exact KeyedAll_Create ih now resource
  | update now resource _ ih => exact KeyedAll_Update ih now resource
  | delete t i _ ih =>
    exact fun t1 i1 e1 h1 => ih t1 i1 e1 (Search.entry_of_Delete _ t i t1 i1 e1 h1)
  | get t i _ ih =>
    exact KeyedAll_of_sameKeys ih (Search.sameKeys_of_extends (Get_extends _ _ t i))
  | list t _ ih =>
    exact KeyedAll_of_sameKeys ih (Search.sameKeys_of_extends (List_extends _ _ t))

/-- `applyMeta` on an object that the entry `e1` does not hold leaves the
content of `e1` as it is. -/
theorem value_applyMeta_other (h : Heap) (e e1 : ResourceEntry)
    (hne : ∀ q ∈ e1.Resource :: e1.History, q ≠ e.Resource) :
    e1.value (applyMeta h e) = e1.value h := by
  simp only [ResourceEntry.value]
  rw [applyMeta_get_other h e _ (hne _ (List.mem_cons_self _ _))]
  congr 1
  apply List.map_congr_left
  intro q hq
  exact applyMeta_get_other h e q (hne q (List.mem_cons_of_mem _ hq))

end Store

/-! ## Lemmas on the memory with `Meta` objects -/

namespace Shared

theorem SetMeta_SetMeta (r : Dstu3.Resource) (a b : Option Dstu3.Meta) :
    (r.SetMeta a).SetMeta b = r.SetMeta b := by
  cases r <;> rfl

theorem SetMeta_GetMeta (r : Dstu3.Resource) : r.SetMeta r.GetMeta = r := by
  cases r <;> rfl

theorem stampMeta_SetMeta (r : Dstu3.Resource) (x : Option Dstu3.Meta) (v u : String) :
    Store.stampMeta (r.SetMeta x) v u =
      r.SetMeta (some { VersionID := v, LastUpdated := u, Profile := (x.getD {}).Profile }) := by
  cases r <;> rfl

theorem heap_length (m : Memory) : m.heap.length = m.resources.length := by
  simp only [Memory.heap, List.length_map]

theorem heap_get (m : Memory) (p : Ptr) : m.heap[p]? = (m.resources[p]?).map m.content := by
  simp only [Memory.heap, List.getElem?_map]

/-- The content of a resource object depends on the memory only through the
`Meta` object it points to. -/
theorem content_congr {m m1 : Memory} {o : Object}
    (h : ∀ a, o.metaPtr = some a → m1.metas[a]? = m.metas[a]?) :
    m1.content o = m.content o := by
  unfold Memory.content
  cases ho : o.metaPtr with
  | none => rfl
  | some a => simp only [Option.some_bind, h a ho]

theorem Separate_empty : ({} : Memory).Separate := by
  refine ⟨fun o ho => ?_, fun i j oi oj a hi => ?_⟩
  · simp at ho
  · simp at hi

theorem getElem?_push {α : Type} (l : List α) (x : α) (k : Nat) (y : α)
    (hk : (l ++ [x])[k]? = some y) : (k < l.length ∧ l[k]? = some y) ∨ (k = l.length ∧ y = x) := by
  by_cases hlt : k < l.length
  · rw [List.getElem?_append_left hlt] at hk
    exact Or.inl ⟨hlt, hk⟩
  · rw [List.getElem?_append_right (Nat.le_of_not_lt hlt)] at hk
    cases hd : k - l.length with
    | zero =>
      rw [hd] at hk
      simp only [List.getElem?_cons_zero, Option.some.injEq] at hk
      exact Or.inr ⟨by omega, hk.symm⟩
    | succ d =>
      rw [hd] at hk
      simp at hk

/-- One more resource object, whose `Meta` pointer is nil or leads to a new
`Meta` object: the heap gets its content at the next address. -/
theorem heap_push {m : Memory} (hs : m.Separate) (o : Object) (ms : List Dstu3.Meta)
    (hold : ∀ a, a < m.metas.length → ms[a]? = m.metas[a]?) :
    ({ resources := m.resources ++ [o], metas := ms } : Memory).heap =
      m.heap ++ [o.fields.SetMeta (o.metaPtr.bind fun a => ms[a]?)] := by
  simp only [Memory.heap, List.map_append, List.map_cons, List.map_nil]
  congr 1
  exact List.map_congr_left fun o1 ho1 => content_congr fun a ha => hold a (hs.1 o1 ho1 a ha)

theorem Separate_push {m : Memory} (hs : m.Separate) (o : Object) (ms : List Dstu3.Meta)
    (hlen : m.metas.length ≤ ms.length)
    (ho : ∀ a, o.metaPtr = some a → m.metas.length ≤ a ∧ a < ms.length) :
    ({ resources := m.resources ++ [o], metas := ms } : Memory).Separate := by
  obtain ⟨hwf, hsep⟩ := hs
  constructor
  · intro o1 ho1 a ha
    simp only [List.mem_append, List.mem_singleton] at ho1
    rcases ho1 with ho1 | rfl
    · exact Nat.lt_of_lt_of_le (hwf o1 ho1 a ha) hlen
    · exact (ho a ha).2
  · intro i j oi oj a hi hj hai haj
    rcases getElem?_push _ _ _ _ hi with ⟨_, hi1⟩ | ⟨hi1, rfl⟩
    · rcases getElem?_push _ _ _ _ hj with ⟨_, hj1⟩ | ⟨hj1, rfl⟩
      · exact hsep i j oi oj a hi1 hj1 hai haj
      · have h1 := hwf oi (List.getElem?_mem hi1) a hai
        have h2 := (ho a haj).1
        omega
    · rcases getElem?_push _ _ _ _ hj with ⟨_, hj1⟩ | ⟨hj1, rfl⟩
      · have h1 := hwf oj (List.getElem?_mem hj1) a haj
        have h2 := (ho a hai).1
        omega
      · rw [hi1, hj1]

/-- A new resource object with a `Meta` object of its own: the heap gets the
content `r` at the next address, and no `Meta` object is shared. -/
theorem heap_alloc {m : Memory} (hs : m.Separate) (r : Dstu3.Resource) :
    (m.alloc r).1 = m.heap.length ∧ (m.alloc r).2.heap = m.heap ++ [r] ∧
      (m.alloc r).2.Separate := by
  cases hm : r.GetMeta with
  | none =>
    have ha : m.alloc r = (m.resources.length,
        { resources := m.resources ++ [⟨r.SetMeta none, none⟩], metas := m.metas }) := by
      simp only [Memory.alloc, hm]
    rw [ha]
    refine ⟨(heap_length m).symm, ?_, ?_⟩
    · show Memory.heap _ = _
      rw [heap_push hs _ _ fun _ _ => rfl]
      simp only [Option.none_bind, SetMeta_SetMeta]
      rw [← hm, SetMeta_GetMeta]
    · exact Separate_push hs _ _ (le_refl _) fun a ha => Option.noConfusion ha
  | some x =>
    have ha : m.alloc r = (m.resources.length,
        { resources := m.resources ++ [⟨r.SetMeta none, some m.metas.length⟩],
          metas := m.metas ++ [x] }) := by
      simp only [Memory.alloc, hm]
    rw [ha]
    refine ⟨(heap_length m).symm, ?_, ?_⟩
    · show Memory.heap _ = _
      rw [heap_push hs _ _ fun a ha => List.getElem?_append_left ha]
      simp only [Option.some_bind, SetMeta_SetMeta, List.getElem?_concat_length]
      rw [← hm, SetMeta_GetMeta]
    · refine Separate_push hs _ _ (by simp) fun a ha => ?_
      simp only [Option.some.injEq] at ha
      subst ha
      simp

theorem getElem?_set_cases {α : Type} (l : List α) (p k : Nat) (x y : α)
    (h : (l.set p x)[k]? = some y) : (k = p ∧ y = x) ∨ (k ≠ p ∧ l[k]? = some y) := by
  rw [List.getElem?_set] at h
  by_cases hk : p = k
  · rw [if_pos hk] at h
    by_cases hlt : p < l.length
    · rw [if_pos hlt] at h
      exact Or.inl ⟨hk.symm, (Option.some.inj h).symm⟩
    · rw [if_neg hlt] at h
      exact Option.noConfusion h
  · rw [if_neg hk] at h
    exact Or.inr ⟨fun hkp => hk hkp.symm, h⟩

/-- As long as no `Meta` object is shared, `applyMeta` changes the content of
the resource object of the entry alone, as `Store.applyMeta` does on the heap
of contents. -/
theorem heap_applyMeta {m : Memory} (hs : m.Separate) (e : Store.ResourceEntry) :
    (applyMeta m e).heap = Store.applyMeta m.heap e ∧ (applyMeta m e).Separate := by
  obtain ⟨hwf, hsep⟩ := hs
  cases ho : m.resources[e.Resource]? with
  | none =>
    have h1 : applyMeta m e = m := by simp only [applyMeta, ho]
    have h2 : Store.applyMeta m.heap e = m.heap := by
      simp only [Store.applyMeta, heap_get, ho, Option.map_none']
    rw [h1, h2]
    exact ⟨rfl, hwf, hsep⟩
  | some o =>
    have hlt : e.Resource < m.resources.length := by
      by_contra hge
      rw [List.getElem?_eq_none (Nat.le_of_not_lt hge)] at ho
      exact Option.noConfusion ho
    have h2 : Store.applyMeta m.heap e =
        m.heap.set e.Resource (Store.stampMeta (m.content o) e.VersionID e.LastUpdated) := by
      simp only [Store.applyMeta, heap_get, ho, Option.map_some']
    rw [h2]
    cases hp : o.metaPtr with
    | none =>
      have h1 : applyMeta m e =
          { resources := m.resources.set e.Resource { o with metaPtr := some m.metas.length }
            metas := m.metas ++ [{ VersionID := e.VersionID, LastUpdated := e.LastUpdated }] } := by
        simp only [applyMeta, ho, hp]
      rw [h1]
      constructor
      · apply List.ext_getElem?
        intro q
        simp only [Memory.heap, List.getElem?_map, List.getElem?_set]
        by_cases hq : e.Resource = q
        · subst hq
          simp only [if_true, hlt, List.length_map, Option.map_some', Option.some.injEq]
          simp only [Memory.content, hp, Option.none_bind, Option.some_bind,
            List.getElem?_concat_length, stampMeta_SetMeta]
          rfl
        · simp only [hq, if_false]
          cases hoq : m.resources[q]? with
          | none => rfl
          | some oq =>
            simp only [Option.map_some', Option.some.injEq]
            exact content_congr fun a ha =>
              List.getElem?_append_left (hwf oq (List.getElem?_mem hoq) a ha)
      · constructor
        · intro o1 ho1 a ha
          simp only [List.length_append, List.length_singleton]
          rcases List.mem_or_eq_of_mem_set ho1 with ho1 | rfl
          · exact Nat.lt_succ_of_lt (hwf o1 ho1 a ha)
          · simp only [Option.some.injEq] at ha
            omega
        · intro i j oi oj a hi hj hai haj
          rcases getElem?_set_cases _ _ _ _ _ hi with ⟨hi1, rfl⟩ | ⟨_, hi1⟩
          · rcases getElem?_set_cases _ _ _ _ _ hj with ⟨hj1, rfl⟩ | ⟨_, hj1⟩
            · rw [hi1, hj1]
            · simp only [Option.some.injEq] at hai
              have := hwf oj (List.getElem?_mem hj1) a haj
              omega
          · rcases getElem?_set_cases _ _ _ _ _ hj with ⟨hj1, rfl⟩ | ⟨_, hj1⟩
            · simp only [Option.some.injEq] at haj
              have := hwf oi (List.getElem?_mem hi1) a hai
              omega
            · exact hsep i j oi oj a hi1 hj1 hai haj
    | some a =>
      have halt := hwf o (List.getElem?_mem ho) a hp
      obtain ⟨x, hx⟩ : ∃ x, m.metas[a]? = some x :=
        ⟨m.metas[a], List.getElem?_eq_getElem halt⟩
      have h1 : applyMeta m e =
          { m with metas := m.metas.set a ⟨e.VersionID, e.LastUpdated, x.Profile⟩ } := by
        simp only [applyMeta, ho, hp, hx]
      rw [h1]
      constructor
      · apply List.ext_getElem?
        intro q
        simp only [Memory.heap, List.getElem?_map, List.getElem?_set]
        by_cases hq : e.Resource = q
        · subst hq
          simp only [if_true, hlt, List.length_map, ho, Option.map_some', Option.some.injEq]
          simp only [Memory.content, hp, Option.some_bind, List.getElem?_set, if_true, halt, hx,
            stampMeta_SetMeta]
          rfl
        · simp only [hq, if_false]
          cases hoq : m.resources[q]? with
          | none => rfl
          | some oq =>
            simp only [Option.map_some', Option.some.injEq]
            refine content_congr fun b hb => ?_
            have hne : a ≠ b := by
              intro hab
              subst hab
              exact hq (hsep e.Resource q o oq a ho hoq hp hb)
            simp only [List.getElem?_set, hne, if_false]
      · refine ⟨fun o1 ho1 b hb => ?_, hsep⟩
        simp only [List.length_set]
        exact hwf o1 ho1 b hb

/-- As long as no `Meta` object is shared, a step of `cloneEntry` is the step
of `Store.cloneEntry` on the heap of contents. -/
theorem heap_cloneOrShare {m : Memory} (hs : m.Separate) (item : Ptr) :
    Store.cloneOrShare m.heap item =
        ((cloneOrShare m item).1, (cloneOrShare m item).2.heap) ∧
      (cloneOrShare m item).2.Separate := by
  cases hp : m.heap[item]? with
  | none =>
    have h1 : Store.cloneOrShare m.heap item = (item, m.heap) := by
      simp only [Store.cloneOrShare, Heap.Clone, hp]
    have h2 : cloneOrShare m item = (item, m) := by
      simp only [cloneOrShare, Clone, hp]
    rw [h1, h2]
    exact ⟨rfl, hs⟩
  | some r =>
    cases hc : r.cloneResource with
    | error err =>
      have h1 : Store.cloneOrShare m.heap item = (item, m.heap) := by
        simp only [Store.cloneOrShare, Heap.Clone, hp, hc]
      have h2 : cloneOrShare m item = (item, m) := by
        simp only [cloneOrShare, Clone, hp, hc]
      rw [h1, h2]
      exact ⟨rfl, hs⟩
    | ok out =>
      have h1 : Store.cloneOrShare m.heap item = (m.heap.length, m.heap ++ [out]) := by
        simp only [Store.cloneOrShare, Heap.Clone, hp, hc, Heap.alloc]
      have h2 : cloneOrShare m item = m.alloc out := by
        simp only [cloneOrShare, Clone, hp, hc]
      obtain ⟨h3, h4, h5⟩ := heap_alloc hs out
      rw [h1, h2, h3, h4]
      exact ⟨rfl, h5⟩

theorem heap_cloneHistory (items : List Ptr) :
    ∀ {m : Memory}, m.Separate →
      Store.cloneHistory m.heap items =
          ((cloneHistory m items).1, (cloneHistory m items).2.heap) ∧
        (cloneHistory m items).2.Separate := by
  induction items with
  | nil => intro m hs; exact ⟨rfl, hs⟩
  | cons item rest ih =>
    intro m hs
    obtain ⟨h1, h2⟩ := heap_cloneOrShare hs item
    obtain ⟨h3, h4⟩ := ih h2
    simp only [Store.cloneHistory, cloneHistory, h1, h3]
    exact ⟨trivial, h4⟩

theorem heap_cloneEntry {m : Memory} (hs : m.Separate) (e : Store.ResourceEntry) :
    Store.cloneEntry m.heap e = ((cloneEntry m e).1, (cloneEntry m e).2.heap) ∧
      (cloneEntry m e).2.Separate := by
  obtain ⟨h1, h2⟩ := heap_cloneOrShare hs e.Resource
  obtain ⟨h3, h4⟩ := heap_cloneHistory e.History h2
  simp only [Store.cloneEntry, cloneEntry, h1, h3]
  exact ⟨trivial, h4⟩

/-- The entry written by `newEntry` or by `Update`, stamped and cloned. -/
theorem heap_stamp_clone {m : Memory} (hs : m.Separate) (e : Store.ResourceEntry) :
    Store.cloneEntry (Store.applyMeta m.heap e) e =
        ((cloneEntry (applyMeta m e) e).1, (cloneEntry (applyMeta m e) e).2.heap) ∧
      (cloneEntry (applyMeta m e) e).2.Separate := by
  obtain ⟨h1, h2⟩ := heap_applyMeta hs e
  rw [← h1]
  exact heap_cloneEntry h2 e

/-- As long as no `Meta` object is shared, `Create` is `Store.Create` on the
heap of contents. -/
theorem heap_Create {m : Memory} (hs : m.Separate) (now : String) (s : Store.Store)
    (resource : Option Ptr) :
    s.Create now m.heap resource =
        ((Create now s m resource).1, (Create now s m resource).2.1,
          (Create now s m resource).2.2.heap) ∧
      (Create now s m resource).2.2.Separate := by
  cases hd : m.heap.deref resource with
  | none =>
    have h1 : Create now s m resource = (.error .resourceIsNil, s, m) := by
      unfold Create
      split
      · rename_i heq
        rw [hd] at heq
        exact Option.noConfusion heq
      · rfl
    rw [Store.Create_nil now s m.heap resource hd, h1]
    exact ⟨rfl, hs⟩
  | some r =>
    cases resource with
    | none => simp [Heap.deref] at hd
    | some p =>
      have hp : m.heap[p]? = some r := hd
      by_cases hid : r.GetID = ""
      · have h1 : Create now s m (some p) = (.error .resourceIdRequired, s, m) := by
          simp only [Create, Heap.deref, Option.some_bind, hp, hid, if_true]
        rw [Store.Create_idRequired now s m.heap p r hp hid, h1]
        exact ⟨rfl, hs⟩
      · cases he : s.entry r.GetResourceType r.GetID with
        | some e =>
          have h1 : Create now s m (some p) = (.error .alreadyExists, s, m) := by
            simp only [Create, Heap.deref, Option.some_bind, hp, hid, if_false,
              Store.entry_ensureType, he, Store.ensureType_of_entry s _ _ e he]
          rw [Store.Create_exists now s m.heap p r e hp hid he, h1]
          exact ⟨rfl, hs⟩
        | none =>
          have h1 : Create now s m (some p) =
              (.ok (cloneEntry (applyMeta m ⟨p, "1", now, []⟩) ⟨p, "1", now, []⟩).1,
                (s.ensureType r.GetResourceType).setEntry r.GetResourceType r.GetID
                  ⟨p, "1", now, []⟩,
                (cloneEntry (applyMeta m ⟨p, "1", now, []⟩) ⟨p, "1", now, []⟩).2) := by
            simp only [Create, Heap.deref, Option.some_bind, hp, hid, if_false,
              Store.entry_ensureType, he, newEntry]
          obtain ⟨h2, h3⟩ := heap_stamp_clone hs ⟨p, "1", now, []⟩
          rw [Store.Create_ok now s m.heap p r hp hid he, h1, h2]
          exact ⟨rfl, h3⟩

/-- As long as no `Meta` object is shared, `Update` is `Store.Update` on the
heap of contents. -/
theorem heap_Update {m : Memory} (hs : m.Separate) (now : String) (s : Store.Store)
    (resource : Option Ptr) :
    s.Update now m.heap resource =
        ((Update now s m resource).1, (Update now s m resource).2.1,
          (Update now s m resource).2.2.heap) ∧
      (Update now s m resource).2.2.Separate := by
  cases hd : m.heap.deref resource with
  | none =>
    have h1 : Update now s m resource = (.error .resourceIsNil, s, m) := by
      unfold Update
      split
      · rename_i heq
        rw [hd] at heq
        exact Option.noConfusion heq
      · rfl
    rw [Store.Update_nil now s m.heap resource hd, h1]
    exact ⟨rfl, hs⟩
  | some r =>
    cases resource with
    | none => simp [Heap.deref] at hd
    | some p =>
      have hp : m.heap[p]? = some r := hd
      by_cases hid : r.GetID = ""
      · have h1 : Update now s m (some p) = (.error .resourceIdRequired, s, m) := by
          simp only [Update, Heap.deref, Option.some_bind, hp, hid, if_true]
        rw [Store.Update_idRequired now s m.heap p r hp hid, h1]
        exact ⟨rfl, hs⟩
      · cases he : s.entry r.GetResourceType r.GetID with
        | some e =>
          have h1 : Update now s m (some p) =
              (.ok (cloneEntry (applyMeta m (Store.nextEntry now p e))
                  (Store.nextEntry now p e)).1,
                s.setEntry r.GetResourceType r.GetID (Store.nextEntry now p e),
                (cloneEntry (applyMeta m (Store.nextEntry now p e))
                  (Store.nextEntry now p e)).2) := by
            simp only [Update, Heap.deref, Option.some_bind, hp, hid, if_false,
              Store.entry_ensureType, he, Store.ensureType_of_entry s _ _ e he, Store.nextEntry]
          obtain ⟨h2, h3⟩ := heap_stamp_clone hs (Store.nextEntry now p e)
          rw [Store.Update_existing now s m.heap p r e hp hid he, h1, h2]
          exact ⟨rfl, h3⟩
        | none =>
          have h1 : Update now s m (some p) =
              (.ok (cloneEntry (applyMeta m ⟨p, "1", now, []⟩) ⟨p, "1", now, []⟩).1,
                (s.ensureType r.GetResourceType).setEntry r.GetResourceType r.GetID
                  ⟨p, "1", now, []⟩,
                (cloneEntry (applyMeta m ⟨p, "1", now, []⟩) ⟨p, "1", now, []⟩).2) := by
            simp only [Update, Heap.deref, Option.some_bind, hp, hid, if_false,
              Store.entry_ensureType, he, newEntry]
          obtain ⟨h2, h3⟩ := heap_stamp_clone hs ⟨p, "1", now, []⟩
          rw [Store.Update_new now s m.heap p r hp hid he, h1, h2]
          exact ⟨rfl, h3⟩

/-- As long as no `Meta` object is shared, `Get` is `Store.Get` on the heap of
contents. -/
theorem heap_Get {m : Memory} (hs : m.Separate) (s : Store.Store) (t i : String) :
    s.Get m.heap t i = ((Get s m t i).1, (Get s m t i).2.heap) ∧ (Get s m t i).2.Separate := by
  by_cases hk : t = "" ∨ i = ""
  · simp only [Store.Store.Get, Get, hk, if_true]
    exact ⟨trivial, hs⟩
  · cases he : s.entry t i with
    | none =>
      simp only [Store.Store.Get, Get, hk, if_false, he]
      exact ⟨trivial, hs⟩
    | some e =>
      obtain ⟨h2, h3⟩ := heap_cloneEntry hs e
      simp only [Store.Store.Get, Get, hk, if_false, he, h2]
      exact ⟨trivial, h3⟩

theorem heap_History {m : Memory} (hs : m.Separate) (s : Store.Store) (t i : String) :
    s.History m.heap t i = ((History s m t i).1, (History s m t i).2.heap) := by
  obtain ⟨h1, _⟩ := heap_Get hs s t i
  simp only [Store.Store.History, History, h1]
  cases hg : Get s m t i with
  | mk result m1 =>
    cases result with
    | error err => rfl
    | ok e => rfl

/-- The states of `Reachable` are states of `Store.Reachable` on the heap of
contents, and no `Meta` object is shared in them. -/
theorem Reachable.lower {s : Store.Store} {m : Memory} (hr : Reachable s m) :
    Store.Reachable s m.heap ∧ m.Separate := by
  induction hr with
  | init => exact ⟨Store.Reachable.init _, Separate_empty⟩
  | alloc r _ ih =>
    obtain ⟨_, h2, h3⟩ := heap_alloc ih.2 r
    rw [h2]
    exact ⟨Store.Reachable.alloc r ih.1, h3⟩
  | create now resource _ ih =>
    obtain ⟨h1, h2⟩ := heap_Create ih.2 now _ resource
    refine ⟨?_, h2⟩
    have := Store.Reachable.create now resource ih.1
    rw [h1] at this
    exact this
  | update now resource _ ih =>
    obtain ⟨h1, h2⟩ := heap_Update ih.2 now _ resource
    refine ⟨?_, h2⟩
    have := Store.Reachable.update now resource ih.1
    rw [h1] at this
    exact this
  | delete t i _ ih => exact ⟨Store.Reachable.delete t i ih.1, ih.2⟩
  | get t i _ ih =>
    obtain ⟨h1, h2⟩ := heap_Get ih.2 _ t i
    refine ⟨?_, h2⟩
    have := Store.Reachable.get t i ih.1
    rw [h1] at this
    exact this

theorem heap_createAt {st : Store.Store × Memory} (hs : st.2.Separate) (x : Ptr × String) :
    Store.createAt (st.1, st.2.heap) x = ((createAt st x).1, (createAt st x).2.heap) ∧
      (createAt st x).2.Separate := by
  obtain ⟨h1, h2⟩ := heap_Create hs x.2 st.1 (some x.1)
  simp only [Store.createAt, createAt, h1]
  exact ⟨trivial, h2⟩

theorem heap_updateAt {st : Store.Store × Memory} (hs : st.2.Separate) (x : Ptr × String) :
    Store.updateAt (st.1, st.2.heap) x = ((updateAt st x).1, (updateAt st x).2.heap) ∧
      (updateAt st x).2.Separate := by
  obtain ⟨h1, h2⟩ := heap_Update hs x.2 st.1 (some x.1)
  simp only [Store.updateAt, updateAt, h1]
  exact ⟨trivial, h2⟩

theorem heap_foldl_updateAt (xs : List (Ptr × String)) :
    ∀ st : Store.Store × Memory, st.2.Separate →
      xs.foldl Store.updateAt (st.1, st.2.heap) =
          ((xs.foldl updateAt st).1, (xs.foldl updateAt st).2.heap) ∧
        (xs.foldl updateAt st).2.Separate := by
  induction xs with
  | nil => intro st hs; exact ⟨rfl, hs⟩
  | cons x xs ih =>
    intro st hs
    obtain ⟨h1, h2⟩ := heap_updateAt hs x
    simp only [List.foldl_cons, h1]
    exact ih (updateAt st x) h2

/-- A successful call on the memory is the same successful call on the heap of
contents. -/
theorem ok_on_heap {s : Store.Store} {m : Memory} (hs : m.Separate) {now : String} {p : Ptr}
    {out : Store.ResourceEntry} {s1 : Store.Store} {m1 : Memory}
    (hok : Create now s m (some p) = (.ok out, s1, m1) ∨
      Update now s m (some p) = (.ok out, s1, m1)) :
    s.Create now m.heap (some p) = (.ok out, s1, m1.heap) ∨
      s.Update now m.heap (some p) = (.ok out, s1, m1.heap) := by
  rcases hok with hok | hok
  · left
    rw [(heap_Create hs now s (some p)).1, hok]
  · right
    rw [(heap_Update hs now s (some p)).1, hok]

/-! ## Properties of the store on the memory with `Meta` objects -/

theorem reachable_createdA : Reachable createdA.2.1 createdA.2.2 :=
  Reachable.create "t0" (some 0) (Reachable.alloc (Store.examplePatient "a") Reachable.init)

theorem reachable_secondA : Reachable createdA.2.1 secondA.2 :=
  Reachable.alloc (Store.examplePatient "a") reachable_createdA

theorem reachable_createdB : Reachable createdB.2.1 createdB.2.2 :=
  Reachable.create "t1" (some 2) (Reachable.alloc (Store.examplePatient "b") reachable_createdA)

theorem reachable_threeSeparate : Reachable Store.NewStore threeSeparate :=
  Reachable.alloc _ (Reachable.alloc _ (Reachable.alloc _ Reachable.init))

/-- C2, as stated, fails for a resource object that the entry holds and for
one whose field `Meta` points to the `Meta` object of the current resource:
patient "a" is stored at version "1"; `Update` with the stored object itself,
and `Update` with a new patient struct "a" that shares its `Meta` object, both
return a history whose one snapshot carries version "2" and the time of the
update, where the resource that was current before the call carried version
"1". -/
theorem update_restamps_snapshot :
    createdA.2.1.entry "Patient" "a" = some ⟨0, "1", "t0", []⟩ ∧
    createdA.2.2.heap[0]? = some (patientA "1" "t0") ∧
    (Update "t1" createdA.2.1 createdA.2.2 (some 0)).1 = .ok ⟨2, "2", "t1", [3]⟩ ∧
    (Update "t1" createdA.2.1 createdA.2.2 (some 0)).2.2.heap[3]? = some (patientA "2" "t1") ∧
    sharingA.1 = 2 ∧
    sharingA.2.heap[0]? = some (patientA "1" "t0") ∧
    (Update "t1" createdA.2.1 sharingA.2 (some 2)).1 = .ok ⟨3, "2", "t1", [4]⟩ ∧
    (Update "t1" createdA.2.1 sharingA.2 (some 2)).2.2.heap[4]? = some (patientA "2" "t1") := by
  decide

/-- C2 (amended): in a state reached with resource objects no two of which
share a `Meta` object, in which (type, id) is stored with version `v` and
history `h`, for every resource object `r` with that type and id that the
entry does not hold, `Update(r)` returns an entry whose version is `v + 1`,
whose history is `h` followed by exactly one snapshot equal to the resource
that was current before the call, and whose current resource is `r` stamped
with version `v + 1`. -/
theorem update_appends_snapshot (now : String) (s : Store.Store) (m : Memory)
    (hr : Reachable s m) (p : Ptr) (r : Dstu3.Resource) (e : Store.ResourceEntry)
    (hp : m.heap[p]? = some r)
    (hstored : s.entry r.GetResourceType r.GetID = some e)
    (hnew : p ∉ e.Resource :: e.History) :
    ∃ v out s1 m1,
      e.VersionID = toString v ∧
      Update now s m (some p) = (.ok out, s1, m1) ∧
      out.VersionID = toString (v + 1) ∧
      (out.value m1.heap).History = (e.value m.heap).History ++ [(e.value m.heap).Resource] ∧
      out.History.length = e.History.length + 1 ∧
      (out.value m1.heap).Resource = some (Store.stampMeta r (toString (v + 1)) now) := by
  obtain ⟨hrv, hs⟩ := hr.lower
  obtain ⟨halloc, hver, hid⟩ := hrv.inv _ _ e hstored
  obtain ⟨out, h1, hupd, _, hval1, hout, hv, hl, _⟩ :=
    Store.Update_unheld now s m.heap p r e hp halloc hid hstored hnew
  obtain ⟨hsim, _⟩ := heap_Update hs now s (some p)
  rw [hsim] at hupd
  simp only [Prod.mk.injEq] at hupd
  obtain ⟨ho, hs1, hh1⟩ := hupd
  subst hh1
  refine ⟨e.History.length + 1, out, (Update now s m (some p)).2.1,
    (Update now s m (some p)).2.2, hver, Prod.ext ho rfl, hv, ?_, hl, ?_⟩
  · rw [hout, hval1]
  · rw [hout, hval1]

/-- C2 (amended), at a concrete input: patient "a" is stored at version 1, and
the caller builds a second patient "a" and calls `Update` with it. -/
theorem update_appends_snapshot_witness :
    Reachable createdA.2.1 secondA.2 ∧
    secondA.2.heap[2]? = some (Store.examplePatient "a") ∧
    createdA.2.1.entry (Store.examplePatient "a").GetResourceType
      (Store.examplePatient "a").GetID = some ⟨0, "1", "t0", []⟩ ∧
    2 ∉ (⟨0, "1", "t0", []⟩ : Store.ResourceEntry).Resource ::
      (⟨0, "1", "t0", []⟩ : Store.ResourceEntry).History ∧
    ∃ v out s1 m1,
      (⟨0, "1", "t0", []⟩ : Store.ResourceEntry).VersionID = toString v ∧
      Update "t1" createdA.2.1 secondA.2 (some 2) = (.ok out, s1, m1) ∧
      out.VersionID = toString (v + 1) ∧
      (out.value m1.heap).History =
        ((⟨0, "1", "t0", []⟩ : Store.ResourceEntry).value secondA.2.heap).History ++
          [((⟨0, "1", "t0", []⟩ : Store.ResourceEntry).value secondA.2.heap).Resource] ∧
      out.History.length = (⟨0, "1", "t0", []⟩ : Store.ResourceEntry).History.length + 1 ∧
      (out.value m1.heap).Resource =
        some (Store.stampMeta (Store.examplePatient "a") (toString (v + 1)) "t1") :=
  ⟨reachable_secondA, by decide, by decide, by decide,
    update_appends_snapshot "t1" createdA.2.1 secondA.2 reachable_secondA 2
      (Store.examplePatient "a") ⟨0, "1", "t0", []⟩ (by decide) (by decide) (by decide)⟩

/-- C9, as stated, fails in three ways. For resources without a resource type
the `Create` and the `Update` succeed and `History(type, id)` is refused with
"resource type and id are required". For two patient structs that share one
`Meta` object, and for `Update` called with the struct that `Create` was
called with, `History` returns one snapshot, the resource stored first, and it
carries meta.versionId "2". -/
theorem history_untyped_or_restamped :
    (createAt (Store.NewStore, twoUntyped) (0, "t0")).1.entry "" "x" =
      some ⟨0, "1", "t0", []⟩ ∧
    ([(1, "t1")].foldl updateAt (createAt (Store.NewStore, twoUntyped) (0, "t0"))).1.entry "" "x" =
      some ⟨1, "2", "t1", [0]⟩ ∧
    (History ([(1, "t1")].foldl updateAt (createAt (Store.NewStore, twoUntyped) (0, "t0"))).1
      ([(1, "t1")].foldl updateAt (createAt (Store.NewStore, twoUntyped) (0, "t0"))).2
      "" "x").1 = .error .typeAndIdRequired ∧
    (History ([(1, "t1")].foldl updateAt (createAt (Store.NewStore, twoSharing) (0, "t0"))).1
      ([(1, "t1")].foldl updateAt (createAt (Store.NewStore, twoSharing) (0, "t0"))).2
      "Patient" "a").1 = .ok [6] ∧
    (History ([(1, "t1")].foldl updateAt (createAt (Store.NewStore, twoSharing) (0, "t0"))).1
      ([(1, "t1")].foldl updateAt (createAt (Store.NewStore, twoSharing) (0, "t0"))).2
      "Patient" "a").2.heap[6]? = some (patientA "2" "t1") ∧
    (History ([(0, "t1")].foldl updateAt (createAt (Store.NewStore, threeSeparate) (0, "t0"))).1
      ([(0, "t1")].foldl updateAt (createAt (Store.NewStore, threeSeparate) (0, "t0"))).2
      "Patient" "a").1 = .ok [7] ∧
    (History ([(0, "t1")].foldl updateAt (createAt (Store.NewStore, threeSeparate) (0, "t0"))).1
      ([(0, "t1")].foldl updateAt (createAt (Store.NewStore, threeSeparate) (0, "t0"))).2
      "Patient" "a").2.heap[7]? = some (patientA "2" "t1") := by
  decide

/-- C9 (amended): in a state reached with resource objects no two of which
share a `Meta` object, starting from an empty slot (type, id) with a non-empty
type and id, after `Create(r0)` followed by `Update(r1)`, ..., `Update(rn)`
with pairwise different resource objects `r0`, ..., `rn` of that (type, id),
`History(type, id)` returns exactly `n` snapshots in the order
`r0, r1, ..., r(n-1)` (oldest first), the k-th of which (counting from 1) is
the resource as stored then, with meta.versionId equal to `k`. -/
theorem history_lists_snapshots (s : Store.Store) (m : Memory) (hr : Reachable s m)
    (t i : String) (ht : t ≠ "") (hi : i ≠ "") (hfree : s.entry t i = none)
    (x0 : Ptr × String) (xs : List (Ptr × String))
    (hxs : ∀ x ∈ x0 :: xs,
      (m.heap[x.1]?).map (fun r => (r.GetResourceType, r.GetID)) = some (t, i))
    (hnew : ((x0 :: xs).map Prod.fst).Nodup) :
    ∃ hist m1,
      History (xs.foldl updateAt (createAt (s, m) x0)).1
        (xs.foldl updateAt (createAt (s, m) x0)).2 t i = (.ok hist, m1) ∧
      hist.length = xs.length ∧
      hist.map (fun p => m1.heap[p]?) = (x0 :: xs).dropLast.mapIdx
        fun k x => (m.heap[x.1]?).map fun r => Store.stampMeta r (toString (k + 1)) x.2 := by
  obtain ⟨_, hs⟩ := hr.lower
  have hkey : ∀ x ∈ x0 :: xs, ∃ r, m.heap[x.1]? = some r ∧ r.GetResourceType = t ∧
      r.GetID = i := by
    intro x hx
    have := hxs x hx
    cases hp : m.heap[x.1]? with
    | none =>
      rw [hp] at this
      exact Option.noConfusion this
    | some r =>
      rw [hp] at this
      simp only [Option.map_some', Option.some.injEq, Prod.mk.injEq] at this
      exact ⟨r, rfl, this.1, this.2⟩
  obtain ⟨r0, hp0, h0t, h0i⟩ := hkey x0 (List.mem_cons_self _ _)
  subst h0t h0i
  simp only [List.map_cons, List.nodup_cons, List.mem_map, not_exists, not_and] at hnew
  obtain ⟨hent, halloc, hval, hkeep⟩ := Store.Create_at x0.2 s m.heap x0.1 r0 hp0 hi hfree
  obtain ⟨hc1, hc2⟩ := @heap_createAt (s, m) hs x0
  obtain ⟨hf1, hf2⟩ := heap_foldl_updateAt xs (createAt (s, m) x0) hc2
  obtain ⟨e1, he1, halloc1, hhist⟩ :=
    Store.entry_after_updatesAt (fun p => m.heap[p]?) _ _ hi xs [] x0
      (Store.createAt (s, m.heap) x0) ⟨x0.1, "1", x0.2, []⟩
      (by
        intro x hx
        obtain ⟨r, hp, hxt, hxi⟩ := hkey x (List.mem_cons_of_mem _ hx)
        refine ⟨r, hp, ?_, hxt, hxi⟩
        rw [hkeep x.1 (fun heq => hnew.1 x hx heq) (Store.lt_length_of_getElem? hp)]
        exact hp)
      hnew.2
      (by
        intro x hx hmem
        simp only [List.mem_singleton] at hmem
        exact hnew.1 x hx hmem)
      hent halloc (by
        have h1s : (toString (0 + 1) : String) = "1" := by decide
        rw [hval]
        simp only [Store.stampedAt, List.length_nil, List.mapIdx_nil, h1s, hp0,
          Option.map_some'])
  have hc1' : Store.createAt (s, m.heap) x0 =
      ((createAt (s, m) x0).1, (createAt (s, m) x0).2.heap) := hc1
  rw [hc1', hf1] at he1 halloc1 hhist
  have hg := Store.History_ok _ (xs.foldl updateAt (createAt (s, m) x0)).2.heap _ _ e1 ht hi he1
  rw [heap_History hf2] at hg
  simp only [Prod.mk.injEq] at hg
  obtain ⟨hg1, hg2⟩ := hg
  have hv := Store.cloneEntry_value _ _ halloc1
  have hh := congrArg Store.EntryValue.History hv
  rw [hhist] at hh
  refine ⟨_, _, Prod.ext hg1 rfl, ?_, ?_⟩
  · have := congrArg List.length hh
    simpa [Store.ResourceEntry.value] using this
  · rw [hg2]
    simpa [Store.ResourceEntry.value, Store.stampedAt] using hh

/-- C9 (amended), at a concrete input: three patient structs "a", the first
created and the other two passed to `Update`. -/
theorem history_lists_snapshots_witness :
    Reachable Store.NewStore threeSeparate ∧
    ("Patient" : String) ≠ "" ∧ ("a" : String) ≠ "" ∧
    Store.NewStore.entry "Patient" "a" = none ∧
    (∀ x ∈ [((0 : Ptr), "t0"), (1, "t1"), (2, "t2")],
      (threeSeparate.heap[x.1]?).map (fun r => (r.GetResourceType, r.GetID)) =
        some ("Patient", "a")) ∧
    ([((0 : Ptr), "t0"), (1, "t1"), (2, "t2")].map Prod.fst).Nodup ∧
    ∃ hist m1,
      History ([((1 : Ptr), "t1"), (2, "t2")].foldl updateAt
          (createAt (Store.NewStore, threeSeparate) (0, "t0"))).1
        ([((1 : Ptr), "t1"), (2, "t2")].foldl updateAt
          (createAt (Store.NewStore, threeSeparate) (0, "t0"))).2 "Patient" "a"
        = (.ok hist, m1) ∧
      hist.length = [((1 : Ptr), "t1"), (2, "t2")].length ∧
      hist.map (fun p => m1.heap[p]?) =
        ([((0 : Ptr), "t0"), (1, "t1"), (2, "t2")]).dropLast.mapIdx
          fun k x => (threeSeparate.heap[x.1]?).map
            fun r => Store.stampMeta r (toString (k + 1)) x.2 :=
  ⟨reachable_threeSeparate, by decide, by decide, by decide, by decide, by decide,
    history_lists_snapshots Store.NewStore threeSeparate reachable_threeSeparate "Patient" "a"
      (by decide) (by decide) (by decide) (0, "t0") [(1, "t1"), (2, "t2")]
      (by decide) (by decide)⟩

/-- C38, as stated, fails when two resource objects share a `Meta` object:
patient "a" and patient "b" are stored at version "1"; after an `Update` with
a second patient struct "b" whose field `Meta` points to the `Meta` object of
the stored patient "a", the entry of "a" still has VersionID "1" and the
timestamp "t0", and its current resource carries meta.versionId "2" and
meta.lastUpdated "t2". -/
theorem shared_meta_restamped :
    createdB.2.1.entry "Patient" "a" = some ⟨0, "1", "t0", []⟩ ∧
    createdB.2.2.heap[0]? = some (patientA "1" "t0") ∧
    sharingB.1 = 4 ∧
    (Update "t2" createdB.2.1 sharingB.2 (some 4)).1 = .ok ⟨5, "2", "t2", [6]⟩ ∧
    (Update "t2" createdB.2.1 sharingB.2 (some 4)).2.1.entry "Patient" "a" =
      some ⟨0, "1", "t0", []⟩ ∧
    (Update "t2" createdB.2.1 sharingB.2 (some 4)).2.2.heap[0]? = some (patientA "2" "t2") := by
  decide

/-- C38 (amended): in every state reached from `NewStore()` by `Create`,
`Update` and `Delete` calls with resource objects no two of which share a
`Meta` object, the entry stored under the key (t, i) holds a current resource
whose resource type is `t` and whose id is `i`, and whose meta.versionId and
meta.lastUpdated are the VersionID and the LastUpdated of the entry; and a
successful `Create` or `Update` of a resource `r` stores `r` with its meta
overwritten by the version and the timestamp of the new entry, the
meta.profile list of `r` being kept. -/
theorem entry_resource_stamped (s : Store.Store) (m : Memory) (hr : Reachable s m) :
    (∀ t i e, s.entry t i = some e →
      ∃ (r : Dstu3.Resource) (x : Dstu3.Meta), m.heap[e.Resource]? = some r ∧
        r.GetResourceType = t ∧ r.GetID = i ∧ r.GetMeta = some x ∧
        x.VersionID = e.VersionID ∧ x.LastUpdated = e.LastUpdated) ∧
    (∀ now p r out s1 m1, m.heap[p]? = some r →
      (Create now s m (some p) = (.ok out, s1, m1) ∨
        Update now s m (some p) = (.ok out, s1, m1)) →
      ∃ e, s1.entry r.GetResourceType r.GetID = some e ∧ e.Resource = p ∧
        e.LastUpdated = now ∧ m1.heap[p]? = some (Store.stampMeta r e.VersionID now) ∧
        (Store.stampMeta r e.VersionID now).GetMeta =
          some { VersionID := e.VersionID, LastUpdated := now,
                 Profile := (r.GetMeta.getD {}).Profile }) := by
  obtain ⟨hrv, hs⟩ := hr.lower
  constructor
  · intro t i e he
    obtain ⟨r, x, hp, hm, hv, hu⟩ := Store.stamped_of_reachable hrv t i e he
    obtain ⟨r1, hp1, ht, hi⟩ := Search.keyed_of_reachable hrv t i e he
    rw [hp] at hp1
    injection hp1 with hp1
    subst hp1
    exact ⟨r, x, hp, ht, hi, hm, hv, hu⟩
  · intro now p r out s1 m1 hp hok
    obtain ⟨e, he, hres, hnow, hget⟩ :=
      Store.stored_of_ok s m.heap now p r hp out s1 m1.heap (ok_on_heap hs hok)
    exact ⟨e, he, hres, hnow, hget, Store.stampMeta_GetMeta r _ _⟩

/-- C38 (amended), at the state in which the patients "a" and "b" are stored. -/
theorem entry_resource_stamped_witness :
    Reachable createdB.2.1 createdB.2.2 ∧
    createdB.2.1.entry "Patient" "b" = some ⟨2, "1", "t1", []⟩ ∧
    createdB.2.2.heap[2]? =
      some (.patient { ResourceType := "Patient", ID := "b", Meta := some ⟨"1", "t1", []⟩ }) ∧
    ((∀ t i e, createdB.2.1.entry t i = some e →
      ∃ (r : Dstu3.Resource) (x : Dstu3.Meta), createdB.2.2.heap[e.Resource]? = some r ∧
        r.GetResourceType = t ∧ r.GetID = i ∧ r.GetMeta = some x ∧
        x.VersionID = e.VersionID ∧ x.LastUpdated = e.LastUpdated) ∧
    (∀ now p r out s1 m1, createdB.2.2.heap[p]? = some r →
      (Create now createdB.2.1 createdB.2.2 (some p) = (.ok out, s1, m1) ∨
        Update now createdB.2.1 createdB.2.2 (some p) = (.ok out, s1, m1)) →
      ∃ e, s1.entry r.GetResourceType r.GetID = some e ∧ e.Resource = p ∧
        e.LastUpdated = now ∧ m1.heap[p]? = some (Store.stampMeta r e.VersionID now) ∧
        (Store.stampMeta r e.VersionID now).GetMeta =
          some { VersionID := e.VersionID, LastUpdated := now,
                 Profile := (r.GetMeta.getD {}).Profile })) :=
  ⟨reachable_createdB, by decide, by decide,
    entry_resource_stamped createdB.2.1 createdB.2.2 reachable_createdB⟩

/-- C39, as stated, fails when two resource objects share a `Meta` object: a
successful `Update` on (Patient, b) with a patient struct whose field `Meta`
points to the `Meta` object of the stored patient "a" leaves the entry of
(Patient, a) with another current resource than before, the one with
meta.versionId "2". -/
theorem update_changes_other_entry :
    createdB.2.1.entry "Patient" "a" = some ⟨0, "1", "t0", []⟩ ∧
    (Store.examplePatient "b").GetResourceType = "Patient" ∧
    (Store.examplePatient "b").GetID = "b" ∧
    ((Update "t2" createdB.2.1 sharingB.2 (some sharingB.1)).1 = .ok ⟨5, "2", "t2", [6]⟩) ∧
    (⟨0, "1", "t0", []⟩ : Store.ResourceEntry).value sharingB.2.heap =
      ⟨some (patientA "1" "t0"), "1", "t0", []⟩ ∧
    (⟨0, "1", "t0", []⟩ : Store.ResourceEntry).value
        (Update "t2" createdB.2.1 sharingB.2 (some sharingB.1)).2.2.heap =
      ⟨some (patientA "2" "t2"), "1", "t0", []⟩ := by
  decide

/-- C39 (amended): in a state reached with resource objects no two of which
share a `Meta` object, a successful `Create` or `Update` of a resource with
the key (type, id), and a successful `Delete` of (type, id), leave every entry
stored under any other key as it is: the same entry (current resource,
version, timestamp and history), with the same content. -/
theorem other_keys_untouched (s : Store.Store) (m : Memory) (hr : Reachable s m) :
    (∀ now p r out s1 m1, m.heap[p]? = some r →
      (Create now s m (some p) = (.ok out, s1, m1) ∨
        Update now s m (some p) = (.ok out, s1, m1)) →
      ∀ t1 i1, ¬ (t1 = r.GetResourceType ∧ i1 = r.GetID) →
        s1.entry t1 i1 = s.entry t1 i1 ∧
        ∀ e1, s.entry t1 i1 = some e1 → e1.value m1.heap = e1.value m.heap) ∧
    (∀ t i, (s.Delete t i).1 = none → ∀ t1 i1, ¬ (t1 = t ∧ i1 = i) →
      (s.Delete t i).2.entry t1 i1 = s.entry t1 i1) := by
  obtain ⟨hrv, hs⟩ := hr.lower
  constructor
  · intro now p r out s1 m1 hp hok t1 i1 hkey
    obtain ⟨s0, e, hs0, hres, _, hs1, hm1⟩ :=
      Store.stored_entry_of_ok s m.heap now p r hp out s1 m1.heap (ok_on_heap hs hok)
    subst hres hs1
    refine ⟨(Store.entry_setEntry_other s0 _ _ t1 i1 e hkey).trans (hs0 t1 i1), ?_⟩
    intro e1 he1
    have halloc : e1.allocated (Store.applyMeta m.heap e) :=
      Store.allocated_of_length_le (by rw [Store.applyMeta_length]) (hrv.inv t1 i1 e1 he1).1
    rw [hm1, Store.value_of_extends (Store.cloneEntry_extends _ _) halloc]
    apply Store.value_applyMeta_other
    intro q hq heq
    obtain ⟨r1, hp1, ht1, hi1⟩ := Store.keyedAll_of_reachable hrv t1 i1 e1 he1 q hq
    rw [heq, hp] at hp1
    injection hp1 with hp1
    subst hp1
    exact hkey ⟨ht1.symm, hi1.symm⟩
  · intro t i _ t1 i1 hkey
    exact Store.entry_Delete_other s t i t1 i1 hkey

/-- C39 (amended), at the state in which the patients "a" and "b" are stored:
a successful call on one of them leaves the entry of the other as it is. -/
theorem other_keys_untouched_witness :
    Reachable createdB.2.1 createdB.2.2 ∧
    createdB.2.1.entry "Patient" "a" = some ⟨0, "1", "t0", []⟩ ∧
    (createdB.2.1.Delete "Patient" "b").1 = none ∧
    ((∀ now p r out s1 m1, createdB.2.2.heap[p]? = some r →
      (Create now createdB.2.1 createdB.2.2 (some p) = (.ok out, s1, m1) ∨
        Update now createdB.2.1 createdB.2.2 (some p) = (.ok out, s1, m1)) →
      ∀ t1 i1, ¬ (t1 = r.GetResourceType ∧ i1 = r.GetID) →
        s1.entry t1 i1 = createdB.2.1.entry t1 i1 ∧
        ∀ e1, createdB.2.1.entry t1 i1 = some e1 →
          e1.value m1.heap = e1.value createdB.2.2.heap) ∧
    (∀ t i, (createdB.2.1.Delete t i).1 = none → ∀ t1 i1, ¬ (t1 = t ∧ i1 = i) →
      (createdB.2.1.Delete t i).2.entry t1 i1 = createdB.2.1.entry t1 i1)) :=
  ⟨reachable_createdB, by decide, by decide,
    other_keys_untouched createdB.2.1 createdB.2.2 reachable_createdB⟩

end Shared

/-! ## The handlers: what is rejected, and what a batch does -/

namespace Api

open Store

/-! ### `DecodeResource` -/

/-- A member that the struct does not declare makes the decoding of the object
fail. -/
theorem decodeMembers_unknown {α : Type}
    (member : α → String → JsonValue → Except Dstu3.DecodeError α) (known : String → Prop)
    (hun : ∀ cur name v, ¬ known name → ∃ err, member cur name v = .error err) :
    ∀ (fields : List (String × JsonValue)) (cur : α), (∃ kv ∈ fields, ¬ known kv.1) →
      ∃ err, Dstu3.decodeMembers member cur fields = .error err := by
  intro fields
  induction fields with
  | nil =>
    rintro cur ⟨kv, hkv, _⟩
    exact absurd hkv (List.not_mem_nil _)
  | cons kv more ih =>
    rintro cur ⟨kv1, hkv1, hnot⟩
    obtain ⟨name, value⟩ := kv
    cases hm : member cur name value with
    | error err => exact ⟨err, by simp only [Dstu3.decodeMembers, hm]⟩
    | ok next =>
      rcases List.mem_cons.mp hkv1 with rfl | hmore
      · obtain ⟨err, herr⟩ := hun cur name value hnot
        rw [hm] at herr
        exact Except.noConfusion herr
      · obtain ⟨err, herr⟩ := ih next ⟨kv1, hmore, hnot⟩
        exact ⟨err, by simp only [Dstu3.decodeMembers, hm, herr]⟩

theorem Patient_unknown (p : Dstu3.Patient) (name : String) (v : JsonValue)
    (h : ¬ declares (.patient p) name) :
    ∃ err, Dstu3.Patient.decodeMember p name v = .error err := by
  simp only [declares, fieldNames, List.mem_cons, List.mem_singleton, List.not_mem_nil,
    or_false, exists_eq_or_imp, exists_eq_left, not_or, Bool.not_eq_true] at h
  exact ⟨.unknownField name, by
    simp [Dstu3.Patient.decodeMember, Dstu3.ResourceBase.decodeMember, h]⟩

theorem Practitioner_unknown (p : Dstu3.Practitioner) (name : String) (v : JsonValue)
    (h : ¬ declares (.practitioner p) name) :
    ∃ err, Dstu3.Practitioner.decodeMember p name v = .error err := by
  simp only [declares, fieldNames, List.mem_cons, List.mem_singleton, List.not_mem_nil,
    or_false, exists_eq_or_imp, exists_eq_left, not_or, Bool.not_eq_true] at h
  exact ⟨.unknownField name, by
    simp [Dstu3.Practitioner.decodeMember, Dstu3.ResourceBase.decodeMember, h]⟩

theorem PractitionerRole_unknown (p : Dstu3.PractitionerRole) (name : String) (v : JsonValue)
    (h : ¬ declares (.practitionerRole p) name) :
    ∃ err, Dstu3.PractitionerRole.decodeMember p name v = .error err := by
  simp only [declares, fieldNames, List.mem_cons, List.mem_singleton, List.not_mem_nil,
    or_false, exists_eq_or_imp, exists_eq_left, not_or, Bool.not_eq_true] at h
  exact ⟨.unknownField name, by
    simp [Dstu3.PractitionerRole.decodeMember, Dstu3.ResourceBase.decodeMember, h]⟩

theorem Organization_unknown (p : Dstu3.Organization) (name : String) (v : JsonValue)
    (h : ¬ declares (.organization p) name) :
    ∃ err, Dstu3.Organization.decodeMember p name v = .error err := by
  simp only [declares, fieldNames, List.mem_cons, List.mem_singleton, List.not_mem_nil,
    or_false, exists_eq_or_imp, exists_eq_left, not_or, Bool.not_eq_true] at h
  exact ⟨.unknownField name, by
    simp [Dstu3.Organization.decodeMember, Dstu3.ResourceBase.decodeMember, h]⟩

theorem Observation_unknown (p : Dstu3.Observation) (name : String) (v : JsonValue)
    (h : ¬ declares (.observation p) name) :
    ∃ err, Dstu3.Observation.decodeMember p name v = .error err := by
  simp only [declares, fieldNames, List.mem_cons, List.mem_singleton, List.not_mem_nil,
    or_false, exists_eq_or_imp, exists_eq_left, not_or, Bool.not_eq_true] at h
  exact ⟨.unknownField name, by
    simp [Dstu3.Observation.decodeMember, Dstu3.ResourceBase.decodeMember, h]⟩

theorem Flag_unknown (p : Dstu3.Flag) (name : String) (v : JsonValue)
    (h : ¬ declares (.flag p) name) :
    ∃ err, Dstu3.Flag.decodeMember p name v = .error err := by
  simp only [declares, fieldNames, List.mem_cons, List.mem_singleton, List.not_mem_nil,
    or_false, exists_eq_or_imp, exists_eq_left, not_or, Bool.not_eq_true] at h
  exact ⟨.unknownField name, by
    simp [Dstu3.Flag.decodeMember, Dstu3.ResourceBase.decodeMember, h]⟩

theorem Consent_unknown (p : Dstu3.Consent) (name : String) (v : JsonValue)
    (h : ¬ declares (.consent p) name) :
    ∃ err, Dstu3.Consent.decodeMember p name v = .error err := by
  simp only [declares, fieldNames, List.mem_cons, List.mem_singleton, List.not_mem_nil,
    or_false, exists_eq_or_imp, exists_eq_left, not_or, Bool.not_eq_true] at h
  exact ⟨.unknownField name, by
    simp [Dstu3.Consent.decodeMember, Dstu3.ResourceBase.decodeMember, h]⟩

theorem AdvanceDirective_unknown (p : Dstu3.AdvanceDirective) (name : String) (v : JsonValue)
    (h : ¬ declares (.advanceDirective p) name) :
    ∃ err, Dstu3.AdvanceDirective.decodeMember p name v = .error err := by
  simp only [declares, fieldNames, List.mem_cons, List.mem_singleton, List.not_mem_nil,
    or_false, exists_eq_or_imp, exists_eq_left, not_or, Bool.not_eq_true] at h
  exact ⟨.unknownField name, by
    simp [Dstu3.AdvanceDirective.decodeMember, Dstu3.ResourceBase.decodeMember, h]⟩

theorem Location_unknown (p : Dstu3.Location) (name : String) (v : JsonValue)
    (h : ¬ declares (.location p) name) :
    ∃ err, Dstu3.Location.decodeMember p name v = .error err := by
  simp only [declares, fieldNames, List.mem_cons, List.mem_singleton, List.not_mem_nil,
    or_false, exists_eq_or_imp, exists_eq_left, not_or, Bool.not_eq_true] at h
  exact ⟨.unknownField name, by
    simp [Dstu3.Location.decodeMember, Dstu3.ResourceBase.decodeMember, h]⟩

theorem Task_unknown (p : Dstu3.Task) (name : String) (v : JsonValue)
    (h : ¬ declares (.task p) name) :
    ∃ err, Dstu3.Task.decodeMember p name v = .error err := by
  simp only [declares, fieldNames, List.mem_cons, List.mem_singleton, List.not_mem_nil,
    or_false, exists_eq_or_imp, exists_eq_left, not_or, Bool.not_eq_true] at h
  exact ⟨.unknownField name, by
    simp [Dstu3.Task.decodeMember, Dstu3.ResourceBase.decodeMember, h]⟩

/-- `Decode` fails on an object with a member that the struct of the resource
does not declare. -/
theorem decode_unknown (resource : Dstu3.Resource) (fields : List (String × JsonValue))
    (h : ∃ kv ∈ fields, ¬ declares resource kv.1) :
    ∃ err, resource.decode (.object fields) = .error err := by
  cases resource with
  | patient p =>
    obtain ⟨err, herr⟩ := decodeMembers_unknown Dstu3.Patient.decodeMember
      (fun name => declares (.patient p) name)
      (fun cur name v hn => Patient_unknown cur name v hn) fields p h
    exact ⟨err, by simp only [Dstu3.Resource.decode, Dstu3.decodeObject, herr, Except.map]⟩
  | practitioner p =>
    obtain ⟨err, herr⟩ := decodeMembers_unknown Dstu3.Practitioner.decodeMember
      (fun name => declares (.practitioner p) name)
      (fun cur name v hn => Practitioner_unknown cur name v hn) fields p h
    exact ⟨err, by simp only [Dstu3.Resource.decode, Dstu3.decodeObject, herr, Except.map]⟩
  | practitionerRole p =>
    obtain ⟨err, herr⟩ := decodeMembers_unknown Dstu3.PractitionerRole.decodeMember
      (fun name => declares (.practitionerRole p) name)
      (fun cur name v hn => PractitionerRole_unknown cur name v hn) fields p h
    exact ⟨err, by simp only [Dstu3.Resource.decode, Dstu3.decodeObject, herr, Except.map]⟩
  | organization p =>
    obtain ⟨err, herr⟩ := decodeMembers_unknown Dstu3.Organization.decodeMember
      (fun name => declares (.organization p) name)
      (fun cur name v hn => Organization_unknown cur name v hn) fields p h
    exact ⟨err, by simp only [Dstu3.Resource.decode, Dstu3.decodeObject, herr, Except.map]⟩
  | observation p =>
    obtain ⟨err, herr⟩ := decodeMembers_unknown Dstu3.Observation.decodeMember
      (fun name => declares (.observation p) name)
      (fun cur name v hn => Observation_unknown cur name v hn) fields p h
    exact ⟨err, by simp only [Dstu3.Resource.decode, Dstu3.decodeObject, herr, Except.map]⟩
  | flag p =>
    obtain ⟨err, herr⟩ := decodeMembers_unknown Dstu3.Flag.decodeMember
      (fun name => declares (.flag p) name)
      (fun cur name v hn => Flag_unknown cur name v hn) fields p h
    exact ⟨err, by simp only [Dstu3.Resource.decode, Dstu3.decodeObject, herr, Except.map]⟩
  | consent p =>
    obtain ⟨err, herr⟩ := decodeMembers_unknown Dstu3.Consent.decodeMember
      (fun name => declares (.consent p) name)
      (fun cur name v hn => Consent_unknown cur name v hn) fields p h
    exact ⟨err, by simp only [Dstu3.Resource.decode, Dstu3.decodeObject, herr, Except.map]⟩
  | advanceDirective p =>
    obtain ⟨err, herr⟩ := decodeMembers_unknown Dstu3.AdvanceDirective.decodeMember
      (fun name => declares (.advanceDirective p) name)
      (fun cur name v hn => AdvanceDirective_unknown cur name v hn) fields p h
    exact ⟨err, by simp only [Dstu3.Resource.decode, Dstu3.decodeObject, herr, Except.map]⟩
  | location p =>
    obtain ⟨err, herr⟩ := decodeMembers_unknown Dstu3.Location.decodeMember
      (fun name => declares (.location p) name)
      (fun cur name v hn => Location_unknown cur name v hn) fields p h
    exact ⟨err, by simp only [Dstu3.Resource.decode, Dstu3.decodeObject, herr, Except.map]⟩
  | task p =>
    obtain ⟨err, herr⟩ := decodeMembers_unknown Dstu3.Task.decodeMember
      (fun name => declares (.task p) name)
      (fun cur name v hn => Task_unknown cur name v hn) fields p h
    exact ⟨err, by simp only [Dstu3.Resource.decode, Dstu3.decodeObject, herr, Except.map]⟩

/-- The member named `resourceType` decoded over and over into a text that
stays empty. -/
theorem decodeMembers_empty (member : String → String → JsonValue → Except Dstu3.DecodeError String)
    (hmember : ∀ cur name v, member cur name v =
      if Dstu3.sameName name "resourceType" = true then Dstu3.decodeText cur v else .ok cur) :
    ∀ fields : List (String × JsonValue),
      (∀ kv ∈ fields, Dstu3.sameName kv.1 "resourceType" = true →
        kv.2 = .string "" ∨ kv.2 = .null) →
      Dstu3.decodeMembers member "" fields = .ok "" := by
  intro fields
  induction fields with
  | nil => intro _; rfl
  | cons kv more ih =>
    intro hall
    obtain ⟨name, value⟩ := kv
    have hmore := ih fun kv hkv => hall kv (List.mem_cons_of_mem _ hkv)
    have hstep : member "" name value = .ok "" := by
      rw [hmember]
      by_cases hn : Dstu3.sameName name "resourceType" = true
      · rw [if_pos hn]
        rcases hall (name, value) (List.mem_cons_self _ _) hn with hv | hv
        · simp only at hv
          subst hv
          rfl
        · simp only at hv
          subst hv
          rfl
      · rw [if_neg hn]
    simp only [Dstu3.decodeMembers, hstep, hmore]

/-- `DetectResourceType` finds no type in an object whose members named
`resourceType`, if any, hold the empty text or `null`. -/
theorem detect_missing (fields : List (String × JsonValue))
    (h : ∀ kv ∈ fields, Dstu3.sameName kv.1 "resourceType" = true →
      kv.2 = .string "" ∨ kv.2 = .null) :
    Dstu3.DetectResourceType (.json (.object fields)) = .error .missingResourceType := by
  have hfold := decodeMembers_empty
    (fun cur name v =>
      if Dstu3.sameName name "resourceType" = true then Dstu3.decodeText cur v else .ok cur)
    (fun _ _ _ => rfl) fields h
  simp only [Dstu3.DetectResourceType, Dstu3.decodeObject, hfold, if_true]

/-- `DetectResourceType` fails on a JSON value that is not an object. -/
theorem detect_not_object (value : JsonValue) (h : ∀ fields, value ≠ .object fields) :
    ∃ err, Dstu3.DetectResourceType (.json value) = .error err := by
  cases value with
  | object fields => exact absurd rfl (h fields)
  | null => exact ⟨_, rfl⟩
  | bool b => exact ⟨_, rfl⟩
  | integer n => exact ⟨_, rfl⟩
  | fraction l => exact ⟨_, rfl⟩
  | string s => exact ⟨_, rfl⟩
  | array items => exact ⟨_, rfl⟩

/-- C32: `Registry.DecodeResource` fails for every payload that is not JSON
text, for every JSON value that is not an object, for every object whose
members named `resourceType` (if any) hold the empty text or `null`, for every
payload that names a type the registry does not hold, and for every object
with a member that the struct of the named type does not declare, such as the
patient "pat-1" with a member "unknownField"; and for every payload on which
`DecodeResource` fails, `handleCreate` answers 400 with the text of the error,
whatever the validator, and leaves the store and the heap as they are. -/
theorem decodeResource_rejects (r : Dstu3.Registry) :
    (∀ message, r.DecodeResource (.malformed message) = .error (.malformed message)) ∧
    (∀ value, (∀ fields, value ≠ .object fields) →
      ∃ err, r.DecodeResource (.json value) = .error err) ∧
    (∀ fields, (∀ kv ∈ fields, Dstu3.sameName kv.1 "resourceType" = true →
        kv.2 = .string "" ∨ kv.2 = .null) →
      r.DecodeResource (.json (.object fields)) = .error .missingResourceType) ∧
    (∀ data t, Dstu3.DetectResourceType data = .ok t → r.Info t = none →
      r.DecodeResource data = .error (.unsupported t)) ∧
    (∀ fields t info, Dstu3.DetectResourceType (.json (.object fields)) = .ok t →
      r.Info t = some info → (∃ kv ∈ fields, ¬ declares info.Factory kv.1) →
      ∃ err, r.DecodeResource (.json (.object fields)) = .error err) ∧
    Dstu3.NewRegistry.DecodeResource
      (.json (.object [("resourceType", .string "Patient"), ("id", .string "pat-1"),
        ("unknownField", .string "x")])) = .error (.unknownField "unknownField") ∧
    (∀ (s : Server) (h : Heap) (now typeParam : String) (body : Dstu3.Payload)
      (err : Dstu3.DecodeError), s.Registry.DecodeResource body = .error err →
      s.handleCreate h now typeParam body =
        (.outcome 400 (Validation.NewOutcomeIssue "error" "invalid" err.Error), s, h)) := by
  refine ⟨?_, ?_, ?_, ?_, ?_, by decide, ?_⟩
  · intro message
    rfl
  · intro value hv
    obtain ⟨err, herr⟩ := detect_not_object value hv
    exact ⟨err, by simp only [Dstu3.Registry.DecodeResource, herr]⟩
  · intro fields hf
    simp only [Dstu3.Registry.DecodeResource, detect_missing fields hf]
  · intro data t ht hinfo
    unfold Dstu3.Registry.Info at hinfo
    simp only [Dstu3.Registry.DecodeResource, ht, hinfo]
  · intro fields t info ht hinfo hun
    unfold Dstu3.Registry.Info at hinfo
    obtain ⟨err, herr⟩ := decode_unknown info.Factory fields hun
    exact ⟨err, by simp only [Dstu3.Registry.DecodeResource, ht, hinfo, herr]⟩
  · intro s h now typeParam body err herr
    simp only [Server.handleCreate, Server.decodeBody, herr]

/-! ### `handleBatchTransaction` -/

/-- One iteration of the loop of `handleBatchTransaction`: either the entry is
accepted, the status is "200" and the iteration leaves what `Update` leaves; or
it is not, the status is "400", the server is as before and the heap holds at
most one more object. -/
theorem batchEntry_cases (s : Server) (h : Heap) (now : String)
    (entry : List (String × JsonValue)) :
    (∃ resourceRaw resource out,
      JsonValue.member entry "resource" = some resourceRaw ∧
      s.Registry.DecodeResource (.json resourceRaw) = .ok resource ∧
      s.Validator.Validate (some resource) "" = none ∧
      (s.Store.Update now (h ++ [resource]) (some h.length)).1 = .ok out ∧
      s.batchEntry h now entry =
        ({ Response := some { Status := "200" } },
          { s with Store := (s.Store.Update now (h ++ [resource]) (some h.length)).2.1 },
          (s.Store.Update now (h ++ [resource]) (some h.length)).2.2)) ∨
    (¬ s.accepts h now entry ∧
      (s.batchEntry h now entry).1 = { Response := some { Status := "400" } } ∧
      (s.batchEntry h now entry).2.1 = s ∧ h <+: (s.batchEntry h now entry).2.2) := by
  cases hm : JsonValue.member entry "resource" with
  | none =>
    right
    refine ⟨?_, ?_, ?_, ?_⟩
    · rintro ⟨raw, resource, out, hraw, _⟩
      rw [hm] at hraw
      exact Option.noConfusion hraw
    all_goals simp only [Server.batchEntry, hm]
    exact List.prefix_refl _
  | some resourceRaw =>
    cases hd : s.Registry.DecodeResource (.json resourceRaw) with
    | error err =>
      right
      refine ⟨?_, ?_, ?_, ?_⟩
      · rintro ⟨raw, resource, out, hraw, hdec, _⟩
        rw [hm] at hraw
        cases hraw
        rw [hd] at hdec
        exact Except.noConfusion hdec
      all_goals simp only [Server.batchEntry, hm, hd]
      exact List.prefix_refl _
    | ok resource =>
      cases hv : s.Validator.Validate (some resource) "" with
      | some outcome =>
        right
        refine ⟨?_, ?_, ?_, ?_⟩
        · rintro ⟨raw, resource1, out, hraw, hdec, hval, _⟩
          rw [hm] at hraw
          cases hraw
          rw [hd] at hdec
          cases hdec
          rw [hv] at hval
          exact Option.noConfusion hval
        all_goals simp only [Server.batchEntry, hm, hd, Heap.alloc, hv]
        exact List.prefix_append _ _
      | none =>
        cases hu : s.Store.Update now (h ++ [resource]) (some h.length) with
        | mk result rest =>
          obtain ⟨store, h2⟩ := rest
          cases result with
          | ok out =>
            left
            refine ⟨resourceRaw, resource, out, rfl, hd, hv, by rw [hu], ?_⟩
            simp only [Server.batchEntry, hm, hd, Heap.alloc, hv, hu]
          | error err =>
            right
            have hsame := Update_error s.Store (h ++ [resource]) now (some h.length) err
              (by rw [hu])
            rw [hu] at hsame
            simp only [Prod.mk.injEq] at hsame
            obtain ⟨rfl, rfl⟩ := hsame
            refine ⟨?_, ?_, ?_, ?_⟩
            · rintro ⟨raw, resource1, out, hraw, hdec, _, hupd⟩
              rw [hm] at hraw
              cases hraw
              rw [hd] at hdec
              cases hdec
              rw [hu] at hupd
              exact Except.noConfusion hupd
            all_goals simp only [Server.batchEntry, hm, hd, Heap.alloc, hv, hu]
            exact List.prefix_append _ _

/-- The loop of `handleBatchTransaction` over a list of entries followed by
another: the second part is processed in the state the first part leaves. -/
theorem batchEntries_append (now : Nat → String) (l2 : List (List (String × JsonValue))) :
    ∀ (l1 : List (List (String × JsonValue))) (i : Nat) (s : Server) (h : Heap),
      Server.batchEntries now i s h (l1 ++ l2) =
        ((Server.batchEntries now i s h l1).1 ++
            (Server.batchEntries now (i + l1.length) (Server.batchEntries now i s h l1).2.1
              (Server.batchEntries now i s h l1).2.2 l2).1,
          (Server.batchEntries now (i + l1.length) (Server.batchEntries now i s h l1).2.1
            (Server.batchEntries now i s h l1).2.2 l2).2) := by
  intro l1
  induction l1 with
  | nil => intro i s h; rfl
  | cons e rest ih =>
    intro i s h
    have hi : i + (rest.length + 1) = i + 1 + rest.length := by omega
    simp only [List.cons_append, Server.batchEntries, List.append_eq, ih, List.length_cons, hi]

theorem batchEntries_length (now : Nat → String) :
    ∀ (l : List (List (String × JsonValue))) (i : Nat) (s : Server) (h : Heap),
      (Server.batchEntries now i s h l).1.length = l.length := by
  intro l
  induction l with
  | nil => intro i s h; rfl
  | cons e rest ih =>
    intro i s h
    simp only [Server.batchEntries, List.length_cons, ih]

/-- The loop of `handleBatchTransaction` changes neither the registry nor the
validator of the server. -/
theorem batchEntries_server (now : Nat → String) :
    ∀ (l : List (List (String × JsonValue))) (i : Nat) (s : Server) (h : Heap),
      (Server.batchEntries now i s h l).2.1.Registry = s.Registry ∧
      (Server.batchEntries now i s h l).2.1.Validator = s.Validator := by
  intro l
  induction l with
  | nil => intro i s h; exact ⟨rfl, rfl⟩
  | cons e rest ih =>
    intro i s h
    simp only [Server.batchEntries]
    obtain ⟨h1, h2⟩ := ih (i + 1) (s.batchEntry h (now i) e).2.1 (s.batchEntry h (now i) e).2.2
    rw [h1, h2]
    rcases batchEntry_cases s h (now i) e with ⟨_, _, _, _, _, _, _, heq⟩ | ⟨_, _, heq, _⟩
    · rw [heq]
      exact ⟨rfl, rfl⟩
    · rw [heq]
      exact ⟨rfl, rfl⟩

/-- The entry of the response for the entry number `i` of the request, and the
state after it, are those of one iteration in the state that the entries before
it leave. -/
theorem batchEntries_step (now : Nat → String) (l : List (List (String × JsonValue)))
    (i : Nat) (entry : List (String × JsonValue)) (hget : l[i]? = some entry)
    (s : Server) (h : Heap) :
    (Server.batchEntries now 0 s h l).1[i]? =
        some ((Server.batchEntries now 0 s h (l.take i)).2.1.batchEntry
          (Server.batchEntries now 0 s h (l.take i)).2.2 (now i) entry).1 ∧
      (Server.batchEntries now 0 s h (l.take (i + 1))).2 =
        ((Server.batchEntries now 0 s h (l.take i)).2.1.batchEntry
          (Server.batchEntries now 0 s h (l.take i)).2.2 (now i) entry).2 := by
  obtain ⟨hlt, hval⟩ := List.getElem?_eq_some.1 hget
  have hlen : (l.take i).length = i := by
    rw [List.length_take]
    omega
  have hsplit : l.take i ++ entry :: l.drop (i + 1) = l := by
    rw [← hval, ← List.drop_eq_getElem_cons hlt, List.take_append_drop]
  have htake : l.take (i + 1) = l.take i ++ [entry] := by
    rw [List.take_succ, hget]
    rfl
  constructor
  · have happ := batchEntries_append now (entry :: l.drop (i + 1)) (l.take i) 0 s h
    rw [hsplit, hlen, Nat.zero_add] at happ
    rw [happ]
    dsimp only
    rw [List.getElem?_append_right (by rw [batchEntries_length, hlen]), batchEntries_length,
      hlen, Nat.sub_self]
    simp only [Server.batchEntries, List.getElem?_cons_zero]
  · rw [htake, batchEntries_append, hlen, Nat.zero_add]
    simp only [Server.batchEntries]

/-! ### The entries of a decoded request -/

theorem decodeItems_length {α : Type} (decode : α → JsonValue → Except Dstu3.DecodeError α)
    (zero : α) : ∀ (items : List JsonValue) (cur xs : List α),
      Dstu3.decodeItems decode zero cur items = .ok xs → xs.length = items.length := by
  intro items
  induction items with
  | nil =>
    intro cur xs hx
    simp only [Dstu3.decodeItems, Except.ok.injEq] at hx
    subst hx
    rfl
  | cons item more ih =>
    intro cur xs hx
    simp only [Dstu3.decodeItems] at hx
    cases hd : decode (cur.headD zero) item with
    | error err =>
      rw [hd] at hx
      exact Except.noConfusion hx
    | ok x =>
      rw [hd] at hx
      cases hr : Dstu3.decodeItems decode zero cur.tail more with
      | error err =>
        rw [hr] at hx
        exact Except.noConfusion hx
      | ok rest =>
        rw [hr] at hx
        simp only [Except.ok.injEq] at hx
        subst hx
        simp only [List.length_cons, ih _ _ hr]

theorem decodeMembers_append {α : Type}
    (member : α → String → JsonValue → Except Dstu3.DecodeError α) :
    ∀ (a b : List (String × JsonValue)) (cur out : α),
      Dstu3.decodeMembers member cur (a ++ b) = .ok out →
      ∃ mid, Dstu3.decodeMembers member cur a = .ok mid ∧
        Dstu3.decodeMembers member mid b = .ok out := by
  intro a
  induction a with
  | nil => intro b cur out ho; exact ⟨cur, rfl, ho⟩
  | cons kv more ih =>
    intro b cur out ho
    obtain ⟨name, value⟩ := kv
    simp only [List.cons_append, Dstu3.decodeMembers] at ho ⊢
    cases hm : member cur name value with
    | error err =>
      rw [hm] at ho
      exact Except.noConfusion ho
    | ok next =>
      rw [hm] at ho
      exact ih b next out ho

theorem sameName_entry {name : String} (hn : Dstu3.sameName name "entry" = true) :
    Dstu3.sameName name "resourceType" = false ∧ Dstu3.sameName name "type" = false := by
  have hf : foldName name = foldName "entry" := by
    simpa only [Dstu3.sameName, decide_eq_true_eq] using hn
  simp only [Dstu3.sameName, hf]
  exact ⟨by decide, by decide⟩

/-- A member named "entry" whose value is an array leaves as many entries in
the request as the array has elements. -/
theorem decodeMember_entry (float64 : JsonValue → Option JsonValue) (req out : bundleReq)
    (name : String) (items : List JsonValue) (hn : Dstu3.sameName name "entry" = true)
    (ho : bundleReq.decodeMember float64 req name (.array items) = .ok out) :
    out.Entry.length = items.length := by
  obtain ⟨h1, h2⟩ := sameName_entry hn
  simp only [bundleReq.decodeMember, h1, h2, hn, Bool.false_eq_true, if_false, if_true,
    Dstu3.decodeSlice] at ho
  cases hd : Dstu3.decodeItems (decodeMap float64) [] req.Entry items with
  | error err =>
    rw [hd] at ho
    exact Except.noConfusion ho
  | ok xs =>
    rw [hd] at ho
    simp only [Except.map, Except.ok.injEq] at ho
    subst ho
    exact decodeItems_length _ _ _ _ _ hd

/-- A member with another name leaves the entries of the request as they are. -/
theorem decodeMember_other (float64 : JsonValue → Option JsonValue) (req out : bundleReq)
    (name : String) (v : JsonValue) (hn : Dstu3.sameName name "entry" = false)
    (ho : bundleReq.decodeMember float64 req name v = .ok out) : out.Entry = req.Entry := by
  simp only [bundleReq.decodeMember, hn, Bool.false_eq_true, if_false] at ho
  split_ifs at ho
  · cases hd : Dstu3.decodeText req.ResourceType v with
    | error err =>
      rw [hd] at ho
      exact Except.noConfusion ho
    | ok x =>
      rw [hd] at ho
      simp only [Except.map, Except.ok.injEq] at ho
      subst ho
      rfl
  · cases hd : Dstu3.decodeText req.Type_ v with
    | error err =>
      rw [hd] at ho
      exact Except.noConfusion ho
    | ok x =>
      rw [hd] at ho
      simp only [Except.map, Except.ok.injEq] at ho
      subst ho
      rfl
  · simp only [Except.ok.injEq] at ho
    subst ho
    rfl

theorem decodeMembers_other (float64 : JsonValue → Option JsonValue) :
    ∀ (post : List (String × JsonValue)) (req out : bundleReq),
      (∀ kv ∈ post, Dstu3.sameName kv.1 "entry" = false) →
      Dstu3.decodeMembers (bundleReq.decodeMember float64) req post = .ok out →
      out.Entry = req.Entry := by
  intro post
  induction post with
  | nil =>
    intro req out _ ho
    simp only [Dstu3.decodeMembers, Except.ok.injEq] at ho
    subst ho
    rfl
  | cons kv more ih =>
    intro req out hpost ho
    obtain ⟨name, value⟩ := kv
    simp only [Dstu3.decodeMembers] at ho
    cases hm : bundleReq.decodeMember float64 req name value with
    | error err =>
      rw [hm] at ho
      exact Except.noConfusion ho
    | ok next =>
      rw [hm] at ho
      rw [ih next out (fun kv hkv => hpost kv (List.mem_cons_of_mem _ hkv)) ho]
      exact decodeMember_other float64 req next name value
        (hpost (name, value) (List.mem_cons_self _ _)) hm

/-- The request decoded from an object whose last member named "entry" is an
array has as many entries as that array has elements. -/
theorem decodeBundleReq_length (float64 : JsonValue → Option JsonValue) (req : bundleReq)
    (pre post : List (String × JsonValue)) (name : String) (items : List JsonValue)
    (hreq : decodeBundleReq float64 (.json (.object (pre ++ (name, .array items) :: post))) =
      .ok req)
    (hn : Dstu3.sameName name "entry" = true)
    (hpost : ∀ kv ∈ post, Dstu3.sameName kv.1 "entry" = false) :
    req.Entry.length = items.length := by
  simp only [decodeBundleReq, Dstu3.decodeObject] at hreq
  obtain ⟨mid, _, h2⟩ := decodeMembers_append _ pre _ _ _ hreq
  simp only [Dstu3.decodeMembers] at h2
  cases hm : bundleReq.decodeMember float64 mid name (.array items) with
  | error err =>
    rw [hm] at h2
    exact Except.noConfusion h2
  | ok next =>
    rw [hm] at h2
    rw [decodeMembers_other float64 post next req hpost h2]
    exact decodeMember_entry float64 mid next name items hn hm

/-- C34: for a request body that decodes into a Bundle request `req`,
`handleBatchTransaction` answers 200 with a "batch-response" bundle that has one
entry for each entry of the request, in the order of the request (as many as
the "entry" array of the body has elements), each with status "200" or "400".
Entry `i` is processed in the state that the entries before it leave, with the
registry and the validator of the server; its status is "200" exactly when it
carries a resource that decodes, passes `Validate` and is accepted by
`Store.Update`, and then the store holds that resource under its type and id,
stamped with the version and the time of its entry. An entry with status "400"
leaves the server as the entries before it left it, and the entries after it
are processed from there. -/
theorem batch_entries_independent (s : Server) (h : Heap)
    (float64 : JsonValue → Option JsonValue) (now : Nat → String) (body : Dstu3.Payload)
    (req : bundleReq) (hreq : decodeBundleReq float64 body = .ok req)
    (hbundle : req.ResourceType = "Bundle") :
    ∃ entries,
      (s.handleBatchTransaction h float64 now body).1 =
        .bundle 200 { Bundle.NewBatchResponseBundle with Entry := entries } ∧
      (s.handleBatchTransaction h float64 now body).2 =
        (Server.batchEntries now 0 s h req.Entry).2 ∧
      entries.length = req.Entry.length ∧
      (∀ pre name items post,
        body = .json (.object (pre ++ (name, .array items) :: post)) →
        Dstu3.sameName name "entry" = true →
        (∀ kv ∈ post, Dstu3.sameName kv.1 "entry" = false) →
        req.Entry.length = items.length) ∧
      ∀ i entry, req.Entry[i]? = some entry →
        ∃ status,
          entries[i]? = some { Response := some { Status := status } } ∧
          (status = "200" ∨ status = "400") ∧
          (Server.batchEntries now 0 s h (req.Entry.take i)).2.1.Registry = s.Registry ∧
          (Server.batchEntries now 0 s h (req.Entry.take i)).2.1.Validator = s.Validator ∧
          (status = "200" ↔
            (Server.batchEntries now 0 s h (req.Entry.take i)).2.1.accepts
              (Server.batchEntries now 0 s h (req.Entry.take i)).2.2 (now i) entry) ∧
          (status = "200" →
            ∃ resourceRaw resource e,
              JsonValue.member entry "resource" = some resourceRaw ∧
              s.Registry.DecodeResource (.json resourceRaw) = .ok resource ∧
              (Server.batchEntries now 0 s h (req.Entry.take (i + 1))).2.1.Store.entry
                resource.GetResourceType resource.GetID = some e ∧
              e.LastUpdated = now i ∧
              (Server.batchEntries now 0 s h (req.Entry.take (i + 1))).2.2[e.Resource]? =
                some (stampMeta resource e.VersionID (now i))) ∧
          (status = "400" →
            (Server.batchEntries now 0 s h (req.Entry.take (i + 1))).2.1 =
              (Server.batchEntries now 0 s h (req.Entry.take i)).2.1 ∧
            (Server.batchEntries now 0 s h (req.Entry.take i)).2.2 <+:
              (Server.batchEntries now 0 s h (req.Entry.take (i + 1))).2.2) := by
  refine ⟨(Server.batchEntries now 0 s h req.Entry).1, ?_, ?_, batchEntries_length now _ _ _ _,
    ?_, ?_⟩
  · simp only [Server.handleBatchTransaction, hreq, hbundle, ne_eq, not_true_eq_false, if_false]
  · simp only [Server.handleBatchTransaction, hreq, hbundle, ne_eq, not_true_eq_false, if_false]
  · intro pre name items post hbody hn hpost
    subst hbody
    exact decodeBundleReq_length float64 req pre post name items hreq hn hpost
  · intro i entry hget
    obtain ⟨hresp, hafter⟩ := batchEntries_step now req.Entry i entry hget s h
    obtain ⟨hreg, hval⟩ := batchEntries_server now (req.Entry.take i) 0 s h
    rw [hresp, hafter]
    generalize (Server.batchEntries now 0 s h (req.Entry.take i)).2.1 = si at hreg hval ⊢
    generalize (Server.batchEntries now 0 s h (req.Entry.take i)).2.2 = hi
    rcases batchEntry_cases si hi (now i) entry with
      ⟨raw, resource, out, hm, hd, hv, hu, heq⟩ | ⟨hno, hst, hsame, hext⟩
    · refine ⟨"200", ?_, Or.inl rfl, hreg, hval, ?_, ?_, ?_⟩
      · rw [heq]
      · exact ⟨fun _ => ⟨raw, resource, out, hm, hd, hv, hu⟩, fun _ => rfl⟩
      · intro _
        have hp : (hi ++ [resource])[hi.length]? = some resource := by
          rw [List.getElem?_append_right (le_refl _), Nat.sub_self]
          rfl
        obtain ⟨e, he, hres, hnow, hobj⟩ := stored_of_ok si.Store (hi ++ [resource]) (now i)
          hi.length resource hp out _ _ (Or.inr (Prod.ext hu rfl))
        rw [heq]
        rw [hreg] at hd
        exact ⟨raw, resource, e, hm, hd, he, hnow, by rw [hres]; exact hobj⟩
      · intro h4
        exact absurd h4 (by decide)
    · refine ⟨"400", ?_, Or.inr rfl, hreg, hval, ?_, ?_, ?_⟩
      · rw [hst]
      · exact ⟨fun h2 => absurd h2 (by decide), fun ha => absurd ha hno⟩
      · intro h2
        exact absurd h2 (by decide)
      · intro _
        exact ⟨hsame, hext⟩

/-- C34, for the server of the tests and a batch of three entries, the first
with an unknown field in its resource, the second the patient "pat-1" of the
test, the third without a resource: the statuses are "400", "200" and "400",
and the patient is stored with version "1". -/
theorem batch_entries_independent_witness :
    decodeBundleReq exactNumbers batchBody = .ok batchReq ∧
    batchReq.ResourceType = "Bundle" ∧
    (testServer.handleBatchTransaction [] exactNumbers (fun _ => "t0") batchBody).1 =
      .bundle 200 { Bundle.NewBatchResponseBundle with
        Entry := [{ Response := some { Status := "400" } },
          { Response := some { Status := "200" } }, { Response := some { Status := "400" } }] } ∧
    (testServer.handleBatchTransaction [] exactNumbers (fun _ => "t0")
      batchBody).2.1.Store.entry "Patient" "pat-1" = some ⟨0, "1", "t0", []⟩ ∧
    ∃ entries,
      (testServer.handleBatchTransaction [] exactNumbers (fun _ => "t0") batchBody).1 =
        .bundle 200 { Bundle.NewBatchResponseBundle with Entry := entries } ∧
      (testServer.handleBatchTransaction [] exactNumbers (fun _ => "t0") batchBody).2 =
        (Server.batchEntries (fun _ => "t0") 0 testServer [] batchReq.Entry).2 ∧
      entries.length = batchReq.Entry.length ∧
      (∀ pre name items post,
        batchBody = .json (.object (pre ++ (name, .array items) :: post)) →
        Dstu3.sameName name "entry" = true →
        (∀ kv ∈ post, Dstu3.sameName kv.1 "entry" = false) →
        batchReq.Entry.length = items.length) ∧
      ∀ i entry, batchReq.Entry[i]? = some entry →
        ∃ status,
          entries[i]? = some { Response := some { Status := status } } ∧
          (status = "200" ∨ status = "400") ∧
          (Server.batchEntries (fun _ => "t0") 0 testServer []
            (batchReq.Entry.take i)).2.1.Registry = testServer.Registry ∧
          (Server.batchEntries (fun _ => "t0") 0 testServer []
            (batchReq.Entry.take i)).2.1.Validator = testServer.Validator ∧
          (status = "200" ↔
            (Server.batchEntries (fun _ => "t0") 0 testServer []
                (batchReq.Entry.take i)).2.1.accepts
              (Server.batchEntries (fun _ => "t0") 0 testServer []
                (batchReq.Entry.take i)).2.2 "t0" entry) ∧
          (status = "200" →
            ∃ resourceRaw resource e,
              JsonValue.member entry "resource" = some resourceRaw ∧
              testServer.Registry.DecodeResource (.json resourceRaw) = .ok resource ∧
              (Server.batchEntries (fun _ => "t0") 0 testServer []
                (batchReq.Entry.take (i + 1))).2.1.Store.entry
                resource.GetResourceType resource.GetID = some e ∧
              e.LastUpdated = "t0" ∧
              (Server.batchEntries (fun _ => "t0") 0 testServer []
                (batchReq.Entry.take (i + 1))).2.2[e.Resource]? =
                some (stampMeta resource e.VersionID "t0")) ∧
          (status = "400" →
            (Server.batchEntries (fun _ => "t0") 0 testServer []
                (batchReq.Entry.take (i + 1))).2.1 =
              (Server.batchEntries (fun _ => "t0") 0 testServer [] (batchReq.Entry.take i)).2.1 ∧
            (Server.batchEntries (fun _ => "t0") 0 testServer [] (batchReq.Entry.take i)).2.2 <+:
              (Server.batchEntries (fun _ => "t0") 0 testServer []
                (batchReq.Entry.take (i + 1))).2.2) :=
  ⟨by decide, by decide, by decide, by decide,
    batch_entries_independent testServer [] exactNumbers (fun _ => "t0") batchBody batchReq
      (by decide) (by decide)⟩

end Api
